import Mathlib

/-!
# gojson: a shallow embedding of the scanner and the recursive-descent parser

The definitions below follow `src/gojson/lexer.go`, `src/gojson/parser.go` and
`src/gojson/ast.go`.

* A Go `string` / `[]byte` is a `List Nat` of bytes, a `rune` is an `Int`
  (`-1` is the end-of-input marker returned by `lexer.next`).
* The scanner is a value `lexer` threaded through every operation (the Go code
  mutates it through a pointer).
* Unbounded `for` loops carry an explicit iteration budget; running out of it
  is the separate outcome `Outcome.timeout`, never a value or an error.  The
  budgets handed out by `nextToken` and `Parse` are proved sufficient.
* `strconv.ParseFloat` is a parameter `pf` of the parser.
-/

namespace gojson

/-! ## Data model -/

/-- Token kinds, the `const` block of `lexer.go`. -/
inductive tokenType where
  | tokEOF
  | tokLBrace
  | tokRBrace
  | tokLBracket
  | tokRBracket
  | tokColon
  | tokComma
  | tokString
  | tokNumber
  | tokTrue
  | tokFalse
  | tokNull
  deriving DecidableEq, Repr

/-- Go `token`: kind tag and lexeme (decoded text for strings, raw source text
for numbers, empty otherwise). -/
structure token where
  typ : tokenType
  lexeme : List Nat
  deriving DecidableEq, Repr

/-- Go `lexer`: the input buffer, the byte offset of the cursor and the width
in bytes of the code point read last. -/
structure lexer where
  src : List Nat
  pos : Nat
  width : Nat
  deriving DecidableEq, Repr

/-- The errors built with `fmt.Errorf` / `errors.New` in `lexer.go` and
`parser.go`, one constructor per message. -/
inductive Err where
  /-- message "unexpected character %q" -/
  | unexpectedCharacter (r : Int)
  /-- message "unterminated string" -/
  | unterminatedString
  /-- message "invalid unicode escape" -/
  | invalidUnicodeEscape
  /-- message "missing low surrogate after high surrogate" -/
  | missingLowSurrogate
  /-- message "invalid low surrogate" -/
  | invalidLowSurrogate
  /-- message "unexpected low surrogate without high surrogate" -/
  | unexpectedLowSurrogate
  /-- message "invalid escape %q" -/
  | invalidEscape (esc : Int)
  /-- message "invalid number" (scanner) -/
  | invalidNumber
  /-- message "invalid fraction" -/
  | invalidFraction
  /-- message "invalid exponent" -/
  | invalidExponent
  /-- message "unexpected trailing content" -/
  | unexpectedTrailingContent
  /-- message "expected %v" -/
  | expected (tt : tokenType)
  /-- message "invalid number: %w" (parser), wrapping the error of
  `strconv.ParseFloat`, whose text quotes the lexeme it was given -/
  | invalidNumberConversion (lexeme : List Nat)
  /-- message "invalid JSON value" -/
  | invalidJSONValue
  /-- message "expected string key" -/
  | expectedStringKey
  /-- message "expected , or } in object" -/
  | expectedCommaOrRBrace
  /-- message "expected , or ] in array" -/
  | expectedCommaOrRBracket
  deriving DecidableEq, Repr

/-- Result of a Go function returning `(T, error)`: a value, an error, or the
iteration budget of the embedding ran out. -/
inductive Outcome (α : Type) where
  | ok (a : α)
  | error (e : Err)
  | timeout
  deriving DecidableEq, Repr

/-- Sequencing of fallible steps: the first error (or timeout) is returned at
once, as every `if err != nil { return ..., err }` does. -/
def Outcome.bind {α β : Type} (x : Outcome α) (f : α → Outcome β) : Outcome β :=
  match x with
  | Outcome.ok a => f a
  | Outcome.error e => Outcome.error e
  | Outcome.timeout => Outcome.timeout

instance : Monad Outcome where
  pure := Outcome.ok
  bind := Outcome.bind

/-- Go `float64`, kept abstract as its bit pattern; it is only ever produced by
the conversion function handed to the parser. -/
structure Float64 where
  bits : Nat
  deriving DecidableEq, Repr

/-- Go `Value = any` restricted to the concrete types listed in `ast.go`:
`nil`, `bool`, `float64`, `string`, `[]any`, `map[string]any`.  A map is an
association list with pairwise distinct keys (see `mapSet`). -/
inductive Value where
  | null
  | bool (b : Bool)
  | number (f : Float64)
  | string (s : List Nat)
  | array (xs : List Value)
  | object (m : List (List Nat × Value))

/-- Go map assignment `obj[k] = v`: overwrite the entry of an existing key,
otherwise add a new entry. -/
def mapSet (m : List (List Nat × Value)) (k : List Nat) (v : Value) :
    List (List Nat × Value) :=
  match m with
  | [] => [(k, v)]
  | (k0, v0) :: t => if k0 = k then (k, v) :: t else (k0, v0) :: mapSet t k v

/-- Go map lookup `obj[k]` (with the comma-ok result as `Option`). -/
def mapGet (m : List (List Nat × Value)) (k : List Nat) : Option Value :=
  match m with
  | [] => none
  | (k0, v0) :: t => if k0 = k then some v0 else mapGet t k

/-- The keys present in a map. -/
def mapKeys (m : List (List Nat × Value)) : List (List Nat) :=
  m.map Prod.fst

/-! ## Standard library: `unicode/utf8` and `string([]rune)` -/

/-- Go `utf8.RuneError`. -/
def RuneError : Int := 0xFFFD

/-- Go `utf8.DecodeRune`: the first code point of `p` and its width in bytes;
`(RuneError, 0)` on empty input and `(RuneError, 1)` on an invalid or
truncated encoding (overlong forms, surrogates and values above U+10FFFF are
invalid). -/
def DecodeRune (p : List Nat) : Int × Nat :=
  match p with
  | [] => (RuneError, 0)
  | p0 :: t =>
    if p0 < 0x80 then (p0, 1)
    else if p0 < 0xC2 then (RuneError, 1)
    else if p0 < 0xE0 then
      match t with
      | b1 :: _ =>
        if 0x80 ≤ b1 ∧ b1 ≤ 0xBF then (((p0 - 0xC0) * 64 + (b1 - 0x80) : Nat), 2)
        else (RuneError, 1)
      | _ => (RuneError, 1)
    else if p0 < 0xF0 then
      match t with
      | b1 :: b2 :: _ =>
        if (if p0 = 0xE0 then 0xA0 else 0x80) ≤ b1 ∧ b1 ≤ (if p0 = 0xED then 0x9F else 0xBF) then
          if 0x80 ≤ b2 ∧ b2 ≤ 0xBF then
            (((p0 - 0xE0) * 4096 + (b1 - 0x80) * 64 + (b2 - 0x80) : Nat), 3)
          else (RuneError, 1)
        else (RuneError, 1)
      | _ => (RuneError, 1)
    else if p0 < 0xF5 then
      match t with
      | b1 :: b2 :: b3 :: _ =>
        if (if p0 = 0xF0 then 0x90 else 0x80) ≤ b1 ∧ b1 ≤ (if p0 = 0xF4 then 0x8F else 0xBF) then
          if 0x80 ≤ b2 ∧ b2 ≤ 0xBF then
            if 0x80 ≤ b3 ∧ b3 ≤ 0xBF then
              (((p0 - 0xF0) * 262144 + (b1 - 0x80) * 4096 + (b2 - 0x80) * 64 + (b3 - 0x80) : Nat), 4)
            else (RuneError, 1)
          else (RuneError, 1)
        else (RuneError, 1)
      | _ => (RuneError, 1)
    else (RuneError, 1)

/-- Go `utf8.AppendRune` on an empty buffer: the UTF-8 encoding of `r`, with
surrogates and out-of-range values replaced by U+FFFD. -/
def encodeRune (r : Int) : List Nat :=
  if 0 ≤ r ∧ r ≤ 0x7F then [r.toNat]
  else if 0 ≤ r ∧ r ≤ 0x7FF then [0xC0 + r.toNat / 64, 0x80 + r.toNat % 64]
  else if r < 0 ∨ 0x10FFFF < r ∨ (0xD800 ≤ r ∧ r ≤ 0xDFFF) then [0xEF, 0xBF, 0xBD]
  else if r ≤ 0xFFFF then
    [0xE0 + r.toNat / 4096, 0x80 + r.toNat / 64 % 64, 0x80 + r.toNat % 64]
  else
    [0xF0 + r.toNat / 262144, 0x80 + r.toNat / 4096 % 64, 0x80 + r.toNat / 64 % 64,
      0x80 + r.toNat % 64]

/-- Go conversion `string(out)` of a `[]rune`: the concatenated encodings. -/
def stringOfRunes (out : List Int) : List Nat :=
  (out.map encodeRune).flatten

/-! ## Standard library: `strconv.ParseFloat`

`strconv.ParseFloat(s, 64)` on decimal texts.  The scanner hands over texts
made of the bytes `0`..`9`, `+`, `-`, `.`, `e`, `E` only, on which `ParseFloat`
reads a decimal floating-point literal (`readFloat` of `strconv/atof.go`) and
returns the nearest binary64 value, rounding to even, or a range error; its
other forms (hexadecimal, `Inf`, `NaN`, underscores) need a byte outside this
set and are reported here as what they are without those forms, a syntax
error. -/

/-- The quotient `x / y` rounded to the nearest integer, a tie to the even
one. -/
def roundDiv (x y : Nat) : Nat :=
  if 2 * (x % y) < y then x / y
  else if y < 2 * (x % y) then x / y + 1
  else if x / y % 2 = 0 then x / y
  else x / y + 1

/-- Halving `n` until it is below 2, at most `fuel` times: the number of
halvings. -/
def log2Loop : Nat → Nat → Nat
  | 0, _ => 0
  | fuel + 1, n => if n < 2 then 0 else log2Loop fuel (n / 2) + 1

/-- The integer part of the binary logarithm of `n > 0`. -/
def log2Floor (n : Nat) : Nat :=
  log2Loop n n

/-- The binary exponent of the positive rational `n / d`: the `e` with
`2 ^ e ≤ n / d < 2 ^ (e + 1)`. -/
def binExp (n d : Nat) : Int :=
  if d ≤ n then (log2Floor (n / d) : Int)
  else -((log2Floor ((d - 1) / n) : Int) + 1)

/-- The IEEE 754 binary64 value nearest to `n / d` (`d > 0`), as the 63 bits
below the sign bit: the exponent field times `2 ^ 52` plus the fraction field.
The significand is the quotient scaled to 52 fraction bits and rounded to
nearest, ties to even; below `2 ^ -1022` the scale stays that of the
subnormal numbers.  The result is `none` when the rounded value is beyond the
largest finite number. -/
def float64Bits (n d : Nat) : Option Nat :=
  if n = 0 then some 0
  else
    let e : Int := max (binExp n d) (-1022)
    let m : Nat :=
      if 52 ≤ e then roundDiv n (d * 2 ^ (e - 52).toNat)
      else roundDiv (n * 2 ^ (52 - e).toNat) d
    let bits : Nat := (e + 1022).toNat * 2 ^ 52 + m
    if bits < 0x7FF0000000000000 then some bits else none

/-- The digit loop of `readFloat` for a decimal mantissa: digits and at most
one point.  `m` is the number the digits read so far spell, `f` how many of
them stand behind the point.  Returns these and the text left, or `none`
when no digit was read. -/
def readMantissa : List Nat → Bool → Bool → Nat → Nat → Option (Nat × Nat × List Nat)
  | [], _, sawdigits, m, f => if sawdigits then some (m, f, []) else none
  | c :: t, sawdot, sawdigits, m, f =>
    if c = 46 then
      if sawdot then (if sawdigits then some (m, f, c :: t) else none)
      else readMantissa t true sawdigits m f
    else if 48 ≤ c ∧ c ≤ 57 then
      readMantissa t sawdot true (m * 10 + (c - 48)) (if sawdot then f + 1 else f)
    else if sawdigits then some (m, f, c :: t) else none

/-- The loop over the digits of the exponent in `readFloat`; the exponent is
no longer accumulated once it has reached 10000. -/
def readExpDigits : List Nat → Nat → Nat × List Nat
  | [], e => (e, [])
  | c :: t, e =>
    if 48 ≤ c ∧ c ≤ 57 then readExpDigits t (if e < 10000 then e * 10 + (c - 48) else e)
    else (e, c :: t)

/-- The optional exponent of `readFloat`: the decimal exponent and the text
left, or `none` when the marker is not followed by an optional sign and a
digit. -/
def readExponent (s : List Nat) : Option (Int × List Nat) :=
  match s with
  | c :: t =>
    if c = 101 ∨ c = 69 then
      match t with
      | [] => none
      | s0 :: t1 =>
        let u := if s0 = 43 ∨ s0 = 45 then t1 else s0 :: t1
        match u with
        | [] => none
        | c1 :: _ =>
          if 48 ≤ c1 ∧ c1 ≤ 57 then
            let r := readExpDigits u 0
            some (if s0 = 45 then -(r.1 : Int) else (r.1 : Int), r.2)
          else none
    else some (0, c :: t)
  | [] => some (0, [])

/-- The part of `readFloat` behind the optional sign: the mantissa and the
optional exponent, which together must be the whole text.  The value read is
the fraction `n / d`. -/
def readUnsigned (neg : Bool) (s : List Nat) : Option (Bool × Nat × Nat) :=
  match readMantissa s false false 0 0 with
  | some (m, f, rest) =>
    match readExponent rest with
    | some (e, []) =>
      if (f : Int) ≤ e then some (neg, m * 10 ^ (e - f).toNat, 1)
      else some (neg, m, 10 ^ ((f : Int) - e).toNat)
    | _ => none
  | none => none

/-- Go `readFloat` on a decimal text: whether there is a minus sign, and the
value read as the fraction `n / d`; `none` for a text that is no decimal
floating-point literal as a whole (`ParseFloat` then reports a syntax
error). -/
def readFloat (s : List Nat) : Option (Bool × Nat × Nat) :=
  match s with
  | [] => none
  | c :: t =>
    if c = 43 then readUnsigned false t
    else if c = 45 then readUnsigned true t
    else readUnsigned false (c :: t)

/-- Go `strconv.ParseFloat(s, 64)` on decimal texts, the result as its bit
pattern: `none` for a syntax error and for a range error (a value that rounds
beyond the largest finite number). -/
def ParseFloat (s : List Nat) : Option Float64 :=
  match readFloat s with
  | some (neg, n, d) =>
    match float64Bits n d with
    | some b => some ⟨if neg then 2 ^ 63 + b else b⟩
    | none => none
  | none => none

/-! ## Scanner (`lexer.go`) -/

/-- Go `newLexer`. -/
def newLexer (src : List Nat) : lexer := ⟨src, 0, 0⟩

/-- Go `lexer.next`: read one code point and advance; `-1` at end of input. -/
def lexer.next (l : lexer) : Int × lexer :=
  if l.pos ≥ l.src.length then (-1, { l with width := 0 })
  else
    let d := DecodeRune (l.src.drop l.pos)
    (d.1, { l with pos := l.pos + d.2, width := d.2 })

/-- Go `lexer.backup`: step back over the code point read last. -/
def lexer.backup (l : lexer) : lexer :=
  { l with pos := l.pos - l.width }

/-- Go `lexer.peek`: the next code point, cursor and width restored. -/
def lexer.peek (l : lexer) : Int :=
  (l.next).1

/-- Whitespace test of `skipWS`: space, LF, CR, tab. -/
def isWS (r : Int) : Bool :=
  r == 32 || r == 10 || r == 13 || r == 9

/-- The loop of Go `lexer.skipWS`, with an iteration budget. -/
def skipWSLoop : Nat → lexer → Outcome lexer
  | 0, _ => Outcome.timeout
  | fuel + 1, l =>
    if isWS l.peek then skipWSLoop fuel (l.next).2
    else Outcome.ok l

/-- Go `lexer.skipWS`. -/
def lexer.skipWS (l : lexer) : Outcome lexer :=
  skipWSLoop (l.src.length - l.pos + 1) l

/-- Go `lexer.matchSeq`: consume `seq` code point by code point; stops at the
first mismatch (the mismatching code point stays consumed). -/
def lexer.matchSeq (l : lexer) (seq : List Nat) : Bool × lexer :=
  match seq with
  | [] => (true, l)
  | c :: cs =>
    let n := l.next
    if n.1 == -1 || n.1 != (c : Int) then (false, n.2)
    else lexer.matchSeq n.2 cs

/-- One round of the hex-digit loops of `scanString`: `v <<= 4` followed by
the digit `switch`; `none` is the `default` branch. -/
def hexStep (v h : Int) : Option Int :=
  if 48 ≤ h ∧ h ≤ 57 then some ((v <<< (4 : Int)) + (h - 48))
  else if 97 ≤ h ∧ h ≤ 102 then some ((v <<< (4 : Int)) + (h - 97 + 10))
  else if 65 ≤ h ∧ h ≤ 70 then some ((v <<< (4 : Int)) + (h - 65 + 10))
  else none

/-- The loop `for i := 0; i < 4; i++` reading hex digits in `scanString`,
started with `n` rounds to go and accumulator `v`; `none` stands for its only
error, "invalid unicode escape". -/
def readHex : Nat → Int → lexer → Option (Int × lexer)
  | 0, v, l => some (v, l)
  | n + 1, v, l =>
    let h := l.next
    if h.1 = -1 then none
    else
      match hexStep v h.1 with
      | some v1 => readHex n v1 h.2
      | none => none

/-- What one pass through the body of the `for` loop of `scanString` does. -/
inductive StringStep where
  /-- the closing quote was read: `break` -/
  | done (l : lexer)
  /-- a `return "", err` -/
  | fail (e : Err)
  /-- `continue`, or the end of the body was reached -/
  | more (out : List Int) (l : lexer)
  deriving DecidableEq, Repr

/-- The `case 'u'` branch of `scanString`, after the `u` has been read. -/
def scanUnicodeEscape (out : List Int) (l : lexer) : StringStep :=
  match readHex 4 0 l with
  | some (v, l1) =>
    if 0xD800 ≤ v ∧ v ≤ 0xDBFF then
      let bs := l1.next
      if bs.1 ≠ 92 then StringStep.fail Err.missingLowSurrogate
      else
        let u := bs.2.next
        if u.1 ≠ 117 then StringStep.fail Err.missingLowSurrogate
        else
          match readHex 4 0 u.2 with
          | some (low, l2) =>
            if low < 0xDC00 ∨ low > 0xDFFF then StringStep.fail Err.invalidLowSurrogate
            else
              StringStep.more
                (out ++ [Int.lor ((v - 0xD800) <<< (10 : Int)) (low - 0xDC00) + 0x10000]) l2
          | none => StringStep.fail Err.invalidUnicodeEscape
    else if 0xDC00 ≤ v ∧ v ≤ 0xDFFF then StringStep.fail Err.unexpectedLowSurrogate
    else StringStep.more (out ++ [v]) l1
  | none => StringStep.fail Err.invalidUnicodeEscape

/-- The body of the `for` loop of Go `lexer.scanString`. -/
def scanStringStep (out : List Int) (l : lexer) : StringStep :=
  let n := l.next
  if n.1 = -1 then StringStep.fail Err.unterminatedString
  else if n.1 = 34 then StringStep.done n.2
  else if n.1 = 92 then
    let esc := n.2.next
    if esc.1 = 34 ∨ esc.1 = 92 ∨ esc.1 = 47 then StringStep.more (out ++ [esc.1]) esc.2
    else if esc.1 = 98 then StringStep.more (out ++ [8]) esc.2
    else if esc.1 = 102 then StringStep.more (out ++ [12]) esc.2
    else if esc.1 = 110 then StringStep.more (out ++ [10]) esc.2
    else if esc.1 = 114 then StringStep.more (out ++ [13]) esc.2
    else if esc.1 = 116 then StringStep.more (out ++ [9]) esc.2
    else if esc.1 = 117 then scanUnicodeEscape out esc.2
    else StringStep.fail (Err.invalidEscape esc.1)
  else StringStep.more (out ++ [n.1]) n.2

/-- The `for` loop of Go `lexer.scanString` with an iteration budget, and the
final `return string(out), nil`. -/
def scanStringLoop : Nat → List Int → lexer → Outcome (List Nat × lexer)
  | 0, _, _ => Outcome.timeout
  | fuel + 1, out, l =>
    match scanStringStep out l with
    | StringStep.done l1 => Outcome.ok (stringOfRunes out, l1)
    | StringStep.fail e => Outcome.error e
    | StringStep.more out1 l1 => scanStringLoop fuel out1 l1

/-- Go `lexer.scanString` (called with the cursor just after the opening
quote). -/
def lexer.scanString (l : lexer) : Outcome (List Nat × lexer) :=
  scanStringLoop (l.src.length - l.pos + 1) [] l

/-- Digit test `r < '0' || r > '9'` negated. -/
def isDigit (r : Int) : Bool :=
  decide (48 ≤ r ∧ r ≤ 57)

/-- The loop `for { r = l.next(); if r < '0' || r > '9' { break } }` of
`scanNumber`: returns the first non-digit read, which stays consumed. -/
def scanDigits : Nat → lexer → Outcome (Int × lexer)
  | 0, _ => Outcome.timeout
  | fuel + 1, l =>
    let n := l.next
    if isDigit n.1 then scanDigits fuel n.2
    else Outcome.ok n

/-- The `// exponent` part of `scanNumber` and its end: `backup` and the slice
`src[start:pos]`. -/
def scanExponent (fuel start : Nat) (r : Int) (l : lexer) : Outcome (List Nat × lexer) :=
  if r = 101 ∨ r = 69 then
    let n := l.next
    let n1 := if n.1 = 43 ∨ n.1 = 45 then n.2.next else n
    if ¬ isDigit n1.1 then Outcome.error Err.invalidExponent
    else
      match scanDigits fuel n1.2 with
      | Outcome.ok (_, l2) =>
        let l3 := l2.backup
        Outcome.ok ((l3.src.drop start).take (l3.pos - start), l3)
      | Outcome.error e => Outcome.error e
      | Outcome.timeout => Outcome.timeout
  else
    let l3 := l.backup
    Outcome.ok ((l3.src.drop start).take (l3.pos - start), l3)

/-- The `// fraction` part of `scanNumber`, continuing into the exponent. -/
def scanFraction (fuel start : Nat) (r : Int) (l : lexer) : Outcome (List Nat × lexer) :=
  if r = 46 then
    let n := l.next
    if ¬ isDigit n.1 then Outcome.error Err.invalidFraction
    else
      match scanDigits fuel n.2 with
      | Outcome.ok (r1, l1) => scanExponent fuel start r1 l1
      | Outcome.error e => Outcome.error e
      | Outcome.timeout => Outcome.timeout
  else scanExponent fuel start r l

/-- Go `lexer.scanNumber`.  After a leading `0` no further code point is read,
so `r` is still `'0'` when the fraction and exponent tests run. -/
def lexer.scanNumber (l : lexer) : Outcome (List Nat × lexer) :=
  let fuel := l.src.length - l.pos + 1
  let start := l.pos
  let n := l.next
  let n1 := if n.1 = 45 then n.2.next else n
  if n1.1 = -1 then Outcome.error Err.invalidNumber
  else if n1.1 = 48 then scanFraction fuel start n1.1 n1.2
  else if 49 ≤ n1.1 ∧ n1.1 ≤ 57 then
    match scanDigits fuel n1.2 with
    | Outcome.ok (r1, l1) => scanFraction fuel start r1 l1
    | Outcome.error e => Outcome.error e
    | Outcome.timeout => Outcome.timeout
  else Outcome.error Err.invalidNumber

/-- Go `lexer.nextToken`. -/
def lexer.nextToken (l : lexer) : Outcome (token × lexer) :=
  match l.skipWS with
  | Outcome.ok l0 =>
    let n := l0.next
    let r := n.1
    let l1 := n.2
    if r = -1 then Outcome.ok (⟨tokenType.tokEOF, []⟩, l1)
    else if r = 123 then Outcome.ok (⟨tokenType.tokLBrace, []⟩, l1)
    else if r = 125 then Outcome.ok (⟨tokenType.tokRBrace, []⟩, l1)
    else if r = 91 then Outcome.ok (⟨tokenType.tokLBracket, []⟩, l1)
    else if r = 93 then Outcome.ok (⟨tokenType.tokRBracket, []⟩, l1)
    else if r = 58 then Outcome.ok (⟨tokenType.tokColon, []⟩, l1)
    else if r = 44 then Outcome.ok (⟨tokenType.tokComma, []⟩, l1)
    else if r = 34 then
      match l1.scanString with
      | Outcome.ok (s, l2) => Outcome.ok (⟨tokenType.tokString, s⟩, l2)
      | Outcome.error e => Outcome.error e
      | Outcome.timeout => Outcome.timeout
    else if r = 116 then
      let m := l1.matchSeq [114, 117, 101]
      if m.1 then Outcome.ok (⟨tokenType.tokTrue, []⟩, m.2)
      else Outcome.error (Err.unexpectedCharacter r)
    else if r = 102 then
      let m := l1.matchSeq [97, 108, 115, 101]
      if m.1 then Outcome.ok (⟨tokenType.tokFalse, []⟩, m.2)
      else Outcome.error (Err.unexpectedCharacter r)
    else if r = 110 then
      let m := l1.matchSeq [117, 108, 108]
      if m.1 then Outcome.ok (⟨tokenType.tokNull, []⟩, m.2)
      else Outcome.error (Err.unexpectedCharacter r)
    else if r = 45 ∨ (48 ≤ r ∧ r ≤ 57) then
      match l1.backup.scanNumber with
      | Outcome.ok (num, l2) => Outcome.ok (⟨tokenType.tokNumber, num⟩, l2)
      | Outcome.error e => Outcome.error e
      | Outcome.timeout => Outcome.timeout
    else Outcome.error (Err.unexpectedCharacter r)
  | Outcome.error e => Outcome.error e
  | Outcome.timeout => Outcome.timeout

/-! ## Parser (`parser.go`) -/

/-- Go `parser`: the scanner and the one-token lookahead buffer. -/
structure parser where
  lex : lexer
  buf : Option token
  deriving DecidableEq, Repr

/-- Go `parser.next`. -/
def parser.next (p : parser) : Outcome (token × parser) :=
  match p.buf with
  | some t => Outcome.ok (t, { p with buf := none })
  | none =>
    match p.lex.nextToken with
    | Outcome.ok (t, l) => Outcome.ok (t, { p with lex := l })
    | Outcome.error e => Outcome.error e
    | Outcome.timeout => Outcome.timeout

/-- Go `parser.peek`. -/
def parser.peek (p : parser) : Outcome (token × parser) :=
  match p.buf with
  | some t => Outcome.ok (t, p)
  | none =>
    match p.lex.nextToken with
    | Outcome.ok (t, l) => Outcome.ok (t, { lex := l, buf := some t })
    | Outcome.error e => Outcome.error e
    | Outcome.timeout => Outcome.timeout

/-- Go `parser.expect`. -/
def parser.expect (p : parser) (tt : tokenType) : Outcome parser :=
  match p.next with
  | Outcome.ok (t, p1) => if t.typ ≠ tt then Outcome.error (Err.expected tt) else Outcome.ok p1
  | Outcome.error e => Outcome.error e
  | Outcome.timeout => Outcome.timeout

/-- The discarded call `_, _ = p.next()` of `parseValue`.  It only runs right
after a successful `peek`, when the buffer is full and `next` just empties it;
were the buffer empty, a failing `next` would leave the parser as it was. -/
def parser.skip (p : parser) : parser :=
  match p.next with
  | Outcome.ok (_, p1) => p1
  | _ => p

mutual

/-- Go `parser.parseValue`; `pf` is `strconv.ParseFloat(_, 64)`. -/
def parseValue (pf : List Nat → Option Float64) : Nat → parser → Outcome (Value × parser)
  | 0, _ => Outcome.timeout
  | fuel + 1, p =>
    match p.peek with
    | Outcome.ok (t, p1) =>
      match t.typ with
      | tokenType.tokLBrace =>
        match parseObject pf fuel p1 with
        | Outcome.ok (m, p2) => Outcome.ok (Value.object m, p2)
        | Outcome.error e => Outcome.error e
        | Outcome.timeout => Outcome.timeout
      | tokenType.tokLBracket =>
        match parseArray pf fuel p1 with
        | Outcome.ok (xs, p2) => Outcome.ok (Value.array xs, p2)
        | Outcome.error e => Outcome.error e
        | Outcome.timeout => Outcome.timeout
      | tokenType.tokString => Outcome.ok (Value.string t.lexeme, p1.skip)
      | tokenType.tokNumber =>
        match pf t.lexeme with
        | some n => Outcome.ok (Value.number n, p1.skip)
        | none => Outcome.error (Err.invalidNumberConversion t.lexeme)
      | tokenType.tokTrue => Outcome.ok (Value.bool true, p1.skip)
      | tokenType.tokFalse => Outcome.ok (Value.bool false, p1.skip)
      | tokenType.tokNull => Outcome.ok (Value.null, p1.skip)
      | _ => Outcome.error Err.invalidJSONValue
    | Outcome.error e => Outcome.error e
    | Outcome.timeout => Outcome.timeout

/-- Go `parser.parseObject` up to its `for` loop. -/
def parseObject (pf : List Nat → Option Float64) :
    Nat → parser → Outcome (List (List Nat × Value) × parser)
  | 0, _ => Outcome.timeout
  | fuel + 1, p =>
    match p.expect tokenType.tokLBrace with
    | Outcome.ok p1 =>
      match p1.peek with
      | Outcome.ok (t, p2) =>
        if t.typ = tokenType.tokRBrace then Outcome.ok ([], p2.skip)
        else parseObjectLoop pf fuel [] p2
      | Outcome.error e => Outcome.error e
      | Outcome.timeout => Outcome.timeout
    | Outcome.error e => Outcome.error e
    | Outcome.timeout => Outcome.timeout

/-- The `for` loop of Go `parser.parseObject`, `obj` being the map built so
far. -/
def parseObjectLoop (pf : List Nat → Option Float64) :
    Nat → List (List Nat × Value) → parser → Outcome (List (List Nat × Value) × parser)
  | 0, _, _ => Outcome.timeout
  | fuel + 1, obj, p =>
    match p.next with
    | Outcome.ok (kt, p1) =>
      if kt.typ ≠ tokenType.tokString then Outcome.error Err.expectedStringKey
      else
        match p1.expect tokenType.tokColon with
        | Outcome.ok p2 =>
          match parseValue pf fuel p2 with
          | Outcome.ok (v, p3) =>
            match p3.next with
            | Outcome.ok (nt, p4) =>
              if nt.typ = tokenType.tokComma then parseObjectLoop pf fuel (mapSet obj kt.lexeme v) p4
              else if nt.typ = tokenType.tokRBrace then Outcome.ok (mapSet obj kt.lexeme v, p4)
              else Outcome.error Err.expectedCommaOrRBrace
            | Outcome.error e => Outcome.error e
            | Outcome.timeout => Outcome.timeout
          | Outcome.error e => Outcome.error e
          | Outcome.timeout => Outcome.timeout
        | Outcome.error e => Outcome.error e
        | Outcome.timeout => Outcome.timeout
    | Outcome.error e => Outcome.error e
    | Outcome.timeout => Outcome.timeout

/-- Go `parser.parseArray` up to its `for` loop. -/
def parseArray (pf : List Nat → Option Float64) : Nat → parser → Outcome (List Value × parser)
  | 0, _ => Outcome.timeout
  | fuel + 1, p =>
    match p.expect tokenType.tokLBracket with
    | Outcome.ok p1 =>
      match p1.peek with
      | Outcome.ok (t, p2) =>
        if t.typ = tokenType.tokRBracket then Outcome.ok ([], p2.skip)
        else parseArrayLoop pf fuel [] p2
      | Outcome.error e => Outcome.error e
      | Outcome.timeout => Outcome.timeout
    | Outcome.error e => Outcome.error e
    | Outcome.timeout => Outcome.timeout

/-- The `for` loop of Go `parser.parseArray`, `arr` being the slice built so
far. -/
def parseArrayLoop (pf : List Nat → Option Float64) :
    Nat → List Value → parser → Outcome (List Value × parser)
  | 0, _, _ => Outcome.timeout
  | fuel + 1, arr, p =>
    match parseValue pf fuel p with
    | Outcome.ok (v, p1) =>
      match p1.next with
      | Outcome.ok (nt, p2) =>
        if nt.typ = tokenType.tokComma then parseArrayLoop pf fuel (arr ++ [v]) p2
        else if nt.typ = tokenType.tokRBracket then Outcome.ok (arr ++ [v], p2)
        else Outcome.error Err.expectedCommaOrRBracket
      | Outcome.error e => Outcome.error e
      | Outcome.timeout => Outcome.timeout
    | Outcome.error e => Outcome.error e
    | Outcome.timeout => Outcome.timeout

end

/-- Go `Parse`.  The budget `3 * len(src) + 1` bounds the depth of the calls
among `parseValue`, `parseObject`, `parseArray` and their loops. -/
def Parse (pf : List Nat → Option Float64) (src : List Nat) : Outcome Value :=
  match parseValue pf (3 * src.length + 1) ⟨newLexer src, none⟩ with
  | Outcome.ok (v, p) =>
    match p.lex.nextToken with
    | Outcome.ok (tok, _) =>
      if tok.typ ≠ tokenType.tokEOF then Outcome.error Err.unexpectedTrailingContent
      else Outcome.ok v
    | Outcome.error e => Outcome.error e
    | Outcome.timeout => Outcome.timeout
  | Outcome.error e => Outcome.error e
  | Outcome.timeout => Outcome.timeout

/-! ## Execution with range checks

The routines of the scanner and of the parser once more, with every update of
the cursor and every slice expression checked.  A result `none` stands for a
cursor outside `0 ≤ pos ≤ len(src)`, a subtraction in `backup` that would make
the cursor negative, or a slice expression out of range. -/

/-- The cursor is inside the buffer: `pos ≤ len(src)`. -/
def lexer.inRange (l : lexer) : Bool :=
  decide (l.pos ≤ l.src.length)

/-- The state, provided its cursor is inside the buffer. -/
def lexer.check (l : lexer) : Option lexer :=
  if l.inRange then some l else none

/-- Go slice expression `src[i:j]`; `none` unless `0 ≤ i ≤ j ≤ len(src)`. -/
def sliceC (src : List Nat) (i j : Nat) : Option (List Nat) :=
  if i ≤ j ∧ j ≤ src.length then some ((src.drop i).take (j - i)) else none

/-- Go `lexer.next`, with the slice `l.src[l.pos:]` and the cursor it leaves
checked. -/
def lexer.nextC (l : lexer) : Option (Int × lexer) :=
  if l.pos ≥ l.src.length then
    match lexer.check { l with width := 0 } with
    | some l1 => some (-1, l1)
    | none => none
  else
    match sliceC l.src l.pos l.src.length with
    | some rest =>
      match lexer.check { l with pos := l.pos + (DecodeRune rest).2,
                                 width := (DecodeRune rest).2 } with
      | some l1 => some ((DecodeRune rest).1, l1)
      | none => none
    | none => none

/-- Go `lexer.backup`: `none` if `pos - width` would be negative. -/
def lexer.backupC (l : lexer) : Option lexer :=
  if l.width ≤ l.pos then lexer.check { l with pos := l.pos - l.width } else none

/-- Go `lexer.peek`: a checked `next`, cursor and width restored. -/
def lexer.peekC (l : lexer) : Option Int :=
  match l.nextC with
  | some n => some n.1
  | none => none

/-- The loop of Go `lexer.skipWS`, checked. -/
def skipWSLoopC : Nat → lexer → Option (Outcome lexer)
  | 0, _ => some Outcome.timeout
  | fuel + 1, l =>
    match l.peekC with
    | some r =>
      if isWS r then
        match l.nextC with
        | some n => skipWSLoopC fuel n.2
        | none => none
      else some (Outcome.ok l)
    | none => none

/-- Go `lexer.skipWS`, checked. -/
def lexer.skipWSC (l : lexer) : Option (Outcome lexer) :=
  skipWSLoopC (l.src.length - l.pos + 1) l

/-- Go `lexer.matchSeq`, checked. -/
def lexer.matchSeqC (l : lexer) (seq : List Nat) : Option (Bool × lexer) :=
  match seq with
  | [] => some (true, l)
  | c :: cs =>
    match l.nextC with
    | some n =>
      if n.1 == -1 || n.1 != (c : Int) then some (false, n.2)
      else lexer.matchSeqC n.2 cs
    | none => none

/-- The hex-digit loop of `scanString`, checked. -/
def readHexC : Nat → Int → lexer → Option (Option (Int × lexer))
  | 0, v, l => some (some (v, l))
  | n + 1, v, l =>
    match l.nextC with
    | some h =>
      if h.1 = -1 then some none
      else
        match hexStep v h.1 with
        | some v1 => readHexC n v1 h.2
        | none => some none
    | none => none

/-- The `case 'u'` branch of `scanString`, checked. -/
def scanUnicodeEscapeC (out : List Int) (l : lexer) : Option StringStep :=
  match readHexC 4 0 l with
  | some (some (v, l1)) =>
    if 0xD800 ≤ v ∧ v ≤ 0xDBFF then
      match l1.nextC with
      | some bs =>
        if bs.1 ≠ 92 then some (StringStep.fail Err.missingLowSurrogate)
        else
          match bs.2.nextC with
          | some u =>
            if u.1 ≠ 117 then some (StringStep.fail Err.missingLowSurrogate)
            else
              match readHexC 4 0 u.2 with
              | some (some (low, l2)) =>
                if low < 0xDC00 ∨ low > 0xDFFF then
                  some (StringStep.fail Err.invalidLowSurrogate)
                else
                  some (StringStep.more
                    (out ++ [Int.lor ((v - 0xD800) <<< (10 : Int)) (low - 0xDC00) + 0x10000])
                    l2)
              | some none => some (StringStep.fail Err.invalidUnicodeEscape)
              | none => none
          | none => none
      | none => none
    else if 0xDC00 ≤ v ∧ v ≤ 0xDFFF then some (StringStep.fail Err.unexpectedLowSurrogate)
    else some (StringStep.more (out ++ [v]) l1)
  | some none => some (StringStep.fail Err.invalidUnicodeEscape)
  | none => none

/-- The body of the `for` loop of Go `lexer.scanString`, checked. -/
def scanStringStepC (out : List Int) (l : lexer) : Option StringStep :=
  match l.nextC with
  | some n =>
    if n.1 = -1 then some (StringStep.fail Err.unterminatedString)
    else if n.1 = 34 then some (StringStep.done n.2)
    else if n.1 = 92 then
      match n.2.nextC with
      | some esc =>
        if esc.1 = 34 ∨ esc.1 = 92 ∨ esc.1 = 47 then
          some (StringStep.more (out ++ [esc.1]) esc.2)
        else if esc.1 = 98 then some (StringStep.more (out ++ [8]) esc.2)
        else if esc.1 = 102 then some (StringStep.more (out ++ [12]) esc.2)
        else if esc.1 = 110 then some (StringStep.more (out ++ [10]) esc.2)
        else if esc.1 = 114 then some (StringStep.more (out ++ [13]) esc.2)
        else if esc.1 = 116 then some (StringStep.more (out ++ [9]) esc.2)
        else if esc.1 = 117 then scanUnicodeEscapeC out esc.2
        else some (StringStep.fail (Err.invalidEscape esc.1))
      | none => none
    else some (StringStep.more (out ++ [n.1]) n.2)
  | none => none

/-- The `for` loop of Go `lexer.scanString`, checked. -/
def scanStringLoopC : Nat → List Int → lexer → Option (Outcome (List Nat × lexer))
  | 0, _, _ => some Outcome.timeout
  | fuel + 1, out, l =>
    match scanStringStepC out l with
    | some (StringStep.done l1) => some (Outcome.ok (stringOfRunes out, l1))
    | some (StringStep.fail e) => some (Outcome.error e)
    | some (StringStep.more out1 l1) => scanStringLoopC fuel out1 l1
    | none => none

/-- Go `lexer.scanString`, checked. -/
def lexer.scanStringC (l : lexer) : Option (Outcome (List Nat × lexer)) :=
  scanStringLoopC (l.src.length - l.pos + 1) [] l

/-- The digit loops of `scanNumber`, checked. -/
def scanDigitsC : Nat → lexer → Option (Outcome (Int × lexer))
  | 0, _ => some Outcome.timeout
  | fuel + 1, l =>
    match l.nextC with
    | some n => if isDigit n.1 then scanDigitsC fuel n.2 else some (Outcome.ok n)
    | none => none

/-- The end of `scanNumber`, checked: `l.backup()` and the slice
`l.src[start:l.pos]`. -/
def finishNumberC (start : Nat) (l : lexer) : Option (Outcome (List Nat × lexer)) :=
  match l.backupC with
  | some l3 =>
    match sliceC l3.src start l3.pos with
    | some lex => some (Outcome.ok (lex, l3))
    | none => none
  | none => none

/-- The `// exponent` part of `scanNumber` and its end, checked. -/
def scanExponentC (fuel start : Nat) (r : Int) (l : lexer) :
    Option (Outcome (List Nat × lexer)) :=
  if r = 101 ∨ r = 69 then
    match l.nextC with
    | some n =>
      match (if n.1 = 43 ∨ n.1 = 45 then n.2.nextC else some n) with
      | some n1 =>
        if ¬ isDigit n1.1 then some (Outcome.error Err.invalidExponent)
        else
          match scanDigitsC fuel n1.2 with
          | some (Outcome.ok (_, l2)) => finishNumberC start l2
          | some (Outcome.error e) => some (Outcome.error e)
          | some Outcome.timeout => some Outcome.timeout
          | none => none
      | none => none
    | none => none
  else finishNumberC start l

/-- The `// fraction` part of `scanNumber`, checked. -/
def scanFractionC (fuel start : Nat) (r : Int) (l : lexer) :
    Option (Outcome (List Nat × lexer)) :=
  if r = 46 then
    match l.nextC with
    | some n =>
      if ¬ isDigit n.1 then some (Outcome.error Err.invalidFraction)
      else
        match scanDigitsC fuel n.2 with
        | some (Outcome.ok (r1, l1)) => scanExponentC fuel start r1 l1
        | some (Outcome.error e) => some (Outcome.error e)
        | some Outcome.timeout => some Outcome.timeout
        | none => none
    | none => none
  else scanExponentC fuel start r l

/-- Go `lexer.scanNumber`, checked. -/
def lexer.scanNumberC (l : lexer) : Option (Outcome (List Nat × lexer)) :=
  match l.nextC with
  | some n =>
    match (if n.1 = 45 then n.2.nextC else some n) with
    | some n1 =>
      if n1.1 = -1 then some (Outcome.error Err.invalidNumber)
      else if n1.1 = 48 then scanFractionC (l.src.length - l.pos + 1) l.pos n1.1 n1.2
      else if 49 ≤ n1.1 ∧ n1.1 ≤ 57 then
        match scanDigitsC (l.src.length - l.pos + 1) n1.2 with
        | some (Outcome.ok (r1, l1)) => scanFractionC (l.src.length - l.pos + 1) l.pos r1 l1
        | some (Outcome.error e) => some (Outcome.error e)
        | some Outcome.timeout => some Outcome.timeout
        | none => none
      else some (Outcome.error Err.invalidNumber)
    | none => none
  | none => none

/-- Go `lexer.nextToken`, checked. -/
def lexer.nextTokenC (l : lexer) : Option (Outcome (token × lexer)) :=
  match l.skipWSC with
  | some (Outcome.ok l0) =>
    match l0.nextC with
    | some n =>
      if n.1 = -1 then some (Outcome.ok (⟨tokenType.tokEOF, []⟩, n.2))
      else if n.1 = 123 then some (Outcome.ok (⟨tokenType.tokLBrace, []⟩, n.2))
      else if n.1 = 125 then some (Outcome.ok (⟨tokenType.tokRBrace, []⟩, n.2))
      else if n.1 = 91 then some (Outcome.ok (⟨tokenType.tokLBracket, []⟩, n.2))
      else if n.1 = 93 then some (Outcome.ok (⟨tokenType.tokRBracket, []⟩, n.2))
      else if n.1 = 58 then some (Outcome.ok (⟨tokenType.tokColon, []⟩, n.2))
      else if n.1 = 44 then some (Outcome.ok (⟨tokenType.tokComma, []⟩, n.2))
      else if n.1 = 34 then
        match n.2.scanStringC with
        | some (Outcome.ok (s, l2)) => some (Outcome.ok (⟨tokenType.tokString, s⟩, l2))
        | some (Outcome.error e) => some (Outcome.error e)
        | some Outcome.timeout => some Outcome.timeout
        | none => none
      else if n.1 = 116 then
        match n.2.matchSeqC [114, 117, 101] with
        | some m =>
          if m.1 then some (Outcome.ok (⟨tokenType.tokTrue, []⟩, m.2))
          else some (Outcome.error (Err.unexpectedCharacter n.1))
        | none => none
      else if n.1 = 102 then
        match n.2.matchSeqC [97, 108, 115, 101] with
        | some m =>
          if m.1 then some (Outcome.ok (⟨tokenType.tokFalse, []⟩, m.2))
          else some (Outcome.error (Err.unexpectedCharacter n.1))
        | none => none
      else if n.1 = 110 then
        match n.2.matchSeqC [117, 108, 108] with
        | some m =>
          if m.1 then some (Outcome.ok (⟨tokenType.tokNull, []⟩, m.2))
          else some (Outcome.error (Err.unexpectedCharacter n.1))
        | none => none
      else if n.1 = 45 ∨ (48 ≤ n.1 ∧ n.1 ≤ 57) then
        match n.2.backupC with
        | some lb =>
          match lb.scanNumberC with
          | some (Outcome.ok (num, l2)) => some (Outcome.ok (⟨tokenType.tokNumber, num⟩, l2))
          | some (Outcome.error e) => some (Outcome.error e)
          | some Outcome.timeout => some Outcome.timeout
          | none => none
        | none => none
      else some (Outcome.error (Err.unexpectedCharacter n.1))
    | none => none
  | some (Outcome.error e) => some (Outcome.error e)
  | some Outcome.timeout => some Outcome.timeout
  | none => none

/-- Go `parser.next`, over the checked scanner. -/
def parser.nextC (p : parser) : Option (Outcome (token × parser)) :=
  match p.buf with
  | some t => some (Outcome.ok (t, { p with buf := none }))
  | none =>
    match p.lex.nextTokenC with
    | some (Outcome.ok (t, l)) => some (Outcome.ok (t, { p with lex := l }))
    | some (Outcome.error e) => some (Outcome.error e)
    | some Outcome.timeout => some Outcome.timeout
    | none => none

/-- Go `parser.peek`, over the checked scanner. -/
def parser.peekC (p : parser) : Option (Outcome (token × parser)) :=
  match p.buf with
  | some t => some (Outcome.ok (t, p))
  | none =>
    match p.lex.nextTokenC with
    | some (Outcome.ok (t, l)) => some (Outcome.ok (t, { lex := l, buf := some t }))
    | some (Outcome.error e) => some (Outcome.error e)
    | some Outcome.timeout => some Outcome.timeout
    | none => none

/-- Go `parser.expect`, over the checked scanner. -/
def parser.expectC (p : parser) (tt : tokenType) : Option (Outcome parser) :=
  match p.nextC with
  | some (Outcome.ok (t, p1)) =>
    if t.typ ≠ tt then some (Outcome.error (Err.expected tt)) else some (Outcome.ok p1)
  | some (Outcome.error e) => some (Outcome.error e)
  | some Outcome.timeout => some Outcome.timeout
  | none => none

/-- The discarded call `_, _ = p.next()`, over the checked scanner. -/
def parser.skipC (p : parser) : Option parser :=
  match p.nextC with
  | some (Outcome.ok (_, p1)) => some p1
  | some _ => some p
  | none => none

mutual

/-- Go `parser.parseValue`, over the checked scanner. -/
def parseValueC (pf : List Nat → Option Float64) :
    Nat → parser → Option (Outcome (Value × parser))
  | 0, _ => some Outcome.timeout
  | fuel + 1, p =>
    match p.peekC with
    | some (Outcome.ok (t, p1)) =>
      match t.typ with
      | tokenType.tokLBrace =>
        match parseObjectC pf fuel p1 with
        | some (Outcome.ok (m, p2)) => some (Outcome.ok (Value.object m, p2))
        | some (Outcome.error e) => some (Outcome.error e)
        | some Outcome.timeout => some Outcome.timeout
        | none => none
      | tokenType.tokLBracket =>
        match parseArrayC pf fuel p1 with
        | some (Outcome.ok (xs, p2)) => some (Outcome.ok (Value.array xs, p2))
        | some (Outcome.error e) => some (Outcome.error e)
        | some Outcome.timeout => some Outcome.timeout
        | none => none
      | tokenType.tokString =>
        match p1.skipC with
        | some p2 => some (Outcome.ok (Value.string t.lexeme, p2))
        | none => none
      | tokenType.tokNumber =>
        match p1.skipC with
        | some p2 =>
          match pf t.lexeme with
          | some n => some (Outcome.ok (Value.number n, p2))
          | none => some (Outcome.error (Err.invalidNumberConversion t.lexeme))
        | none => none
      | tokenType.tokTrue =>
        match p1.skipC with
        | some p2 => some (Outcome.ok (Value.bool true, p2))
        | none => none
      | tokenType.tokFalse =>
        match p1.skipC with
        | some p2 => some (Outcome.ok (Value.bool false, p2))
        | none => none
      | tokenType.tokNull =>
        match p1.skipC with
        | some p2 => some (Outcome.ok (Value.null, p2))
        | none => none
      | _ => some (Outcome.error Err.invalidJSONValue)
    | some (Outcome.error e) => some (Outcome.error e)
    | some Outcome.timeout => some Outcome.timeout
    | none => none

/-- Go `parser.parseObject` up to its `for` loop, over the checked scanner. -/
def parseObjectC (pf : List Nat → Option Float64) :
    Nat → parser → Option (Outcome (List (List Nat × Value) × parser))
  | 0, _ => some Outcome.timeout
  | fuel + 1, p =>
    match p.expectC tokenType.tokLBrace with
    | some (Outcome.ok p1) =>
      match p1.peekC with
      | some (Outcome.ok (t, p2)) =>
        if t.typ = tokenType.tokRBrace then
          match p2.skipC with
          | some p3 => some (Outcome.ok ([], p3))
          | none => none
        else parseObjectLoopC pf fuel [] p2
      | some (Outcome.error e) => some (Outcome.error e)
      | some Outcome.timeout => some Outcome.timeout
      | none => none
    | some (Outcome.error e) => some (Outcome.error e)
    | some Outcome.timeout => some Outcome.timeout
    | none => none

/-- The `for` loop of Go `parser.parseObject`, over the checked scanner. -/
def parseObjectLoopC (pf : List Nat → Option Float64) :
    Nat → List (List Nat × Value) → parser →
      Option (Outcome (List (List Nat × Value) × parser))
  | 0, _, _ => some Outcome.timeout
  | fuel + 1, obj, p =>
    match p.nextC with
    | some (Outcome.ok (kt, p1)) =>
      if kt.typ ≠ tokenType.tokString then some (Outcome.error Err.expectedStringKey)
      else
        match p1.expectC tokenType.tokColon with
        | some (Outcome.ok p2) =>
          match parseValueC pf fuel p2 with
          | some (Outcome.ok (v, p3)) =>
            match p3.nextC with
            | some (Outcome.ok (nt, p4)) =>
              if nt.typ = tokenType.tokComma then
                parseObjectLoopC pf fuel (mapSet obj kt.lexeme v) p4
              else if nt.typ = tokenType.tokRBrace then
                some (Outcome.ok (mapSet obj kt.lexeme v, p4))
              else some (Outcome.error Err.expectedCommaOrRBrace)
            | some (Outcome.error e) => some (Outcome.error e)
            | some Outcome.timeout => some Outcome.timeout
            | none => none
          | some (Outcome.error e) => some (Outcome.error e)
          | some Outcome.timeout => some Outcome.timeout
          | none => none
        | some (Outcome.error e) => some (Outcome.error e)
        | some Outcome.timeout => some Outcome.timeout
        | none => none
    | some (Outcome.error e) => some (Outcome.error e)
    | some Outcome.timeout => some Outcome.timeout
    | none => none

/-- Go `parser.parseArray` up to its `for` loop, over the checked scanner. -/
def parseArrayC (pf : List Nat → Option Float64) :
    Nat → parser → Option (Outcome (List Value × parser))
  | 0, _ => some Outcome.timeout
  | fuel + 1, p =>
    match p.expectC tokenType.tokLBracket with
    | some (Outcome.ok p1) =>
      match p1.peekC with
      | some (Outcome.ok (t, p2)) =>
        if t.typ = tokenType.tokRBracket then
          match p2.skipC with
          | some p3 => some (Outcome.ok ([], p3))
          | none => none
        else parseArrayLoopC pf fuel [] p2
      | some (Outcome.error e) => some (Outcome.error e)
      | some Outcome.timeout => some Outcome.timeout
      | none => none
    | some (Outcome.error e) => some (Outcome.error e)
    | some Outcome.timeout => some Outcome.timeout
    | none => none

/-- The `for` loop of Go `parser.parseArray`, over the checked scanner. -/
def parseArrayLoopC (pf : List Nat → Option Float64) :
    Nat → List Value → parser → Option (Outcome (List Value × parser))
  | 0, _, _ => some Outcome.timeout
  | fuel + 1, arr, p =>
    match parseValueC pf fuel p with
    | some (Outcome.ok (v, p1)) =>
      match p1.nextC with
      | some (Outcome.ok (nt, p2)) =>
        if nt.typ = tokenType.tokComma then parseArrayLoopC pf fuel (arr ++ [v]) p2
        else if nt.typ = tokenType.tokRBracket then some (Outcome.ok (arr ++ [v], p2))
        else some (Outcome.error Err.expectedCommaOrRBracket)
      | some (Outcome.error e) => some (Outcome.error e)
      | some Outcome.timeout => some Outcome.timeout
      | none => none
    | some (Outcome.error e) => some (Outcome.error e)
    | some Outcome.timeout => some Outcome.timeout
    | none => none

end

/-- Go `Parse`, over the checked scanner: `none` if anywhere during the run
the cursor leaves `0 ≤ pos ≤ len(src)` or a slice expression is out of
range. -/
def ParseC (pf : List Nat → Option Float64) (src : List Nat) : Option (Outcome Value) :=
  match lexer.check (newLexer src) with
  | some l =>
    match parseValueC pf (3 * src.length + 1) ⟨l, none⟩ with
    | some (Outcome.ok (v, p)) =>
      match p.lex.nextTokenC with
      | some (Outcome.ok (tok, _)) =>
        if tok.typ ≠ tokenType.tokEOF then some (Outcome.error Err.unexpectedTrailingContent)
        else some (Outcome.ok v)
      | some (Outcome.error e) => some (Outcome.error e)
      | some Outcome.timeout => some Outcome.timeout
      | none => none
    | some (Outcome.error e) => some (Outcome.error e)
    | some Outcome.timeout => some Outcome.timeout
    | none => none
  | none => none

/-! ## Execution on a call stack of bounded capacity

The recursive routines of the parser once more, each call of `parseValue`,
`parseObject` and `parseArray` taking one frame of a stack that holds `cap`
frames.  The capacity is a property of the Go runtime, not of the source, and
is a parameter here.  A result `none` stands for the stack overflow with which
the Go runtime aborts the process: no value and no error is returned.  The
`for` loops run in the frame of their routine. -/

mutual

/-- Go `parser.parseValue` with `cap` frames left on the call stack. -/
def parseValueS (pf : List Nat → Option Float64) :
    Nat → Nat → parser → Option (Outcome (Value × parser))
  | _, 0, _ => some Outcome.timeout
  | 0, _ + 1, _ => none
  | cap + 1, fuel + 1, p =>
    match p.peek with
    | Outcome.ok (t, p1) =>
      match t.typ with
      | tokenType.tokLBrace =>
        match parseObjectS pf cap fuel p1 with
        | some (Outcome.ok (m, p2)) => some (Outcome.ok (Value.object m, p2))
        | some (Outcome.error e) => some (Outcome.error e)
        | some Outcome.timeout => some Outcome.timeout
        | none => none
      | tokenType.tokLBracket =>
        match parseArrayS pf cap fuel p1 with
        | some (Outcome.ok (xs, p2)) => some (Outcome.ok (Value.array xs, p2))
        | some (Outcome.error e) => some (Outcome.error e)
        | some Outcome.timeout => some Outcome.timeout
        | none => none
      | tokenType.tokString => some (Outcome.ok (Value.string t.lexeme, p1.skip))
      | tokenType.tokNumber =>
        match pf t.lexeme with
        | some n => some (Outcome.ok (Value.number n, p1.skip))
        | none => some (Outcome.error (Err.invalidNumberConversion t.lexeme))
      | tokenType.tokTrue => some (Outcome.ok (Value.bool true, p1.skip))
      | tokenType.tokFalse => some (Outcome.ok (Value.bool false, p1.skip))
      | tokenType.tokNull => some (Outcome.ok (Value.null, p1.skip))
      | _ => some (Outcome.error Err.invalidJSONValue)
    | Outcome.error e => some (Outcome.error e)
    | Outcome.timeout => some Outcome.timeout
termination_by structural _ fuel => fuel

/-- Go `parser.parseObject` up to its `for` loop, with `cap` frames left. -/
def parseObjectS (pf : List Nat → Option Float64) :
    Nat → Nat → parser → Option (Outcome (List (List Nat × Value) × parser))
  | _, 0, _ => some Outcome.timeout
  | 0, _ + 1, _ => none
  | cap + 1, fuel + 1, p =>
    match p.expect tokenType.tokLBrace with
    | Outcome.ok p1 =>
      match p1.peek with
      | Outcome.ok (t, p2) =>
        if t.typ = tokenType.tokRBrace then some (Outcome.ok ([], p2.skip))
        else parseObjectLoopS pf cap fuel [] p2
      | Outcome.error e => some (Outcome.error e)
      | Outcome.timeout => some Outcome.timeout
    | Outcome.error e => some (Outcome.error e)
    | Outcome.timeout => some Outcome.timeout
termination_by structural _ fuel => fuel

/-- The `for` loop of Go `parser.parseObject`, in the frame of `parseObject`,
with `cap` frames left for the calls it makes. -/
def parseObjectLoopS (pf : List Nat → Option Float64) :
    Nat → Nat → List (List Nat × Value) → parser →
      Option (Outcome (List (List Nat × Value) × parser))
  | _, 0, _, _ => some Outcome.timeout
  | cap, fuel + 1, obj, p =>
    match p.next with
    | Outcome.ok (kt, p1) =>
      if kt.typ ≠ tokenType.tokString then some (Outcome.error Err.expectedStringKey)
      else
        match p1.expect tokenType.tokColon with
        | Outcome.ok p2 =>
          match parseValueS pf cap fuel p2 with
          | some (Outcome.ok (v, p3)) =>
            match p3.next with
            | Outcome.ok (nt, p4) =>
              if nt.typ = tokenType.tokComma then
                parseObjectLoopS pf cap fuel (mapSet obj kt.lexeme v) p4
              else if nt.typ = tokenType.tokRBrace then
                some (Outcome.ok (mapSet obj kt.lexeme v, p4))
              else some (Outcome.error Err.expectedCommaOrRBrace)
            | Outcome.error e => some (Outcome.error e)
            | Outcome.timeout => some Outcome.timeout
          | some (Outcome.error e) => some (Outcome.error e)
          | some Outcome.timeout => some Outcome.timeout
          | none => none
        | Outcome.error e => some (Outcome.error e)
        | Outcome.timeout => some Outcome.timeout
    | Outcome.error e => some (Outcome.error e)
    | Outcome.timeout => some Outcome.timeout
termination_by structural _ fuel => fuel

/-- Go `parser.parseArray` up to its `for` loop, with `cap` frames left. -/
def parseArrayS (pf : List Nat → Option Float64) :
    Nat → Nat → parser → Option (Outcome (List Value × parser))
  | _, 0, _ => some Outcome.timeout
  | 0, _ + 1, _ => none
  | cap + 1, fuel + 1, p =>
    match p.expect tokenType.tokLBracket with
    | Outcome.ok p1 =>
      match p1.peek with
      | Outcome.ok (t, p2) =>
        if t.typ = tokenType.tokRBracket then some (Outcome.ok ([], p2.skip))
        else parseArrayLoopS pf cap fuel [] p2
      | Outcome.error e => some (Outcome.error e)
      | Outcome.timeout => some Outcome.timeout
    | Outcome.error e => some (Outcome.error e)
    | Outcome.timeout => some Outcome.timeout
termination_by structural _ fuel => fuel

/-- The `for` loop of Go `parser.parseArray`, in the frame of `parseArray`,
with `cap` frames left for the calls it makes. -/
def parseArrayLoopS (pf : List Nat → Option Float64) :
    Nat → Nat → List Value → parser → Option (Outcome (List Value × parser))
  | _, 0, _, _ => some Outcome.timeout
  | cap, fuel + 1, arr, p =>
    match parseValueS pf cap fuel p with
    | some (Outcome.ok (v, p1)) =>
      match p1.next with
      | Outcome.ok (nt, p2) =>
        if nt.typ = tokenType.tokComma then parseArrayLoopS pf cap fuel (arr ++ [v]) p2
        else if nt.typ = tokenType.tokRBracket then some (Outcome.ok (arr ++ [v], p2))
        else some (Outcome.error Err.expectedCommaOrRBracket)
      | Outcome.error e => some (Outcome.error e)
      | Outcome.timeout => some Outcome.timeout
    | some (Outcome.error e) => some (Outcome.error e)
    | some Outcome.timeout => some Outcome.timeout
    | none => none
termination_by structural _ fuel => fuel

end

/-- Go `Parse` on a call stack that holds `cap` frames of the recursive
routines: `none` when the stack overflows. -/
def ParseS (pf : List Nat → Option Float64) (cap : Nat) (src : List Nat) :
    Option (Outcome Value) :=
  match parseValueS pf cap (3 * src.length + 1) ⟨newLexer src, none⟩ with
  | some (Outcome.ok (v, p)) =>
    match p.lex.nextToken with
    | Outcome.ok (tok, _) =>
      if tok.typ ≠ tokenType.tokEOF then some (Outcome.error Err.unexpectedTrailingContent)
      else some (Outcome.ok v)
    | Outcome.error e => some (Outcome.error e)
    | Outcome.timeout => some Outcome.timeout
  | some (Outcome.error e) => some (Outcome.error e)
  | some Outcome.timeout => some Outcome.timeout
  | none => none

/-! ## Vocabulary of the claims -/

/-- The bytes `0`..`9`. -/
def isDigitByte (b : Nat) : Bool :=
  decide (48 ≤ b ∧ b ≤ 57)

/-- A byte that may follow a number literal: space, tab, CR, LF, `,`, `]`,
`}`. -/
def isDelimiterByte (b : Nat) : Bool :=
  b == 32 || b == 9 || b == 13 || b == 10 || b == 44 || b == 93 || b == 125

/-- The text is at its end or goes on with a delimiter. -/
def delimited (rest : List Nat) : Bool :=
  match rest with
  | [] => true
  | b :: _ => isDelimiterByte b

/-- The parts of a number literal of the grammar
`-? int (. [0-9]+)? ([eE] [+-]? [0-9]+)?`: whether it has a minus sign, the
bytes of the integer part, the digits after the point if there is one, and
the exponent marker, sign bytes and digits if there is an exponent. -/
structure NumberLiteral where
  neg : Bool
  int : List Nat
  frac : Option (List Nat)
  exp : Option (Nat × List Nat × List Nat)

/-- The text of the fraction part. -/
def fracText (frac : Option (List Nat)) : List Nat :=
  match frac with
  | none => []
  | some ds => 46 :: ds

/-- The text of the exponent part. -/
def expText (exp : Option (Nat × List Nat × List Nat)) : List Nat :=
  match exp with
  | none => []
  | some (m, sg, ds) => m :: (sg ++ ds)

/-- The text of the literal. -/
def NumberLiteral.text (n : NumberLiteral) : List Nat :=
  (if n.neg then [45] else []) ++ n.int ++ fracText n.frac ++ expText n.exp

/-- The fraction part matches `(. [0-9]+)?`. -/
def fracOk (frac : Option (List Nat)) : Bool :=
  match frac with
  | none => true
  | some ds => ds != [] && ds.all isDigitByte

/-- The exponent part matches `([eE] [+-]? [0-9]+)?`. -/
def expOk (exp : Option (Nat × List Nat × List Nat)) : Bool :=
  match exp with
  | none => true
  | some (m, sg, ds) =>
    (m == 101 || m == 69) && (sg == [] || sg == [43] || sg == [45]) && ds != [] &&
      ds.all isDigitByte

/-- The number that a text of decimal digits spells. -/
def digitsValue (ds : List Nat) : Nat :=
  ds.foldl (fun a c => a * 10 + (c - 48)) 0

/-- The integer part matches `[1-9][0-9]*`. -/
def nonzeroInt (int : List Nat) : Bool :=
  match int with
  | [] => false
  | d :: ds => decide (49 ≤ d ∧ d ≤ 57) && ds.all isDigitByte

/-- The value of a hex digit byte `0-9`, `a-f`, `A-F`. -/
def hexValue (b : Nat) : Option Nat :=
  if 48 ≤ b ∧ b ≤ 57 then some (b - 48)
  else if 97 ≤ b ∧ b ≤ 102 then some (b - 87)
  else if 65 ≤ b ∧ b ≤ 70 then some (b - 55)
  else none

/-- The 16-bit value written by four hex digit bytes. -/
def hex4 (a b c d : Nat) : Option Nat :=
  match hexValue a, hexValue b, hexValue c, hexValue d with
  | some x, some y, some z, some w => some (4096 * x + 256 * y + 16 * z + w)
  | _, _, _, _ => none

/-- The scalar value a two-character escape `\e` stands for:
`"` `\` `/` `b` `f` `n` `r` `t`. -/
def escapeRune (e : Nat) : Option Int :=
  if e = 34 then some 0x22
  else if e = 92 then some 0x5C
  else if e = 47 then some 0x2F
  else if e = 98 then some 0x08
  else if e = 102 then some 0x0C
  else if e = 110 then some 0x0A
  else if e = 114 then some 0x0D
  else if e = 116 then some 0x09
  else none

/-- A Unicode scalar value: at most U+10FFFF and outside U+D800..U+DFFF. -/
def isScalar (c : Nat) : Bool :=
  decide (c ≤ 0x10FFFF ∧ ¬ (0xD800 ≤ c ∧ c ≤ 0xDFFF))

/-- One item of the text between the quotes of a string literal. -/
inductive StringItem where
  /-- a scalar value written as itself, in UTF-8 -/
  | raw (c : Nat)
  /-- a backslash followed by the byte `e` -/
  | esc (e : Nat)
  /-- `\u` followed by four bytes -/
  | uni (a b c d : Nat)
  /-- two `\u` escapes in a row -/
  | pair (a b c d a1 b1 c1 d1 : Nat)

/-- The source text of an item. -/
def StringItem.text : StringItem → List Nat
  | StringItem.raw c => encodeRune (c : Int)
  | StringItem.esc e => [92, e]
  | StringItem.uni a b c d => [92, 117, a, b, c, d]
  | StringItem.pair a b c d a1 b1 c1 d1 => [92, 117, a, b, c, d, 92, 117, a1, b1, c1, d1]

/-- The scalar value an item stands for, when it is well formed: escape-free
text is any scalar value but `"` and `\`; a single `\u` escape has four hex
digits and no surrogate value; a pair is a high surrogate followed by a low
one, combined by the surrogate formula. -/
def StringItem.rune : StringItem → Option Int
  | StringItem.raw c => if isScalar c ∧ c ≠ 34 ∧ c ≠ 92 then some (c : Int) else none
  | StringItem.esc e => escapeRune e
  | StringItem.uni a b c d =>
    match hex4 a b c d with
    | some v => if 0xD800 ≤ v ∧ v ≤ 0xDFFF then none else some (v : Int)
    | none => none
  | StringItem.pair a b c d a1 b1 c1 d1 =>
    match hex4 a b c d, hex4 a1 b1 c1 d1 with
    | some h, some l =>
      if (0xD800 ≤ h ∧ h ≤ 0xDBFF) ∧ (0xDC00 ≤ l ∧ l ≤ 0xDFFF) then
        some ((0x10000 + (h - 0xD800) * 0x400 + (l - 0xDC00) : Nat) : Int)
      else none
    | _, _ => none

/-- The item is escape-free text or a two-character escape. -/
def StringItem.isPlain : StringItem → Bool
  | StringItem.raw _ => true
  | StringItem.esc _ => true
  | _ => false

/-- The item is a single `\u` escape. -/
def StringItem.isUnicode : StringItem → Bool
  | StringItem.uni _ _ _ _ => true
  | _ => false

/-- The source text of a sequence of items. -/
def itemsText (items : List StringItem) : List Nat :=
  (items.map StringItem.text).flatten

/-- The scalar values of a sequence of items, when all are well formed. -/
def itemsRunes : List StringItem → Option (List Int)
  | [] => some []
  | it :: rest =>
    match it.rune, itemsRunes rest with
    | some r, some rs => some (r :: rs)
    | _, _ => none

/-- The state at the top of the loop of `scanString` after `n` passes through
its body, when none of them left the loop. -/
def scanStringAfter : Nat → List Int → lexer → Option (List Int × lexer)
  | 0, out, l => some (out, l)
  | n + 1, out, l =>
    match scanStringStep out l with
    | StringStep.more out1 l1 => scanStringAfter n out1 l1
    | _ => none

/-- The text starts with a `\u` escape of four hex digits: its value and the
text behind it. -/
def unicodeEscapeAt (bytes : List Nat) : Option (Nat × List Nat) :=
  match bytes with
  | 92 :: 117 :: a :: b :: c :: d :: rest =>
    match hex4 a b c d with
    | some v => some (v, rest)
    | none => none
  | _ => none

/-- The text starts with a `\u` escape that is a high surrogate not followed
at once by a `\u` escape that is a low surrogate, or with a `\u` escape that
is a low surrogate. -/
def loneSurrogateAt (bytes : List Nat) : Bool :=
  match unicodeEscapeAt bytes with
  | some (v, rest) =>
    if 0xD800 ≤ v ∧ v ≤ 0xDBFF then
      match unicodeEscapeAt rest with
      | some (low, _) => !decide (0xDC00 ≤ low ∧ low ≤ 0xDFFF)
      | none => true
    else decide (0xDC00 ≤ v ∧ v ≤ 0xDFFF)
  | none => false

/-- The scanner after `n` tokens have been read from `l` by repeated
`nextToken`; an error (or timeout) of any of them is the result. -/
def lexAfter : Nat → lexer → Outcome lexer
  | 0, l => Outcome.ok l
  | n + 1, l =>
    match lexAfter n l with
    | Outcome.ok l1 =>
      match l1.nextToken with
      | Outcome.ok (_, l2) => Outcome.ok l2
      | Outcome.error e => Outcome.error e
      | Outcome.timeout => Outcome.timeout
    | Outcome.error e => Outcome.error e
    | Outcome.timeout => Outcome.timeout

/-- The token number `n` (counted from 0) of the sequence produced by repeated
`nextToken` from `l`. -/
def tokenAt (n : Nat) (l : lexer) : Outcome token :=
  match lexAfter n l with
  | Outcome.ok l1 =>
    match l1.nextToken with
    | Outcome.ok (t, _) => Outcome.ok t
    | Outcome.error e => Outcome.error e
    | Outcome.timeout => Outcome.timeout
  | Outcome.error e => Outcome.error e
  | Outcome.timeout => Outcome.timeout

/-- The kind of token number `n`, when the sequence gets that far. -/
def typAt (n : Nat) (l : lexer) : Option tokenType :=
  match tokenAt n l with
  | Outcome.ok t => some t.typ
  | _ => none

/-- Token number `j` is a comma and token number `j + 1` is `]` or `}`. -/
def trailingCommaAt (j : Nat) (l : lexer) : Bool :=
  typAt j l == some tokenType.tokComma &&
    (typAt (j + 1) l == some tokenType.tokRBracket || typAt (j + 1) l == some tokenType.tokRBrace)

/-- One member `q:s` of an object text: the text `q` of its key, the string
`k` that text denotes, the text `s` of its value and the value `v` that
text denotes. -/
structure Member where
  keyText : List Nat
  key : List Nat
  valueText : List Nat
  value : Value

/-- The text `q:s` of a member. -/
def Member.text (m : Member) : List Nat :=
  m.keyText ++ 58 :: m.valueText

/-- The keyword announced by a first byte `t`, `f` or `n`: the bytes that have
to follow it (`rue`, `alse`, `ull`) and the kind of the token. -/
def keywordOf (c : Nat) : Option (List Nat × tokenType) :=
  if c = 116 then some ([114, 117, 101], tokenType.tokTrue)
  else if c = 102 then some ([97, 108, 115, 101], tokenType.tokFalse)
  else if c = 110 then some ([117, 108, 108], tokenType.tokNull)
  else none

/-- The text goes on with a digit. -/
def startsWithDigit (rest : List Nat) : Bool :=
  match rest with
  | [] => false
  | b :: _ => isDigitByte b

/-- The text goes on with `+` or `-`. -/
def startsWithSign (rest : List Nat) : Bool :=
  match rest with
  | [] => false
  | b :: _ => b == 43 || b == 45

/-- The three ways a number text with a valid start can go wrong. -/
inductive NumberFault where
  /-- `-? int .` and then `rest` -/
  | fraction (neg : Bool) (int rest : List Nat)
  /-- `-? int frac? m sg` and then `rest`, `m` being the exponent marker and
  `sg` the sign bytes -/
  | exponent (neg : Bool) (int : List Nat) (frac : Option (List Nat)) (m : Nat)
      (sg rest : List Nat)
  /-- `-` and then `rest` -/
  | minus (rest : List Nat)

/-- The text of a faulty number, up to the end of the buffer. -/
def NumberFault.text : NumberFault → List Nat
  | NumberFault.fraction neg int rest => (if neg then [45] else []) ++ int ++ 46 :: rest
  | NumberFault.exponent neg int frac m sg rest =>
    (if neg then [45] else []) ++ int ++ fracText frac ++ m :: (sg ++ rest)
  | NumberFault.minus rest => 45 :: rest

/-- The fault is what its name says: the integer part matches `[1-9][0-9]*`
and a fraction before the exponent matches `. [0-9]+`; no digit follows the
point, or the exponent marker and its optional sign, or the lone minus
sign. -/
def NumberFault.wellFormed : NumberFault → Bool
  | NumberFault.fraction _ int rest => nonzeroInt int && !startsWithDigit rest
  | NumberFault.exponent _ int frac m sg rest =>
    nonzeroInt int && fracOk frac && (m == 101 || m == 69) &&
      ((sg == [] && !startsWithSign rest) || sg == [43] || sg == [45]) &&
      !startsWithDigit rest
  | NumberFault.minus rest => !startsWithDigit rest

/-- The error `scanNumber` has for the fault. -/
def NumberFault.error : NumberFault → Err
  | NumberFault.fraction _ _ _ => Err.invalidFraction
  | NumberFault.exponent _ _ _ _ _ _ => Err.invalidExponent
  | NumberFault.minus _ => Err.invalidNumber

/-- The text `s` occurs in the value as a String or as the key of an object,
at any depth. -/
inductive Value.HasText : Value → List Nat → Prop where
  | string (s : List Nat) : Value.HasText (Value.string s) s
  | elem {xs : List Value} {v : Value} {s : List Nat} :
    v ∈ xs → Value.HasText v s → Value.HasText (Value.array xs) s
  | key {m : List (List Nat × Value)} {k : List Nat} {v : Value} :
    (k, v) ∈ m → Value.HasText (Value.object m) k
  | member {m : List (List Nat × Value)} {k : List Nat} {v : Value} {s : List Nat} :
    (k, v) ∈ m → Value.HasText v s → Value.HasText (Value.object m) s

/-- The bytes are the UTF-8 encoding of a sequence of Unicode scalar values. -/
def scalarText (s : List Nat) : Prop :=
  ∃ cs : List Nat, (∀ c ∈ cs, isScalar c = true) ∧ s = stringOfRunes (cs.map Int.ofNat)

/-! ## Notions used in the proofs -/

/-- `l1` is a later state of the scanner `l`: same buffer, the cursor no
further back, and inside the buffer if it was. -/
def Adv (l l1 : lexer) : Prop :=
  l1.src = l.src ∧ l.pos ≤ l1.pos ∧ (l.pos ≤ l.src.length → l1.pos ≤ l.src.length)

/-- The five mutually recursive routines of the parser. -/
inductive Call where
  | value
  | object
  | objectLoop (obj : List (List Nat × Value))
  | array
  | arrayLoop (arr : List Value)

/-- What a routine of the parser returns. -/
inductive Ret where
  | value (v : Value)
  | members (m : List (List Nat × Value))
  | elems (xs : List Value)

/-- A routine of the parser by its name. -/
def runCall (pf : List Nat → Option Float64) (fuel : Nat) (c : Call) (p : parser) :
    Outcome (Ret × parser) :=
  match c with
  | Call.value =>
    match parseValue pf fuel p with
    | Outcome.ok (v, p1) => Outcome.ok (Ret.value v, p1)
    | Outcome.error e => Outcome.error e
    | Outcome.timeout => Outcome.timeout
  | Call.object =>
    match parseObject pf fuel p with
    | Outcome.ok (m, p1) => Outcome.ok (Ret.members m, p1)
    | Outcome.error e => Outcome.error e
    | Outcome.timeout => Outcome.timeout
  | Call.objectLoop obj =>
    match parseObjectLoop pf fuel obj p with
    | Outcome.ok (m, p1) => Outcome.ok (Ret.members m, p1)
    | Outcome.error e => Outcome.error e
    | Outcome.timeout => Outcome.timeout
  | Call.array =>
    match parseArray pf fuel p with
    | Outcome.ok (xs, p1) => Outcome.ok (Ret.elems xs, p1)
    | Outcome.error e => Outcome.error e
    | Outcome.timeout => Outcome.timeout
  | Call.arrayLoop arr =>
    match parseArrayLoop pf fuel arr p with
    | Outcome.ok (xs, p1) => Outcome.ok (Ret.elems xs, p1)
    | Outcome.error e => Outcome.error e
    | Outcome.timeout => Outcome.timeout

/-- The successful runs of the routines of the parser, one rule per path
through the code that ends in a `return` without error. -/
inductive Run (pf : List Nat → Option Float64) : Call → parser → Ret → parser → Prop where
  | valueObject {p p1 p2 : parser} {t : token} {m : List (List Nat × Value)} :
    p.peek = Outcome.ok (t, p1) → t.typ = tokenType.tokLBrace →
    Run pf Call.object p1 (Ret.members m) p2 →
    Run pf Call.value p (Ret.value (Value.object m)) p2
  | valueArray {p p1 p2 : parser} {t : token} {xs : List Value} :
    p.peek = Outcome.ok (t, p1) → t.typ = tokenType.tokLBracket →
    Run pf Call.array p1 (Ret.elems xs) p2 →
    Run pf Call.value p (Ret.value (Value.array xs)) p2
  | valueString {p p1 : parser} {t : token} :
    p.peek = Outcome.ok (t, p1) → t.typ = tokenType.tokString →
    Run pf Call.value p (Ret.value (Value.string t.lexeme)) p1.skip
  | valueNumber {p p1 : parser} {t : token} {n : Float64} :
    p.peek = Outcome.ok (t, p1) → t.typ = tokenType.tokNumber → pf t.lexeme = some n →
    Run pf Call.value p (Ret.value (Value.number n)) p1.skip
  | valueTrue {p p1 : parser} {t : token} :
    p.peek = Outcome.ok (t, p1) → t.typ = tokenType.tokTrue →
    Run pf Call.value p (Ret.value (Value.bool true)) p1.skip
  | valueFalse {p p1 : parser} {t : token} :
    p.peek = Outcome.ok (t, p1) → t.typ = tokenType.tokFalse →
    Run pf Call.value p (Ret.value (Value.bool false)) p1.skip
  | valueNull {p p1 : parser} {t : token} :
    p.peek = Outcome.ok (t, p1) → t.typ = tokenType.tokNull →
    Run pf Call.value p (Ret.value Value.null) p1.skip
  | objectEmpty {p p1 p2 : parser} {t : token} :
    p.expect tokenType.tokLBrace = Outcome.ok p1 → p1.peek = Outcome.ok (t, p2) →
    t.typ = tokenType.tokRBrace →
    Run pf Call.object p (Ret.members []) p2.skip
  | objectMembers {p p1 p2 p3 : parser} {t : token} {m : List (List Nat × Value)} :
    p.expect tokenType.tokLBrace = Outcome.ok p1 → p1.peek = Outcome.ok (t, p2) →
    t.typ ≠ tokenType.tokRBrace →
    Run pf (Call.objectLoop []) p2 (Ret.members m) p3 →
    Run pf Call.object p (Ret.members m) p3
  | objectLoopMore {obj : List (List Nat × Value)} {p p1 p2 p3 p4 p5 : parser} {kt nt : token}
      {v : Value} {m : List (List Nat × Value)} :
    p.next = Outcome.ok (kt, p1) → kt.typ = tokenType.tokString →
    p1.expect tokenType.tokColon = Outcome.ok p2 →
    Run pf Call.value p2 (Ret.value v) p3 →
    p3.next = Outcome.ok (nt, p4) → nt.typ = tokenType.tokComma →
    Run pf (Call.objectLoop (mapSet obj kt.lexeme v)) p4 (Ret.members m) p5 →
    Run pf (Call.objectLoop obj) p (Ret.members m) p5
  | objectLoopLast {obj : List (List Nat × Value)} {p p1 p2 p3 p4 : parser} {kt nt : token}
      {v : Value} :
    p.next = Outcome.ok (kt, p1) → kt.typ = tokenType.tokString →
    p1.expect tokenType.tokColon = Outcome.ok p2 →
    Run pf Call.value p2 (Ret.value v) p3 →
    p3.next = Outcome.ok (nt, p4) → nt.typ = tokenType.tokRBrace →
    Run pf (Call.objectLoop obj) p (Ret.members (mapSet obj kt.lexeme v)) p4
  | arrayEmpty {p p1 p2 : parser} {t : token} :
    p.expect tokenType.tokLBracket = Outcome.ok p1 → p1.peek = Outcome.ok (t, p2) →
    t.typ = tokenType.tokRBracket →
    Run pf Call.array p (Ret.elems []) p2.skip
  | arrayElems {p p1 p2 p3 : parser} {t : token} {xs : List Value} :
    p.expect tokenType.tokLBracket = Outcome.ok p1 → p1.peek = Outcome.ok (t, p2) →
    t.typ ≠ tokenType.tokRBracket →
    Run pf (Call.arrayLoop []) p2 (Ret.elems xs) p3 →
    Run pf Call.array p (Ret.elems xs) p3
  | arrayLoopMore {arr : List Value} {p p1 p2 p3 : parser} {nt : token} {v : Value}
      {xs : List Value} :
    Run pf Call.value p (Ret.value v) p1 →
    p1.next = Outcome.ok (nt, p2) → nt.typ = tokenType.tokComma →
    Run pf (Call.arrayLoop (arr ++ [v])) p2 (Ret.elems xs) p3 →
    Run pf (Call.arrayLoop arr) p (Ret.elems xs) p3
  | arrayLoopLast {arr : List Value} {p p1 p2 : parser} {nt : token} {v : Value} :
    Run pf Call.value p (Ret.value v) p1 →
    p1.next = Outcome.ok (nt, p2) → nt.typ = tokenType.tokRBracket →
    Run pf (Call.arrayLoop arr) p (Ret.elems (arr ++ [v])) p2

/-- A bound on the budget a routine of the parser uses from the state `p`:
three units per byte still to be read, and three more when the buffered token
is an opening bracket that is about to be consumed. -/
def need (p : parser) : Nat :=
  3 * (p.lex.src.length - p.lex.pos) +
    (match p.buf with
      | some t => if t.typ = tokenType.tokLBrace ∨ t.typ = tokenType.tokLBracket then 3 else 0
      | none => 0)

/-- The budget that is enough for a routine started in the state `p`. -/
def callNeed (c : Call) (p : parser) : Nat :=
  match c with
  | Call.value => need p + 1
  | Call.object => max 1 (need p)
  | Call.objectLoop _ => need p + 2
  | Call.array => max 1 (need p)
  | Call.arrayLoop _ => need p + 2

/-- The parser `p` has consumed exactly the first `k` tokens of the sequence
produced from `l0`; a buffered token is token number `k`, read but not
consumed. -/
def At (l0 : lexer) (p : parser) (k : Nat) : Prop :=
  match p.buf with
  | none => lexAfter k l0 = Outcome.ok p.lex
  | some t => ∃ lp, lexAfter k l0 = Outcome.ok lp ∧ lp.nextToken = Outcome.ok (t, p.lex)

/-- The tokens number `k` to `k1 - 1` can be what one routine of the parser
consumes: no comma among them is followed by a closing bracket, the last one
is no comma, and the first one is no closing bracket. -/
def Span (l0 : lexer) (k k1 : Nat) : Prop :=
  k < k1 ∧ (∀ j, k ≤ j → j + 1 < k1 → trailingCommaAt j l0 = false) ∧
    typAt (k1 - 1) l0 ≠ some tokenType.tokComma ∧
    typAt k l0 ≠ some tokenType.tokRBracket ∧ typAt k l0 ≠ some tokenType.tokRBrace

/-- The scanner `l1` reads the buffer of `l` placed between the texts `a` and
`b`, with its cursor on the same byte. -/
def Emb (a b : List Nat) (l l1 : lexer) : Prop :=
  l1.src = a ++ l.src ++ b ∧ l1.pos = a.length + l.pos

/-- The parser `p1` is the parser `p` with its input placed between the texts
`a` and `b`. -/
def EmbP (a b : List Nat) (p p1 : parser) : Prop :=
  Emb a b p.lex p1.lex ∧ p1.buf = p.buf

/-- The byte is one of the four whitespace characters of `skipWS`. -/
def isWSByte (c : Nat) : Bool :=
  c == 32 || c == 10 || c == 13 || c == 9

/-- As `Emb`, with the cursor of `l` inside its buffer and the text `b` behind
the buffer made of whitespace only. -/
def EmbW (a b : List Nat) (l l1 : lexer) : Prop :=
  Emb a b l l1 ∧ l.pos ≤ l.src.length ∧ ∀ c ∈ b, isWSByte c = true

/-- As `EmbP`, for `EmbW`. -/
def EmbWP (a b : List Nat) (p p1 : parser) : Prop :=
  EmbW a b p.lex p1.lex ∧ p1.buf = p.buf

/-- A text that may follow a number literal without changing how it is
scanned: empty, or starting with a byte below 128 that is no digit, point or
exponent marker. -/
def numStop (b : List Nat) : Bool :=
  match b with
  | [] => true
  | c :: _ => decide (c < 128) && !isDigitByte c && c != 46 && c != 101 && c != 69

/-- A code point that ends a number literal wherever it is met: no digit, no
point, no exponent marker. -/
def inert (r : Int) : Prop :=
  isDigit r = false ∧ r ≠ 46 ∧ r ≠ 101 ∧ r ≠ 69

/-- A code point that is a Unicode scalar value. -/
def scalarRune (r : Int) : Prop :=
  0 ≤ r ∧ r ≤ 0x10FFFF ∧ ¬ (0xD800 ≤ r ∧ r ≤ 0xDFFF)

/-- The lexeme of a String token is the encoding of scalar values. -/
def textToken (t : token) : Prop :=
  t.typ = tokenType.tokString → scalarText t.lexeme

/-- A buffered token, if there is one, satisfies `textToken`. -/
def textBuf (p : parser) : Prop :=
  ∀ t, p.buf = some t → textToken t

/-- Every String and every object key in the value is the encoding of scalar
values. -/
def Value.textsOk (v : Value) : Prop :=
  ∀ s, v.HasText s → scalarText s

/-- The same for what a routine of the parser returns. -/
def Ret.textsOk (r : Ret) : Prop :=
  match r with
  | Ret.value v => v.textsOk
  | Ret.members m => ∀ kv ∈ m, scalarText kv.1 ∧ kv.2.textsOk
  | Ret.elems xs => ∀ v ∈ xs, v.textsOk

/-- The same for the map or slice a loop of the parser starts with. -/
def Call.textsOk (c : Call) : Prop :=
  match c with
  | Call.objectLoop obj => ∀ kv ∈ obj, scalarText kv.1 ∧ kv.2.textsOk
  | Call.arrayLoop arr => ∀ v ∈ arr, v.textsOk
  | _ => True

/-! ## Basic facts about `DecodeRune` and `lexer.next` -/

theorem drop_append_of_drop {s : List Nat} {p : Nat} {a b : List Nat}
    (h : s.drop p = a ++ b) : s.drop (p + a.length) = b := by
  rw [← List.drop_drop, h, List.drop_left]

theorem lt_length_of_drop_cons {s : List Nat} {p : Nat} {b : Nat} {t : List Nat}
    (h : s.drop p = b :: t) : p < s.length := by
  by_contra hc
  rw [List.drop_eq_nil_of_le (by omega)] at h
  cases h

theorem length_le_of_drop_nil {s : List Nat} {p : Nat} (h : s.drop p = []) :
    s.length ≤ p := by
  simpa [List.drop_eq_nil_iff] using h

theorem DecodeRune_ascii (b : Nat) (t : List Nat) (hb : b < 128) :
    DecodeRune (b :: t) = ((b : Int), 1) := by
  simp [DecodeRune, hb]

theorem next_width_irrel (s : List Nat) (p w : Nat) :
    lexer.next ⟨s, p, w⟩ = lexer.next ⟨s, p, 0⟩ := by
  simp [lexer.next]

theorem next_ascii {s : List Nat} {p w b : Nat} {t : List Nat}
    (h : s.drop p = b :: t) (hb : b < 128) :
    lexer.next ⟨s, p, w⟩ = ((b : Int), ⟨s, p + 1, 1⟩) := by
  have hp := lt_length_of_drop_cons h
  simp [lexer.next, h, DecodeRune_ascii b t hb, Nat.not_le.mpr hp]

theorem next_eof {s : List Nat} {p w : Nat} (h : s.drop p = []) :
    lexer.next ⟨s, p, w⟩ = (-1, ⟨s, p, 0⟩) := by
  have hp := length_le_of_drop_nil h
  simp [lexer.next, hp]

theorem backup_next_src (l : lexer) : (l.next).2.backup.src = l.src := by
  unfold lexer.next lexer.backup
  split <;> rfl

theorem backup_next_pos (l : lexer) : (l.next).2.backup.pos = l.pos := by
  unfold lexer.next lexer.backup
  split <;> simp

theorem backup_next_eq (s : List Nat) (q : Nat) :
    (lexer.next ⟨s, q, 0⟩).2.backup = ⟨s, q, (lexer.next ⟨s, q, 0⟩).2.width⟩ := by
  have h1 := backup_next_src ⟨s, q, 0⟩
  have h2 := backup_next_pos ⟨s, q, 0⟩
  have h3 : (lexer.next ⟨s, q, 0⟩).2.backup.width = (lexer.next ⟨s, q, 0⟩).2.width := rfl
  cases h : (lexer.next ⟨s, q, 0⟩).2.backup with
  | mk a b c =>
    rw [h] at h1 h2 h3
    simp only at h1 h2 h3
    subst h1 h2
    rw [← h3]

/-! ## Number scanning -/

theorem isDigit_of_isDigitByte {b : Nat} (h : isDigitByte b = true) :
    isDigit (b : Int) = true := by
  simp [isDigitByte] at h
  simp [isDigit]
  omega

theorem isDigitByte_lt {b : Nat} (h : isDigitByte b = true) : b < 128 := by
  simp [isDigitByte] at h
  omega

/-- What `next` reads where the text is at its end or goes on with a
delimiter. -/
theorem next_delimited {s : List Nat} {q : Nat} {rest : List Nat}
    (h : s.drop q = rest) (hr : delimited rest = true) :
    ∃ r, (lexer.next ⟨s, q, 0⟩).1 = r ∧ isDigit r = false ∧ r ≠ 46 ∧ r ≠ 101 ∧ r ≠ 69 := by
  cases rest with
  | nil => rw [next_eof h]; exact ⟨-1, rfl, by decide, by decide, by decide, by decide⟩
  | cons b t =>
    have hb : (((((b = 32 ∨ b = 9) ∨ b = 13) ∨ b = 10) ∨ b = 44) ∨ b = 93) ∨ b = 125 := by
      simpa [delimited, isDelimiterByte] using hr
    have hlt : b < 128 := by omega
    rw [next_ascii h hlt]
    refine ⟨(b : Int), rfl, ?_, ?_, ?_, ?_⟩
    · simp [isDigit]; omega
    all_goals omega

theorem length_le_of_drop_append {s : List Nat} {p : Nat} {a b : List Nat}
    (h : s.drop p = a ++ b) : p + a.length ≤ s.length ∨ a = [] := by
  cases a with
  | nil => right; rfl
  | cons x t =>
    left
    have h1 : (s.drop p).length = (x :: t ++ b).length := by rw [h]
    simp at h1
    simp
    omega

theorem scanDigits_run {s : List Nat} (ds : List Nat) :
    ∀ (fuel p w : Nat) (tl : List Nat), s.drop p = ds ++ tl →
      ds.all isDigitByte = true →
      isDigit (lexer.next ⟨s, p + ds.length, 0⟩).1 = false →
      s.length - p < fuel →
      scanDigits fuel ⟨s, p, w⟩ = Outcome.ok (lexer.next ⟨s, p + ds.length, 0⟩) := by
  induction ds with
  | nil =>
    intro fuel p w tl _ _ hnd hf
    cases fuel with
    | zero => omega
    | succ f =>
      simp only [List.length_nil, Nat.add_zero] at hnd ⊢
      simp only [scanDigits]
      rw [next_width_irrel, hnd]
      simp
  | cons d ds ih =>
    intro fuel p w tl hdrop hall hnd hf
    have hd : isDigitByte d = true := by simp at hall; exact hall.1
    have hds : ds.all isDigitByte = true := by
      simp only [List.all_cons, Bool.and_eq_true] at hall; exact hall.2
    have hp := lt_length_of_drop_cons hdrop
    cases fuel with
    | zero => omega
    | succ f =>
      simp only [scanDigits]
      rw [next_ascii hdrop (isDigitByte_lt hd)]
      simp only [isDigit_of_isDigitByte hd, if_true]
      have h2 : s.drop (p + 1) = ds ++ tl := by
        have := drop_append_of_drop (a := [d]) (b := ds ++ tl) (by simpa using hdrop)
        simpa using this
      have := ih f (p + 1) 1 tl h2 hds (by
        have e : p + 1 + ds.length = p + (d :: ds).length := by simp; omega
        rw [e]; exact hnd) (by omega)
      rw [this]
      have e : p + 1 + ds.length = p + (d :: ds).length := by simp; omega
      rw [e]

theorem drop_succ_of_drop_cons {s : List Nat} {p b : Nat} {t : List Nat}
    (h : s.drop p = b :: t) : s.drop (p + 1) = t := by
  have := drop_append_of_drop (a := [b]) (b := t) (by simpa using h)
  simpa using this

/-- The digits of an exponent or fraction, read by `next`, the digit test
and `scanDigits`, up to the first code point behind them. -/
theorem digits_then_delimited {s : List Nat} {d : Nat} {ds tl : List Nat} {f p w : Nat}
    (hdrop : s.drop p = d :: ds ++ tl) (hall : (d :: ds).all isDigitByte = true)
    (hnd : isDigit (lexer.next ⟨s, p + (d :: ds).length, 0⟩).1 = false)
    (hf : s.length - p < f) :
    lexer.next ⟨s, p, w⟩ = ((d : Int), ⟨s, p + 1, 1⟩) ∧ isDigit (d : Int) = true ∧
      scanDigits f ⟨s, p + 1, 1⟩ = Outcome.ok (lexer.next ⟨s, p + (d :: ds).length, 0⟩) := by
  have hd : isDigitByte d = true := by simp at hall; exact hall.1
  have hds : ds.all isDigitByte = true := by
    simp only [List.all_cons, Bool.and_eq_true] at hall; exact hall.2
  have e : p + 1 + ds.length = p + (d :: ds).length := by simp; omega
  refine ⟨next_ascii hdrop (isDigitByte_lt hd), isDigit_of_isDigitByte hd, ?_⟩
  have := scanDigits_run ds f (p + 1) 1 tl (drop_succ_of_drop_cons hdrop) hds
    (by rw [e]; exact hnd) (by omega)
  rw [this, e]

theorem scanExponent_run {s : List Nat} (exp : Option (Nat × List Nat × List Nat))
    (rest : List Nat) (fuel start q : Nat)
    (hdrop : s.drop q = expText exp ++ rest) (hok : expOk exp = true)
    (hr : delimited rest = true) (hf : s.length - q < fuel) :
    scanExponent fuel start (lexer.next ⟨s, q, 0⟩).1 (lexer.next ⟨s, q, 0⟩).2 =
      Outcome.ok ((s.drop start).take (q + (expText exp).length - start),
        ⟨s, q + (expText exp).length, (lexer.next ⟨s, q + (expText exp).length, 0⟩).2.width⟩) := by
  cases exp with
  | none =>
    simp only [expText, List.nil_append, List.length_nil, Nat.add_zero] at hdrop ⊢
    obtain ⟨r, hr1, _, _, h101, h69⟩ := next_delimited hdrop hr
    unfold scanExponent
    rw [hr1]
    simp only [h101, h69, or_self, if_false]
    rw [backup_next_eq]
  | some x =>
    obtain ⟨m, sg, ds⟩ := x
    simp only [expOk, Bool.and_eq_true, Bool.or_eq_true, beq_iff_eq, bne_iff_ne, ne_eq] at hok
    obtain ⟨⟨⟨hm, hsg⟩, hne⟩, hall⟩ := hok
    cases ds with
    | nil => exact absurd rfl hne
    | cons d ds =>
      simp only [expText] at hdrop ⊢
      have hmlt : m < 128 := by omega
      have hnext : lexer.next ⟨s, q, 0⟩ = ((m : Int), ⟨s, q + 1, 1⟩) := next_ascii hdrop hmlt
      have hd1 := drop_succ_of_drop_cons hdrop
      have hmm : ((m : Int) = 101 ∨ (m : Int) = 69) := by omega
      have hd : isDigitByte d = true := by simp at hall; exact hall.1
      have hdr : ¬ ((d : Int) = 43 ∨ (d : Int) = 45) := by
        simp [isDigitByte] at hd; omega
      have hq : q < s.length := lt_length_of_drop_cons hdrop
      unfold scanExponent
      rw [hnext]
      simp only [hmm, if_true]
      rcases hsg with (h0 | h43) | h45
      · subst h0
        simp only [List.nil_append] at hd1
        have hend : s.drop (q + 1 + (d :: ds).length) = rest := by
          have := drop_append_of_drop (a := d :: ds) (b := rest) (by simpa using hd1)
          simpa using this
        obtain ⟨r, hr1, hnd, _⟩ := next_delimited hend hr
        obtain ⟨h1, h2, h3⟩ := digits_then_delimited (w := 1) (f := fuel)
          (by simpa using hd1) hall (by rw [hr1]; exact hnd) (by omega)
        rw [h1]
        simp only [hdr, if_false, h2, not_true_eq_false]
        rw [h3]
        simp only
        rw [backup_next_eq]
        have e : q + 1 + (d :: ds).length = q + (m :: ([] ++ d :: ds)).length := by
          simp; omega
        rw [e]
      · subst h43
        have hs : lexer.next ⟨s, q + 1, 1⟩ = (((43 : Nat) : Int), ⟨s, q + 1 + 1, 1⟩) :=
          next_ascii (by simpa using hd1) (by decide)
        have hd2 : s.drop (q + 1 + 1) = d :: ds ++ rest :=
          drop_succ_of_drop_cons (b := 43) (by simpa using hd1)
        have hend : s.drop (q + 1 + 1 + (d :: ds).length) = rest := by
          have := drop_append_of_drop (a := d :: ds) (b := rest) (by simpa using hd2)
          simpa using this
        obtain ⟨r, hr1, hnd, _⟩ := next_delimited hend hr
        obtain ⟨h1, h2, h3⟩ := digits_then_delimited (w := 1) (f := fuel)
          hd2 hall (by rw [hr1]; exact hnd) (by omega)
        rw [hs]
        simp only [Nat.cast_ofNat, true_or, if_true]
        rw [h1]
        simp only [h2, not_true_eq_false, if_false]
        rw [h3]
        simp only
        rw [backup_next_eq]
        have e : q + 1 + 1 + (d :: ds).length = q + (m :: ([43] ++ d :: ds)).length := by
          simp; omega
        rw [e]
      · subst h45
        have hs : lexer.next ⟨s, q + 1, 1⟩ = (((45 : Nat) : Int), ⟨s, q + 1 + 1, 1⟩) :=
          next_ascii (by simpa using hd1) (by decide)
        have hd2 : s.drop (q + 1 + 1) = d :: ds ++ rest :=
          drop_succ_of_drop_cons (b := 45) (by simpa using hd1)
        have hend : s.drop (q + 1 + 1 + (d :: ds).length) = rest := by
          have := drop_append_of_drop (a := d :: ds) (b := rest) (by simpa using hd2)
          simpa using this
        obtain ⟨r, hr1, hnd, _⟩ := next_delimited hend hr
        obtain ⟨h1, h2, h3⟩ := digits_then_delimited (w := 1) (f := fuel)
          hd2 hall (by rw [hr1]; exact hnd) (by omega)
        rw [hs]
        simp only [Nat.cast_ofNat, or_true, if_true]
        rw [h1]
        simp only [h2, not_true_eq_false, if_false]
        rw [h3]
        simp only
        rw [backup_next_eq]
        have e : q + 1 + 1 + (d :: ds).length = q + (m :: ([45] ++ d :: ds)).length := by
          simp; omega
        rw [e]

/-- The code point behind the digits of an integer or fraction part is no
digit, and no point when an exponent or the end follows. -/
theorem next_before_exp {s : List Nat} {q : Nat} {exp : Option (Nat × List Nat × List Nat)}
    {rest : List Nat} (hdrop : s.drop q = expText exp ++ rest) (hok : expOk exp = true)
    (hr : delimited rest = true) :
    isDigit (lexer.next ⟨s, q, 0⟩).1 = false ∧ (lexer.next ⟨s, q, 0⟩).1 ≠ 46 := by
  cases exp with
  | none =>
    obtain ⟨r, hr1, hnd, h46, _⟩ := next_delimited (by simpa [expText] using hdrop) hr
    rw [hr1]; exact ⟨hnd, h46⟩
  | some x =>
    obtain ⟨m, sg, ds⟩ := x
    simp only [expOk, Bool.and_eq_true, Bool.or_eq_true, beq_iff_eq] at hok
    have hm := hok.1.1.1
    simp only [expText] at hdrop
    rw [next_ascii hdrop (by omega)]
    refine ⟨?_, ?_⟩
    · simp [isDigit]; omega
    · simp only; omega

theorem next_before_frac {s : List Nat} {q : Nat} {frac : Option (List Nat)}
    {exp : Option (Nat × List Nat × List Nat)} {rest : List Nat}
    (hdrop : s.drop q = fracText frac ++ expText exp ++ rest) (hok : expOk exp = true)
    (hr : delimited rest = true) :
    isDigit (lexer.next ⟨s, q, 0⟩).1 = false := by
  cases frac with
  | none => exact (next_before_exp (by simpa [fracText] using hdrop) hok hr).1
  | some ds =>
    simp only [fracText, List.cons_append, List.append_assoc] at hdrop
    rw [next_ascii hdrop (by decide)]
    simp [isDigit]

theorem scanFraction_run {s : List Nat} (frac : Option (List Nat))
    (exp : Option (Nat × List Nat × List Nat)) (rest : List Nat) (fuel start q : Nat)
    (hdrop : s.drop q = fracText frac ++ expText exp ++ rest)
    (hfr : fracOk frac = true) (hok : expOk exp = true)
    (hr : delimited rest = true) (hf : s.length - q < fuel) :
    scanFraction fuel start (lexer.next ⟨s, q, 0⟩).1 (lexer.next ⟨s, q, 0⟩).2 =
      Outcome.ok ((s.drop start).take (q + (fracText frac ++ expText exp).length - start),
        ⟨s, q + (fracText frac ++ expText exp).length,
          (lexer.next ⟨s, q + (fracText frac ++ expText exp).length, 0⟩).2.width⟩) := by
  cases frac with
  | none =>
    simp only [fracText, List.nil_append] at hdrop ⊢
    have h46 := (next_before_exp hdrop hok hr).2
    unfold scanFraction
    simp only [h46, if_false]
    exact scanExponent_run exp rest fuel start q hdrop hok hr hf
  | some ds =>
    simp only [fracOk, Bool.and_eq_true, bne_iff_ne, ne_eq] at hfr
    obtain ⟨hne, hall⟩ := hfr
    cases ds with
    | nil => exact absurd rfl hne
    | cons d ds =>
      simp only [fracText, List.cons_append, List.append_assoc] at hdrop
      have hnext : lexer.next ⟨s, q, 0⟩ = (((46 : Nat) : Int), ⟨s, q + 1, 1⟩) :=
        next_ascii hdrop (by decide)
      have hd1 : s.drop (q + 1) = d :: ds ++ (expText exp ++ rest) :=
        drop_succ_of_drop_cons hdrop
      have hend : s.drop (q + 1 + (d :: ds).length) = expText exp ++ rest :=
        drop_append_of_drop hd1
      have hq : q < s.length := lt_length_of_drop_cons hdrop
      obtain ⟨h1, h2, h3⟩ := digits_then_delimited (w := 1) (f := fuel)
        hd1 hall (next_before_exp hend hok hr).1 (by omega)
      unfold scanFraction
      rw [hnext]
      simp only [Nat.cast_ofNat, if_true]
      rw [h1]
      simp only [h2, not_true_eq_false, if_false]
      rw [h3]
      simp only
      have hlen : s.length - (q + 1 + (d :: ds).length) < fuel := by omega
      rw [scanExponent_run exp rest fuel start _ hend hok hr hlen]
      have e : q + 1 + (d :: ds).length + (expText exp).length =
          q + (fracText (some (d :: ds)) ++ expText exp).length := by
        simp [fracText]; omega
      rw [e]

theorem scanNumber_run {s : List Nat} (n : NumberLiteral) (rest : List Nat) (p w : Nat)
    (hdrop : s.drop p = n.text ++ rest)
    (hint : nonzeroInt n.int = true) (hfr : fracOk n.frac = true) (hok : expOk n.exp = true)
    (hr : delimited rest = true) :
    lexer.scanNumber ⟨s, p, w⟩ =
      Outcome.ok ((s.drop p).take n.text.length,
        ⟨s, p + n.text.length, (lexer.next ⟨s, p + n.text.length, 0⟩).2.width⟩) := by
  obtain ⟨neg, int, frac, exp⟩ := n
  simp only at hint hfr hok
  cases int with
  | nil => simp [nonzeroInt] at hint
  | cons d ds =>
    simp only [nonzeroInt, Bool.and_eq_true, decide_eq_true_eq] at hint
    obtain ⟨hd, hall⟩ := hint
    have key : ∀ (q : Nat) (w0 : Nat), p ≤ q →
        s.drop q = d :: ds ++ (fracText frac ++ expText exp ++ rest) →
        lexer.next ⟨s, q, w0⟩ = ((d : Int), ⟨s, q + 1, 1⟩) ∧
        (match scanDigits (s.length - p + 1) ⟨s, q + 1, 1⟩ with
          | Outcome.ok (r1, l1) => scanFraction (s.length - p + 1) p r1 l1
          | Outcome.error e => Outcome.error e
          | Outcome.timeout => Outcome.timeout) =
        Outcome.ok ((s.drop p).take
            (q + (d :: ds ++ (fracText frac ++ expText exp)).length - p),
          ⟨s, q + (d :: ds ++ (fracText frac ++ expText exp)).length,
            (lexer.next ⟨s, q + (d :: ds ++ (fracText frac ++ expText exp)).length, 0⟩).2.width⟩) := by
      intro q w0 hpq hdq
      have hq : q < s.length := lt_length_of_drop_cons hdq
      have hd1 : s.drop (q + 1) = ds ++ (fracText frac ++ expText exp ++ rest) :=
        drop_succ_of_drop_cons hdq
      have hend : s.drop (q + 1 + ds.length) = fracText frac ++ expText exp ++ rest :=
        drop_append_of_drop hd1
      refine ⟨next_ascii hdq (by omega), ?_⟩
      rw [scanDigits_run ds _ (q + 1) 1 _ hd1 hall (next_before_frac hend hok hr) (by omega)]
      simp only
      rw [scanFraction_run frac exp rest _ p _ hend hfr hok hr (by omega)]
      have e : q + 1 + ds.length + (fracText frac ++ expText exp).length =
          q + (d :: ds ++ (fracText frac ++ expText exp)).length := by
        simp; omega
      rw [e]
    have hdne : ¬ ((d : Int) = 45) := by omega
    have hd1 : ¬ ((d : Int) = -1) := by omega
    have hd0 : ¬ ((d : Int) = 48) := by omega
    have hdd : (49 : Int) ≤ (d : Int) ∧ (d : Int) ≤ 57 := by omega
    cases neg with
    | false =>
      simp only [NumberLiteral.text, Bool.false_eq_true, if_false, List.nil_append,
        List.append_assoc] at hdrop ⊢
      obtain ⟨k1, k2⟩ := key p w (le_refl _) (by simpa using hdrop)
      unfold lexer.scanNumber
      simp only [k1, hdne, if_false, hd1, hd0, hdd, and_self, if_true]
      refine k2.trans ?_
      simp [Nat.add_sub_cancel_left]
    | true =>
      simp only [NumberLiteral.text, if_true, List.append_assoc, List.cons_append,
        List.nil_append] at hdrop ⊢
      have hm : lexer.next ⟨s, p, w⟩ = (((45 : Nat) : Int), ⟨s, p + 1, 1⟩) :=
        next_ascii hdrop (by decide)
      obtain ⟨k1, k2⟩ := key (p + 1) 1 (by omega)
        (by simpa using drop_succ_of_drop_cons hdrop)
      unfold lexer.scanNumber
      simp only [hm, Nat.cast_ofNat, if_true, k1, hd1, hd0, hdd, and_self, if_false]
      refine k2.trans ?_
      have e : p + 1 + (d :: ds ++ (fracText frac ++ expText exp)).length =
          p + (45 :: (d :: ds ++ (fracText frac ++ expText exp))).length := by
        simp; omega
      rw [e]
      simp [Nat.add_sub_cancel_left]

/-- On `-` or a digit `nextToken` goes back one byte and hands over to
`scanNumber`. -/
theorem nextToken_number_start {s : List Nat} {p w b : Nat} {t : List Nat}
    (hdrop : s.drop p = b :: t) (hb : b = 45 ∨ (48 ≤ b ∧ b ≤ 57)) :
    lexer.nextToken ⟨s, p, w⟩ =
      (match lexer.scanNumber ⟨s, p, 1⟩ with
        | Outcome.ok (num, l2) => Outcome.ok (⟨tokenType.tokNumber, num⟩, l2)
        | Outcome.error e => Outcome.error e
        | Outcome.timeout => Outcome.timeout) := by
  have hlt : b < 128 := by omega
  have hn : ∀ w0, lexer.next ⟨s, p, w0⟩ = ((b : Int), ⟨s, p + 1, 1⟩) :=
    fun w0 => next_ascii hdrop hlt
  have hws : isWS (b : Int) = false := by
    simp [isWS]; omega
  have hskip : lexer.skipWS ⟨s, p, w⟩ = Outcome.ok ⟨s, p, w⟩ := by
    simp only [lexer.skipWS, skipWSLoop, lexer.peek, hn, hws]
    simp
  unfold lexer.nextToken
  rw [hskip]
  simp only [hn]
  have h1 : ¬ ((b : Int) = -1) := by omega
  have h2 : ¬ ((b : Int) = 123) := by omega
  have h3 : ¬ ((b : Int) = 125) := by omega
  have h4 : ¬ ((b : Int) = 91) := by omega
  have h5 : ¬ ((b : Int) = 93) := by omega
  have h6 : ¬ ((b : Int) = 58) := by omega
  have h7 : ¬ ((b : Int) = 44) := by omega
  have h8 : ¬ ((b : Int) = 34) := by omega
  have h9 : ¬ ((b : Int) = 116) := by omega
  have h10 : ¬ ((b : Int) = 102) := by omega
  have h11 : ¬ ((b : Int) = 110) := by omega
  have h12 : ((b : Int) = 45 ∨ (48 ≤ (b : Int) ∧ (b : Int) ≤ 57)) := by omega
  simp only [h1, h2, h3, h4, h5, h6, h7, h8, h9, h10, h11, h12, if_false, if_true]
  rfl

theorem nextToken_number {n : NumberLiteral} {pre rest : List Nat} (w : Nat)
    (hint : nonzeroInt n.int = true) (hfr : fracOk n.frac = true) (hok : expOk n.exp = true)
    (hr : delimited rest = true) :
    ∃ w1, lexer.nextToken ⟨pre ++ n.text ++ rest, pre.length, w⟩ =
      Outcome.ok (⟨tokenType.tokNumber, n.text⟩,
        ⟨pre ++ n.text ++ rest, pre.length + n.text.length, w1⟩) := by
  have hdrop : (pre ++ n.text ++ rest).drop pre.length = n.text ++ rest := by
    rw [List.append_assoc, List.drop_left]
  have hrun := scanNumber_run n rest pre.length 1 hdrop hint hfr hok hr
  have hstart : ∃ b t, n.text = b :: t ∧ (b = 45 ∨ (48 ≤ b ∧ b ≤ 57)) := by
    obtain ⟨neg, int, frac, exp⟩ := n
    cases int with
    | nil => simp [nonzeroInt] at hint
    | cons d ds =>
      simp only [nonzeroInt, Bool.and_eq_true, decide_eq_true_eq] at hint
      cases neg with
      | false => exact ⟨d, _, by simp [NumberLiteral.text]; rfl, by omega⟩
      | true => exact ⟨45, _, by simp [NumberLiteral.text]; rfl, by omega⟩
  obtain ⟨b, t, hbt, hb⟩ := hstart
  refine ⟨(lexer.next ⟨pre ++ n.text ++ rest, pre.length + n.text.length, 0⟩).2.width, ?_⟩
  rw [nextToken_number_start (b := b) (t := t ++ rest) (by rw [hdrop, hbt]; rfl) hb, hrun]
  simp only [hdrop, List.take_left]

/-! ## UTF-8: decoding an encoded scalar value -/

theorem DecodeRune_two (b0 b1 : Nat) (tl : List Nat) (h0 : 0xC2 ≤ b0 ∧ b0 < 0xE0)
    (h1 : 0x80 ≤ b1 ∧ b1 ≤ 0xBF) :
    DecodeRune (b0 :: b1 :: tl) = ((((b0 - 0xC0) * 64 + (b1 - 0x80) : Nat) : Int), 2) := by
  have a1 : ¬ b0 < 0x80 := by omega
  have a2 : ¬ b0 < 0xC2 := by omega
  have a3 : b0 < 0xE0 := by omega
  simp only [DecodeRune, a1, a2, a3, h1, if_true, if_false, and_self]

theorem DecodeRune_three (b0 b1 b2 : Nat) (tl : List Nat) (h0 : 0xE0 ≤ b0 ∧ b0 < 0xF0)
    (h1 : (if b0 = 0xE0 then 0xA0 else 0x80) ≤ b1 ∧ b1 ≤ (if b0 = 0xED then 0x9F else 0xBF))
    (h2 : 0x80 ≤ b2 ∧ b2 ≤ 0xBF) :
    DecodeRune (b0 :: b1 :: b2 :: tl) =
      ((((b0 - 0xE0) * 4096 + (b1 - 0x80) * 64 + (b2 - 0x80) : Nat) : Int), 3) := by
  have a1 : ¬ b0 < 0x80 := by omega
  have a2 : ¬ b0 < 0xC2 := by omega
  have a3 : ¬ b0 < 0xE0 := by omega
  have a4 : b0 < 0xF0 := by omega
  simp only [DecodeRune, a1, a2, a3, a4, h1, h2, if_true, if_false, and_self]

theorem DecodeRune_four (b0 b1 b2 b3 : Nat) (tl : List Nat) (h0 : 0xF0 ≤ b0 ∧ b0 < 0xF5)
    (h1 : (if b0 = 0xF0 then 0x90 else 0x80) ≤ b1 ∧ b1 ≤ (if b0 = 0xF4 then 0x8F else 0xBF))
    (h2 : 0x80 ≤ b2 ∧ b2 ≤ 0xBF) (h3 : 0x80 ≤ b3 ∧ b3 ≤ 0xBF) :
    DecodeRune (b0 :: b1 :: b2 :: b3 :: tl) =
      ((((b0 - 0xF0) * 262144 + (b1 - 0x80) * 4096 + (b2 - 0x80) * 64 + (b3 - 0x80) : Nat) : Int),
        4) := by
  have a1 : ¬ b0 < 0x80 := by omega
  have a2 : ¬ b0 < 0xC2 := by omega
  have a3 : ¬ b0 < 0xE0 := by omega
  have a4 : ¬ b0 < 0xF0 := by omega
  have a5 : b0 < 0xF5 := by omega
  simp only [DecodeRune, a1, a2, a3, a4, a5, h1, h2, h3, if_true, if_false, and_self]

/-- Decoding the encoding of a Unicode scalar value (at most U+10FFFF, no
surrogate) gives the value back and consumes exactly the encoding. -/
theorem DecodeRune_encodeRune (c : Nat) (tl : List Nat)
    (hmax : c ≤ 0x10FFFF) (hsur : ¬ (0xD800 ≤ c ∧ c ≤ 0xDFFF)) :
    DecodeRune (encodeRune (c : Int) ++ tl) = ((c : Int), (encodeRune (c : Int)).length) := by
  by_cases h1 : c ≤ 0x7F
  · have e : encodeRune (c : Int) = [c] := by
      unfold encodeRune
      split_ifs <;> first | (exfalso; omega) | simp
    rw [e]
    exact DecodeRune_ascii c tl (by omega)
  · by_cases h2 : c ≤ 0x7FF
    · have e : encodeRune (c : Int) = [0xC0 + c / 64, 0x80 + c % 64] := by
        unfold encodeRune
        split_ifs <;> first | (exfalso; omega) | simp
      rw [e]
      have := DecodeRune_two (0xC0 + c / 64) (0x80 + c % 64) tl (by omega) (by omega)
      simp only [List.cons_append, List.nil_append, List.length_cons, List.length_nil]
      rw [this]
      have harith : (0xC0 + c / 64 - 0xC0) * 64 + (0x80 + c % 64 - 0x80) = c := by omega
      rw [harith]
    · by_cases h3 : c ≤ 0xFFFF
      · have e : encodeRune (c : Int) = [0xE0 + c / 4096, 0x80 + c / 64 % 64, 0x80 + c % 64] := by
          unfold encodeRune
          split_ifs <;> first | (exfalso; omega) | simp
        rw [e]
        have := DecodeRune_three (0xE0 + c / 4096) (0x80 + c / 64 % 64) (0x80 + c % 64) tl
          (by omega) (by split <;> split <;> omega) (by omega)
        simp only [List.cons_append, List.nil_append, List.length_cons, List.length_nil]
        rw [this]
        have harith : (0xE0 + c / 4096 - 0xE0) * 4096 + (0x80 + c / 64 % 64 - 0x80) * 64 +
            (0x80 + c % 64 - 0x80) = c := by omega
        rw [harith]
      · have e : encodeRune (c : Int) =
            [0xF0 + c / 262144, 0x80 + c / 4096 % 64, 0x80 + c / 64 % 64, 0x80 + c % 64] := by
          unfold encodeRune
          split_ifs <;> first | (exfalso; omega) | simp
        rw [e]
        have := DecodeRune_four (0xF0 + c / 262144) (0x80 + c / 4096 % 64) (0x80 + c / 64 % 64)
          (0x80 + c % 64) tl (by omega) (by split <;> split <;> omega) (by omega) (by omega)
        simp only [List.cons_append, List.nil_append, List.length_cons, List.length_nil]
        rw [this]
        have harith : (0xF0 + c / 262144 - 0xF0) * 262144 + (0x80 + c / 4096 % 64 - 0x80) * 4096 +
            (0x80 + c / 64 % 64 - 0x80) * 64 + (0x80 + c % 64 - 0x80) = c := by omega
        rw [harith]

theorem encodeRune_length_pos (r : Int) : 0 < (encodeRune r).length := by
  unfold encodeRune
  split
  · simp
  · split
    · simp
    · split
      · simp
      · split <;> simp

/-! ## String scanning: one item at a time -/

theorem shiftLeft_four (v : Int) : v <<< (4 : Int) = v * 16 := by
  have := Int.shiftLeft_eq_mul_pow v 4
  simpa using this

theorem shiftLeft_ten (v : Int) : v <<< (10 : Int) = v * 1024 := by
  have := Int.shiftLeft_eq_mul_pow v 10
  simpa using this

theorem hexValue_lt {b x : Nat} (h : hexValue b = some x) : b < 128 ∧ x < 16 := by
  unfold hexValue at h
  split_ifs at h <;> simp at h <;> omega

theorem hexStep_of_hexValue {b x : Nat} (v : Int) (h : hexValue b = some x) :
    hexStep v (b : Int) = some (v * 16 + (x : Int)) := by
  unfold hexValue at h
  unfold hexStep
  rw [shiftLeft_four]
  split_ifs at h with h1 h2 h3
  · simp at h
    have : (48 : Int) ≤ (b : Int) ∧ (b : Int) ≤ 57 := by omega
    simp only [this, and_self, if_true, Option.some.injEq]
    omega
  · simp at h
    have n1 : ¬ ((48 : Int) ≤ (b : Int) ∧ (b : Int) ≤ 57) := by omega
    have : (97 : Int) ≤ (b : Int) ∧ (b : Int) ≤ 102 := by omega
    simp only [n1, this, and_self, if_true, if_false, Option.some.injEq]
    omega
  · simp at h
    have n1 : ¬ ((48 : Int) ≤ (b : Int) ∧ (b : Int) ≤ 57) := by omega
    have n2 : ¬ ((97 : Int) ≤ (b : Int) ∧ (b : Int) ≤ 102) := by omega
    have : (65 : Int) ≤ (b : Int) ∧ (b : Int) ≤ 70 := by omega
    simp only [n1, n2, this, and_self, if_true, if_false, Option.some.injEq]
    omega

theorem readHex_one {s : List Nat} {q w b x : Nat} {t : List Nat} (n : Nat) (v : Int)
    (hdrop : s.drop q = b :: t) (h : hexValue b = some x) :
    readHex (n + 1) v ⟨s, q, w⟩ = readHex n (v * 16 + (x : Int)) ⟨s, q + 1, 1⟩ := by
  have hlt := (hexValue_lt h).1
  simp only [readHex, next_ascii hdrop hlt, hexStep_of_hexValue v h]
  have : ¬ ((b : Int) = -1) := by omega
  simp [this]

theorem readHex_four {s : List Nat} {q w a b c d v : Nat} {t : List Nat}
    (hdrop : s.drop q = a :: b :: c :: d :: t) (h : hex4 a b c d = some v) :
    readHex 4 0 ⟨s, q, w⟩ = some ((v : Int), ⟨s, q + 4, 1⟩) := by
  unfold hex4 at h
  cases ha : hexValue a with
  | none => simp [ha] at h
  | some x =>
    cases hb : hexValue b with
    | none => simp [ha, hb] at h
    | some y =>
      cases hc : hexValue c with
      | none => simp [ha, hb, hc] at h
      | some z =>
        cases hd : hexValue d with
        | none => simp [ha, hb, hc, hd] at h
        | some u =>
          simp only [ha, hb, hc, hd, Option.some.injEq] at h
          have d1 := drop_succ_of_drop_cons hdrop
          have d2 := drop_succ_of_drop_cons d1
          have d3 := drop_succ_of_drop_cons d2
          rw [readHex_one 3 0 hdrop ha, readHex_one 2 _ d1 hb, readHex_one 1 _ d2 hc,
            readHex_one 0 _ d3 hd]
          simp only [readHex, Option.some.injEq, Prod.mk.injEq]
          refine ⟨?_, by simp [Nat.add_assoc]⟩
          subst h
          push_cast
          ring

theorem hex4_lt {a b c d v : Nat} (h : hex4 a b c d = some v) : v < 65536 := by
  unfold hex4 at h
  cases ha : hexValue a with
  | none => simp [ha] at h
  | some x =>
    cases hb : hexValue b with
    | none => simp [ha, hb] at h
    | some y =>
      cases hc : hexValue c with
      | none => simp [ha, hb, hc] at h
      | some z =>
        cases hd : hexValue d with
        | none => simp [ha, hb, hc, hd] at h
        | some u =>
          simp only [ha, hb, hc, hd, Option.some.injEq] at h
          have := (hexValue_lt ha).2
          have := (hexValue_lt hb).2
          have := (hexValue_lt hc).2
          have := (hexValue_lt hd).2
          omega

/-- The surrogate formula of `scanString` is the arithmetic one. -/
theorem combine_surrogates {h l : Nat} (hh : 0xD800 ≤ h ∧ h ≤ 0xDBFF)
    (hl : 0xDC00 ≤ l ∧ l ≤ 0xDFFF) :
    Int.lor (((h : Int) - 0xD800) <<< (10 : Int)) ((l : Int) - 0xDC00) + 0x10000 =
      ((0x10000 + (h - 0xD800) * 0x400 + (l - 0xDC00) : Nat) : Int) := by
  rw [shiftLeft_ten]
  have e1 : ((h : Int) - 0xD800) * 1024 = (((2 ^ 10 * (h - 0xD800) : Nat)) : Int) := by
    push_cast
    omega
  have e2 : ((l : Int) - 0xDC00) = (((l - 0xDC00 : Nat)) : Int) := by omega
  rw [e1, e2]
  have e3 : Int.lor ((2 ^ 10 * (h - 0xD800) : Nat) : Int) ((l - 0xDC00 : Nat) : Int) =
      (((2 ^ 10 * (h - 0xD800) ||| (l - 0xDC00) : Nat)) : Int) := rfl
  rw [e3, ← Nat.mul_add_lt_is_or (by omega : l - 0xDC00 < 2 ^ 10)]
  push_cast
  omega

theorem next_encoded {s : List Nat} {p w c : Nat} {tl : List Nat}
    (hdrop : s.drop p = encodeRune (c : Int) ++ tl) (hc : isScalar c = true) :
    lexer.next ⟨s, p, w⟩ =
      ((c : Int), ⟨s, p + (encodeRune (c : Int)).length, (encodeRune (c : Int)).length⟩) := by
  simp only [isScalar, decide_eq_true_eq] at hc
  have hpos := encodeRune_length_pos (c : Int)
  have hp : p < s.length := by
    cases h : encodeRune (c : Int) with
    | nil => rw [h] at hpos; simp at hpos
    | cons x t => rw [h] at hdrop; exact lt_length_of_drop_cons hdrop
  unfold lexer.next
  rw [if_neg (by simpa using hp)]
  simp only [hdrop, DecodeRune_encodeRune c tl hc.1 hc.2]

theorem scanStringStep_item {s : List Nat} {p w : Nat} (it : StringItem) {r : Int}
    {tl : List Nat} (out : List Int)
    (hdrop : s.drop p = it.text ++ tl) (hr : it.rune = some r) :
    ∃ w1, scanStringStep out ⟨s, p, w⟩ =
      StringStep.more (out ++ [r]) ⟨s, p + it.text.length, w1⟩ := by
  cases it with
  | raw c =>
    simp only [StringItem.rune] at hr
    split_ifs at hr with hc
    simp only [Option.some.injEq] at hr
    subst hr
    simp only [StringItem.text] at hdrop ⊢
    refine ⟨(encodeRune (c : Int)).length, ?_⟩
    unfold scanStringStep
    simp only [next_encoded hdrop hc.1]
    have n1 : ¬ ((c : Int) = -1) := by omega
    have n2 : ¬ ((c : Int) = 34) := by omega
    have n3 : ¬ ((c : Int) = 92) := by omega
    simp only [n1, n2, n3, if_false]
  | esc e =>
    simp only [StringItem.rune] at hr
    simp only [StringItem.text, List.cons_append, List.nil_append] at hdrop
    simp only [StringItem.text, List.length_cons, List.length_nil]
    have d1 := drop_succ_of_drop_cons hdrop
    have hn : lexer.next ⟨s, p, w⟩ = (((92 : Nat) : Int), ⟨s, p + 1, 1⟩) :=
      next_ascii hdrop (by decide)
    refine ⟨1, ?_⟩
    unfold escapeRune at hr
    unfold scanStringStep
    simp only [hn]
    split_ifs at hr <;> simp only [Option.some.injEq] at hr <;> subst hr <;> subst e <;>
      simp [next_ascii d1]
  | uni a b c d =>
    simp only [StringItem.rune] at hr
    simp only [StringItem.text, List.cons_append, List.nil_append] at hdrop
    simp only [StringItem.text, List.length_cons, List.length_nil]
    cases hv : hex4 a b c d with
    | none => simp [hv] at hr
    | some v =>
      simp only [hv] at hr
      split_ifs at hr with hs
      simp only [Option.some.injEq] at hr
      subst hr
      have d1 := drop_succ_of_drop_cons hdrop
      have d2 := drop_succ_of_drop_cons d1
      have hn : lexer.next ⟨s, p, w⟩ = (((92 : Nat) : Int), ⟨s, p + 1, 1⟩) :=
        next_ascii hdrop (by decide)
      have hu : lexer.next ⟨s, p + 1, 1⟩ = (((117 : Nat) : Int), ⟨s, p + 1 + 1, 1⟩) :=
        next_ascii d1 (by decide)
      have hx := readHex_four (w := 1) d2 hv
      refine ⟨1, ?_⟩
      unfold scanStringStep
      simp only [hn, hu]
      simp only [Nat.cast_ofNat, Int.reduceNeg, Int.reduceEq, if_false, if_true, or_self]
      unfold scanUnicodeEscape
      rw [hx]
      have n1 : ¬ ((0xD800 : Int) ≤ (v : Int) ∧ (v : Int) ≤ 0xDBFF) := by omega
      have n2 : ¬ ((0xDC00 : Int) ≤ (v : Int) ∧ (v : Int) ≤ 0xDFFF) := by omega
      simp only [n1, n2, if_false]
  | pair a b c d a1 b1 c1 d1 =>
    simp only [StringItem.rune] at hr
    simp only [StringItem.text, List.cons_append, List.nil_append] at hdrop
    simp only [StringItem.text, List.length_cons, List.length_nil]
    cases hv : hex4 a b c d with
    | none => simp [hv] at hr
    | some h =>
      cases hv1 : hex4 a1 b1 c1 d1 with
      | none => simp [hv, hv1] at hr
      | some l =>
        simp only [hv, hv1] at hr
        split_ifs at hr with hs
        simp only [Option.some.injEq] at hr
        subst hr
        have e1 := drop_succ_of_drop_cons hdrop
        have e2 := drop_succ_of_drop_cons e1
        have e6 : s.drop (p + 1 + 1 + 4) = 92 :: 117 :: a1 :: b1 :: c1 :: d1 :: tl :=
          drop_append_of_drop (a := [a, b, c, d]) (by simpa using e2)
        have e7 := drop_succ_of_drop_cons e6
        have e8 := drop_succ_of_drop_cons e7
        have hn : lexer.next ⟨s, p, w⟩ = (((92 : Nat) : Int), ⟨s, p + 1, 1⟩) :=
          next_ascii hdrop (by decide)
        have hu : lexer.next ⟨s, p + 1, 1⟩ = (((117 : Nat) : Int), ⟨s, p + 1 + 1, 1⟩) :=
          next_ascii e1 (by decide)
        have hx := readHex_four (w := 1) e2 hv
        have hn2 : lexer.next ⟨s, p + 1 + 1 + 4, 1⟩ =
            (((92 : Nat) : Int), ⟨s, p + 1 + 1 + 4 + 1, 1⟩) := next_ascii e6 (by decide)
        have hu2 : lexer.next ⟨s, p + 1 + 1 + 4 + 1, 1⟩ =
            (((117 : Nat) : Int), ⟨s, p + 1 + 1 + 4 + 1 + 1, 1⟩) := next_ascii e7 (by decide)
        have hx2 := readHex_four (w := 1) e8 hv1
        refine ⟨1, ?_⟩
        unfold scanStringStep
        simp only [hn, hu]
        simp only [Nat.cast_ofNat, Int.reduceNeg, Int.reduceEq, if_false, if_true, or_self]
        unfold scanUnicodeEscape
        rw [hx]
        have y1 : ((0xD800 : Int) ≤ (h : Int) ∧ (h : Int) ≤ 0xDBFF) := by omega
        have y2 : ¬ ((l : Int) < 0xDC00 ∨ (l : Int) > 0xDFFF) := by omega
        simp only [y1, and_self, if_true, hn2, hu2, Nat.cast_ofNat, ne_eq, not_true_eq_false,
          if_false, hx2, y2, combine_surrogates hs.1 hs.2]

theorem item_text_length_pos (it : StringItem) : 0 < it.text.length := by
  cases it with
  | raw c => exact encodeRune_length_pos _
  | esc e => simp [StringItem.text]
  | uni a b c d => simp [StringItem.text]
  | pair a b c d a1 b1 c1 d1 => simp [StringItem.text]

theorem items_length_le (items : List StringItem) :
    items.length ≤ (itemsText items).length := by
  induction items with
  | nil => simp
  | cons it rest ih =>
    have := item_text_length_pos it
    simp only [itemsText, List.map_cons, List.flatten_cons, List.length_cons,
      List.length_append] at ih ⊢
    omega

theorem stringOfRunes_append (a b : List Int) :
    stringOfRunes (a ++ b) = stringOfRunes a ++ stringOfRunes b := by
  simp [stringOfRunes]

theorem scanStringLoop_items {s : List Nat} (items : List StringItem) :
    ∀ (fuel p w : Nat) (out rs : List Int) (tl : List Nat),
      s.drop p = itemsText items ++ 34 :: tl → itemsRunes items = some rs →
      items.length < fuel →
      scanStringLoop fuel out ⟨s, p, w⟩ =
        Outcome.ok (stringOfRunes (out ++ rs), ⟨s, p + (itemsText items).length + 1, 1⟩) := by
  induction items with
  | nil =>
    intro fuel p w out rs tl hdrop hrs hf
    simp only [itemsText, List.map_nil, List.flatten_nil, List.nil_append, List.length_nil,
      Nat.add_zero] at hdrop ⊢
    simp only [itemsRunes, Option.some.injEq] at hrs
    subst hrs
    cases fuel with
    | zero => omega
    | succ f =>
      have hn : lexer.next ⟨s, p, w⟩ = (((34 : Nat) : Int), ⟨s, p + 1, 1⟩) :=
        next_ascii hdrop (by decide)
      simp [scanStringLoop, scanStringStep, hn]
  | cons it rest ih =>
    intro fuel p w out rs tl hdrop hrs hf
    simp only [itemsRunes] at hrs
    cases hr : it.rune with
    | none => simp [hr] at hrs
    | some r =>
      cases hrest : itemsRunes rest with
      | none => simp [hr, hrest] at hrs
      | some rs1 =>
        simp only [hr, hrest, Option.some.injEq] at hrs
        subst hrs
        cases fuel with
        | zero => omega
        | succ f =>
          have hd : s.drop p = it.text ++ (itemsText rest ++ 34 :: tl) := by
            simpa [itemsText] using hdrop
          obtain ⟨w1, hstep⟩ := scanStringStep_item (w := w) it out hd hr
          have hd2 : s.drop (p + it.text.length) = itemsText rest ++ 34 :: tl :=
            drop_append_of_drop hd
          simp only [scanStringLoop, hstep]
          rw [ih f (p + it.text.length) w1 (out ++ [r]) rs1 tl hd2 hrest
            (by simp at hf; omega)]
          simp [itemsText, Nat.add_assoc]

theorem skipWS_of_not_ws {l : lexer} (h : isWS l.peek = false) :
    l.skipWS = Outcome.ok l := by
  simp [lexer.skipWS, skipWSLoop, h]

theorem nextToken_eof {s : List Nat} {p w : Nat} (h : s.drop p = []) :
    lexer.nextToken ⟨s, p, w⟩ = Outcome.ok (⟨tokenType.tokEOF, []⟩, ⟨s, p, 0⟩) := by
  have hn : lexer.next ⟨s, p, w⟩ = (-1, ⟨s, p, 0⟩) := next_eof h
  unfold lexer.nextToken
  rw [skipWS_of_not_ws (by simp [lexer.peek, hn, isWS])]
  simp [hn]

theorem nextToken_string {s : List Nat} {p w : Nat} (items : List StringItem)
    {rs : List Int} {u : List Nat}
    (hdrop : s.drop p = 34 :: (itemsText items ++ 34 :: u))
    (hrs : itemsRunes items = some rs) :
    lexer.nextToken ⟨s, p, w⟩ =
      Outcome.ok (⟨tokenType.tokString, stringOfRunes rs⟩,
        ⟨s, p + 1 + (itemsText items).length + 1, 1⟩) := by
  have hn : lexer.next ⟨s, p, w⟩ = (((34 : Nat) : Int), ⟨s, p + 1, 1⟩) :=
    next_ascii hdrop (by decide)
  have d1 := drop_succ_of_drop_cons hdrop
  have hlen : p + 1 + (itemsText items).length < s.length := by
    have h1 : (s.drop (p + 1)).length = (itemsText items ++ 34 :: u).length := by rw [d1]
    simp at h1
    omega
  have hloop := scanStringLoop_items items (s.length - (p + 1) + 1) (p + 1) 1 [] rs u d1 hrs
    (by have := items_length_le items; omega)
  unfold lexer.nextToken
  rw [skipWS_of_not_ws (by simp [lexer.peek, hn, isWS])]
  simp only [hn]
  simp only [Nat.cast_ofNat, Int.reduceNeg, Int.reduceEq, if_false, if_true]
  simp only [lexer.scanString, hloop, List.nil_append]

theorem Parse_string (pf : List Nat → Option Float64) (items : List StringItem)
    {rs : List Int} (hrs : itemsRunes items = some rs) :
    Parse pf (34 :: (itemsText items ++ [34])) =
      Outcome.ok (Value.string (stringOfRunes rs)) := by
  have htok := nextToken_string (s := 34 :: (itemsText items ++ [34])) (p := 0) (w := 0)
    items (u := []) (by simp) hrs
  have hend : (34 :: (itemsText items ++ [34])).drop (0 + 1 + (itemsText items).length + 1)
      = [] := by
    apply List.drop_eq_nil_of_le
    simp
    omega
  have heof := nextToken_eof (w := 1) hend
  unfold Parse
  simp only [parseValue, parser.peek, newLexer, htok, parser.skip, parser.next, heof]
  simp

/-! ## The cursor only moves forward and stays inside the buffer -/

theorem DecodeRune_width (p : List Nat) (hp : p ≠ []) :
    1 ≤ (DecodeRune p).2 ∧ (DecodeRune p).2 ≤ p.length := by
  cases p with
  | nil => exact absurd rfl hp
  | cons p0 t =>
    rcases t with _ | ⟨b1, _ | ⟨b2, _ | ⟨b3, t3⟩⟩⟩ <;> simp only [DecodeRune] <;>
      split_ifs <;> simp

/-- A code point below 128 is decoded from the byte of the same value only. -/
theorem DecodeRune_ascii_inv (p : List Nat) {r : Int} (hr : (DecodeRune p).1 = r)
    (h128 : r < 128) : ∃ b t, p = b :: t ∧ (b : Int) = r ∧ b < 128 := by
  cases p with
  | nil => simp [DecodeRune, RuneError] at hr; omega
  | cons p0 t =>
    by_cases h1 : p0 < 128
    · refine ⟨p0, t, rfl, ?_, h1⟩
      simpa [DecodeRune, h1] using hr
    · exfalso
      rcases t with _ | ⟨b1, _ | ⟨b2, _ | ⟨b3, t3⟩⟩⟩ <;> simp only [DecodeRune] at hr <;>
        split_ifs at hr <;> simp only [RuneError] at hr <;> omega

theorem DecodeRune_nonneg (p : List Nat) : 0 ≤ (DecodeRune p).1 := by
  by_contra h
  obtain ⟨b, t, _, hb, _⟩ := DecodeRune_ascii_inv p rfl (by omega)
  omega

theorem next_src (l : lexer) : (l.next).2.src = l.src := by
  unfold lexer.next; split <;> rfl

theorem next_pos_ge (l : lexer) : l.pos ≤ (l.next).2.pos := by
  unfold lexer.next; split <;> simp

theorem next_ge_neg_one (l : lexer) : -1 ≤ (l.next).1 := by
  unfold lexer.next
  split
  · simp
  · have := DecodeRune_nonneg (l.src.drop l.pos)
    simp only
    omega

theorem next_pos_gt (l : lexer) (h : (l.next).1 ≠ -1) :
    l.pos < (l.next).2.pos ∧ (l.next).2.pos ≤ l.src.length := by
  unfold lexer.next at h ⊢
  split
  · rename_i hge; simp [hge] at h
  · rename_i hlt
    have hne : l.src.drop l.pos ≠ [] := by
      simp [List.drop_eq_nil_iff]; omega
    have := DecodeRune_width _ hne
    simp only [List.length_drop] at this
    simp only
    omega

theorem next_pos_le (l : lexer) (h : l.pos ≤ l.src.length) :
    (l.next).2.pos ≤ l.src.length := by
  unfold lexer.next
  split
  · simpa using h
  · rename_i hlt
    have hne : l.src.drop l.pos ≠ [] := by
      simp [List.drop_eq_nil_iff]; omega
    have := DecodeRune_width _ hne
    simp only [List.length_drop] at this
    simp only
    omega

theorem next_eq_neg_one_iff (l : lexer) : (l.next).1 = -1 ↔ l.src.length ≤ l.pos := by
  unfold lexer.next
  split
  · rename_i h; simp; omega
  · rename_i h
    have := DecodeRune_nonneg (l.src.drop l.pos)
    simp only
    constructor
    · intro h1; omega
    · intro h1; omega

/-- What a code point below 128 read by `next` says about the buffer. -/
theorem next_ascii_inv (l : lexer) {r : Int} (hr : (l.next).1 = r) (h0 : r ≠ -1)
    (h128 : r < 128) :
    ∃ b t, l.src.drop l.pos = b :: t ∧ (b : Int) = r ∧ b < 128 ∧
      l.next = ((b : Int), ⟨l.src, l.pos + 1, 1⟩) := by
  have hlt : ¬ l.src.length ≤ l.pos := by
    rw [← next_eq_neg_one_iff]; rw [hr]; exact h0
  have hd : (DecodeRune (l.src.drop l.pos)).1 = r := by
    unfold lexer.next at hr
    rw [if_neg (by omega)] at hr
    exact hr
  obtain ⟨b, t, hbt, hb, hb128⟩ := DecodeRune_ascii_inv _ hd h128
  refine ⟨b, t, hbt, hb, hb128, ?_⟩
  cases l with
  | mk s p w => exact next_ascii hbt hb128

theorem Adv.refl (l : lexer) : Adv l l := ⟨rfl, le_refl _, fun h => h⟩

theorem Adv.trans {a b c : lexer} (h1 : Adv a b) (h2 : Adv b c) : Adv a c := by
  obtain ⟨s1, p1, w1⟩ := h1
  obtain ⟨s2, p2, w2⟩ := h2
  refine ⟨s2.trans s1, le_trans p1 p2, fun h => ?_⟩
  have := w1 h
  rw [s1] at w2
  exact w2 this

theorem Adv_next (l : lexer) : Adv l (l.next).2 :=
  ⟨next_src l, next_pos_ge l, next_pos_le l⟩

/-! ## The scanner's loops end within their budget -/

theorem skipWSLoop_ok : ∀ (fuel : Nat) (l : lexer), l.src.length - l.pos < fuel →
    ∃ l1, skipWSLoop fuel l = Outcome.ok l1 ∧ Adv l l1 ∧ isWS l1.peek = false := by
  intro fuel
  induction fuel with
  | zero => intro l h; omega
  | succ f ih =>
    intro l h
    simp only [skipWSLoop]
    by_cases hws : isWS l.peek = true
    · rw [if_pos hws]
      have hne : (l.next).1 ≠ -1 := by
        intro hc
        simp [lexer.peek, hc, isWS] at hws
      have hgt := next_pos_gt l hne
      obtain ⟨l1, h1, h2, h3⟩ := ih (l.next).2 (by rw [next_src]; omega)
      exact ⟨l1, h1, (Adv_next l).trans h2, h3⟩
    · rw [if_neg hws]
      exact ⟨l, rfl, Adv.refl l, by simpa using hws⟩

theorem skipWS_ok (l : lexer) :
    ∃ l1, l.skipWS = Outcome.ok l1 ∧ Adv l l1 ∧ isWS l1.peek = false :=
  skipWSLoop_ok _ l (by omega)

theorem matchSeq_adv (seq : List Nat) : ∀ l : lexer, Adv l (l.matchSeq seq).2 := by
  induction seq with
  | nil => intro l; exact Adv.refl l
  | cons c cs ih =>
    intro l
    simp only [lexer.matchSeq]
    split
    · exact Adv_next l
    · exact (Adv_next l).trans (ih _)

theorem readHex_adv : ∀ (n : Nat) (v : Int) (l : lexer) (v1 : Int) (l1 : lexer),
    readHex n v l = some (v1, l1) → Adv l l1 := by
  intro n
  induction n with
  | zero =>
    intro v l v1 l1 h
    simp only [readHex, Option.some.injEq, Prod.mk.injEq] at h
    rw [← h.2]; exact Adv.refl l
  | succ n ih =>
    intro v l v1 l1 h
    simp only [readHex] at h
    split_ifs at h
    cases hs : hexStep v (l.next).1 with
    | none => simp [hs] at h
    | some v2 =>
      simp only [hs] at h
      exact (Adv_next l).trans (ih _ _ _ _ h)

theorem scanUnicodeEscape_adv {out : List Int} {l : lexer} {out1 : List Int} {l1 : lexer}
    (h : scanUnicodeEscape out l = StringStep.more out1 l1) : Adv l l1 := by
  unfold scanUnicodeEscape at h
  cases h1 : readHex 4 0 l with
  | none => simp [h1] at h
  | some x =>
    obtain ⟨v, la⟩ := x
    have a1 := readHex_adv _ _ _ _ _ h1
    simp only [h1] at h
    split_ifs at h with c1 c2 c3 c4
    · cases h2 : readHex 4 0 (la.next).2.next.2 with
      | none => simp [h2] at h
      | some y =>
        obtain ⟨low, lb⟩ := y
        have a2 := readHex_adv _ _ _ _ _ h2
        simp only [h2] at h
        split_ifs at h
        simp only [StringStep.more.injEq] at h
        rw [← h.2]
        exact a1.trans ((Adv_next _).trans ((Adv_next _).trans a2))
    · simp only [StringStep.more.injEq] at h
      rw [← h.2]; exact a1

theorem scanUnicodeEscape_not_done (out : List Int) (l l1 : lexer) :
    scanUnicodeEscape out l ≠ StringStep.done l1 := by
  unfold scanUnicodeEscape
  cases h1 : readHex 4 0 l with
  | none => simp
  | some x =>
    obtain ⟨v, la⟩ := x
    simp only
    split_ifs
    · simp
    · simp
    · cases h2 : readHex 4 0 (la.next).2.next.2 with
      | none => simp
      | some y =>
        obtain ⟨low, lb⟩ := y
        simp only
        split_ifs <;> simp
    · simp
    · simp

theorem escape_switch_more {out : List Int} {e : Int} {lm : lexer} {X : StringStep}
    {out1 : List Int} {l1 : lexer}
    (h : (if e = 34 ∨ e = 92 ∨ e = 47 then StringStep.more (out ++ [e]) lm
        else if e = 98 then StringStep.more (out ++ [8]) lm
        else if e = 102 then StringStep.more (out ++ [12]) lm
        else if e = 110 then StringStep.more (out ++ [10]) lm
        else if e = 114 then StringStep.more (out ++ [13]) lm
        else if e = 116 then StringStep.more (out ++ [9]) lm
        else if e = 117 then X
        else StringStep.fail (Err.invalidEscape e)) = StringStep.more out1 l1) :
    l1 = lm ∨ (e = 117 ∧ X = StringStep.more out1 l1) := by
  by_cases c1 : e = 34 ∨ e = 92 ∨ e = 47
  · rw [if_pos c1] at h; injection h with h1 h2; exact Or.inl h2.symm
  rw [if_neg c1] at h
  by_cases c2 : e = 98
  · rw [if_pos c2] at h; injection h with h1 h2; exact Or.inl h2.symm
  rw [if_neg c2] at h
  by_cases c3 : e = 102
  · rw [if_pos c3] at h; injection h with h1 h2; exact Or.inl h2.symm
  rw [if_neg c3] at h
  by_cases c4 : e = 110
  · rw [if_pos c4] at h; injection h with h1 h2; exact Or.inl h2.symm
  rw [if_neg c4] at h
  by_cases c5 : e = 114
  · rw [if_pos c5] at h; injection h with h1 h2; exact Or.inl h2.symm
  rw [if_neg c5] at h
  by_cases c6 : e = 116
  · rw [if_pos c6] at h; injection h with h1 h2; exact Or.inl h2.symm
  rw [if_neg c6] at h
  by_cases c7 : e = 117
  · rw [if_pos c7] at h; exact Or.inr ⟨c7, h⟩
  rw [if_neg c7] at h
  injection h

theorem scanStringStep_more {out : List Int} {l : lexer} {out1 : List Int} {l1 : lexer}
    (h : scanStringStep out l = StringStep.more out1 l1) :
    Adv l l1 ∧ l.pos < l1.pos := by
  have a := Adv_next l
  have g := next_pos_gt l
  have b := Adv_next (l.next).2
  simp only [scanStringStep] at h
  generalize (l.next).2.next = m at h b
  generalize l.next = n at h a g b
  obtain ⟨r, ln⟩ := n
  obtain ⟨e, lm⟩ := m
  simp only at h a g b
  have hb := b.2.1
  by_cases c1 : r = -1
  · rw [if_pos c1] at h; injection h
  rw [if_neg c1] at h
  have g1 := (g c1).1
  by_cases c2 : r = 34
  · rw [if_pos c2] at h; injection h
  rw [if_neg c2] at h
  by_cases c3 : r = 92
  · rw [if_pos c3] at h
    rcases escape_switch_more h with h1 | ⟨_, h2⟩
    · subst h1
      exact ⟨a.trans b, by omega⟩
    · have c := scanUnicodeEscape_adv h2
      exact ⟨a.trans (b.trans c), by have := c.2.1; omega⟩
  · rw [if_neg c3] at h
    injection h with h1 h2
    subst h2
    exact ⟨a, g1⟩

theorem escape_switch_not_done {out : List Int} {e : Int} {lm l1 : lexer} :
    (if e = 34 ∨ e = 92 ∨ e = 47 then StringStep.more (out ++ [e]) lm
        else if e = 98 then StringStep.more (out ++ [8]) lm
        else if e = 102 then StringStep.more (out ++ [12]) lm
        else if e = 110 then StringStep.more (out ++ [10]) lm
        else if e = 114 then StringStep.more (out ++ [13]) lm
        else if e = 116 then StringStep.more (out ++ [9]) lm
        else if e = 117 then scanUnicodeEscape out lm
        else StringStep.fail (Err.invalidEscape e)) ≠ StringStep.done l1 := by
  intro h
  by_cases c1 : e = 34 ∨ e = 92 ∨ e = 47
  · rw [if_pos c1] at h; injection h
  rw [if_neg c1] at h
  by_cases c2 : e = 98
  · rw [if_pos c2] at h; injection h
  rw [if_neg c2] at h
  by_cases c3 : e = 102
  · rw [if_pos c3] at h; injection h
  rw [if_neg c3] at h
  by_cases c4 : e = 110
  · rw [if_pos c4] at h; injection h
  rw [if_neg c4] at h
  by_cases c5 : e = 114
  · rw [if_pos c5] at h; injection h
  rw [if_neg c5] at h
  by_cases c6 : e = 116
  · rw [if_pos c6] at h; injection h
  rw [if_neg c6] at h
  by_cases c7 : e = 117
  · rw [if_pos c7] at h; exact scanUnicodeEscape_not_done _ _ _ h
  rw [if_neg c7] at h
  injection h

theorem scanStringStep_done {out : List Int} {l l1 : lexer}
    (h : scanStringStep out l = StringStep.done l1) :
    (l.next).1 = 34 ∧ l1 = (l.next).2 ∧ Adv l l1 ∧ l.pos < l1.pos := by
  have a := Adv_next l
  have g := next_pos_gt l
  simp only [scanStringStep] at h
  generalize (l.next).2.next = m at h
  generalize l.next = n at h a g
  obtain ⟨r, ln⟩ := n
  obtain ⟨e, lm⟩ := m
  simp only at h a g
  by_cases c1 : r = -1
  · rw [if_pos c1] at h; injection h
  rw [if_neg c1] at h
  by_cases c2 : r = 34
  · rw [if_pos c2] at h
    injection h with h1
    subst h1
    exact ⟨c2, rfl, a, (g c1).1⟩
  rw [if_neg c2] at h
  by_cases c3 : r = 92
  · rw [if_pos c3] at h
    exact absurd h escape_switch_not_done
  · rw [if_neg c3] at h
    injection h

theorem scanStringStep_eof {out : List Int} {l : lexer} (h : l.src.length ≤ l.pos) :
    scanStringStep out l = StringStep.fail Err.unterminatedString := by
  have : (l.next).1 = -1 := (next_eq_neg_one_iff l).2 h
  simp only [scanStringStep]
  rw [if_pos this]

theorem scanStringLoop_ok : ∀ (fuel : Nat) (out : List Int) (l : lexer),
    l.src.length - l.pos < fuel →
    (∃ e, scanStringLoop fuel out l = Outcome.error e) ∨
    (∃ x l1, scanStringLoop fuel out l = Outcome.ok (x, l1) ∧ Adv l l1 ∧ l.pos < l1.pos) := by
  intro fuel
  induction fuel with
  | zero => intro out l h; omega
  | succ f ih =>
    intro out l h
    simp only [scanStringLoop]
    cases hs : scanStringStep out l with
    | done l1 =>
      right
      exact ⟨_, l1, rfl, (scanStringStep_done hs).2.2⟩
    | fail e => left; exact ⟨e, rfl⟩
    | more out1 l1 =>
      obtain ⟨a, g⟩ := scanStringStep_more hs
      simp only
      have hlt : l.pos < l.src.length := by
        by_contra hc
        rw [scanStringStep_eof (by omega)] at hs
        cases hs
      rcases ih out1 l1 (by rw [a.1]; have := a.2.2 (by omega); omega) with ⟨e, he⟩ | ⟨x, l2, h2, a2, g2⟩
      · left; exact ⟨e, he⟩
      · right; exact ⟨x, l2, h2, a.trans a2, by omega⟩

theorem scanStringLoop_error_or_ok (l : lexer) :
    (∃ e, l.scanString = Outcome.error e) ∨
    (∃ x l1, l.scanString = Outcome.ok (x, l1) ∧ Adv l l1 ∧ l.pos < l1.pos) :=
  scanStringLoop_ok _ [] l (by omega)

theorem scanDigits_ok : ∀ (fuel : Nat) (l : lexer), l.src.length - l.pos < fuel →
    ∃ lp, scanDigits fuel l = Outcome.ok (lp.next) ∧ Adv l lp ∧ isDigit (lp.next).1 = false := by
  intro fuel
  induction fuel with
  | zero => intro l h; omega
  | succ f ih =>
    intro l h
    simp only [scanDigits]
    by_cases hd : isDigit (l.next).1 = true
    · rw [if_pos hd]
      have hne : (l.next).1 ≠ -1 := by
        intro hc
        rw [hc] at hd
        simp [isDigit] at hd
      have hgt := next_pos_gt l hne
      obtain ⟨lp, h1, h2, h3⟩ := ih (l.next).2 (by rw [next_src]; omega)
      exact ⟨lp, h1, (Adv_next l).trans h2, h3⟩
    · rw [if_neg hd]
      exact ⟨l, rfl, Adv.refl l, by simpa using hd⟩

theorem Adv_backup_next {a lq : lexer} (h : Adv a lq) : Adv a (lq.next).2.backup := by
  obtain ⟨h1, h2, h3⟩ := h
  refine ⟨?_, ?_, ?_⟩
  · rw [backup_next_src]; exact h1
  · rw [backup_next_pos]; exact h2
  · rw [backup_next_pos]; exact h3

theorem Adv_length {a b : lexer} (h : Adv a b) :
    b.src.length - b.pos ≤ a.src.length - a.pos := by
  obtain ⟨h1, h2, _⟩ := h
  rw [h1]; omega

/-- The exponent part of `scanNumber`, entered with the code point read last
from `lp`, ends within the budget and leaves the cursor no further back. -/
theorem scanExponent_spec (fuel start : Nat) (lp : lexer)
    (hf : lp.src.length - lp.pos < fuel) :
    scanExponent fuel start (lp.next).1 (lp.next).2 ≠ Outcome.timeout ∧
    ∀ x l1, scanExponent fuel start (lp.next).1 (lp.next).2 = Outcome.ok (x, l1) → Adv lp l1 := by
  simp only [scanExponent]
  by_cases c : (lp.next).1 = 101 ∨ (lp.next).1 = 69
  · rw [if_pos c]
    have a0 := Adv_next lp
    have key : ∀ lq : lexer, Adv lp lq →
        (if ¬ isDigit (lq.next).1 = true then Outcome.error Err.invalidExponent
          else match scanDigits fuel (lq.next).2 with
            | Outcome.ok (_, l2) =>
              Outcome.ok (List.take (l2.backup.pos - start) (List.drop start l2.backup.src),
                l2.backup)
            | Outcome.error e => Outcome.error e
            | Outcome.timeout => Outcome.timeout) ≠ Outcome.timeout ∧
        ∀ x l1, (if ¬ isDigit (lq.next).1 = true then Outcome.error Err.invalidExponent
          else match scanDigits fuel (lq.next).2 with
            | Outcome.ok (_, l2) =>
              Outcome.ok (List.take (l2.backup.pos - start) (List.drop start l2.backup.src),
                l2.backup)
            | Outcome.error e => Outcome.error e
            | Outcome.timeout => Outcome.timeout) = Outcome.ok (x, l1) → Adv lp l1 := by
      intro lq hq
      by_cases hd : ¬ isDigit (lq.next).1 = true
      · rw [if_pos hd]
        exact ⟨by simp, by intro x l1 h; cases h⟩
      · rw [if_neg hd]
        have a1 := hq.trans (Adv_next lq)
        obtain ⟨lr, h1, h2, _⟩ := scanDigits_ok fuel (lq.next).2
          (by have := Adv_length a1; omega)
        rw [h1]
        refine ⟨by simp, ?_⟩
        intro x l1 h
        simp only [Outcome.ok.injEq, Prod.mk.injEq] at h
        rw [← h.2]
        exact Adv_backup_next (a1.trans h2)
    by_cases cs : ((lp.next).2.next).1 = 43 ∨ ((lp.next).2.next).1 = 45
    · simp only [cs, if_true]
      exact key (lp.next).2.next.2 (a0.trans (Adv_next _))
    · simp only [cs, if_false]
      exact key (lp.next).2 a0
  · rw [if_neg c]
    refine ⟨by simp, ?_⟩
    intro x l1 h
    simp only [Outcome.ok.injEq, Prod.mk.injEq] at h
    rw [← h.2]
    exact Adv_backup_next (Adv.refl lp)

theorem scanFraction_spec (fuel start : Nat) (lp : lexer)
    (hf : lp.src.length - lp.pos < fuel) :
    scanFraction fuel start (lp.next).1 (lp.next).2 ≠ Outcome.timeout ∧
    ∀ x l1, scanFraction fuel start (lp.next).1 (lp.next).2 = Outcome.ok (x, l1) → Adv lp l1 := by
  simp only [scanFraction]
  by_cases c : (lp.next).1 = 46
  · rw [if_pos c]
    by_cases hd : ¬ isDigit ((lp.next).2.next).1 = true
    · rw [if_pos hd]
      exact ⟨by simp, by intro x l1 h; cases h⟩
    · rw [if_neg hd]
      have a1 := (Adv_next lp).trans (Adv_next (lp.next).2)
      obtain ⟨lr, h1, h2, _⟩ := scanDigits_ok fuel (lp.next).2.next.2
        (by have := Adv_length a1; omega)
      rw [h1]
      simp only
      have a2 := a1.trans h2
      obtain ⟨e1, e2⟩ := scanExponent_spec fuel start lr (by have := Adv_length a2; omega)
      exact ⟨e1, fun x l1 h => a2.trans (e2 x l1 h)⟩
  · rw [if_neg c]
    exact scanExponent_spec fuel start lp hf

theorem scanNumber_spec (l : lexer) :
    l.scanNumber ≠ Outcome.timeout ∧
    ∀ x l1, l.scanNumber = Outcome.ok (x, l1) → Adv l l1 := by
  have key : ∀ lq : lexer, Adv l lq →
      (if (lq.next).1 = -1 then Outcome.error Err.invalidNumber
        else if (lq.next).1 = 48 then
          scanFraction (l.src.length - l.pos + 1) l.pos (lq.next).1 (lq.next).2
        else if 49 ≤ (lq.next).1 ∧ (lq.next).1 ≤ 57 then
          match scanDigits (l.src.length - l.pos + 1) (lq.next).2 with
          | Outcome.ok (r1, l1) => scanFraction (l.src.length - l.pos + 1) l.pos r1 l1
          | Outcome.error e => Outcome.error e
          | Outcome.timeout => Outcome.timeout
        else Outcome.error Err.invalidNumber) ≠ Outcome.timeout ∧
      ∀ x l1, (if (lq.next).1 = -1 then Outcome.error Err.invalidNumber
        else if (lq.next).1 = 48 then
          scanFraction (l.src.length - l.pos + 1) l.pos (lq.next).1 (lq.next).2
        else if 49 ≤ (lq.next).1 ∧ (lq.next).1 ≤ 57 then
          match scanDigits (l.src.length - l.pos + 1) (lq.next).2 with
          | Outcome.ok (r1, l1) => scanFraction (l.src.length - l.pos + 1) l.pos r1 l1
          | Outcome.error e => Outcome.error e
          | Outcome.timeout => Outcome.timeout
        else Outcome.error Err.invalidNumber) = Outcome.ok (x, l1) → Adv l l1 := by
    intro lq hq
    by_cases c1 : (lq.next).1 = -1
    · rw [if_pos c1]
      exact ⟨by simp, by intro x l1 h; cases h⟩
    rw [if_neg c1]
    by_cases c2 : (lq.next).1 = 48
    · rw [if_pos c2]
      obtain ⟨e1, e2⟩ := scanFraction_spec (l.src.length - l.pos + 1) l.pos lq
        (by have := Adv_length hq; omega)
      exact ⟨e1, fun x l1 h => hq.trans (e2 x l1 h)⟩
    rw [if_neg c2]
    by_cases c3 : 49 ≤ (lq.next).1 ∧ (lq.next).1 ≤ 57
    · rw [if_pos c3]
      have a1 := hq.trans (Adv_next lq)
      obtain ⟨lr, h1, h2, _⟩ := scanDigits_ok (l.src.length - l.pos + 1) (lq.next).2
        (by have := Adv_length a1; omega)
      rw [h1]
      simp only
      have a2 := a1.trans h2
      obtain ⟨e1, e2⟩ := scanFraction_spec (l.src.length - l.pos + 1) l.pos lr
        (by have := Adv_length a2; omega)
      exact ⟨e1, fun x l1 h => a2.trans (e2 x l1 h)⟩
    · rw [if_neg c3]
      exact ⟨by simp, by intro x l1 h; cases h⟩
  simp only [lexer.scanNumber]
  by_cases c : (l.next).1 = 45
  · simp only [c, if_true]
    exact key (l.next).2 (Adv_next l)
  · simp only [c, if_false]
    exact key l (Adv.refl l)

/-- The part of `nextToken` behind `skipWS`, as a function of the state
`skipWS` left. -/
theorem nextToken_eq (l : lexer) :
    ∃ l0, l.skipWS = Outcome.ok l0 ∧ Adv l l0 ∧ isWS l0.peek = false ∧
      l.nextToken =
        (if (l0.next).1 = -1 then Outcome.ok (⟨tokenType.tokEOF, []⟩, (l0.next).2)
        else if (l0.next).1 = 123 then Outcome.ok (⟨tokenType.tokLBrace, []⟩, (l0.next).2)
        else if (l0.next).1 = 125 then Outcome.ok (⟨tokenType.tokRBrace, []⟩, (l0.next).2)
        else if (l0.next).1 = 91 then Outcome.ok (⟨tokenType.tokLBracket, []⟩, (l0.next).2)
        else if (l0.next).1 = 93 then Outcome.ok (⟨tokenType.tokRBracket, []⟩, (l0.next).2)
        else if (l0.next).1 = 58 then Outcome.ok (⟨tokenType.tokColon, []⟩, (l0.next).2)
        else if (l0.next).1 = 44 then Outcome.ok (⟨tokenType.tokComma, []⟩, (l0.next).2)
        else if (l0.next).1 = 34 then
          match (l0.next).2.scanString with
          | Outcome.ok (s, l2) => Outcome.ok (⟨tokenType.tokString, s⟩, l2)
          | Outcome.error e => Outcome.error e
          | Outcome.timeout => Outcome.timeout
        else if (l0.next).1 = 116 then
          if ((l0.next).2.matchSeq [114, 117, 101]).1 then
            Outcome.ok (⟨tokenType.tokTrue, []⟩, ((l0.next).2.matchSeq [114, 117, 101]).2)
          else Outcome.error (Err.unexpectedCharacter (l0.next).1)
        else if (l0.next).1 = 102 then
          if ((l0.next).2.matchSeq [97, 108, 115, 101]).1 then
            Outcome.ok (⟨tokenType.tokFalse, []⟩, ((l0.next).2.matchSeq [97, 108, 115, 101]).2)
          else Outcome.error (Err.unexpectedCharacter (l0.next).1)
        else if (l0.next).1 = 110 then
          if ((l0.next).2.matchSeq [117, 108, 108]).1 then
            Outcome.ok (⟨tokenType.tokNull, []⟩, ((l0.next).2.matchSeq [117, 108, 108]).2)
          else Outcome.error (Err.unexpectedCharacter (l0.next).1)
        else if (l0.next).1 = 45 ∨ (48 ≤ (l0.next).1 ∧ (l0.next).1 ≤ 57) then
          match (l0.next).2.backup.scanNumber with
          | Outcome.ok (num, l2) => Outcome.ok (⟨tokenType.tokNumber, num⟩, l2)
          | Outcome.error e => Outcome.error e
          | Outcome.timeout => Outcome.timeout
        else Outcome.error (Err.unexpectedCharacter (l0.next).1)) := by
  obtain ⟨l0, h1, h2, h3⟩ := skipWS_ok l
  refine ⟨l0, h1, h2, h3, ?_⟩
  simp only [lexer.nextToken, h1]

theorem nextToken_spec (l : lexer) :
    l.nextToken ≠ Outcome.timeout ∧
    ∀ t l1, l.nextToken = Outcome.ok (t, l1) →
      Adv l l1 ∧ (t.typ ≠ tokenType.tokEOF → t.typ ≠ tokenType.tokNumber → l.pos < l1.pos) := by
  obtain ⟨l0, _, a0, _, heq⟩ := nextToken_eq l
  rw [heq]
  have a1 := Adv_next l0
  have g := next_pos_gt l0
  have hs := scanStringLoop_error_or_ok (l0.next).2
  have hm1 := matchSeq_adv [114, 117, 101] (l0.next).2
  have hm2 := matchSeq_adv [97, 108, 115, 101] (l0.next).2
  have hm3 := matchSeq_adv [117, 108, 108] (l0.next).2
  have hnum := scanNumber_spec (l0.next).2.backup
  have hb : Adv l0 (l0.next).2.backup := Adv_backup_next (Adv.refl l0)
  generalize (l0.next).2.matchSeq [114, 117, 101] = m1 at hm1 ⊢
  generalize (l0.next).2.matchSeq [97, 108, 115, 101] = m2 at hm2 ⊢
  generalize (l0.next).2.matchSeq [117, 108, 108] = m3 at hm3 ⊢
  generalize (l0.next).2.scanString = ss at hs ⊢
  generalize (l0.next).2.backup.scanNumber = sn at hnum ⊢
  generalize (l0.next).2.backup = lb at hb hnum ⊢
  generalize l0.next = n at a1 g hs hm1 hm2 hm3 ⊢
  obtain ⟨r, ln⟩ := n
  simp only at a1 g hs hm1 hm2 hm3 ⊢
  have single : ∀ tt : tokenType, r ≠ -1 →
      (Outcome.ok ((⟨tt, []⟩ : token), ln) ≠ Outcome.timeout ∧
      ∀ t l1, Outcome.ok ((⟨tt, []⟩ : token), ln) = Outcome.ok (t, l1) →
        Adv l l1 ∧ (t.typ ≠ tokenType.tokEOF → t.typ ≠ tokenType.tokNumber → l.pos < l1.pos)) := by
    intro tt hr
    refine ⟨by simp, ?_⟩
    intro t l1 h
    simp only [Outcome.ok.injEq, Prod.mk.injEq] at h
    rw [← h.2]
    exact ⟨a0.trans a1, fun _ _ => by have := (g hr).1; have := a0.2.1; omega⟩
  have kw : ∀ (tt : tokenType) (m : Bool × lexer), Adv ln m.2 → r ≠ -1 →
      ((if m.1 = true then Outcome.ok ((⟨tt, []⟩ : token), m.2)
        else Outcome.error (Err.unexpectedCharacter r)) ≠ Outcome.timeout ∧
      ∀ t l1, (if m.1 = true then Outcome.ok ((⟨tt, []⟩ : token), m.2)
        else Outcome.error (Err.unexpectedCharacter r)) = Outcome.ok (t, l1) →
        Adv l l1 ∧ (t.typ ≠ tokenType.tokEOF → t.typ ≠ tokenType.tokNumber → l.pos < l1.pos)) := by
    intro tt m hm hr
    by_cases c : m.1 = true
    · rw [if_pos c]
      refine ⟨by simp, ?_⟩
      intro t l1 h
      simp only [Outcome.ok.injEq, Prod.mk.injEq] at h
      rw [← h.2]
      exact ⟨a0.trans (a1.trans hm),
        fun _ _ => by have := (g hr).1; have := a0.2.1; have := hm.2.1; omega⟩
    · rw [if_neg c]
      exact ⟨by simp, by intro t l1 h; cases h⟩
  by_cases c1 : r = -1
  · rw [if_pos c1]
    refine ⟨by simp, ?_⟩
    intro t l1 h
    simp only [Outcome.ok.injEq, Prod.mk.injEq] at h
    rw [← h.2, ← h.1]
    exact ⟨a0.trans a1, fun hh => absurd rfl hh⟩
  rw [if_neg c1]
  by_cases c2 : r = 123
  · rw [if_pos c2]; exact single _ c1
  rw [if_neg c2]
  by_cases c3 : r = 125
  · rw [if_pos c3]; exact single _ c1
  rw [if_neg c3]
  by_cases c4 : r = 91
  · rw [if_pos c4]; exact single _ c1
  rw [if_neg c4]
  by_cases c5 : r = 93
  · rw [if_pos c5]; exact single _ c1
  rw [if_neg c5]
  by_cases c6 : r = 58
  · rw [if_pos c6]; exact single _ c1
  rw [if_neg c6]
  by_cases c7 : r = 44
  · rw [if_pos c7]; exact single _ c1
  rw [if_neg c7]
  by_cases c8 : r = 34
  · rw [if_pos c8]
    rcases hs with ⟨e, he⟩ | ⟨x, l2, h2, a2, g2⟩
    · rw [he]
      exact ⟨by simp, by intro t l1 h; cases h⟩
    · rw [h2]
      refine ⟨by simp, ?_⟩
      intro t l1 h
      simp only [Outcome.ok.injEq, Prod.mk.injEq] at h
      rw [← h.2]
      exact ⟨a0.trans (a1.trans a2),
        fun _ _ => by have := a1.2.1; have := a0.2.1; omega⟩
  rw [if_neg c8]
  by_cases c9 : r = 116
  · rw [if_pos c9]; exact kw _ m1 hm1 c1
  rw [if_neg c9]
  by_cases c10 : r = 102
  · rw [if_pos c10]; exact kw _ m2 hm2 c1
  rw [if_neg c10]
  by_cases c11 : r = 110
  · rw [if_pos c11]; exact kw _ m3 hm3 c1
  rw [if_neg c11]
  by_cases c12 : r = 45 ∨ (48 ≤ r ∧ r ≤ 57)
  · rw [if_pos c12]
    obtain ⟨n1, n2⟩ := hnum
    cases sn with
    | timeout => exact absurd rfl n1
    | error e => exact ⟨by simp, by intro t l1 h; cases h⟩
    | ok y =>
      obtain ⟨num, l2⟩ := y
      refine ⟨by simp, ?_⟩
      intro t l1 h
      simp only [Outcome.ok.injEq, Prod.mk.injEq] at h
      rw [← h.2, ← h.1]
      exact ⟨a0.trans (hb.trans (n2 num l2 rfl)), fun _ hh => absurd rfl hh⟩
  · rw [if_neg c12]
    exact ⟨by simp, by intro t l1 h; cases h⟩

/-! ## Lone surrogates -/

theorem hexStep_inv {v h v1 : Int} (hs : hexStep v h = some v1) :
    0 ≤ h ∧ h < 128 ∧ ∃ x, hexValue h.toNat = some x ∧ v1 = v * 16 + (x : Int) := by
  unfold hexStep at hs
  rw [shiftLeft_four] at hs
  by_cases c1 : 48 ≤ h ∧ h ≤ 57
  · rw [if_pos c1] at hs
    simp only [Option.some.injEq] at hs
    refine ⟨by omega, by omega, h.toNat - 48, ?_, ?_⟩
    · unfold hexValue
      rw [if_pos (by omega)]
    · omega
  rw [if_neg c1] at hs
  by_cases c2 : 97 ≤ h ∧ h ≤ 102
  · rw [if_pos c2] at hs
    simp only [Option.some.injEq] at hs
    refine ⟨by omega, by omega, h.toNat - 87, ?_, ?_⟩
    · unfold hexValue
      rw [if_neg (by omega), if_pos (by omega)]
    · omega
  rw [if_neg c2] at hs
  by_cases c3 : 65 ≤ h ∧ h ≤ 70
  · rw [if_pos c3] at hs
    simp only [Option.some.injEq] at hs
    refine ⟨by omega, by omega, h.toNat - 55, ?_, ?_⟩
    · unfold hexValue
      rw [if_neg (by omega), if_neg (by omega), if_pos (by omega)]
    · omega
  rw [if_neg c3] at hs
  cases hs

theorem readHex_succ_inv {n : Nat} {v : Int} {l : lexer} {res : Int × lexer}
    (h : readHex (n + 1) v l = some res) :
    ∃ b t x, l.src.drop l.pos = b :: t ∧ hexValue b = some x ∧
      readHex n (v * 16 + (x : Int)) ⟨l.src, l.pos + 1, 1⟩ = some res := by
  simp only [readHex] at h
  by_cases c : (l.next).1 = -1
  · rw [if_pos c] at h; cases h
  rw [if_neg c] at h
  cases hs : hexStep v (l.next).1 with
  | none => rw [hs] at h; cases h
  | some v1 =>
    rw [hs] at h
    simp only at h
    obtain ⟨h0, h128, x, hx, hv1⟩ := hexStep_inv hs
    obtain ⟨b, t, hbt, hb, _, hnext⟩ := next_ascii_inv l rfl c h128
    refine ⟨b, t, x, hbt, ?_, ?_⟩
    · rw [← hb] at hx; simpa using hx
    · rw [hnext] at h
      rw [← hv1]; exact h

theorem readHex_four_inv {l : lexer} {v : Int} {l1 : lexer}
    (h : readHex 4 0 l = some (v, l1)) :
    ∃ a b c d t x, l.src.drop l.pos = a :: b :: c :: d :: t ∧ hex4 a b c d = some x ∧
      v = (x : Int) := by
  obtain ⟨a, t1, x1, d1, hx1, h1⟩ := readHex_succ_inv h
  obtain ⟨b, t2, x2, d2, hx2, h2⟩ := readHex_succ_inv h1
  obtain ⟨c, t3, x3, d3, hx3, h3⟩ := readHex_succ_inv h2
  obtain ⟨d, t4, x4, d4, hx4, h4⟩ := readHex_succ_inv h3
  simp only at d2 d3 d4
  have e1 := drop_succ_of_drop_cons d1
  rw [d2] at e1
  have e2 := drop_succ_of_drop_cons d2
  rw [d3] at e2
  have e3 := drop_succ_of_drop_cons d3
  rw [d4] at e3
  refine ⟨a, b, c, d, t4, 4096 * x1 + 256 * x2 + 16 * x3 + x4, ?_, ?_, ?_⟩
  · rw [d1, ← e1, ← e2, ← e3]
  · simp [hex4, hx1, hx2, hx3, hx4]
  · simp only [readHex, Option.some.injEq, Prod.mk.injEq] at h4
    rw [← h4.1]
    push_cast
    ring

theorem unicodeEscapeAt_some {bytes : List Nat} {v : Nat} {rest : List Nat}
    (h : unicodeEscapeAt bytes = some (v, rest)) :
    ∃ a b c d, bytes = 92 :: 117 :: a :: b :: c :: d :: rest ∧ hex4 a b c d = some v := by
  unfold unicodeEscapeAt at h
  split at h
  · rename_i a b c d rest1
    cases hv : hex4 a b c d with
    | none => rw [hv] at h; cases h
    | some x =>
      rw [hv] at h
      simp only [Option.some.injEq, Prod.mk.injEq] at h
      exact ⟨a, b, c, d, by rw [h.2], by rw [← h.1]; exact hv⟩
  · cases h

/-- The pass of the loop of `scanString` that starts on a lone surrogate
escape fails. -/
theorem scanStringStep_loneSurrogate (out : List Int) (l : lexer)
    (h : loneSurrogateAt (l.src.drop l.pos) = true) :
    ∃ e, scanStringStep out l = StringStep.fail e := by
  obtain ⟨s, p, w⟩ := l
  simp only at h
  unfold loneSurrogateAt at h
  cases hu : unicodeEscapeAt (s.drop p) with
  | none => rw [hu] at h; cases h
  | some y =>
    obtain ⟨v, rest⟩ := y
    rw [hu] at h
    simp only at h
    obtain ⟨a, b, c, d, hdrop, hv⟩ := unicodeEscapeAt_some hu
    have d1 := drop_succ_of_drop_cons hdrop
    have d2 := drop_succ_of_drop_cons d1
    have d6 : s.drop (p + 1 + 1 + 4) = rest :=
      drop_append_of_drop (a := [a, b, c, d]) (by simpa using d2)
    have hn : lexer.next ⟨s, p, w⟩ = (((92 : Nat) : Int), ⟨s, p + 1, 1⟩) :=
      next_ascii hdrop (by decide)
    have hu1 : lexer.next ⟨s, p + 1, 1⟩ = (((117 : Nat) : Int), ⟨s, p + 1 + 1, 1⟩) :=
      next_ascii d1 (by decide)
    have hx := readHex_four (w := 1) d2 hv
    have hstep : scanStringStep out ⟨s, p, w⟩ = scanUnicodeEscape out ⟨s, p + 1 + 1, 1⟩ := by
      simp only [scanStringStep, hn, hu1]
      simp
    rw [hstep]
    simp only [scanUnicodeEscape, hx]
    by_cases hh : 0xD800 ≤ v ∧ v ≤ 0xDBFF
    · rw [if_pos hh] at h
      have hh1 : (0xD800 : Int) ≤ (v : Int) ∧ (v : Int) ≤ 0xDBFF := by omega
      rw [if_pos hh1]
      by_cases c1 : (lexer.next ⟨s, p + 1 + 1 + 4, 1⟩).1 ≠ 92
      · rw [if_pos c1]; exact ⟨_, rfl⟩
      rw [if_neg c1]
      have c1e : (lexer.next ⟨s, p + 1 + 1 + 4, 1⟩).1 = 92 := by simpa using c1
      obtain ⟨b0, t0, hb0, hb0e, _, hnext0⟩ :=
        next_ascii_inv ⟨s, p + 1 + 1 + 4, 1⟩ c1e (by decide) (by decide)
      simp only at hb0 hnext0
      rw [hnext0]
      simp only
      by_cases c2 : (lexer.next ⟨s, p + 1 + 1 + 4 + 1, 1⟩).1 ≠ 117
      · rw [if_pos c2]; exact ⟨_, rfl⟩
      rw [if_neg c2]
      have c2e : (lexer.next ⟨s, p + 1 + 1 + 4 + 1, 1⟩).1 = 117 := by simpa using c2
      obtain ⟨b1, t1, hb1, hb1e, _, hnext1⟩ :=
        next_ascii_inv ⟨s, p + 1 + 1 + 4 + 1, 1⟩ c2e (by decide) (by decide)
      simp only at hb1 hnext1
      rw [hnext1]
      simp only
      cases hr : readHex 4 0 ⟨s, p + 1 + 1 + 4 + 1 + 1, 1⟩ with
      | none => exact ⟨_, rfl⟩
      | some z =>
        obtain ⟨low, l2⟩ := z
        simp only
        obtain ⟨a1, b2, c3, d4, t4, x, hd4, hx4, hlow⟩ := readHex_four_inv hr
        simp only at hd4
        have hb0' : b0 = 92 := by omega
        have hb1' : b1 = 117 := by omega
        subst hb0' hb1'
        have f1 := drop_succ_of_drop_cons hb0
        rw [hb1] at f1
        have f2 := drop_succ_of_drop_cons hb1
        rw [hd4] at f2
        have hrest : rest = 92 :: 117 :: a1 :: b2 :: c3 :: d4 :: t4 := by
          rw [← d6, hb0, ← f1, ← f2]
        have hue : unicodeEscapeAt rest = some (x, t4) := by
          rw [hrest]
          simp [unicodeEscapeAt, hx4]
        rw [hue] at h
        simp only [Bool.not_eq_true', decide_eq_false_iff_not] at h
        have : low < 0xDC00 ∨ low > 0xDFFF := by omega
        rw [if_pos this]
        exact ⟨_, rfl⟩
    · rw [if_neg hh] at h
      simp only [decide_eq_true_eq] at h
      have hh1 : ¬ ((0xD800 : Int) ≤ (v : Int) ∧ (v : Int) ≤ 0xDBFF) := by omega
      have hh2 : (0xDC00 : Int) ≤ (v : Int) ∧ (v : Int) ≤ 0xDFFF := by omega
      rw [if_neg hh1, if_pos hh2]
      exact ⟨_, rfl⟩

theorem scanStringAfter_adv : ∀ (n : Nat) (out0 : List Int) (l0 : lexer) (out : List Int)
    (l : lexer), scanStringAfter n out0 l0 = some (out, l) →
    l.src = l0.src ∧ l0.pos + n ≤ l.pos := by
  intro n
  induction n with
  | zero =>
    intro out0 l0 out l h
    simp only [scanStringAfter, Option.some.injEq, Prod.mk.injEq] at h
    rw [← h.2]; exact ⟨rfl, le_refl _⟩
  | succ n ih =>
    intro out0 l0 out l h
    simp only [scanStringAfter] at h
    cases hs : scanStringStep out0 l0 with
    | done l1 => rw [hs] at h; cases h
    | fail e => rw [hs] at h; cases h
    | more out1 l1 =>
      rw [hs] at h
      obtain ⟨a, g⟩ := scanStringStep_more hs
      obtain ⟨i1, i2⟩ := ih _ _ _ _ h
      exact ⟨i1.trans a.1, by omega⟩

theorem scanStringLoop_after_fail : ∀ (n : Nat) (out0 : List Int) (l0 : lexer) (out : List Int)
    (l : lexer) (e : Err) (fuel : Nat), scanStringAfter n out0 l0 = some (out, l) →
    scanStringStep out l = StringStep.fail e → n < fuel →
    scanStringLoop fuel out0 l0 = Outcome.error e := by
  intro n
  induction n with
  | zero =>
    intro out0 l0 out l e fuel h hf hlt
    simp only [scanStringAfter, Option.some.injEq, Prod.mk.injEq] at h
    obtain ⟨rfl, rfl⟩ := h
    cases fuel with
    | zero => omega
    | succ f => simp only [scanStringLoop, hf]
  | succ n ih =>
    intro out0 l0 out l e fuel h hf hlt
    simp only [scanStringAfter] at h
    cases fuel with
    | zero => omega
    | succ f =>
      cases hs : scanStringStep out0 l0 with
      | done l1 => rw [hs] at h; cases h
      | fail e => rw [hs] at h; cases h
      | more out1 l1 =>
        rw [hs] at h
        simp only [scanStringLoop, hs]
        exact ih _ _ _ _ e f h hf (by omega)

/-- A scan of a string literal that reaches a lone surrogate escape at the top
of its loop returns an error. -/
theorem scanString_loneSurrogate {l0 : lexer} {n : Nat} {out : List Int} {l : lexer}
    (hreach : scanStringAfter n [] l0 = some (out, l))
    (hlone : loneSurrogateAt (l.src.drop l.pos) = true) :
    ∃ e, l0.scanString = Outcome.error e := by
  obtain ⟨e, he⟩ := scanStringStep_loneSurrogate out l hlone
  obtain ⟨hsrc, hpos⟩ := scanStringAfter_adv _ _ _ _ _ hreach
  have hlt : l.pos < l.src.length := by
    by_contra hc
    rw [List.drop_eq_nil_of_le (by omega)] at hlone
    simp [loneSurrogateAt, unicodeEscapeAt] at hlone
  refine ⟨e, ?_⟩
  unfold lexer.scanString
  exact scanStringLoop_after_fail n [] l0 out l e _ hreach he (by rw [← hsrc]; omega)

/-! ## Successful runs of the parser -/

theorem run_of_fuel (pf : List Nat → Option Float64) : ∀ (fuel : Nat) (c : Call) (p : parser)
    (r : Ret) (p1 : parser), runCall pf fuel c p = Outcome.ok (r, p1) → Run pf c p r p1 := by
  intro fuel
  induction fuel with
  | zero =>
    intro c p r p1 h
    cases c <;> simp [runCall, parseValue, parseObject, parseObjectLoop, parseArray,
      parseArrayLoop] at h
  | succ f ih =>
    intro c p r p1 h
    cases c with
    | value =>
      simp only [runCall, parseValue] at h
      cases hp : p.peek with
      | timeout => simp [hp] at h
      | error e => simp [hp] at h
      | ok x =>
        obtain ⟨t, pa⟩ := x
        simp only [hp] at h
        cases ht : t.typ <;> simp only [ht] at h
        case tokLBrace =>
          have := ih Call.object pa
          simp only [runCall] at this
          cases ho : parseObject pf f pa with
          | timeout => simp [ho] at h
          | error e => simp [ho] at h
          | ok y =>
            obtain ⟨m, pb⟩ := y
            simp only [ho, Outcome.ok.injEq, Prod.mk.injEq] at h this
            obtain ⟨rfl, rfl⟩ := h
            exact Run.valueObject hp ht (this _ _ ⟨rfl, rfl⟩)
        case tokLBracket =>
          have := ih Call.array pa
          simp only [runCall] at this
          cases ho : parseArray pf f pa with
          | timeout => simp [ho] at h
          | error e => simp [ho] at h
          | ok y =>
            obtain ⟨m, pb⟩ := y
            simp only [ho, Outcome.ok.injEq, Prod.mk.injEq] at h this
            obtain ⟨rfl, rfl⟩ := h
            exact Run.valueArray hp ht (this _ _ ⟨rfl, rfl⟩)
        case tokString =>
          simp only [Outcome.ok.injEq, Prod.mk.injEq] at h
          obtain ⟨rfl, rfl⟩ := h
          exact Run.valueString hp ht
        case tokNumber =>
          cases hn : pf t.lexeme with
          | none => simp [hn] at h
          | some n =>
            simp only [hn, Outcome.ok.injEq, Prod.mk.injEq] at h
            obtain ⟨rfl, rfl⟩ := h
            exact Run.valueNumber hp ht hn
        case tokTrue =>
          simp only [Outcome.ok.injEq, Prod.mk.injEq] at h
          obtain ⟨rfl, rfl⟩ := h
          exact Run.valueTrue hp ht
        case tokFalse =>
          simp only [Outcome.ok.injEq, Prod.mk.injEq] at h
          obtain ⟨rfl, rfl⟩ := h
          exact Run.valueFalse hp ht
        case tokNull =>
          simp only [Outcome.ok.injEq, Prod.mk.injEq] at h
          obtain ⟨rfl, rfl⟩ := h
          exact Run.valueNull hp ht
        all_goals simp at h
    | object =>
      simp only [runCall, parseObject] at h
      cases he : p.expect tokenType.tokLBrace with
      | timeout => simp [he] at h
      | error e => simp [he] at h
      | ok pa =>
        simp only [he] at h
        cases hp : pa.peek with
        | timeout => simp [hp] at h
        | error e => simp [hp] at h
        | ok x =>
          obtain ⟨t, pb⟩ := x
          simp only [hp] at h
          by_cases ht : t.typ = tokenType.tokRBrace
          · simp only [ht, if_true, Outcome.ok.injEq, Prod.mk.injEq] at h
            obtain ⟨rfl, rfl⟩ := h
            exact Run.objectEmpty he hp ht
          · simp only [ht, if_false] at h
            have := ih (Call.objectLoop []) pb
            simp only [runCall] at this
            cases ho : parseObjectLoop pf f [] pb with
            | timeout => simp [ho] at h
            | error e => simp [ho] at h
            | ok y =>
              obtain ⟨m, pc⟩ := y
              simp only [ho, Outcome.ok.injEq, Prod.mk.injEq] at h this
              obtain ⟨rfl, rfl⟩ := h
              exact Run.objectMembers he hp ht (this _ _ ⟨rfl, rfl⟩)
    | objectLoop obj =>
      simp only [runCall, parseObjectLoop] at h
      cases hk : p.next with
      | timeout => simp [hk] at h
      | error e => simp [hk] at h
      | ok x =>
        obtain ⟨kt, pa⟩ := x
        simp only [hk] at h
        by_cases hkt : kt.typ = tokenType.tokString
        swap
        · simp [hkt] at h
        simp only [hkt, ne_eq, not_true_eq_false, if_false] at h
        cases hc : pa.expect tokenType.tokColon with
        | timeout => simp [hc] at h
        | error e => simp [hc] at h
        | ok pb =>
          simp only [hc] at h
          have ihv := ih Call.value pb
          simp only [runCall] at ihv
          cases hv : parseValue pf f pb with
          | timeout => simp [hv] at h
          | error e => simp [hv] at h
          | ok y =>
            obtain ⟨v, pc⟩ := y
            simp only [hv, Outcome.ok.injEq, Prod.mk.injEq] at h ihv
            have rv := ihv _ _ ⟨rfl, rfl⟩
            cases hn : pc.next with
            | timeout => simp [hn] at h
            | error e => simp [hn] at h
            | ok z =>
              obtain ⟨nt, pd⟩ := z
              simp only [hn] at h
              by_cases hc1 : nt.typ = tokenType.tokComma
              · simp only [hc1, if_true] at h
                have ihl := ih (Call.objectLoop (mapSet obj kt.lexeme v)) pd
                simp only [runCall] at ihl
                cases hl : parseObjectLoop pf f (mapSet obj kt.lexeme v) pd with
                | timeout => simp [hl] at h
                | error e => simp [hl] at h
                | ok u =>
                  obtain ⟨m, pe⟩ := u
                  simp only [hl, Outcome.ok.injEq, Prod.mk.injEq] at h ihl
                  obtain ⟨rfl, rfl⟩ := h
                  exact Run.objectLoopMore hk hkt hc rv hn hc1 (ihl _ _ ⟨rfl, rfl⟩)
              · simp only [hc1, if_false] at h
                by_cases hc2 : nt.typ = tokenType.tokRBrace
                · simp only [hc2, if_true, Outcome.ok.injEq, Prod.mk.injEq] at h
                  obtain ⟨rfl, rfl⟩ := h
                  exact Run.objectLoopLast hk hkt hc rv hn hc2
                · simp [hc2] at h
    | array =>
      simp only [runCall, parseArray] at h
      cases he : p.expect tokenType.tokLBracket with
      | timeout => simp [he] at h
      | error e => simp [he] at h
      | ok pa =>
        simp only [he] at h
        cases hp : pa.peek with
        | timeout => simp [hp] at h
        | error e => simp [hp] at h
        | ok x =>
          obtain ⟨t, pb⟩ := x
          simp only [hp] at h
          by_cases ht : t.typ = tokenType.tokRBracket
          · simp only [ht, if_true, Outcome.ok.injEq, Prod.mk.injEq] at h
            obtain ⟨rfl, rfl⟩ := h
            exact Run.arrayEmpty he hp ht
          · simp only [ht, if_false] at h
            have := ih (Call.arrayLoop []) pb
            simp only [runCall] at this
            cases ho : parseArrayLoop pf f [] pb with
            | timeout => simp [ho] at h
            | error e => simp [ho] at h
            | ok y =>
              obtain ⟨m, pc⟩ := y
              simp only [ho, Outcome.ok.injEq, Prod.mk.injEq] at h this
              obtain ⟨rfl, rfl⟩ := h
              exact Run.arrayElems he hp ht (this _ _ ⟨rfl, rfl⟩)
    | arrayLoop arr =>
      simp only [runCall, parseArrayLoop] at h
      have ihv := ih Call.value p
      simp only [runCall] at ihv
      cases hv : parseValue pf f p with
      | timeout => simp [hv] at h
      | error e => simp [hv] at h
      | ok y =>
        obtain ⟨v, pc⟩ := y
        simp only [hv, Outcome.ok.injEq, Prod.mk.injEq] at h ihv
        have rv := ihv _ _ ⟨rfl, rfl⟩
        cases hn : pc.next with
        | timeout => simp [hn] at h
        | error e => simp [hn] at h
        | ok z =>
          obtain ⟨nt, pd⟩ := z
          simp only [hn] at h
          by_cases hc1 : nt.typ = tokenType.tokComma
          · simp only [hc1, if_true] at h
            have ihl := ih (Call.arrayLoop (arr ++ [v])) pd
            simp only [runCall] at ihl
            cases hl : parseArrayLoop pf f (arr ++ [v]) pd with
            | timeout => simp [hl] at h
            | error e => simp [hl] at h
            | ok u =>
              obtain ⟨m, pe⟩ := u
              simp only [hl, Outcome.ok.injEq, Prod.mk.injEq] at h ihl
              obtain ⟨rfl, rfl⟩ := h
              exact Run.arrayLoopMore rv hn hc1 (ihl _ _ ⟨rfl, rfl⟩)
          · simp only [hc1, if_false] at h
            by_cases hc2 : nt.typ = tokenType.tokRBracket
            · simp only [hc2, if_true, Outcome.ok.injEq, Prod.mk.injEq] at h
              obtain ⟨rfl, rfl⟩ := h
              exact Run.arrayLoopLast rv hn hc2
            · simp [hc2] at h

/-! ## The lookahead buffer -/

theorem parser_next_buf {p : parser} {t : token} (h : p.buf = some t) :
    p.next = Outcome.ok (t, ⟨p.lex, none⟩) := by
  simp [parser.next, h]

theorem parser_peek_buf {p : parser} {t : token} (h : p.buf = some t) :
    p.peek = Outcome.ok (t, p) := by
  simp [parser.peek, h]

theorem parser_skip_buf {p : parser} {t : token} (h : p.buf = some t) :
    p.skip = ⟨p.lex, none⟩ := by
  simp [parser.skip, parser.next, h]

theorem parser_next_none {p : parser} (h : p.buf = none) :
    p.next = (match p.lex.nextToken with
      | Outcome.ok (t, l) => Outcome.ok (t, ⟨l, none⟩)
      | Outcome.error e => Outcome.error e
      | Outcome.timeout => Outcome.timeout) := by
  obtain ⟨l, b⟩ := p
  simp only at h
  subst h
  cases hn : l.nextToken <;> simp [parser.next, hn]

theorem parser_peek_none {p : parser} (h : p.buf = none) :
    p.peek = (match p.lex.nextToken with
      | Outcome.ok (t, l) => Outcome.ok (t, ⟨l, some t⟩)
      | Outcome.error e => Outcome.error e
      | Outcome.timeout => Outcome.timeout) := by
  obtain ⟨l, b⟩ := p
  simp only at h
  subst h
  cases hn : l.nextToken <;> simp [parser.peek, hn]

/-- What a successful `next` of the parser did: it emptied the buffer, or it
read one token from the scanner. -/
theorem parser_next_ok {p : parser} {t : token} {p1 : parser}
    (h : p.next = Outcome.ok (t, p1)) :
    p1.buf = none ∧
    ((p.buf = some t ∧ p1.lex = p.lex) ∨
     (p.buf = none ∧ p.lex.nextToken = Outcome.ok (t, p1.lex))) := by
  cases hb : p.buf with
  | some t0 =>
    rw [parser_next_buf hb] at h
    simp only [Outcome.ok.injEq, Prod.mk.injEq] at h
    obtain ⟨rfl, rfl⟩ := h
    exact ⟨rfl, Or.inl ⟨rfl, rfl⟩⟩
  | none =>
    rw [parser_next_none hb] at h
    cases hn : p.lex.nextToken with
    | timeout => rw [hn] at h; cases h
    | error e => rw [hn] at h; cases h
    | ok x =>
      obtain ⟨t1, l1⟩ := x
      rw [hn] at h
      simp only [Outcome.ok.injEq, Prod.mk.injEq] at h
      obtain ⟨rfl, rfl⟩ := h
      exact ⟨rfl, Or.inr ⟨rfl, rfl⟩⟩

theorem parser_peek_ok {p : parser} {t : token} {p1 : parser}
    (h : p.peek = Outcome.ok (t, p1)) :
    p1.buf = some t ∧
    ((p.buf = some t ∧ p1 = p) ∨
     (p.buf = none ∧ p.lex.nextToken = Outcome.ok (t, p1.lex))) := by
  cases hb : p.buf with
  | some t0 =>
    rw [parser_peek_buf hb] at h
    simp only [Outcome.ok.injEq, Prod.mk.injEq] at h
    obtain ⟨rfl, rfl⟩ := h
    exact ⟨hb, Or.inl ⟨rfl, rfl⟩⟩
  | none =>
    rw [parser_peek_none hb] at h
    cases hn : p.lex.nextToken with
    | timeout => rw [hn] at h; cases h
    | error e => rw [hn] at h; cases h
    | ok x =>
      obtain ⟨t1, l1⟩ := x
      rw [hn] at h
      simp only [Outcome.ok.injEq, Prod.mk.injEq] at h
      obtain ⟨rfl, rfl⟩ := h
      exact ⟨rfl, Or.inr ⟨rfl, rfl⟩⟩

theorem parser_expect_ok {p : parser} {tt : tokenType} {p1 : parser}
    (h : p.expect tt = Outcome.ok p1) :
    ∃ t, p.next = Outcome.ok (t, p1) ∧ t.typ = tt := by
  simp only [parser.expect] at h
  cases hn : p.next with
  | timeout => rw [hn] at h; cases h
  | error e => rw [hn] at h; cases h
  | ok x =>
    obtain ⟨t, pa⟩ := x
    rw [hn] at h
    simp only at h
    by_cases c : t.typ = tt
    · simp only [c, ne_eq, not_true_eq_false, if_false, Outcome.ok.injEq] at h
      subst h
      exact ⟨t, rfl, c⟩
    · simp [c] at h

theorem parser_next_ne_timeout (p : parser) : p.next ≠ Outcome.timeout := by
  cases hb : p.buf with
  | some t0 => rw [parser_next_buf hb]; simp
  | none =>
    rw [parser_next_none hb]
    have := (nextToken_spec p.lex).1
    cases hn : p.lex.nextToken with
    | timeout => exact absurd hn this
    | error e => simp
    | ok x => simp

theorem parser_peek_ne_timeout (p : parser) : p.peek ≠ Outcome.timeout := by
  cases hb : p.buf with
  | some t0 => rw [parser_peek_buf hb]; simp
  | none =>
    rw [parser_peek_none hb]
    have := (nextToken_spec p.lex).1
    cases hn : p.lex.nextToken with
    | timeout => exact absurd hn this
    | error e => simp
    | ok x => simp

theorem parser_expect_ne_timeout (p : parser) (tt : tokenType) :
    p.expect tt ≠ Outcome.timeout := by
  simp only [parser.expect]
  have := parser_next_ne_timeout p
  cases hn : p.next with
  | timeout => exact absurd hn this
  | error e => simp
  | ok x =>
    simp only
    split <;> simp

theorem parser_next_adv {p : parser} {t : token} {p1 : parser}
    (h : p.next = Outcome.ok (t, p1)) : p1.buf = none ∧ Adv p.lex p1.lex := by
  obtain ⟨h1, h2 | h2⟩ := parser_next_ok h
  · exact ⟨h1, by rw [h2.2]; exact Adv.refl _⟩
  · exact ⟨h1, ((nextToken_spec p.lex).2 _ _ h2.2).1⟩

theorem parser_peek_adv {p : parser} {t : token} {p1 : parser}
    (h : p.peek = Outcome.ok (t, p1)) : p1.buf = some t ∧ Adv p.lex p1.lex := by
  obtain ⟨h1, h2 | h2⟩ := parser_peek_ok h
  · exact ⟨h1, by rw [h2.2]; exact Adv.refl _⟩
  · exact ⟨h1, ((nextToken_spec p.lex).2 _ _ h2.2).1⟩

theorem parser_expect_adv {p : parser} {tt : tokenType} {p1 : parser}
    (h : p.expect tt = Outcome.ok p1) : p1.buf = none ∧ Adv p.lex p1.lex := by
  obtain ⟨t, h1, _⟩ := parser_expect_ok h
  exact parser_next_adv h1

theorem parser_skip_adv {p : parser} {t : token} (h : p.buf = some t) :
    p.skip.buf = none ∧ Adv p.lex p.skip.lex := by
  rw [parser_skip_buf h]
  exact ⟨rfl, Adv.refl _⟩

/-- A successful run leaves the buffer empty and the cursor no further back. -/
theorem Run_adv {pf : List Nat → Option Float64} {c : Call} {p : parser} {r : Ret}
    {p1 : parser} (h : Run pf c p r p1) : p1.buf = none ∧ Adv p.lex p1.lex := by
  induction h with
  | valueObject hp _ _ ih => exact ⟨ih.1, (parser_peek_adv hp).2.trans ih.2⟩
  | valueArray hp _ _ ih => exact ⟨ih.1, (parser_peek_adv hp).2.trans ih.2⟩
  | valueString hp _ =>
    obtain ⟨a, b⟩ := parser_peek_adv hp
    obtain ⟨c, d⟩ := parser_skip_adv a
    exact ⟨c, b.trans d⟩
  | valueNumber hp _ _ =>
    obtain ⟨a, b⟩ := parser_peek_adv hp
    obtain ⟨c, d⟩ := parser_skip_adv a
    exact ⟨c, b.trans d⟩
  | valueTrue hp _ =>
    obtain ⟨a, b⟩ := parser_peek_adv hp
    obtain ⟨c, d⟩ := parser_skip_adv a
    exact ⟨c, b.trans d⟩
  | valueFalse hp _ =>
    obtain ⟨a, b⟩ := parser_peek_adv hp
    obtain ⟨c, d⟩ := parser_skip_adv a
    exact ⟨c, b.trans d⟩
  | valueNull hp _ =>
    obtain ⟨a, b⟩ := parser_peek_adv hp
    obtain ⟨c, d⟩ := parser_skip_adv a
    exact ⟨c, b.trans d⟩
  | objectEmpty he hp _ =>
    obtain ⟨a, b⟩ := parser_peek_adv hp
    obtain ⟨c, d⟩ := parser_skip_adv a
    exact ⟨c, (parser_expect_adv he).2.trans (b.trans d)⟩
  | objectMembers he hp _ _ ih =>
    exact ⟨ih.1, (parser_expect_adv he).2.trans ((parser_peek_adv hp).2.trans ih.2)⟩
  | objectLoopMore hk _ hc _ hn _ _ ihv ihl =>
    exact ⟨ihl.1, (parser_next_adv hk).2.trans ((parser_expect_adv hc).2.trans
      (ihv.2.trans ((parser_next_adv hn).2.trans ihl.2)))⟩
  | objectLoopLast hk _ hc _ hn _ ihv =>
    exact ⟨(parser_next_adv hn).1, (parser_next_adv hk).2.trans ((parser_expect_adv hc).2.trans
      (ihv.2.trans (parser_next_adv hn).2))⟩
  | arrayEmpty he hp _ =>
    obtain ⟨a, b⟩ := parser_peek_adv hp
    obtain ⟨c, d⟩ := parser_skip_adv a
    exact ⟨c, (parser_expect_adv he).2.trans (b.trans d)⟩
  | arrayElems he hp _ _ ih =>
    exact ⟨ih.1, (parser_expect_adv he).2.trans ((parser_peek_adv hp).2.trans ih.2)⟩
  | arrayLoopMore _ hn _ _ ihv ihl =>
    exact ⟨ihl.1, ihv.2.trans ((parser_next_adv hn).2.trans ihl.2)⟩
  | arrayLoopLast _ hn _ ihv =>
    exact ⟨(parser_next_adv hn).1, ihv.2.trans (parser_next_adv hn).2⟩

/-! ## The budget of `Parse` is enough -/

theorem parseValue_run {pf : List Nat → Option Float64} {f : Nat} {p : parser} {v : Value}
    {p1 : parser} (h : parseValue pf f p = Outcome.ok (v, p1)) :
    Run pf Call.value p (Ret.value v) p1 :=
  run_of_fuel pf f Call.value p _ _ (by simp [runCall, h])

theorem parseObject_run {pf : List Nat → Option Float64} {f : Nat} {p : parser}
    {m : List (List Nat × Value)} {p1 : parser} (h : parseObject pf f p = Outcome.ok (m, p1)) :
    Run pf Call.object p (Ret.members m) p1 :=
  run_of_fuel pf f Call.object p _ _ (by simp [runCall, h])

theorem parseArray_run {pf : List Nat → Option Float64} {f : Nat} {p : parser}
    {xs : List Value} {p1 : parser} (h : parseArray pf f p = Outcome.ok (xs, p1)) :
    Run pf Call.array p (Ret.elems xs) p1 :=
  run_of_fuel pf f Call.array p _ _ (by simp [runCall, h])

theorem rem_of_adv {a b : lexer} (h : Adv a b) (hw : a.pos ≤ a.src.length) :
    b.pos ≤ b.src.length ∧ b.src.length - b.pos ≤ a.src.length - a.pos := by
  obtain ⟨h1, h2, h3⟩ := h
  have := h3 hw
  rw [h1]
  omega

theorem rem_of_adv_strict {a b : lexer} (h : Adv a b) (hw : a.pos ≤ a.src.length)
    (hlt : a.pos < b.pos) :
    b.src.length - b.pos + 1 ≤ a.src.length - a.pos := by
  obtain ⟨h1, h2, h3⟩ := h
  have := h3 hw
  rw [h1]
  omega

theorem need_none {p : parser} (h : p.buf = none) :
    need p = 3 * (p.lex.src.length - p.lex.pos) := by
  simp [need, h]

theorem need_ge (p : parser) : 3 * (p.lex.src.length - p.lex.pos) ≤ need p := by
  simp [need]

theorem need_bracket {p : parser} {t : token} (h : p.buf = some t)
    (ht : t.typ = tokenType.tokLBrace ∨ t.typ = tokenType.tokLBracket) :
    need p = 3 * (p.lex.src.length - p.lex.pos) + 3 := by
  simp [need, h, ht]

theorem need_le (p : parser) : need p ≤ 3 * (p.lex.src.length - p.lex.pos) + 3 := by
  simp only [need]
  split
  · split <;> omega
  · omega

/-- A token read from the scanner that is neither the end marker nor a number
took at least one byte. -/
theorem next_facts {p : parser} {t : token} {p1 : parser} (h : p.next = Outcome.ok (t, p1))
    (hw : p.lex.pos ≤ p.lex.src.length) :
    p1.buf = none ∧ p1.lex.pos ≤ p1.lex.src.length ∧
    3 * (p1.lex.src.length - p1.lex.pos) ≤ need p ∧
    (t.typ ≠ tokenType.tokEOF → t.typ ≠ tokenType.tokNumber →
      (p.buf = none ∨ t.typ = tokenType.tokLBrace ∨ t.typ = tokenType.tokLBracket) →
      3 * (p1.lex.src.length - p1.lex.pos) + 3 ≤ need p) := by
  obtain ⟨h1, h2 | h2⟩ := parser_next_ok h
  · refine ⟨h1, by rw [h2.2]; exact hw, by rw [h2.2]; exact need_ge p, ?_⟩
    intro _ _ h3
    rcases h3 with h3 | h3
    · rw [h2.1] at h3; cases h3
    · rw [h2.2, need_bracket h2.1 h3]
  · obtain ⟨a, g⟩ := (nextToken_spec p.lex).2 _ _ h2.2
    obtain ⟨w1, r1⟩ := rem_of_adv a hw
    refine ⟨h1, w1, by rw [need_none h2.1]; omega, ?_⟩
    intro e1 e2 _
    have := rem_of_adv_strict a hw (g e1 e2)
    rw [need_none h2.1]
    omega

theorem peek_facts {p : parser} {t : token} {p1 : parser} (h : p.peek = Outcome.ok (t, p1))
    (hw : p.lex.pos ≤ p.lex.src.length) :
    p1.buf = some t ∧ p1.lex.pos ≤ p1.lex.src.length ∧ need p1 ≤ need p + 3 ∧
    (t.typ ≠ tokenType.tokEOF → t.typ ≠ tokenType.tokNumber → need p1 ≤ need p) := by
  obtain ⟨h1, h2 | h2⟩ := parser_peek_ok h
  · rw [h2.2]
    exact ⟨h2.1, hw, by omega, fun _ _ => le_refl _⟩
  · obtain ⟨a, g⟩ := (nextToken_spec p.lex).2 _ _ h2.2
    obtain ⟨w1, r1⟩ := rem_of_adv a hw
    have hle := need_le p1
    refine ⟨h1, w1, by rw [need_none h2.1]; omega, ?_⟩
    intro e1 e2
    have := rem_of_adv_strict a hw (g e1 e2)
    rw [need_none h2.1]
    omega

theorem peek_need_other {p : parser} {t : token} {p1 : parser}
    (h : p.peek = Outcome.ok (t, p1)) (hw : p.lex.pos ≤ p.lex.src.length)
    (ht : ¬ (t.typ = tokenType.tokLBrace ∨ t.typ = tokenType.tokLBracket)) :
    need p1 ≤ need p := by
  obtain ⟨h1, h2 | h2⟩ := parser_peek_ok h
  · rw [h2.2]
  · obtain ⟨a, g⟩ := (nextToken_spec p.lex).2 _ _ h2.2
    obtain ⟨w1, r1⟩ := rem_of_adv a hw
    have e : need p1 = 3 * (p1.lex.src.length - p1.lex.pos) := by
      simp [need, h1, ht]
    rw [e, need_none h2.1]
    omega

theorem expect_facts {p : parser} {tt : tokenType} {p1 : parser}
    (h : p.expect tt = Outcome.ok p1) (hw : p.lex.pos ≤ p.lex.src.length)
    (h1 : tt ≠ tokenType.tokEOF) (h2 : tt ≠ tokenType.tokNumber) :
    p1.buf = none ∧ p1.lex.pos ≤ p1.lex.src.length ∧
    3 * (p1.lex.src.length - p1.lex.pos) ≤ need p ∧
    ((p.buf = none ∨ tt = tokenType.tokLBrace ∨ tt = tokenType.tokLBracket) →
      3 * (p1.lex.src.length - p1.lex.pos) + 3 ≤ need p) := by
  obtain ⟨t, hn, ht⟩ := parser_expect_ok h
  obtain ⟨a, b, c, d⟩ := next_facts hn hw
  refine ⟨a, b, c, ?_⟩
  intro h3
  exact d (by rw [ht]; exact h1) (by rw [ht]; exact h2) (by rw [ht]; exact h3)

theorem run_facts {pf : List Nat → Option Float64} {c : Call} {p : parser} {r : Ret}
    {p1 : parser} (h : Run pf c p r p1) (hw : p.lex.pos ≤ p.lex.src.length) :
    p1.buf = none ∧ p1.lex.pos ≤ p1.lex.src.length ∧
    p1.lex.src.length - p1.lex.pos ≤ p.lex.src.length - p.lex.pos := by
  obtain ⟨a, b⟩ := Run_adv h
  obtain ⟨c, d⟩ := rem_of_adv b hw
  exact ⟨a, c, d⟩

theorem runCall_ne_timeout (pf : List Nat → Option Float64) : ∀ (fuel : Nat) (c : Call)
    (p : parser), p.lex.pos ≤ p.lex.src.length → callNeed c p ≤ fuel →
    runCall pf fuel c p ≠ Outcome.timeout := by
  intro fuel
  induction fuel with
  | zero =>
    intro c p _ hn
    cases c <;> simp only [callNeed] at hn <;> omega
  | succ f ih =>
    intro c p hw hn
    have ihV : ∀ q : parser, q.lex.pos ≤ q.lex.src.length → need q + 1 ≤ f →
        parseValue pf f q ≠ Outcome.timeout := by
      intro q hq hf hc
      exact ih Call.value q hq hf (by simp [runCall, hc])
    have ihO : ∀ q : parser, q.lex.pos ≤ q.lex.src.length → 1 ≤ f → need q ≤ f →
        parseObject pf f q ≠ Outcome.timeout := by
      intro q hq h1 hf hc
      exact ih Call.object q hq (by simp only [callNeed]; omega) (by simp [runCall, hc])
    have ihA : ∀ q : parser, q.lex.pos ≤ q.lex.src.length → 1 ≤ f → need q ≤ f →
        parseArray pf f q ≠ Outcome.timeout := by
      intro q hq h1 hf hc
      exact ih Call.array q hq (by simp only [callNeed]; omega) (by simp [runCall, hc])
    have ihOL : ∀ (obj : List (List Nat × Value)) (q : parser),
        q.lex.pos ≤ q.lex.src.length → need q + 2 ≤ f →
        parseObjectLoop pf f obj q ≠ Outcome.timeout := by
      intro obj q hq hf hc
      exact ih (Call.objectLoop obj) q hq hf (by simp [runCall, hc])
    have ihAL : ∀ (arr : List Value) (q : parser),
        q.lex.pos ≤ q.lex.src.length → need q + 2 ≤ f →
        parseArrayLoop pf f arr q ≠ Outcome.timeout := by
      intro arr q hq hf hc
      exact ih (Call.arrayLoop arr) q hq hf (by simp [runCall, hc])
    cases c with
    | value =>
      simp only [callNeed] at hn
      simp only [runCall, parseValue]
      cases hp : p.peek with
      | timeout => exact absurd hp (parser_peek_ne_timeout p)
      | error e => simp
      | ok x =>
        obtain ⟨t, p1⟩ := x
        obtain ⟨b1, w1, _, n1⟩ := peek_facts hp hw
        simp only
        cases ht : t.typ
        case tokLBrace =>
          have hb := need_bracket b1 (Or.inl ht)
          have hle := n1 (by rw [ht]; decide) (by rw [ht]; decide)
          have := ihO p1 w1 (by omega) (by omega)
          cases ho : parseObject pf f p1 with
          | timeout => exact absurd ho this
          | error e => simp
          | ok y => simp
        case tokLBracket =>
          have hb := need_bracket b1 (Or.inr ht)
          have hle := n1 (by rw [ht]; decide) (by rw [ht]; decide)
          have := ihA p1 w1 (by omega) (by omega)
          cases ho : parseArray pf f p1 with
          | timeout => exact absurd ho this
          | error e => simp
          | ok y => simp
        case tokNumber =>
          simp only
          cases pf t.lexeme <;> simp
        all_goals simp
    | object =>
      simp only [callNeed] at hn
      simp only [runCall, parseObject]
      cases he : p.expect tokenType.tokLBrace with
      | timeout => exact absurd he (parser_expect_ne_timeout p _)
      | error e => simp
      | ok p1 =>
        obtain ⟨b1, w1, _, n1⟩ := expect_facts he hw (by decide) (by decide)
        have n1 := n1 (Or.inr (Or.inl rfl))
        simp only
        cases hp : p1.peek with
        | timeout => exact absurd hp (parser_peek_ne_timeout p1)
        | error e => simp
        | ok x =>
          obtain ⟨t, p2⟩ := x
          obtain ⟨b2, w2, _, n2⟩ := peek_facts hp w1
          simp only
          by_cases ht : t.typ = tokenType.tokRBrace
          · simp [ht]
          · simp only [ht, if_false]
            have hneed : need p2 + 2 ≤ f := by
              by_cases hbr : t.typ = tokenType.tokLBrace ∨ t.typ = tokenType.tokLBracket
              · have h3 := n2 (by rcases hbr with h | h <;> rw [h] <;> decide)
                  (by rcases hbr with h | h <;> rw [h] <;> decide)
                rw [need_none b1] at h3
                omega
              · have h3 := peek_need_other hp w1 hbr
                rw [need_none b1] at h3
                omega
            have := ihOL [] p2 w2 hneed
            cases ho : parseObjectLoop pf f [] p2 with
            | timeout => exact absurd ho this
            | error e => simp
            | ok y => simp
    | array =>
      simp only [callNeed] at hn
      simp only [runCall, parseArray]
      cases he : p.expect tokenType.tokLBracket with
      | timeout => exact absurd he (parser_expect_ne_timeout p _)
      | error e => simp
      | ok p1 =>
        obtain ⟨b1, w1, _, n1⟩ := expect_facts he hw (by decide) (by decide)
        have n1 := n1 (Or.inr (Or.inr rfl))
        simp only
        cases hp : p1.peek with
        | timeout => exact absurd hp (parser_peek_ne_timeout p1)
        | error e => simp
        | ok x =>
          obtain ⟨t, p2⟩ := x
          obtain ⟨b2, w2, _, n2⟩ := peek_facts hp w1
          simp only
          by_cases ht : t.typ = tokenType.tokRBracket
          · simp [ht]
          · simp only [ht, if_false]
            have hneed : need p2 + 2 ≤ f := by
              by_cases hbr : t.typ = tokenType.tokLBrace ∨ t.typ = tokenType.tokLBracket
              · have h3 := n2 (by rcases hbr with h | h <;> rw [h] <;> decide)
                  (by rcases hbr with h | h <;> rw [h] <;> decide)
                rw [need_none b1] at h3
                omega
              · have h3 := peek_need_other hp w1 hbr
                rw [need_none b1] at h3
                omega
            have := ihAL [] p2 w2 hneed
            cases ho : parseArrayLoop pf f [] p2 with
            | timeout => exact absurd ho this
            | error e => simp
            | ok y => simp
    | objectLoop obj =>
      simp only [callNeed] at hn
      simp only [runCall, parseObjectLoop]
      cases hk : p.next with
      | timeout => exact absurd hk (parser_next_ne_timeout p)
      | error e => simp
      | ok x =>
        obtain ⟨kt, p1⟩ := x
        obtain ⟨b1, w1, n1, _⟩ := next_facts hk hw
        simp only
        by_cases hkt : kt.typ = tokenType.tokString
        swap
        · simp [hkt]
        simp only [hkt, ne_eq, not_true_eq_false, if_false]
        cases hc : p1.expect tokenType.tokColon with
        | timeout => exact absurd hc (parser_expect_ne_timeout p1 _)
        | error e => simp
        | ok p2 =>
          obtain ⟨b2, w2, _, n2⟩ := expect_facts hc w1 (by decide) (by decide)
          have n2 := n2 (Or.inl b1)
          rw [need_none b1] at n2
          simp only
          have := ihV p2 w2 (by rw [need_none b2]; omega)
          cases hv : parseValue pf f p2 with
          | timeout => exact absurd hv this
          | error e => simp
          | ok y =>
            obtain ⟨v, p3⟩ := y
            obtain ⟨b3, w3, r3⟩ := run_facts (parseValue_run hv) w2
            simp only
            cases hn4 : p3.next with
            | timeout => exact absurd hn4 (parser_next_ne_timeout p3)
            | error e => simp
            | ok z =>
              obtain ⟨nt, p4⟩ := z
              obtain ⟨b4, w4, _, n4⟩ := next_facts hn4 w3
              simp only
              by_cases hc1 : nt.typ = tokenType.tokComma
              · simp only [hc1, if_true]
                have n4 := n4 (by rw [hc1]; decide) (by rw [hc1]; decide) (Or.inl b3)
                rw [need_none b3] at n4
                have := ihOL (mapSet obj kt.lexeme v) p4 w4 (by rw [need_none b4]; omega)
                cases hl : parseObjectLoop pf f (mapSet obj kt.lexeme v) p4 with
                | timeout => exact absurd hl this
                | error e => simp
                | ok u => simp
              · simp only [hc1, if_false]
                by_cases hc2 : nt.typ = tokenType.tokRBrace <;> simp [hc2]
    | arrayLoop arr =>
      simp only [callNeed] at hn
      simp only [runCall, parseArrayLoop]
      have := ihV p hw (by omega)
      cases hv : parseValue pf f p with
      | timeout => exact absurd hv this
      | error e => simp
      | ok y =>
        obtain ⟨v, p3⟩ := y
        obtain ⟨b3, w3, r3⟩ := run_facts (parseValue_run hv) hw
        have hge := need_ge p
        simp only
        cases hn4 : p3.next with
        | timeout => exact absurd hn4 (parser_next_ne_timeout p3)
        | error e => simp
        | ok z =>
          obtain ⟨nt, p4⟩ := z
          obtain ⟨b4, w4, _, n4⟩ := next_facts hn4 w3
          simp only
          by_cases hc1 : nt.typ = tokenType.tokComma
          · simp only [hc1, if_true]
            have n4 := n4 (by rw [hc1]; decide) (by rw [hc1]; decide) (Or.inl b3)
            rw [need_none b3] at n4
            have := ihAL (arr ++ [v]) p4 w4 (by rw [need_none b4]; omega)
            cases hl : parseArrayLoop pf f (arr ++ [v]) p4 with
            | timeout => exact absurd hl this
            | error e => simp
            | ok u => simp
          · simp only [hc1, if_false]
            by_cases hc2 : nt.typ = tokenType.tokRBracket <;> simp [hc2]

/-- `Parse` never runs out of its budget. -/
theorem Parse_ne_timeout (pf : List Nat → Option Float64) (src : List Nat) :
    Parse pf src ≠ Outcome.timeout := by
  have h := runCall_ne_timeout pf (3 * src.length + 1) Call.value ⟨newLexer src, none⟩
    (by simp [newLexer]) (by simp [callNeed, need, newLexer])
  simp only [Parse]
  cases hv : parseValue pf (3 * src.length + 1) ⟨newLexer src, none⟩ with
  | timeout => exact absurd (by simp [runCall, hv]) h
  | error e => simp
  | ok y =>
    obtain ⟨v, p⟩ := y
    simp only
    have := (nextToken_spec p.lex).1
    cases hn : p.lex.nextToken with
    | timeout => exact absurd hn this
    | error e => simp
    | ok z =>
      simp only
      by_cases hc2 : z.1.typ = tokenType.tokEOF <;> simp [hc2]

/-! ## The parser consumes the token sequence in order -/

theorem lexAfter_succ {l0 : lexer} {k : Nat} {lp : lexer} {t : token} {l1 : lexer}
    (h : lexAfter k l0 = Outcome.ok lp) (hn : lp.nextToken = Outcome.ok (t, l1)) :
    lexAfter (k + 1) l0 = Outcome.ok l1 ∧ tokenAt k l0 = Outcome.ok t ∧
      typAt k l0 = some t.typ := by
  refine ⟨by simp [lexAfter, h, hn], by simp [tokenAt, h, hn], by simp [typAt, tokenAt, h, hn]⟩

theorem At_none {l0 : lexer} {p : parser} {k : Nat} (hb : p.buf = none) :
    At l0 p k ↔ lexAfter k l0 = Outcome.ok p.lex := by
  simp [At, hb]

theorem At_some {l0 : lexer} {p : parser} {k : Nat} {t : token} (hb : p.buf = some t) :
    At l0 p k ↔ ∃ lp, lexAfter k l0 = Outcome.ok lp ∧ lp.nextToken = Outcome.ok (t, p.lex) := by
  simp [At, hb]

theorem At_peek {l0 : lexer} {p : parser} {k : Nat} {t : token} {p1 : parser}
    (ha : At l0 p k) (h : p.peek = Outcome.ok (t, p1)) :
    At l0 p1 k ∧ typAt k l0 = some t.typ ∧ p1.buf = some t := by
  obtain ⟨h1, h2 | h2⟩ := parser_peek_ok h
  · obtain ⟨hb, rfl⟩ := h2
    obtain ⟨lp, e1, e2⟩ := (At_some hb).1 ha
    exact ⟨ha, (lexAfter_succ e1 e2).2.2, h1⟩
  · obtain ⟨hb, hn⟩ := h2
    have e1 := (At_none hb).1 ha
    exact ⟨(At_some h1).2 ⟨p.lex, e1, hn⟩, (lexAfter_succ e1 hn).2.2, h1⟩

theorem At_next {l0 : lexer} {p : parser} {k : Nat} {t : token} {p1 : parser}
    (ha : At l0 p k) (h : p.next = Outcome.ok (t, p1)) :
    At l0 p1 (k + 1) ∧ typAt k l0 = some t.typ ∧ p1.buf = none := by
  obtain ⟨h1, h2 | h2⟩ := parser_next_ok h
  · obtain ⟨hb, hl⟩ := h2
    obtain ⟨lp, e1, e2⟩ := (At_some hb).1 ha
    obtain ⟨f1, _, f3⟩ := lexAfter_succ e1 e2
    exact ⟨(At_none h1).2 (by rw [hl]; exact f1), f3, h1⟩
  · obtain ⟨hb, hn⟩ := h2
    have e1 := (At_none hb).1 ha
    obtain ⟨f1, _, f3⟩ := lexAfter_succ e1 hn
    exact ⟨(At_none h1).2 f1, f3, h1⟩

theorem At_expect {l0 : lexer} {p : parser} {k : Nat} {tt : tokenType} {p1 : parser}
    (ha : At l0 p k) (h : p.expect tt = Outcome.ok p1) :
    At l0 p1 (k + 1) ∧ typAt k l0 = some tt ∧ p1.buf = none := by
  obtain ⟨t, hn, ht⟩ := parser_expect_ok h
  obtain ⟨a, b, c⟩ := At_next ha hn
  exact ⟨a, by rw [b, ht], c⟩

theorem At_skip {l0 : lexer} {p : parser} {k : Nat} {t : token}
    (ha : At l0 p k) (hb : p.buf = some t) :
    At l0 p.skip (k + 1) ∧ p.skip.buf = none := by
  have hn : p.next = Outcome.ok (t, p.skip) := by
    rw [parser_skip_buf hb, parser_next_buf hb]
  obtain ⟨a, _, c⟩ := At_next ha hn
  exact ⟨a, c⟩

theorem trailingCommaAt_false_of_ne {l0 : lexer} {j : Nat}
    (h : typAt j l0 ≠ some tokenType.tokComma) : trailingCommaAt j l0 = false := by
  simp [trailingCommaAt, h]

theorem trailingCommaAt_false_of_next {l0 : lexer} {j : Nat}
    (h1 : typAt (j + 1) l0 ≠ some tokenType.tokRBracket)
    (h2 : typAt (j + 1) l0 ≠ some tokenType.tokRBrace) : trailingCommaAt j l0 = false := by
  simp [trailingCommaAt, h1, h2]

theorem span_single {l0 : lexer} {k : Nat} {tt : tokenType} (h : typAt k l0 = some tt)
    (h1 : tt ≠ tokenType.tokComma) (h2 : tt ≠ tokenType.tokRBracket)
    (h3 : tt ≠ tokenType.tokRBrace) : Span l0 k (k + 1) := by
  refine ⟨by omega, fun j a b => by omega, ?_, ?_, ?_⟩
  · simp only [Nat.add_sub_cancel, h]; simpa using h1
  · rw [h]; simpa using h2
  · rw [h]; simpa using h3

theorem span_cons {l0 : lexer} {k k1 : Nat} {tt : tokenType} (h : typAt k l0 = some tt)
    (h1 : tt ≠ tokenType.tokComma) (h2 : tt ≠ tokenType.tokRBracket)
    (h3 : tt ≠ tokenType.tokRBrace) (hs : Span l0 (k + 1) k1) : Span l0 k k1 := by
  obtain ⟨a, b, c, _, _⟩ := hs
  refine ⟨by omega, ?_, c, ?_, ?_⟩
  · intro j hj1 hj2
    by_cases e : j = k
    · subst e
      exact trailingCommaAt_false_of_ne (by rw [h]; simpa using h1)
    · exact b j (by omega) hj2
  · rw [h]; simpa using h2
  · rw [h]; simpa using h3

theorem span_snoc {l0 : lexer} {k ka : Nat} {tt : tokenType} (hs : Span l0 k ka)
    (h : typAt ka l0 = some tt) (h1 : tt ≠ tokenType.tokComma) : Span l0 k (ka + 1) := by
  obtain ⟨a, b, c, d, e⟩ := hs
  refine ⟨by omega, ?_, ?_, d, e⟩
  · intro j hj1 hj2
    by_cases e : j + 1 < ka
    · exact b j hj1 e
    · have : j = ka - 1 := by omega
      subst this
      exact trailingCommaAt_false_of_ne c
  · simp only [Nat.add_sub_cancel, h]; simpa using h1

theorem span_join {l0 : lexer} {k ka k1 : Nat} (hs : Span l0 k ka)
    (hs2 : Span l0 (ka + 1) k1) : Span l0 k k1 := by
  obtain ⟨a, b, c, d, e⟩ := hs
  obtain ⟨a2, b2, c2, d2, e2⟩ := hs2
  refine ⟨by omega, ?_, c2, d, e⟩
  intro j hj1 hj2
  by_cases e : j + 1 < ka
  · exact b j hj1 e
  · by_cases e1 : j = ka - 1
    · subst e1
      exact trailingCommaAt_false_of_ne c
    · by_cases e2 : j = ka
      · subst e2
        exact trailingCommaAt_false_of_next d2 e2
      · exact b2 j (by omega) hj2

/-- The tokens a successful run consumes form a span of the token sequence. -/
theorem Run_span {pf : List Nat → Option Float64} {c : Call} {p : parser} {r : Ret}
    {p1 : parser} (h : Run pf c p r p1) :
    ∀ (l0 : lexer) (k : Nat), At l0 p k → ∃ k1, At l0 p1 k1 ∧ Span l0 k k1 := by
  induction h with
  | valueObject hp ht _ ih =>
    intro l0 k ha
    exact ih l0 k (At_peek ha hp).1
  | valueArray hp ht _ ih =>
    intro l0 k ha
    exact ih l0 k (At_peek ha hp).1
  | valueString hp ht =>
    intro l0 k ha
    obtain ⟨a, b, c⟩ := At_peek ha hp
    exact ⟨k + 1, (At_skip a c).1, span_single b (by rw [ht]; decide) (by rw [ht]; decide)
      (by rw [ht]; decide)⟩
  | valueNumber hp ht _ =>
    intro l0 k ha
    obtain ⟨a, b, c⟩ := At_peek ha hp
    exact ⟨k + 1, (At_skip a c).1, span_single b (by rw [ht]; decide) (by rw [ht]; decide)
      (by rw [ht]; decide)⟩
  | valueTrue hp ht =>
    intro l0 k ha
    obtain ⟨a, b, c⟩ := At_peek ha hp
    exact ⟨k + 1, (At_skip a c).1, span_single b (by rw [ht]; decide) (by rw [ht]; decide)
      (by rw [ht]; decide)⟩
  | valueFalse hp ht =>
    intro l0 k ha
    obtain ⟨a, b, c⟩ := At_peek ha hp
    exact ⟨k + 1, (At_skip a c).1, span_single b (by rw [ht]; decide) (by rw [ht]; decide)
      (by rw [ht]; decide)⟩
  | valueNull hp ht =>
    intro l0 k ha
    obtain ⟨a, b, c⟩ := At_peek ha hp
    exact ⟨k + 1, (At_skip a c).1, span_single b (by rw [ht]; decide) (by rw [ht]; decide)
      (by rw [ht]; decide)⟩
  | objectEmpty he hp ht =>
    intro l0 k ha
    obtain ⟨a1, b1, _⟩ := At_expect ha he
    obtain ⟨a2, b2, c2⟩ := At_peek a1 hp
    refine ⟨k + 1 + 1, (At_skip a2 c2).1, ?_⟩
    exact span_snoc (span_single b1 (by decide) (by decide) (by decide)) b2 (by rw [ht]; decide)
  | objectMembers he hp ht _ ih =>
    intro l0 k ha
    obtain ⟨a1, b1, _⟩ := At_expect ha he
    obtain ⟨a2, b2, c2⟩ := At_peek a1 hp
    obtain ⟨k1, a3, s3⟩ := ih l0 (k + 1) a2
    exact ⟨k1, a3, span_cons b1 (by decide) (by decide) (by decide) s3⟩
  | objectLoopMore hk hkt hc _ hn hnt _ ihv ihl =>
    intro l0 k ha
    obtain ⟨a1, b1, _⟩ := At_next ha hk
    obtain ⟨a2, b2, _⟩ := At_expect a1 hc
    obtain ⟨ka, a3, s3⟩ := ihv l0 (k + 1 + 1) a2
    obtain ⟨a4, b4, _⟩ := At_next a3 hn
    obtain ⟨k1, a5, s5⟩ := ihl l0 (ka + 1) a4
    refine ⟨k1, a5, ?_⟩
    exact span_cons b1 (by rw [hkt]; decide) (by rw [hkt]; decide) (by rw [hkt]; decide)
      (span_cons b2 (by decide) (by decide) (by decide) (span_join s3 s5))
  | objectLoopLast hk hkt hc _ hn hnt ihv =>
    intro l0 k ha
    obtain ⟨a1, b1, _⟩ := At_next ha hk
    obtain ⟨a2, b2, _⟩ := At_expect a1 hc
    obtain ⟨ka, a3, s3⟩ := ihv l0 (k + 1 + 1) a2
    obtain ⟨a4, b4, _⟩ := At_next a3 hn
    refine ⟨ka + 1, a4, ?_⟩
    exact span_cons b1 (by rw [hkt]; decide) (by rw [hkt]; decide) (by rw [hkt]; decide)
      (span_cons b2 (by decide) (by decide) (by decide)
        (span_snoc s3 b4 (by rw [hnt]; decide)))
  | arrayEmpty he hp ht =>
    intro l0 k ha
    obtain ⟨a1, b1, _⟩ := At_expect ha he
    obtain ⟨a2, b2, c2⟩ := At_peek a1 hp
    refine ⟨k + 1 + 1, (At_skip a2 c2).1, ?_⟩
    exact span_snoc (span_single b1 (by decide) (by decide) (by decide)) b2 (by rw [ht]; decide)
  | arrayElems he hp ht _ ih =>
    intro l0 k ha
    obtain ⟨a1, b1, _⟩ := At_expect ha he
    obtain ⟨a2, b2, c2⟩ := At_peek a1 hp
    obtain ⟨k1, a3, s3⟩ := ih l0 (k + 1) a2
    exact ⟨k1, a3, span_cons b1 (by decide) (by decide) (by decide) s3⟩
  | arrayLoopMore _ hn hnt _ ihv ihl =>
    intro l0 k ha
    obtain ⟨ka, a3, s3⟩ := ihv l0 k ha
    obtain ⟨a4, b4, _⟩ := At_next a3 hn
    obtain ⟨k1, a5, s5⟩ := ihl l0 (ka + 1) a4
    exact ⟨k1, a5, span_join s3 s5⟩
  | arrayLoopLast _ hn hnt ihv =>
    intro l0 k ha
    obtain ⟨ka, a3, s3⟩ := ihv l0 k ha
    obtain ⟨a4, b4, _⟩ := At_next a3 hn
    exact ⟨ka + 1, a4, span_snoc s3 b4 (by rw [hnt]; decide)⟩

/-! ## Behind the end marker every token is the end marker -/

theorem nextToken_eof_inv {l : lexer} {t : token} {l1 : lexer}
    (h : l.nextToken = Outcome.ok (t, l1)) (ht : t.typ = tokenType.tokEOF) :
    l1.src.length ≤ l1.pos ∧ l1.width = 0 := by
  obtain ⟨l0, _, _, _, heq⟩ := nextToken_eq l
  rw [heq] at h
  have hnext := next_eq_neg_one_iff l0
  have hdef : (l0.next).1 = -1 → (l0.next).2 = { l0 with width := 0 } := by
    intro hc
    have := hnext.1 hc
    simp [lexer.next, this]
  generalize (l0.next).2.matchSeq [114, 117, 101] = m1 at h
  generalize (l0.next).2.matchSeq [97, 108, 115, 101] = m2 at h
  generalize (l0.next).2.matchSeq [117, 108, 108] = m3 at h
  generalize (l0.next).2.scanString = ss at h
  generalize (l0.next).2.backup.scanNumber = sn at h
  generalize l0.next = n at h hnext hdef
  obtain ⟨r, ln⟩ := n
  simp only at h hnext hdef
  have inj : ∀ (tt : tokenType) (lx : lexer), tt ≠ tokenType.tokEOF →
      Outcome.ok ((⟨tt, []⟩ : token), lx) = Outcome.ok (t, l1) → False := by
    intro tt lx hne he
    simp only [Outcome.ok.injEq, Prod.mk.injEq] at he
    rw [← he.1] at ht
    exact hne ht
  have kw : ∀ (tt : tokenType) (m : Bool × lexer), tt ≠ tokenType.tokEOF →
      (if m.1 = true then Outcome.ok ((⟨tt, []⟩ : token), m.2)
        else Outcome.error (Err.unexpectedCharacter r)) = Outcome.ok (t, l1) → False := by
    intro tt m hne he
    by_cases c : m.1 = true
    · rw [if_pos c] at he; exact inj tt _ hne he
    · rw [if_neg c] at he; cases he
  by_cases c1 : r = -1
  · rw [if_pos c1] at h
    simp only [Outcome.ok.injEq, Prod.mk.injEq] at h
    rw [← h.2, hdef c1]
    exact ⟨hnext.1 c1, rfl⟩
  rw [if_neg c1] at h
  by_cases c2 : r = 123
  · rw [if_pos c2] at h; exact (inj _ _ (by decide) h).elim
  rw [if_neg c2] at h
  by_cases c3 : r = 125
  · rw [if_pos c3] at h; exact (inj _ _ (by decide) h).elim
  rw [if_neg c3] at h
  by_cases c4 : r = 91
  · rw [if_pos c4] at h; exact (inj _ _ (by decide) h).elim
  rw [if_neg c4] at h
  by_cases c5 : r = 93
  · rw [if_pos c5] at h; exact (inj _ _ (by decide) h).elim
  rw [if_neg c5] at h
  by_cases c6 : r = 58
  · rw [if_pos c6] at h; exact (inj _ _ (by decide) h).elim
  rw [if_neg c6] at h
  by_cases c7 : r = 44
  · rw [if_pos c7] at h; exact (inj _ _ (by decide) h).elim
  rw [if_neg c7] at h
  by_cases c8 : r = 34
  · rw [if_pos c8] at h
    cases ss with
    | timeout => cases h
    | error e => cases h
    | ok y =>
      simp only [Outcome.ok.injEq, Prod.mk.injEq] at h
      rw [← h.1] at ht
      cases ht
  rw [if_neg c8] at h
  by_cases c9 : r = 116
  · rw [if_pos c9] at h; exact (kw _ m1 (by decide) h).elim
  rw [if_neg c9] at h
  by_cases c10 : r = 102
  · rw [if_pos c10] at h; exact (kw _ m2 (by decide) h).elim
  rw [if_neg c10] at h
  by_cases c11 : r = 110
  · rw [if_pos c11] at h; exact (kw _ m3 (by decide) h).elim
  rw [if_neg c11] at h
  by_cases c12 : r = 45 ∨ (48 ≤ r ∧ r ≤ 57)
  · rw [if_pos c12] at h
    cases sn with
    | timeout => cases h
    | error e => cases h
    | ok y =>
      simp only [Outcome.ok.injEq, Prod.mk.injEq] at h
      rw [← h.1] at ht
      cases ht
  · rw [if_neg c12] at h
    cases h

theorem nextToken_at_end {l : lexer} (h : l.src.length ≤ l.pos) (hw : l.width = 0) :
    l.nextToken = Outcome.ok (⟨tokenType.tokEOF, []⟩, l) := by
  obtain ⟨s, p, w⟩ := l
  simp only at h hw
  subst hw
  exact nextToken_eof (List.drop_eq_nil_of_le h)

theorem lexAfter_at_end {l0 l : lexer} {k : Nat} (hk : lexAfter k l0 = Outcome.ok l)
    (h : l.src.length ≤ l.pos) (hw : l.width = 0) :
    ∀ j, lexAfter (k + j) l0 = Outcome.ok l ∧ typAt (k + j) l0 = some tokenType.tokEOF := by
  intro j
  induction j with
  | zero => exact ⟨hk, (lexAfter_succ hk (nextToken_at_end h hw)).2.2⟩
  | succ j ih =>
    have h1 := lexAfter_succ ih.1 (nextToken_at_end h hw)
    have e : k + (j + 1) = k + j + 1 := by omega
    rw [e]
    exact ⟨h1.1, (lexAfter_succ h1.1 (nextToken_at_end h hw)).2.2⟩

theorem lexAfter_succ_inv {l0 l : lexer} {k : Nat} (h : lexAfter (k + 1) l0 = Outcome.ok l) :
    ∃ lp t, lexAfter k l0 = Outcome.ok lp ∧ lp.nextToken = Outcome.ok (t, l) := by
  simp only [lexAfter] at h
  cases h1 : lexAfter k l0 with
  | timeout => rw [h1] at h; cases h
  | error e => rw [h1] at h; cases h
  | ok lp =>
    rw [h1] at h
    simp only at h
    cases h2 : lp.nextToken with
    | timeout => rw [h2] at h; cases h
    | error e => rw [h2] at h; cases h
    | ok x =>
      obtain ⟨t, l2⟩ := x
      rw [h2] at h
      simp only [Outcome.ok.injEq] at h
      subst h
      exact ⟨lp, t, rfl, h2⟩

theorem tokenAt_ok_of_lt {l0 : lexer} : ∀ (k : Nat) (l : lexer),
    lexAfter k l0 = Outcome.ok l → ∀ j, j < k → ∃ t, tokenAt j l0 = Outcome.ok t := by
  intro k
  induction k with
  | zero => intro l _ j hj; omega
  | succ k ih =>
    intro l h j hj
    obtain ⟨lp, t, h1, h2⟩ := lexAfter_succ_inv h
    by_cases e : j = k
    · subst e
      exact ⟨t, (lexAfter_succ h1 h2).2.1⟩
    · exact ih lp h1 j (by omega)

/-- What a successful `Parse` says about the token sequence of its input: no
comma is followed by a closing bracket, and no `nextToken` fails. -/
theorem Parse_ok_tokens {pf : List Nat → Option Float64} {src : List Nat} {v : Value}
    (h : Parse pf src = Outcome.ok v) :
    (∀ j, trailingCommaAt j (newLexer src) = false) ∧
    (∀ j, ∃ t, tokenAt j (newLexer src) = Outcome.ok t) := by
  simp only [Parse] at h
  cases hv : parseValue pf (3 * src.length + 1) ⟨newLexer src, none⟩ with
  | timeout => rw [hv] at h; cases h
  | error e => rw [hv] at h; cases h
  | ok y =>
    obtain ⟨v1, p⟩ := y
    rw [hv] at h
    simp only at h
    cases hn : p.lex.nextToken with
    | timeout => rw [hn] at h; cases h
    | error e => rw [hn] at h; cases h
    | ok z =>
      obtain ⟨t, l2⟩ := z
      rw [hn] at h
      simp only at h
      by_cases ht : t.typ = tokenType.tokEOF
      swap
      · simp [ht] at h
      have hrun := parseValue_run hv
      have h0 : At (newLexer src) ⟨newLexer src, none⟩ 0 := by
        simp [At, lexAfter]
      obtain ⟨k1, a1, s1⟩ := Run_span hrun (newLexer src) 0 h0
      have hb := (Run_adv hrun).1
      have e1 := (At_none hb).1 a1
      obtain ⟨f1, f2, f3⟩ := lexAfter_succ e1 hn
      obtain ⟨g1, g2⟩ := nextToken_eof_inv hn ht
      have hend := lexAfter_at_end f1 g1 g2
      obtain ⟨sa, sb, sc, _, _⟩ := s1
      have heof : ∀ j, k1 ≤ j → typAt j (newLexer src) = some tokenType.tokEOF := by
        intro j hj
        by_cases e : j = k1
        · subst e; rw [f3, ht]
        · have := (hend (j - (k1 + 1))).2
          have e2 : k1 + 1 + (j - (k1 + 1)) = j := by omega
          rw [e2] at this
          exact this
      refine ⟨?_, ?_⟩
      · intro j
        by_cases c1 : j + 1 < k1
        · exact sb j (by omega) c1
        · by_cases c2 : j = k1 - 1
          · subst c2
            exact trailingCommaAt_false_of_ne sc
          · exact trailingCommaAt_false_of_ne (by rw [heof j (by omega)]; decide)
      · intro j
        by_cases c1 : j < k1
        · exact tokenAt_ok_of_lt k1 _ e1 j c1
        · have := heof j (by omega)
          simp only [typAt] at this
          cases hj : tokenAt j (newLexer src) with
          | ok t => exact ⟨t, rfl⟩
          | error e => rw [hj] at this; cases this
          | timeout => rw [hj] at this; cases this

/-! ## Reading the same text inside a longer buffer -/

theorem DecodeRune_bad_lead (p0 : Nat) (t : List Nat)
    (h : (128 ≤ p0 ∧ p0 < 0xC2) ∨ 0xF5 ≤ p0) : DecodeRune (p0 :: t) = (RuneError, 1) := by
  have a1 : ¬ p0 < 0x80 := by omega
  rcases h with h | h
  · have a2 : p0 < 0xC2 := by omega
    simp only [DecodeRune, a1, a2, if_true, if_false]
  · have a2 : ¬ p0 < 0xC2 := by omega
    have a3 : ¬ p0 < 0xE0 := by omega
    have a4 : ¬ p0 < 0xF0 := by omega
    have a5 : ¬ p0 < 0xF5 := by omega
    simp only [DecodeRune, a1, a2, a3, a4, a5, if_false]

theorem DecodeRune_lead_alone (p0 : Nat) (h : 128 ≤ p0) :
    DecodeRune [p0] = (RuneError, 1) := by
  have a1 : ¬ p0 < 0x80 := by omega
  by_cases a2 : p0 < 0xC2
  · simp only [DecodeRune, a1, a2, if_true, if_false]
  by_cases a3 : p0 < 0xE0
  · simp only [DecodeRune, a1, a2, a3, if_true, if_false]
  by_cases a4 : p0 < 0xF0
  · simp only [DecodeRune, a1, a2, a3, a4, if_true, if_false]
  by_cases a5 : p0 < 0xF5
  · simp only [DecodeRune, a1, a2, a3, a4, a5, if_true, if_false]
  · simp only [DecodeRune, a1, a2, a3, a4, a5, if_false]

/-- A lead byte followed by a byte below 128 is an invalid encoding. -/
theorem DecodeRune_low_second (p0 b1 : Nat) (t : List Nat) (h : 128 ≤ p0) (h1 : b1 < 128) :
    DecodeRune (p0 :: b1 :: t) = (RuneError, 1) := by
  have a1 : ¬ p0 < 0x80 := by omega
  have c1 : ¬ (0x80 ≤ b1 ∧ b1 ≤ 0xBF) := by omega
  have c2 : ¬ ((if p0 = 0xE0 then 0xA0 else 0x80) ≤ b1 ∧
      b1 ≤ (if p0 = 0xED then 0x9F else 0xBF)) := by
    intro hc
    have := hc.1
    split at this <;> omega
  have c3 : ¬ ((if p0 = 0xF0 then 0x90 else 0x80) ≤ b1 ∧
      b1 ≤ (if p0 = 0xF4 then 0x8F else 0xBF)) := by
    intro hc
    have := hc.1
    split at this <;> omega
  by_cases a2 : p0 < 0xC2
  · simp only [DecodeRune, a1, a2, if_true, if_false]
  by_cases a3 : p0 < 0xE0
  · simp only [DecodeRune, a1, a2, a3, c1, if_true, if_false]
  by_cases a4 : p0 < 0xF0
  · rcases t with _ | ⟨b2, t2⟩
    · simp only [DecodeRune, a1, a2, a3, a4, if_true, if_false]
    · simp only [DecodeRune, a1, a2, a3, a4, c2, if_true, if_false]
  by_cases a5 : p0 < 0xF5
  · rcases t with _ | ⟨b2, _ | ⟨b3, t3⟩⟩
    · simp only [DecodeRune, a1, a2, a3, a4, a5, if_true, if_false]
    · simp only [DecodeRune, a1, a2, a3, a4, a5, if_true, if_false]
    · simp only [DecodeRune, a1, a2, a3, a4, a5, c3, if_true, if_false]
  · simp only [DecodeRune, a1, a2, a3, a4, a5, if_false]

/-- A lead byte of a three- or four-byte form followed by two bytes, the
second of them below 128, is an invalid encoding. -/
theorem DecodeRune_low_third (p0 b1 b2 : Nat) (t : List Nat) (h : 0xE0 ≤ p0)
    (h2 : b2 < 128) : DecodeRune (p0 :: b1 :: b2 :: t) = (RuneError, 1) := by
  have a1 : ¬ p0 < 0x80 := by omega
  have a2 : ¬ p0 < 0xC2 := by omega
  have a3 : ¬ p0 < 0xE0 := by omega
  have c1 : ¬ (0x80 ≤ b2 ∧ b2 ≤ 0xBF) := by omega
  by_cases a4 : p0 < 0xF0
  · simp only [DecodeRune, a1, a2, a3, a4, c1, if_true, if_false, ite_self]
  by_cases a5 : p0 < 0xF5
  · rcases t with _ | ⟨b3, t3⟩
    · simp only [DecodeRune, a1, a2, a3, a4, a5, if_true, if_false]
    · simp only [DecodeRune, a1, a2, a3, a4, a5, c1, if_true, if_false, ite_self]
  · simp only [DecodeRune, a1, a2, a3, a4, a5, if_false]

theorem DecodeRune_short_two (p0 b1 : Nat) (h : 0xE0 ≤ p0) :
    DecodeRune [p0, b1] = (RuneError, 1) := by
  have a1 : ¬ p0 < 0x80 := by omega
  have a2 : ¬ p0 < 0xC2 := by omega
  have a3 : ¬ p0 < 0xE0 := by omega
  by_cases a4 : p0 < 0xF0
  · simp only [DecodeRune, a1, a2, a3, a4, if_true, if_false]
  by_cases a5 : p0 < 0xF5
  · simp only [DecodeRune, a1, a2, a3, a4, a5, if_true, if_false]
  · simp only [DecodeRune, a1, a2, a3, a4, a5, if_false]

theorem DecodeRune_short_three (p0 b1 b2 : Nat) (h : 0xF0 ≤ p0) :
    DecodeRune [p0, b1, b2] = (RuneError, 1) := by
  have a1 : ¬ p0 < 0x80 := by omega
  have a2 : ¬ p0 < 0xC2 := by omega
  have a3 : ¬ p0 < 0xE0 := by omega
  have a4 : ¬ p0 < 0xF0 := by omega
  by_cases a5 : p0 < 0xF5
  · simp only [DecodeRune, a1, a2, a3, a4, a5, if_true, if_false]
  · simp only [DecodeRune, a1, a2, a3, a4, a5, if_false]

theorem DecodeRune_two_bytes (p0 b1 : Nat) (t u : List Nat) (h0 : 128 ≤ p0) (h : p0 < 0xE0) :
    DecodeRune (p0 :: b1 :: t) = DecodeRune (p0 :: b1 :: u) := by
  have a1 : ¬ p0 < 0x80 := by omega
  by_cases a2 : p0 < 0xC2
  · simp only [DecodeRune, a1, a2, if_true, if_false]
  · simp only [DecodeRune, a1, a2, h, if_true, if_false]

theorem DecodeRune_three_bytes (p0 b1 b2 : Nat) (t u : List Nat) (h0 : 128 ≤ p0)
    (h : p0 < 0xF0) : DecodeRune (p0 :: b1 :: b2 :: t) = DecodeRune (p0 :: b1 :: b2 :: u) := by
  by_cases a3 : p0 < 0xE0
  · exact DecodeRune_two_bytes p0 b1 _ _ h0 a3
  · have a1 : ¬ p0 < 0x80 := by omega
    have a2 : ¬ p0 < 0xC2 := by omega
    simp only [DecodeRune, a1, a2, a3, h, if_true, if_false]

theorem DecodeRune_four_bytes (p0 b1 b2 b3 : Nat) (t u : List Nat) (h0 : 128 ≤ p0) :
    DecodeRune (p0 :: b1 :: b2 :: b3 :: t) = DecodeRune (p0 :: b1 :: b2 :: b3 :: u) := by
  by_cases a4 : p0 < 0xF0
  · exact DecodeRune_three_bytes p0 b1 b2 _ _ h0 a4
  · have a1 : ¬ p0 < 0x80 := by omega
    have a2 : ¬ p0 < 0xC2 := by omega
    have a3 : ¬ p0 < 0xE0 := by omega
    by_cases a5 : p0 < 0xF5
    · simp only [DecodeRune, a1, a2, a3, a4, a5, if_true, if_false]
    · simp only [DecodeRune, a1, a2, a3, a4, a5, if_false]

/-- Text appended behind `x` changes what `DecodeRune` reads from `x` only
when `x` consists of bytes from 128 on. -/
theorem DecodeRune_append (x y : List Nat) (hx : x ≠ []) :
    DecodeRune (x ++ y) = DecodeRune x ∨ (∀ c ∈ x, 128 ≤ c) := by
  cases x with
  | nil => exact absurd rfl hx
  | cons p0 t =>
    by_cases h0 : p0 < 128
    · left
      rw [List.cons_append, DecodeRune_ascii p0 _ h0, DecodeRune_ascii p0 _ h0]
    · have h0 : 128 ≤ p0 := by omega
      rcases t with _ | ⟨b1, _ | ⟨b2, _ | ⟨b3, t3⟩⟩⟩
      · right
        intro c hc
        simp at hc
        omega
      · by_cases h1 : b1 < 128
        · left
          rw [List.cons_append, List.cons_append, DecodeRune_low_second p0 b1 _ h0 h1,
            DecodeRune_low_second p0 b1 _ h0 h1]
        · right
          intro c hc
          simp at hc
          omega
      · by_cases h1 : b1 < 128
        · left
          rw [List.cons_append, List.cons_append, DecodeRune_low_second p0 b1 _ h0 h1,
            DecodeRune_low_second p0 b1 _ h0 h1]
        · by_cases h2 : b2 < 128
          · left
            by_cases hl : p0 < 0xE0
            · exact DecodeRune_two_bytes p0 b1 _ _ h0 hl
            · rw [List.cons_append, List.cons_append, List.cons_append,
                DecodeRune_low_third p0 b1 b2 _ (by omega) h2,
                DecodeRune_low_third p0 b1 b2 _ (by omega) h2]
          · right
            intro c hc
            simp at hc
            omega
      · left
        exact DecodeRune_four_bytes p0 b1 b2 b3 _ _ h0

theorem DecodeRune_high (x : List Nat) (h : ∀ c, x.head? = some c → 128 ≤ c) :
    128 ≤ (DecodeRune x).1 := by
  by_contra hc
  obtain ⟨b, t, hbt, _, hb⟩ := DecodeRune_ascii_inv x rfl (by omega)
  subst hbt
  have := h b rfl
  omega

theorem emb_drop {a b : List Nat} {l l1 : lexer} (h : Emb a b l l1)
    (hw : l.pos ≤ l.src.length) :
    l1.src.drop l1.pos = l.src.drop l.pos ++ b := by
  obtain ⟨h1, h2⟩ := h
  rw [h1, h2, List.append_assoc, List.drop_append_eq_append_drop]
  have e1 : a.length + l.pos - a.length = l.pos := by omega
  rw [List.drop_eq_nil_of_le (by omega), List.nil_append, e1,
    List.drop_append_eq_append_drop]
  have e2 : l.pos - l.src.length = 0 := by omega
  rw [e2, List.drop_zero]

theorem emb_lt {a b : List Nat} {l l1 : lexer} (h : Emb a b l l1)
    (hw : l.pos < l.src.length) : l1.pos < l1.src.length := by
  obtain ⟨h1, h2⟩ := h
  rw [h1, h2]
  simp
  omega

/-- A code point below 128 is read alike inside the longer buffer. -/
theorem next_emb_ascii {a b : List Nat} {l l1 : lexer} (h : Emb a b l l1) {r : Int}
    (hr : (l.next).1 = r) (h0 : r ≠ -1) (h128 : r < 128) :
    (l1.next).1 = r ∧ Emb a b (l.next).2 (l1.next).2 := by
  obtain ⟨c, t, hd, hc, hlt, hn⟩ := next_ascii_inv l hr h0 h128
  have hw : l.pos < l.src.length := lt_length_of_drop_cons hd
  have hd1 := emb_drop h (by omega)
  rw [hd, List.cons_append] at hd1
  obtain ⟨s1, p1, w1⟩ := l1
  have hn1 := next_ascii (w := w1) hd1 hlt
  rw [hn1, hn]
  refine ⟨hc, ?_⟩
  obtain ⟨e1, e2⟩ := h
  simp only at e1 e2
  exact ⟨e1, by simp only [e2]; omega⟩

theorem next_emb_or_high {a b : List Nat} {l l1 : lexer} (h : Emb a b l l1)
    (hw : l.pos < l.src.length) :
    ((l1.next).1 = (l.next).1 ∧ Emb a b (l.next).2 (l1.next).2) ∨
    (∀ c ∈ l.src.drop l.pos, 128 ≤ c) := by
  have hne : l.src.drop l.pos ≠ [] := by
    simp [List.drop_eq_nil_iff]; omega
  rcases DecodeRune_append (l.src.drop l.pos) b hne with hd | hd
  · left
    have hd1 := emb_drop h (by omega)
    have hw1 := emb_lt h hw
    obtain ⟨e1, e2⟩ := h
    unfold lexer.next
    rw [if_neg (by omega), if_neg (by omega)]
    simp only [hd1, hd, true_and]
    exact ⟨e1, by dsimp only; omega⟩
  · right; exact hd

theorem high_suffix {s : List Nat} {p q : Nat} (h : ∀ c ∈ s.drop p, 128 ≤ c) (hpq : p ≤ q) :
    ∀ c ∈ s.drop q, 128 ≤ c := by
  intro c hc
  apply h
  have e : q = p + (q - p) := by omega
  rw [e, ← List.drop_drop] at hc
  exact List.mem_of_mem_drop hc

theorem next_high {l : lexer} (h : ∀ c ∈ l.src.drop l.pos, 128 ≤ c) :
    (l.next).1 = -1 ∨ 128 ≤ (l.next).1 := by
  by_cases hc : (l.next).1 = -1
  · left; exact hc
  · right
    by_contra hlt
    obtain ⟨c, t, hd, _, hc128, _⟩ := next_ascii_inv l rfl hc (by omega)
    have := h c (by rw [hd]; simp)
    omega

theorem isWS_ascii {r : Int} (h : isWS r = true) : r ≠ -1 ∧ r < 128 := by
  simp only [isWS, Bool.or_eq_true, beq_iff_eq] at h
  omega

theorem skipWSLoop_emb {a b : List Nat} : ∀ (n : Nat) (l l1 : lexer) (m : Nat) (l0 : lexer),
    Emb a b l l1 → skipWSLoop n l = Outcome.ok l0 → (l0.next).1 ≠ -1 → (l0.next).1 < 128 →
    n ≤ m → ∃ l2, skipWSLoop m l1 = Outcome.ok l2 ∧ Emb a b l0 l2 := by
  intro n
  induction n with
  | zero => intro l l1 m l0 _ h; simp [skipWSLoop] at h
  | succ n ih =>
    intro l l1 m l0 he h h0 h128 hm
    cases m with
    | zero => omega
    | succ m =>
      simp only [skipWSLoop] at h ⊢
      by_cases hws : isWS l.peek = true
      · rw [if_pos hws] at h
        obtain ⟨k1, k2⟩ := isWS_ascii hws
        obtain ⟨e1, e2⟩ := next_emb_ascii he (r := l.peek) rfl k1 k2
        have hws1 : isWS l1.peek = true := by
          simp only [lexer.peek] at hws ⊢
          rw [e1]; exact hws
        rw [if_pos hws1]
        exact ih _ _ m l0 e2 h h0 h128 (by omega)
      · rw [if_neg hws] at h
        simp only [Outcome.ok.injEq] at h
        subst h
        obtain ⟨e1, e2⟩ := next_emb_ascii he (r := (l.next).1) rfl h0 h128
        have hws1 : ¬ isWS l1.peek = true := by
          simp only [lexer.peek] at hws ⊢
          rw [e1]; exact hws
        rw [if_neg hws1]
        exact ⟨l1, rfl, he⟩

theorem emb_fuel {a b : List Nat} {l l1 : lexer} (h : Emb a b l l1)
    (hw : l.pos ≤ l.src.length) :
    l.src.length - l.pos + 1 ≤ l1.src.length - l1.pos + 1 := by
  obtain ⟨h1, h2⟩ := h
  rw [h1, h2]
  simp
  omega

theorem matchSeq_emb {a b : List Nat} (seq : List Nat) : ∀ (l l1 : lexer), Emb a b l l1 →
    (∀ c ∈ seq, c < 128) → (l.matchSeq seq).1 = true →
    (l1.matchSeq seq).1 = true ∧ Emb a b (l.matchSeq seq).2 (l1.matchSeq seq).2 := by
  induction seq with
  | nil => intro l l1 he _ _; exact ⟨rfl, he⟩
  | cons c cs ih =>
    intro l l1 he hc h
    simp only [lexer.matchSeq] at h ⊢
    by_cases hcond : ((l.next).1 == -1 || (l.next).1 != (c : Int)) = true
    · rw [if_pos hcond] at h; cases h
    · rw [if_neg hcond] at h ⊢
      simp only [Bool.or_eq_true, beq_iff_eq, bne_iff_ne, ne_eq, not_or, not_not] at hcond
      have hc128 : c < 128 := hc c (by simp)
      obtain ⟨e1, e2⟩ := next_emb_ascii he (r := (l.next).1) rfl hcond.1 (by omega)
      have hcond1 : ¬ (((l1.next).1 == -1 || (l1.next).1 != (c : Int)) = true) := by
        rw [e1]
        simp only [Bool.or_eq_true, beq_iff_eq, bne_iff_ne, ne_eq, not_or, not_not]
        exact hcond
      rw [if_neg hcond1]
      exact ih _ _ e2 (fun x hx => hc x (by simp [hx])) h

theorem readHex_emb {a b : List Nat} : ∀ (n : Nat) (v : Int) (l l1 : lexer) (v1 : Int)
    (l2 : lexer), Emb a b l l1 → readHex n v l = some (v1, l2) →
    ∃ l3, readHex n v l1 = some (v1, l3) ∧ Emb a b l2 l3 := by
  intro n
  induction n with
  | zero =>
    intro v l l1 v1 l2 he h
    simp only [readHex, Option.some.injEq, Prod.mk.injEq] at h
    obtain ⟨rfl, rfl⟩ := h
    exact ⟨l1, rfl, he⟩
  | succ n ih =>
    intro v l l1 v1 l2 he h
    simp only [readHex] at h ⊢
    by_cases c : (l.next).1 = -1
    · rw [if_pos c] at h; cases h
    rw [if_neg c] at h
    cases hs : hexStep v (l.next).1 with
    | none => rw [hs] at h; cases h
    | some v2 =>
      rw [hs] at h
      simp only at h
      obtain ⟨_, h128, _⟩ := hexStep_inv hs
      obtain ⟨e1, e2⟩ := next_emb_ascii he (r := (l.next).1) rfl c h128
      rw [e1, if_neg c, hs]
      exact ih _ _ _ _ _ e2 h

theorem scanUnicodeEscape_emb {a b : List Nat} {out : List Int} {l l1 : lexer}
    {out1 : List Int} {l2 : lexer} (he : Emb a b l l1)
    (h : scanUnicodeEscape out l = StringStep.more out1 l2) :
    ∃ l3, scanUnicodeEscape out l1 = StringStep.more out1 l3 ∧ Emb a b l2 l3 := by
  unfold scanUnicodeEscape at h ⊢
  cases h1 : readHex 4 0 l with
  | none => rw [h1] at h; cases h
  | some x =>
    obtain ⟨v, la⟩ := x
    obtain ⟨la1, g1, ea⟩ := readHex_emb 4 0 l l1 v la he h1
    rw [h1] at h
    rw [g1]
    simp only at h ⊢
    by_cases c1 : 0xD800 ≤ v ∧ v ≤ 0xDBFF
    · rw [if_pos c1] at h ⊢
      by_cases c2 : (la.next).1 ≠ 92
      · rw [if_pos c2] at h; cases h
      rw [if_neg c2] at h
      have c2e : (la.next).1 = 92 := by simpa using c2
      obtain ⟨e1, e2⟩ := next_emb_ascii ea c2e (by decide) (by decide)
      have c21 : ¬ (la1.next).1 ≠ 92 := by rw [e1]; simp
      rw [if_neg c21]
      by_cases c3 : ((la.next).2.next).1 ≠ 117
      · rw [if_pos c3] at h; cases h
      rw [if_neg c3] at h
      have c3e : ((la.next).2.next).1 = 117 := by simpa using c3
      obtain ⟨e3, e4⟩ := next_emb_ascii e2 c3e (by decide) (by decide)
      have c31 : ¬ ((la1.next).2.next).1 ≠ 117 := by rw [e3]; simp
      rw [if_neg c31]
      cases h2 : readHex 4 0 (la.next).2.next.2 with
      | none => rw [h2] at h; cases h
      | some y =>
        obtain ⟨low, lb⟩ := y
        obtain ⟨lb1, g2, eb⟩ := readHex_emb 4 0 _ _ low lb e4 h2
        rw [h2] at h
        rw [g2]
        simp only at h ⊢
        by_cases c4 : low < 0xDC00 ∨ low > 0xDFFF
        · rw [if_pos c4] at h; cases h
        rw [if_neg c4] at h ⊢
        injection h with i1 i2
        subst i1 i2
        exact ⟨lb1, rfl, eb⟩
    · rw [if_neg c1] at h ⊢
      by_cases c2 : 0xDC00 ≤ v ∧ v ≤ 0xDFFF
      · rw [if_pos c2] at h; cases h
      rw [if_neg c2] at h ⊢
      injection h with i1 i2
      subst i1 i2
      exact ⟨la1, rfl, ea⟩

theorem escape_switch_emb {R : lexer → lexer → Prop} {out : List Int} {e : Int}
    {lm lm1 : lexer} {X X1 : StringStep} {out1 : List Int} {l2 : lexer}
    (h : (if e = 34 ∨ e = 92 ∨ e = 47 then StringStep.more (out ++ [e]) lm
        else if e = 98 then StringStep.more (out ++ [8]) lm
        else if e = 102 then StringStep.more (out ++ [12]) lm
        else if e = 110 then StringStep.more (out ++ [10]) lm
        else if e = 114 then StringStep.more (out ++ [13]) lm
        else if e = 116 then StringStep.more (out ++ [9]) lm
        else if e = 117 then X
        else StringStep.fail (Err.invalidEscape e)) = StringStep.more out1 l2)
    (hX : X = StringStep.more out1 l2 → ∃ l3, X1 = StringStep.more out1 l3 ∧ R l2 l3)
    (hR : R lm lm1) :
    ∃ l3, (if e = 34 ∨ e = 92 ∨ e = 47 then StringStep.more (out ++ [e]) lm1
        else if e = 98 then StringStep.more (out ++ [8]) lm1
        else if e = 102 then StringStep.more (out ++ [12]) lm1
        else if e = 110 then StringStep.more (out ++ [10]) lm1
        else if e = 114 then StringStep.more (out ++ [13]) lm1
        else if e = 116 then StringStep.more (out ++ [9]) lm1
        else if e = 117 then X1
        else StringStep.fail (Err.invalidEscape e)) = StringStep.more out1 l3 ∧ R l2 l3 := by
  by_cases c1 : e = 34 ∨ e = 92 ∨ e = 47
  · rw [if_pos c1] at h ⊢
    injection h with h1 h2; subst h1 h2; exact ⟨lm1, rfl, hR⟩
  rw [if_neg c1] at h ⊢
  by_cases c2 : e = 98
  · rw [if_pos c2] at h ⊢
    injection h with h1 h2; subst h1 h2; exact ⟨lm1, rfl, hR⟩
  rw [if_neg c2] at h ⊢
  by_cases c3 : e = 102
  · rw [if_pos c3] at h ⊢
    injection h with h1 h2; subst h1 h2; exact ⟨lm1, rfl, hR⟩
  rw [if_neg c3] at h ⊢
  by_cases c4 : e = 110
  · rw [if_pos c4] at h ⊢
    injection h with h1 h2; subst h1 h2; exact ⟨lm1, rfl, hR⟩
  rw [if_neg c4] at h ⊢
  by_cases c5 : e = 114
  · rw [if_pos c5] at h ⊢
    injection h with h1 h2; subst h1 h2; exact ⟨lm1, rfl, hR⟩
  rw [if_neg c5] at h ⊢
  by_cases c6 : e = 116
  · rw [if_pos c6] at h ⊢
    injection h with h1 h2; subst h1 h2; exact ⟨lm1, rfl, hR⟩
  rw [if_neg c6] at h ⊢
  by_cases c7 : e = 117
  · rw [if_pos c7] at h ⊢
    exact hX h
  rw [if_neg c7] at h
  injection h

theorem escape_switch_ascii {out : List Int} {e : Int} {lm : lexer} {X : StringStep}
    {out1 : List Int} {l2 : lexer}
    (h : (if e = 34 ∨ e = 92 ∨ e = 47 then StringStep.more (out ++ [e]) lm
        else if e = 98 then StringStep.more (out ++ [8]) lm
        else if e = 102 then StringStep.more (out ++ [12]) lm
        else if e = 110 then StringStep.more (out ++ [10]) lm
        else if e = 114 then StringStep.more (out ++ [13]) lm
        else if e = 116 then StringStep.more (out ++ [9]) lm
        else if e = 117 then X
        else StringStep.fail (Err.invalidEscape e)) = StringStep.more out1 l2) :
    e ≠ -1 ∧ e < 128 := by
  by_cases c1 : e = 34 ∨ e = 92 ∨ e = 47
  · omega
  rw [if_neg c1] at h
  by_cases c2 : e = 98
  · omega
  rw [if_neg c2] at h
  by_cases c3 : e = 102
  · omega
  rw [if_neg c3] at h
  by_cases c4 : e = 110
  · omega
  rw [if_neg c4] at h
  by_cases c5 : e = 114
  · omega
  rw [if_neg c5] at h
  by_cases c6 : e = 116
  · omega
  rw [if_neg c6] at h
  by_cases c7 : e = 117
  · omega
  rw [if_neg c7] at h
  injection h

/-- One pass of the loop of `scanString` is the same inside the longer buffer
when its first code point is read alike. -/
theorem scanStringStep_emb {a b : List Nat} {out : List Int} {l l1 : lexer}
    (hr : (l1.next).1 = (l.next).1) (he : Emb a b (l.next).2 (l1.next).2) :
    (∀ out1 l2, scanStringStep out l = StringStep.more out1 l2 →
      ∃ l3, scanStringStep out l1 = StringStep.more out1 l3 ∧ Emb a b l2 l3) ∧
    (∀ l2, scanStringStep out l = StringStep.done l2 →
      ∃ l3, scanStringStep out l1 = StringStep.done l3 ∧ Emb a b l2 l3) := by
  constructor
  · intro out1 l2 h
    simp only [scanStringStep] at h ⊢
    rw [hr]
    by_cases c1 : (l.next).1 = -1
    · rw [if_pos c1] at h; injection h
    rw [if_neg c1] at h ⊢
    by_cases c2 : (l.next).1 = 34
    · rw [if_pos c2] at h; injection h
    rw [if_neg c2] at h ⊢
    by_cases c3 : (l.next).1 = 92
    · rw [if_pos c3] at h ⊢
      obtain ⟨k1, k2⟩ := escape_switch_ascii h
      obtain ⟨e1, e2⟩ := next_emb_ascii he (r := ((l.next).2.next).1) rfl k1 k2
      rw [e1]
      exact escape_switch_emb h (fun hx => scanUnicodeEscape_emb e2 hx) e2
    · rw [if_neg c3] at h ⊢
      injection h with h1 h2
      subst h1 h2
      exact ⟨_, rfl, he⟩
  · intro l2 h
    obtain ⟨h1, h2, _⟩ := scanStringStep_done h
    subst h2
    refine ⟨(l1.next).2, ?_, he⟩
    simp only [scanStringStep]
    rw [hr]
    have c1 : ¬ (l.next).1 = -1 := by omega
    rw [if_neg c1, if_pos h1]

/-- A scan of a string literal started in front of bytes from 128 on only
never finds the closing quote. -/
theorem scanStringLoop_high : ∀ (n : Nat) (out : List Int) (l : lexer),
    (∀ c ∈ l.src.drop l.pos, 128 ≤ c) → ∀ x, scanStringLoop n out l ≠ Outcome.ok x := by
  intro n
  induction n with
  | zero => intro out l _ x h; simp [scanStringLoop] at h
  | succ n ih =>
    intro out l hh x h
    simp only [scanStringLoop] at h
    have hn := next_high hh
    have hstep : scanStringStep out l = StringStep.fail Err.unterminatedString ∨
        scanStringStep out l = StringStep.more (out ++ [(l.next).1]) (l.next).2 := by
      simp only [scanStringStep]
      rcases hn with hn | hn
      · left; rw [if_pos hn]
      · right
        rw [if_neg (by omega), if_neg (by omega), if_neg (by omega)]
    rcases hstep with hs | hs
    · rw [hs] at h; cases h
    · rw [hs] at h
      simp only at h
      refine ih _ _ ?_ x h
      rw [next_src]
      exact high_suffix hh (next_pos_ge l)

theorem scanStringLoop_emb {a b : List Nat} : ∀ (n : Nat) (out : List Int) (l l1 : lexer)
    (m : Nat) (x : List Nat) (l2 : lexer), Emb a b l l1 →
    scanStringLoop n out l = Outcome.ok (x, l2) → n ≤ m →
    ∃ l3, scanStringLoop m out l1 = Outcome.ok (x, l3) ∧ Emb a b l2 l3 := by
  intro n
  induction n with
  | zero => intro out l l1 m x l2 _ h; simp [scanStringLoop] at h
  | succ n ih =>
    intro out l l1 m x l2 he h hm
    cases m with
    | zero => omega
    | succ m =>
      have hlt : l.pos < l.src.length := by
        by_contra hc
        simp only [scanStringLoop] at h
        rw [scanStringStep_eof (by omega)] at h
        cases h
      rcases next_emb_or_high he hlt with ⟨hr, hen⟩ | hh
      · obtain ⟨k1, k2⟩ := @scanStringStep_emb a b out _ _ hr hen
        simp only [scanStringLoop] at h ⊢
        cases hs : scanStringStep out l with
        | fail e => rw [hs] at h; cases h
        | done ld =>
          rw [hs] at h
          obtain ⟨l3, g1, g2⟩ := k2 ld hs
          rw [g1]
          simp only [Outcome.ok.injEq, Prod.mk.injEq] at h ⊢
          obtain ⟨rfl, rfl⟩ := h
          exact ⟨l3, ⟨rfl, rfl⟩, g2⟩
        | more out1 lm =>
          rw [hs] at h
          obtain ⟨l3, g1, g2⟩ := k1 out1 lm hs
          rw [g1]
          exact ih _ _ _ m x l2 g2 h (by omega)
      · exact absurd h (scanStringLoop_high _ _ _ hh _)

theorem scanString_emb {a b : List Nat} {l l1 : lexer} {x : List Nat} {l2 : lexer}
    (he : Emb a b l l1) (hw : l.pos ≤ l.src.length)
    (h : l.scanString = Outcome.ok (x, l2)) :
    ∃ l3, l1.scanString = Outcome.ok (x, l3) ∧ Emb a b l2 l3 :=
  scanStringLoop_emb _ [] l l1 _ x l2 he h (emb_fuel he hw)

theorem inert_of_high {r : Int} (h : r = -1 ∨ 128 ≤ r) : inert r := by
  refine ⟨?_, by omega, by omega, by omega⟩
  simp only [isDigit, decide_eq_false_iff_not]
  omega

theorem isDigit_ascii {r : Int} (h : isDigit r = true) : r ≠ -1 ∧ r < 128 := by
  simp only [isDigit, decide_eq_true_eq] at h
  omega

/-- The code point behind a number literal is read alike inside the longer
buffer, or it ends the literal in both. -/
theorem term_rel {a b : List Nat} {l l1 : lexer} (he : Emb a b l l1)
    (hw : l.pos ≤ l.src.length) (hb : numStop b = true) :
    ((l1.next).1 = (l.next).1 ∧ Emb a b (l.next).2 (l1.next).2) ∨
    (inert (l.next).1 ∧ inert (l1.next).1) := by
  by_cases hlt : l.pos < l.src.length
  · rcases next_emb_or_high he hlt with h | h
    · left; exact h
    · right
      refine ⟨inert_of_high (next_high h), ?_⟩
      have hd := emb_drop he hw
      have hlt1 := emb_lt he hlt
      have h1 : 128 ≤ (DecodeRune (l1.src.drop l1.pos)).1 := by
        apply DecodeRune_high
        intro c hc
        rw [hd] at hc
        cases hx : l.src.drop l.pos with
        | nil =>
          have := length_le_of_drop_nil hx
          omega
        | cons x0 xt =>
          rw [hx] at hc
          simp only [List.cons_append, List.head?_cons, Option.some.injEq] at hc
          subst hc
          exact h x0 (by rw [hx]; simp)
      apply inert_of_high
      right
      unfold lexer.next
      rw [if_neg (by omega)]
      exact h1
  · right
    have hl : (l.next).1 = -1 := (next_eq_neg_one_iff l).2 (by omega)
    refine ⟨inert_of_high (Or.inl hl), ?_⟩
    have hd := emb_drop he hw
    have hnil : l.src.drop l.pos = [] := List.drop_eq_nil_of_le (by omega)
    rw [hnil, List.nil_append] at hd
    obtain ⟨s1, p1, w1⟩ := l1
    simp only at hd
    cases b with
    | nil =>
      rw [next_eof hd]
      exact inert_of_high (Or.inl rfl)
    | cons c t =>
      simp only [numStop, Bool.and_eq_true, decide_eq_true_eq, Bool.not_eq_true',
        bne_iff_ne, ne_eq] at hb
      obtain ⟨⟨⟨⟨k1, k2⟩, k3⟩, k4⟩, k5⟩ := hb
      rw [next_ascii hd k1]
      simp only [isDigitByte, decide_eq_false_iff_not] at k2
      refine ⟨?_, by simp only; omega, by simp only; omega, by simp only; omega⟩
      simp only [isDigit, decide_eq_false_iff_not]
      omega

theorem scanDigits_emb {a b : List Nat} (hb : numStop b = true) : ∀ (n : Nat) (l l1 : lexer)
    (m : Nat) (x : Int × lexer), Emb a b l l1 → l.pos ≤ l.src.length →
    scanDigits n l = Outcome.ok x → n ≤ m →
    ∃ lq lq1, x = lq.next ∧ scanDigits m l1 = Outcome.ok (lq1.next) ∧ Emb a b lq lq1 ∧
      Adv l lq ∧ lq.pos ≤ lq.src.length := by
  intro n
  induction n with
  | zero => intro l l1 m x _ _ h; simp [scanDigits] at h
  | succ n ih =>
    intro l l1 m x he hw h hm
    cases m with
    | zero => omega
    | succ m =>
      simp only [scanDigits] at h ⊢
      by_cases hd : isDigit (l.next).1 = true
      · rw [if_pos hd] at h
        obtain ⟨k1, k2⟩ := isDigit_ascii hd
        obtain ⟨e1, e2⟩ := next_emb_ascii he (r := (l.next).1) rfl k1 k2
        have hd1 : isDigit (l1.next).1 = true := by rw [e1]; exact hd
        rw [if_pos hd1]
        have hw1 : (l.next).2.pos ≤ (l.next).2.src.length := by
          rw [next_src]; exact next_pos_le l hw
        obtain ⟨lq, lq1, g1, g2, g3, g4, g5⟩ := ih _ _ m x e2 hw1 h (by omega)
        exact ⟨lq, lq1, g1, g2, g3, (Adv_next l).trans g4, g5⟩
      · rw [if_neg hd] at h
        simp only [Outcome.ok.injEq] at h
        have hd1 : ¬ isDigit (l1.next).1 = true := by
          rcases term_rel he hw hb with ⟨e1, _⟩ | ⟨_, i2⟩
          · rw [e1]; exact hd
          · rw [i2.1]; simp
        rw [if_neg hd1]
        exact ⟨l, l1, h.symm, rfl, he, Adv.refl l, hw⟩

theorem lexeme_emb {a b : List Nat} {l3 l4 : lexer} {start : Nat} (he : Emb a b l3 l4)
    (hw : l3.pos ≤ l3.src.length) :
    List.take (l4.pos - (a.length + start)) (List.drop (a.length + start) l4.src) =
      List.take (l3.pos - start) (List.drop start l3.src) := by
  obtain ⟨h1, h2⟩ := he
  rw [h1, h2, List.append_assoc, List.drop_append_eq_append_drop]
  have e1 : a.length + start - a.length = start := by omega
  have e2 : a.length + l3.pos - (a.length + start) = l3.pos - start := by omega
  rw [List.drop_eq_nil_of_le (by omega), List.nil_append, e1, e2,
    List.drop_append_eq_append_drop]
  rw [List.take_append_of_le_length (by simp; omega)]

theorem emb_backup_next {a b : List Nat} {lq lq1 : lexer} (he : Emb a b lq lq1) :
    Emb a b (lq.next).2.backup (lq1.next).2.backup := by
  obtain ⟨h1, h2⟩ := he
  exact ⟨by rw [backup_next_src, backup_next_src]; exact h1,
    by rw [backup_next_pos, backup_next_pos]; exact h2⟩

theorem scanExponent_emb {a b : List Nat} (hb : numStop b = true) {n m start : Nat}
    {lq lq1 : lexer} {lex : List Nat} {l3 : lexer} (he : Emb a b lq lq1)
    (hw : lq.pos ≤ lq.src.length) (hm : n ≤ m)
    (h : scanExponent n start (lq.next).1 (lq.next).2 = Outcome.ok (lex, l3)) :
    ∃ l4, scanExponent m (a.length + start) (lq1.next).1 (lq1.next).2 = Outcome.ok (lex, l4) ∧
      Emb a b l3 l4 := by
  simp only [scanExponent] at h ⊢
  have hfin : ∀ (lr lr1 : lexer), Emb a b lr lr1 → lr.pos ≤ lr.src.length →
      lr.src = lq.src →
      Outcome.ok (List.take ((lr.next).2.backup.pos - start)
          (List.drop start (lr.next).2.backup.src), (lr.next).2.backup) = Outcome.ok (lex, l3) →
      ∃ l4, Outcome.ok (List.take ((lr1.next).2.backup.pos - (a.length + start))
          (List.drop (a.length + start) (lr1.next).2.backup.src), (lr1.next).2.backup) =
          Outcome.ok (lex, l4) ∧ Emb a b l3 l4 := by
    intro lr lr1 her hwr _ hh
    simp only [Outcome.ok.injEq, Prod.mk.injEq] at hh
    obtain ⟨hh1, hh2⟩ := hh
    have eb := emb_backup_next her
    have hwb : (lr.next).2.backup.pos ≤ (lr.next).2.backup.src.length := by
      rw [backup_next_src, backup_next_pos]; exact hwr
    refine ⟨(lr1.next).2.backup, ?_, by rw [← hh2]; exact eb⟩
    rw [lexeme_emb eb hwb, hh1]
  by_cases c : (lq.next).1 = 101 ∨ (lq.next).1 = 69
  · rw [if_pos c] at h
    obtain ⟨e1, e2⟩ := next_emb_ascii he (r := (lq.next).1) rfl (by omega) (by omega)
    rw [e1, if_pos c]
    have hw1 : (lq.next).2.pos ≤ (lq.next).2.src.length := by
      rw [next_src]; exact next_pos_le lq hw
    have key : ∀ (lr lr1 : lexer), Emb a b lr lr1 → lr.pos ≤ lr.src.length →
        lr.src = lq.src →
        (if ¬ isDigit (lr.next).1 = true then Outcome.error Err.invalidExponent
          else match scanDigits n (lr.next).2 with
            | Outcome.ok (_, l2) =>
              Outcome.ok (List.take (l2.backup.pos - start) (List.drop start l2.backup.src),
                l2.backup)
            | Outcome.error e => Outcome.error e
            | Outcome.timeout => Outcome.timeout) = Outcome.ok (lex, l3) →
        ∃ l4, (if ¬ isDigit (lr1.next).1 = true then Outcome.error Err.invalidExponent
          else match scanDigits m (lr1.next).2 with
            | Outcome.ok (_, l2) =>
              Outcome.ok (List.take (l2.backup.pos - (a.length + start))
                (List.drop (a.length + start) l2.backup.src), l2.backup)
            | Outcome.error e => Outcome.error e
            | Outcome.timeout => Outcome.timeout) = Outcome.ok (lex, l4) ∧ Emb a b l3 l4 := by
      intro lr lr1 her hwr hsrc hh
      by_cases hd : ¬ isDigit (lr.next).1 = true
      · rw [if_pos hd] at hh; cases hh
      rw [if_neg hd] at hh
      have hd' : isDigit (lr.next).1 = true := by simpa using hd
      obtain ⟨k1, k2⟩ := isDigit_ascii hd'
      obtain ⟨f1, f2⟩ := next_emb_ascii her (r := (lr.next).1) rfl k1 k2
      rw [f1, if_neg hd]
      have hwn : (lr.next).2.pos ≤ (lr.next).2.src.length := by
        rw [next_src]; exact next_pos_le lr hwr
      cases hs : scanDigits n (lr.next).2 with
      | timeout => rw [hs] at hh; cases hh
      | error e => rw [hs] at hh; cases hh
      | ok x =>
        obtain ⟨lz, lz1, g1, g2, g3, g4, g5⟩ := scanDigits_emb hb n _ _ m x f2 hwn hs hm
        rw [hs] at hh
        rw [g2]
        subst g1
        simp only at hh ⊢
        exact hfin lz lz1 g3 g5 (by rw [g4.1, next_src, hsrc]) hh
    by_cases cs : ((lq.next).2.next).1 = 43 ∨ ((lq.next).2.next).1 = 45
    · simp only [cs, if_true] at h
      obtain ⟨f1, f2⟩ := next_emb_ascii e2 (r := ((lq.next).2.next).1) rfl (by omega) (by omega)
      have cs1 : ((lq1.next).2.next).1 = 43 ∨ ((lq1.next).2.next).1 = 45 := by
        rw [f1]; exact cs
      simp only [cs1, if_true]
      have hw2 : (lq.next).2.next.2.pos ≤ (lq.next).2.next.2.src.length := by
        rw [next_src]; exact next_pos_le _ hw1
      exact key _ _ f2 hw2 (by rw [next_src, next_src]) h
    · simp only [cs, if_false] at h
      have hd' : isDigit ((lq.next).2.next).1 = true := by
        by_contra hc
        rw [if_pos hc] at h
        cases h
      obtain ⟨k1, k2⟩ := isDigit_ascii hd'
      obtain ⟨f1, f2⟩ := next_emb_ascii e2 (r := ((lq.next).2.next).1) rfl k1 k2
      have cs1 : ¬ (((lq1.next).2.next).1 = 43 ∨ ((lq1.next).2.next).1 = 45) := by
        rw [f1]; exact cs
      simp only [cs1, if_false]
      exact key _ _ e2 hw1 (next_src lq) h
  · rw [if_neg c] at h
    have c1 : ¬ ((lq1.next).1 = 101 ∨ (lq1.next).1 = 69) := by
      rcases term_rel he hw hb with ⟨e1, _⟩ | ⟨_, i2⟩
      · rw [e1]; exact c
      · have := i2.2.2; omega
    rw [if_neg c1]
    exact hfin lq lq1 he hw rfl h

theorem scanFraction_emb {a b : List Nat} (hb : numStop b = true) {n m start : Nat}
    {lq lq1 : lexer} {lex : List Nat} {l3 : lexer} (he : Emb a b lq lq1)
    (hw : lq.pos ≤ lq.src.length) (hm : n ≤ m)
    (h : scanFraction n start (lq.next).1 (lq.next).2 = Outcome.ok (lex, l3)) :
    ∃ l4, scanFraction m (a.length + start) (lq1.next).1 (lq1.next).2 = Outcome.ok (lex, l4) ∧
      Emb a b l3 l4 := by
  simp only [scanFraction] at h ⊢
  by_cases c : (lq.next).1 = 46
  · rw [if_pos c] at h
    obtain ⟨e1, e2⟩ := next_emb_ascii he (r := (lq.next).1) rfl (by omega) (by omega)
    rw [e1, if_pos c]
    have hw1 : (lq.next).2.pos ≤ (lq.next).2.src.length := by
      rw [next_src]; exact next_pos_le lq hw
    by_cases hd : ¬ isDigit ((lq.next).2.next).1 = true
    · rw [if_pos hd] at h; cases h
    rw [if_neg hd] at h
    have hd' : isDigit ((lq.next).2.next).1 = true := by simpa using hd
    obtain ⟨k1, k2⟩ := isDigit_ascii hd'
    obtain ⟨f1, f2⟩ := next_emb_ascii e2 (r := ((lq.next).2.next).1) rfl k1 k2
    rw [f1, if_neg hd]
    have hw2 : (lq.next).2.next.2.pos ≤ (lq.next).2.next.2.src.length := by
      rw [next_src]; exact next_pos_le _ hw1
    cases hs : scanDigits n (lq.next).2.next.2 with
    | timeout => rw [hs] at h; cases h
    | error e => rw [hs] at h; cases h
    | ok x =>
      obtain ⟨lz, lz1, g1, g2, g3, g4, g5⟩ := scanDigits_emb hb n _ _ m x f2 hw2 hs hm
      rw [hs] at h
      rw [g2]
      subst g1
      simp only at h ⊢
      exact scanExponent_emb hb g3 g5 hm h
  · rw [if_neg c] at h
    have c1 : ¬ (lq1.next).1 = 46 := by
      rcases term_rel he hw hb with ⟨e1, _⟩ | ⟨_, i2⟩
      · rw [e1]; exact c
      · exact i2.2.1
    rw [if_neg c1]
    exact scanExponent_emb hb he hw hm h

theorem scanNumber_emb {a b : List Nat} (hb : numStop b = true) {l l1 : lexer}
    {lex : List Nat} {l3 : lexer} (he : Emb a b l l1) (hw : l.pos ≤ l.src.length)
    (h : l.scanNumber = Outcome.ok (lex, l3)) :
    ∃ l4, l1.scanNumber = Outcome.ok (lex, l4) ∧ Emb a b l3 l4 := by
  have hm := emb_fuel he hw
  have hstart : l1.pos = a.length + l.pos := he.2
  simp only [lexer.scanNumber] at h ⊢
  rw [hstart] at hm ⊢
  generalize l.src.length - l.pos + 1 = n at h hm
  generalize l1.src.length - (a.length + l.pos) + 1 = m at hm ⊢
  have key : ∀ (lq lq1 : lexer), Emb a b lq lq1 → lq.pos ≤ lq.src.length →
      (if (lq.next).1 = -1 then Outcome.error Err.invalidNumber
        else if (lq.next).1 = 48 then scanFraction n l.pos (lq.next).1 (lq.next).2
        else if 49 ≤ (lq.next).1 ∧ (lq.next).1 ≤ 57 then
          match scanDigits n (lq.next).2 with
          | Outcome.ok (r1, l1) => scanFraction n l.pos r1 l1
          | Outcome.error e => Outcome.error e
          | Outcome.timeout => Outcome.timeout
        else Outcome.error Err.invalidNumber) = Outcome.ok (lex, l3) →
      ∃ l4, (if (lq1.next).1 = -1 then Outcome.error Err.invalidNumber
        else if (lq1.next).1 = 48 then
          scanFraction m (a.length + l.pos) (lq1.next).1 (lq1.next).2
        else if 49 ≤ (lq1.next).1 ∧ (lq1.next).1 ≤ 57 then
          match scanDigits m (lq1.next).2 with
          | Outcome.ok (r1, l1) => scanFraction m (a.length + l.pos) r1 l1
          | Outcome.error e => Outcome.error e
          | Outcome.timeout => Outcome.timeout
        else Outcome.error Err.invalidNumber) = Outcome.ok (lex, l4) ∧ Emb a b l3 l4 := by
    intro lq lq1 heq hwq hh
    by_cases c1 : (lq.next).1 = -1
    · rw [if_pos c1] at hh; cases hh
    rw [if_neg c1] at hh
    by_cases c2 : (lq.next).1 = 48
    · rw [if_pos c2] at hh
      obtain ⟨e1, e2⟩ := next_emb_ascii heq (r := (lq.next).1) rfl c1 (by omega)
      rw [if_neg (by rw [e1]; exact c1), if_pos (by rw [e1]; exact c2)]
      exact scanFraction_emb hb heq hwq hm hh
    rw [if_neg c2] at hh
    by_cases c3 : 49 ≤ (lq.next).1 ∧ (lq.next).1 ≤ 57
    · rw [if_pos c3] at hh
      obtain ⟨e1, e2⟩ := next_emb_ascii heq (r := (lq.next).1) rfl c1 (by omega)
      rw [if_neg (by rw [e1]; exact c1), if_neg (by rw [e1]; exact c2),
        if_pos (by rw [e1]; exact c3)]
      have hw1 : (lq.next).2.pos ≤ (lq.next).2.src.length := by
        rw [next_src]; exact next_pos_le lq hwq
      cases hs : scanDigits n (lq.next).2 with
      | timeout => rw [hs] at hh; cases hh
      | error e => rw [hs] at hh; cases hh
      | ok x =>
        obtain ⟨lz, lz1, g1, g2, g3, g4, g5⟩ := scanDigits_emb hb n _ _ m x e2 hw1 hs hm
        rw [hs] at hh
        rw [g2]
        subst g1
        simp only at hh ⊢
        exact scanFraction_emb hb g3 g5 hm hh
    · rw [if_neg c3] at hh; cases hh
  by_cases c : (l.next).1 = 45
  · simp only [c, if_true] at h
    obtain ⟨e1, e2⟩ := next_emb_ascii he (r := (l.next).1) rfl (by omega) (by omega)
    have c1 : (l1.next).1 = 45 := by rw [e1]; exact c
    simp only [c1, if_true]
    have hw1 : (l.next).2.pos ≤ (l.next).2.src.length := by
      rw [next_src]; exact next_pos_le l hw
    exact key _ _ e2 hw1 h
  · simp only [c, if_false] at h
    have hasc : (l.next).1 ≠ -1 ∧ (l.next).1 < 128 := by
      by_cases c1 : (l.next).1 = -1
      · rw [if_pos c1] at h; cases h
      rw [if_neg c1] at h
      by_cases c2 : (l.next).1 = 48
      · omega
      rw [if_neg c2] at h
      by_cases c3 : 49 ≤ (l.next).1 ∧ (l.next).1 ≤ 57
      · omega
      · rw [if_neg c3] at h; cases h
    obtain ⟨e1, e2⟩ := next_emb_ascii he (r := (l.next).1) rfl hasc.1 hasc.2
    have c1 : ¬ (l1.next).1 = 45 := by rw [e1]; exact c
    simp only [c1, if_false]
    exact key _ _ he hw h

/-- A token other than the end marker is read alike inside a longer buffer,
provided the text behind could not continue a number. -/
theorem nextToken_emb {a b : List Nat} (hb : numStop b = true) {l l1 : lexer} {t : token}
    {l2 : lexer} (he : Emb a b l l1) (hw : l.pos ≤ l.src.length)
    (h : l.nextToken = Outcome.ok (t, l2)) (ht : t.typ ≠ tokenType.tokEOF) :
    ∃ l3, l1.nextToken = Outcome.ok (t, l3) ∧ Emb a b l2 l3 := by
  obtain ⟨l0, hskip, a0, _, heq⟩ := nextToken_eq l
  obtain ⟨l0', hskip1, _, _, heq1⟩ := nextToken_eq l1
  rw [heq] at h
  rw [heq1]
  have hw0 : l0.pos ≤ l0.src.length := by
    have := a0.2.2 hw
    rw [a0.1]; exact this
  have hwn : (l0.next).2.pos ≤ (l0.next).2.src.length := by
    rw [next_src]; exact next_pos_le l0 hw0
  have hwb : (l0.next).2.backup.pos ≤ (l0.next).2.backup.src.length := by
    rw [backup_next_src, backup_next_pos]; exact hw0
  -- the first code point of the token is below 128
  have hasc : (l0.next).1 ≠ -1 ∧ (l0.next).1 < 128 := by
    by_cases c1 : (l0.next).1 = -1
    · rw [if_pos c1] at h
      simp only [Outcome.ok.injEq, Prod.mk.injEq] at h
      rw [← h.1] at ht
      exact absurd rfl ht
    refine ⟨c1, ?_⟩
    rw [if_neg c1] at h
    by_cases c2 : (l0.next).1 = 123
    · omega
    rw [if_neg c2] at h
    by_cases c3 : (l0.next).1 = 125
    · omega
    rw [if_neg c3] at h
    by_cases c4 : (l0.next).1 = 91
    · omega
    rw [if_neg c4] at h
    by_cases c5 : (l0.next).1 = 93
    · omega
    rw [if_neg c5] at h
    by_cases c6 : (l0.next).1 = 58
    · omega
    rw [if_neg c6] at h
    by_cases c7 : (l0.next).1 = 44
    · omega
    rw [if_neg c7] at h
    by_cases c8 : (l0.next).1 = 34
    · omega
    rw [if_neg c8] at h
    by_cases c9 : (l0.next).1 = 116
    · omega
    rw [if_neg c9] at h
    by_cases c10 : (l0.next).1 = 102
    · omega
    rw [if_neg c10] at h
    by_cases c11 : (l0.next).1 = 110
    · omega
    rw [if_neg c11] at h
    by_cases c12 : (l0.next).1 = 45 ∨ (48 ≤ (l0.next).1 ∧ (l0.next).1 ≤ 57)
    · omega
    · rw [if_neg c12] at h; cases h
  have he0 : Emb a b l0 l0' := by
    obtain ⟨lx, g1, g2⟩ := skipWSLoop_emb _ l l1 (l1.src.length - l1.pos + 1) l0 he hskip
      hasc.1 hasc.2 (emb_fuel he hw)
    have : l1.skipWS = Outcome.ok lx := g1
    rw [hskip1] at this
    injection this with e
    rw [e]; exact g2
  obtain ⟨e1, e2⟩ := next_emb_ascii he0 (r := (l0.next).1) rfl hasc.1 hasc.2
  rw [e1]
  have hS := fun x lz (hh : (l0.next).2.scanString = Outcome.ok (x, lz)) =>
    scanString_emb e2 hwn hh
  have hM1 := matchSeq_emb [114, 117, 101] _ _ e2 (by decide)
  have hM2 := matchSeq_emb [97, 108, 115, 101] _ _ e2 (by decide)
  have hM3 := matchSeq_emb [117, 108, 108] _ _ e2 (by decide)
  have hN := fun x lz (hh : (l0.next).2.backup.scanNumber = Outcome.ok (x, lz)) =>
    scanNumber_emb hb (emb_backup_next he0) hwb hh
  generalize (l0.next).2.matchSeq [114, 117, 101] = m1 at h hM1
  generalize (l0'.next).2.matchSeq [114, 117, 101] = m1' at hM1 ⊢
  generalize (l0.next).2.matchSeq [97, 108, 115, 101] = m2 at h hM2
  generalize (l0'.next).2.matchSeq [97, 108, 115, 101] = m2' at hM2 ⊢
  generalize (l0.next).2.matchSeq [117, 108, 108] = m3 at h hM3
  generalize (l0'.next).2.matchSeq [117, 108, 108] = m3' at hM3 ⊢
  generalize (l0.next).2.scanString = ss at h hS
  generalize (l0'.next).2.scanString = ss' at hS ⊢
  generalize (l0.next).2.backup.scanNumber = sn at h hN
  generalize (l0'.next).2.backup.scanNumber = sn' at hN ⊢
  generalize (l0.next).1 = r at h hasc ⊢
  generalize (l0.next).2 = ln at h e2
  generalize (l0'.next).2 = ln' at e2 ⊢
  have single : ∀ tt : tokenType,
      Outcome.ok ((⟨tt, []⟩ : token), ln) = Outcome.ok (t, l2) →
      ∃ l3, Outcome.ok ((⟨tt, []⟩ : token), ln') = Outcome.ok (t, l3) ∧ Emb a b l2 l3 := by
    intro tt hh
    simp only [Outcome.ok.injEq, Prod.mk.injEq] at hh
    obtain ⟨rfl, rfl⟩ := hh
    exact ⟨ln', rfl, e2⟩
  have kw : ∀ (tt : tokenType) (m m' : Bool × lexer),
      (m.1 = true → m'.1 = true ∧ Emb a b m.2 m'.2) →
      (if m.1 = true then Outcome.ok ((⟨tt, []⟩ : token), m.2)
        else Outcome.error (Err.unexpectedCharacter r)) = Outcome.ok (t, l2) →
      ∃ l3, (if m'.1 = true then Outcome.ok ((⟨tt, []⟩ : token), m'.2)
        else Outcome.error (Err.unexpectedCharacter r)) = Outcome.ok (t, l3) ∧
        Emb a b l2 l3 := by
    intro tt m m' hm hh
    by_cases c : m.1 = true
    · rw [if_pos c] at hh
      obtain ⟨g1, g2⟩ := hm c
      rw [if_pos g1]
      simp only [Outcome.ok.injEq, Prod.mk.injEq] at hh
      obtain ⟨rfl, rfl⟩ := hh
      exact ⟨m'.2, rfl, g2⟩
    · rw [if_neg c] at hh; cases hh
  by_cases c1 : r = -1
  · exact absurd c1 hasc.1
  rw [if_neg c1] at h ⊢
  by_cases c2 : r = 123
  · rw [if_pos c2] at h ⊢; exact single _ h
  rw [if_neg c2] at h ⊢
  by_cases c3 : r = 125
  · rw [if_pos c3] at h ⊢; exact single _ h
  rw [if_neg c3] at h ⊢
  by_cases c4 : r = 91
  · rw [if_pos c4] at h ⊢; exact single _ h
  rw [if_neg c4] at h ⊢
  by_cases c5 : r = 93
  · rw [if_pos c5] at h ⊢; exact single _ h
  rw [if_neg c5] at h ⊢
  by_cases c6 : r = 58
  · rw [if_pos c6] at h ⊢; exact single _ h
  rw [if_neg c6] at h ⊢
  by_cases c7 : r = 44
  · rw [if_pos c7] at h ⊢; exact single _ h
  rw [if_neg c7] at h ⊢
  by_cases c8 : r = 34
  · rw [if_pos c8] at h ⊢
    cases ss with
    | timeout => cases h
    | error e => cases h
    | ok y =>
      obtain ⟨x, lz⟩ := y
      obtain ⟨l3, g1, g2⟩ := hS x lz rfl
      rw [g1]
      simp only [Outcome.ok.injEq, Prod.mk.injEq] at h ⊢
      obtain ⟨rfl, rfl⟩ := h
      exact ⟨l3, ⟨rfl, rfl⟩, g2⟩
  rw [if_neg c8] at h ⊢
  by_cases c9 : r = 116
  · rw [if_pos c9] at h ⊢; exact kw _ m1 m1' hM1 h
  rw [if_neg c9] at h ⊢
  by_cases c10 : r = 102
  · rw [if_pos c10] at h ⊢; exact kw _ m2 m2' hM2 h
  rw [if_neg c10] at h ⊢
  by_cases c11 : r = 110
  · rw [if_pos c11] at h ⊢; exact kw _ m3 m3' hM3 h
  rw [if_neg c11] at h ⊢
  by_cases c12 : r = 45 ∨ (48 ≤ r ∧ r ≤ 57)
  · rw [if_pos c12] at h ⊢
    cases sn with
    | timeout => cases h
    | error e => cases h
    | ok y =>
      obtain ⟨x, lz⟩ := y
      obtain ⟨l3, g1, g2⟩ := hN x lz rfl
      rw [g1]
      simp only [Outcome.ok.injEq, Prod.mk.injEq] at h ⊢
      obtain ⟨rfl, rfl⟩ := h
      exact ⟨l3, ⟨rfl, rfl⟩, g2⟩
  · rw [if_neg c12] at h; cases h

/-! ## Parsing the same text inside a longer buffer -/

theorem buf_peek {p : parser} {t0 t : token} {p1 : parser} (hb : p.buf = some t0)
    (h : p.peek = Outcome.ok (t, p1)) : t = t0 := by
  rw [parser_peek_buf hb] at h
  simp only [Outcome.ok.injEq, Prod.mk.injEq] at h
  exact h.1.symm

theorem buf_next {p : parser} {t0 t : token} {p1 : parser} (hb : p.buf = some t0)
    (h : p.next = Outcome.ok (t, p1)) : t = t0 := by
  rw [parser_next_buf hb] at h
  simp only [Outcome.ok.injEq, Prod.mk.injEq] at h
  exact h.1.symm

theorem buf_expect {p : parser} {t0 : token} {tt : tokenType} {p1 : parser}
    (hb : p.buf = some t0) (h : p.expect tt = Outcome.ok p1) : t0.typ = tt := by
  obtain ⟨t, hn, ht⟩ := parser_expect_ok h
  rw [← buf_next hb hn]; exact ht

/-- A run that starts with a token in the buffer does not start with the end
marker. -/
theorem Run_first {pf : List Nat → Option Float64} {c : Call} {p : parser} {r : Ret}
    {p1 : parser} (h : Run pf c p r p1) :
    ∀ t0, p.buf = some t0 → t0.typ ≠ tokenType.tokEOF := by
  induction h with
  | valueObject hp ht _ _ => intro t0 hb; rw [← buf_peek hb hp, ht]; decide
  | valueArray hp ht _ _ => intro t0 hb; rw [← buf_peek hb hp, ht]; decide
  | valueString hp ht => intro t0 hb; rw [← buf_peek hb hp, ht]; decide
  | valueNumber hp ht _ => intro t0 hb; rw [← buf_peek hb hp, ht]; decide
  | valueTrue hp ht => intro t0 hb; rw [← buf_peek hb hp, ht]; decide
  | valueFalse hp ht => intro t0 hb; rw [← buf_peek hb hp, ht]; decide
  | valueNull hp ht => intro t0 hb; rw [← buf_peek hb hp, ht]; decide
  | objectEmpty he _ _ => intro t0 hb; rw [buf_expect hb he]; decide
  | objectMembers he _ _ _ _ => intro t0 hb; rw [buf_expect hb he]; decide
  | objectLoopMore hk hkt _ _ _ _ _ _ _ => intro t0 hb; rw [← buf_next hb hk, hkt]; decide
  | objectLoopLast hk hkt _ _ _ _ _ => intro t0 hb; rw [← buf_next hb hk, hkt]; decide
  | arrayEmpty he _ _ => intro t0 hb; rw [buf_expect hb he]; decide
  | arrayElems he _ _ _ _ => intro t0 hb; rw [buf_expect hb he]; decide
  | arrayLoopMore _ _ _ _ ihv _ => exact ihv
  | arrayLoopLast _ _ _ ihv => exact ihv

theorem peek_emb {a b : List Nat} (hb : numStop b = true) {p p' : parser} {t : token}
    {p1 : parser} (he : EmbP a b p p') (hw : p.lex.pos ≤ p.lex.src.length)
    (h : p.peek = Outcome.ok (t, p1)) (ht : t.typ ≠ tokenType.tokEOF) :
    ∃ p1', p'.peek = Outcome.ok (t, p1') ∧ EmbP a b p1 p1' := by
  obtain ⟨h1, h2 | h2⟩ := parser_peek_ok h
  · obtain ⟨hbuf, rfl⟩ := h2
    have hb' : p'.buf = some t := by rw [he.2, hbuf]
    exact ⟨p', parser_peek_buf hb', he⟩
  · obtain ⟨hbuf, hn⟩ := h2
    have hb' : p'.buf = none := by rw [he.2, hbuf]
    obtain ⟨l3, g1, g2⟩ := nextToken_emb hb he.1 hw hn ht
    refine ⟨⟨l3, some t⟩, ?_, g2, by simp [h1]⟩
    rw [parser_peek_none hb', g1]

theorem next_emb {a b : List Nat} (hb : numStop b = true) {p p' : parser} {t : token}
    {p1 : parser} (he : EmbP a b p p') (hw : p.lex.pos ≤ p.lex.src.length)
    (h : p.next = Outcome.ok (t, p1)) (ht : t.typ ≠ tokenType.tokEOF) :
    ∃ p1', p'.next = Outcome.ok (t, p1') ∧ EmbP a b p1 p1' := by
  obtain ⟨h1, h2 | h2⟩ := parser_next_ok h
  · obtain ⟨hbuf, hl⟩ := h2
    have hb' : p'.buf = some t := by rw [he.2, hbuf]
    refine ⟨⟨p'.lex, none⟩, parser_next_buf hb', ?_, by simp [h1]⟩
    rw [hl]; exact he.1
  · obtain ⟨hbuf, hn⟩ := h2
    have hb' : p'.buf = none := by rw [he.2, hbuf]
    obtain ⟨l3, g1, g2⟩ := nextToken_emb hb he.1 hw hn ht
    refine ⟨⟨l3, none⟩, ?_, g2, by simp [h1]⟩
    rw [parser_next_none hb', g1]

theorem expect_emb {a b : List Nat} (hb : numStop b = true) {p p' : parser} {tt : tokenType}
    {p1 : parser} (he : EmbP a b p p') (hw : p.lex.pos ≤ p.lex.src.length)
    (h : p.expect tt = Outcome.ok p1) (ht : tt ≠ tokenType.tokEOF) :
    ∃ p1', p'.expect tt = Outcome.ok p1' ∧ EmbP a b p1 p1' := by
  obtain ⟨t, hn, htt⟩ := parser_expect_ok h
  obtain ⟨p1', g1, g2⟩ := next_emb hb he hw hn (by rw [htt]; exact ht)
  refine ⟨p1', ?_, g2⟩
  simp [parser.expect, g1, htt]

theorem skip_emb {a b : List Nat} {p p' : parser} {t : token} (he : EmbP a b p p')
    (hbuf : p.buf = some t) : EmbP a b p.skip p'.skip := by
  have hb' : p'.buf = some t := by rw [he.2, hbuf]
  rw [parser_skip_buf hbuf, parser_skip_buf hb']
  exact ⟨he.1, rfl⟩

theorem wf_of_adv {l l1 : lexer} (h : Adv l l1) (hw : l.pos ≤ l.src.length) :
    l1.pos ≤ l1.src.length := (rem_of_adv h hw).1

/-- A successful run on a text is a successful run, with the same result, on
that text placed inside a longer buffer, provided the text behind could not
continue a number. -/
theorem Run_emb {pf : List Nat → Option Float64} {a b : List Nat} (hb : numStop b = true)
    {c : Call} {p : parser} {r : Ret} {p1 : parser} (h : Run pf c p r p1) :
    ∀ p', EmbP a b p p' → p.lex.pos ≤ p.lex.src.length →
      ∃ p1', Run pf c p' r p1' ∧ EmbP a b p1 p1' := by
  induction h with
  | valueObject hp ht _ ih =>
    intro p' he hw
    obtain ⟨q1, g1, e1⟩ := peek_emb hb he hw hp (by rw [ht]; decide)
    obtain ⟨q2, g2, e2⟩ := ih q1 e1 (wf_of_adv (parser_peek_adv hp).2 hw)
    exact ⟨q2, Run.valueObject g1 ht g2, e2⟩
  | valueArray hp ht _ ih =>
    intro p' he hw
    obtain ⟨q1, g1, e1⟩ := peek_emb hb he hw hp (by rw [ht]; decide)
    obtain ⟨q2, g2, e2⟩ := ih q1 e1 (wf_of_adv (parser_peek_adv hp).2 hw)
    exact ⟨q2, Run.valueArray g1 ht g2, e2⟩
  | valueString hp ht =>
    intro p' he hw
    obtain ⟨q1, g1, e1⟩ := peek_emb hb he hw hp (by rw [ht]; decide)
    exact ⟨q1.skip, Run.valueString g1 ht, skip_emb e1 (parser_peek_adv hp).1⟩
  | valueNumber hp ht hn =>
    intro p' he hw
    obtain ⟨q1, g1, e1⟩ := peek_emb hb he hw hp (by rw [ht]; decide)
    exact ⟨q1.skip, Run.valueNumber g1 ht hn, skip_emb e1 (parser_peek_adv hp).1⟩
  | valueTrue hp ht =>
    intro p' he hw
    obtain ⟨q1, g1, e1⟩ := peek_emb hb he hw hp (by rw [ht]; decide)
    exact ⟨q1.skip, Run.valueTrue g1 ht, skip_emb e1 (parser_peek_adv hp).1⟩
  | valueFalse hp ht =>
    intro p' he hw
    obtain ⟨q1, g1, e1⟩ := peek_emb hb he hw hp (by rw [ht]; decide)
    exact ⟨q1.skip, Run.valueFalse g1 ht, skip_emb e1 (parser_peek_adv hp).1⟩
  | valueNull hp ht =>
    intro p' he hw
    obtain ⟨q1, g1, e1⟩ := peek_emb hb he hw hp (by rw [ht]; decide)
    exact ⟨q1.skip, Run.valueNull g1 ht, skip_emb e1 (parser_peek_adv hp).1⟩
  | objectEmpty hx hp ht =>
    intro p' he hw
    obtain ⟨q1, g1, e1⟩ := expect_emb hb he hw hx (by decide)
    have w1 := wf_of_adv (parser_expect_adv hx).2 hw
    obtain ⟨q2, g2, e2⟩ := peek_emb hb e1 w1 hp (by rw [ht]; decide)
    exact ⟨q2.skip, Run.objectEmpty g1 g2 ht, skip_emb e2 (parser_peek_adv hp).1⟩
  | objectMembers hx hp ht hrun ih =>
    intro p' he hw
    obtain ⟨q1, g1, e1⟩ := expect_emb hb he hw hx (by decide)
    have w1 := wf_of_adv (parser_expect_adv hx).2 hw
    have hne := Run_first hrun _ (parser_peek_adv hp).1
    obtain ⟨q2, g2, e2⟩ := peek_emb hb e1 w1 hp hne
    have w2 := wf_of_adv (parser_peek_adv hp).2 w1
    obtain ⟨q3, g3, e3⟩ := ih q2 e2 w2
    exact ⟨q3, Run.objectMembers g1 g2 ht g3, e3⟩
  | objectLoopMore hk hkt hc hv hn hnt _ ihv ihl =>
    intro p' he hw
    obtain ⟨q1, g1, e1⟩ := next_emb hb he hw hk (by rw [hkt]; decide)
    have w1 := wf_of_adv (parser_next_adv hk).2 hw
    obtain ⟨q2, g2, e2⟩ := expect_emb hb e1 w1 hc (by decide)
    have w2 := wf_of_adv (parser_expect_adv hc).2 w1
    obtain ⟨q3, g3, e3⟩ := ihv q2 e2 w2
    have w3 := wf_of_adv (Run_adv hv).2 w2
    obtain ⟨q4, g4, e4⟩ := next_emb hb e3 w3 hn (by rw [hnt]; decide)
    have w4 := wf_of_adv (parser_next_adv hn).2 w3
    obtain ⟨q5, g5, e5⟩ := ihl q4 e4 w4
    exact ⟨q5, Run.objectLoopMore g1 hkt g2 g3 g4 hnt g5, e5⟩
  | objectLoopLast hk hkt hc hv hn hnt ihv =>
    intro p' he hw
    obtain ⟨q1, g1, e1⟩ := next_emb hb he hw hk (by rw [hkt]; decide)
    have w1 := wf_of_adv (parser_next_adv hk).2 hw
    obtain ⟨q2, g2, e2⟩ := expect_emb hb e1 w1 hc (by decide)
    have w2 := wf_of_adv (parser_expect_adv hc).2 w1
    obtain ⟨q3, g3, e3⟩ := ihv q2 e2 w2
    have w3 := wf_of_adv (Run_adv hv).2 w2
    obtain ⟨q4, g4, e4⟩ := next_emb hb e3 w3 hn (by rw [hnt]; decide)
    exact ⟨q4, Run.objectLoopLast g1 hkt g2 g3 g4 hnt, e4⟩
  | arrayEmpty hx hp ht =>
    intro p' he hw
    obtain ⟨q1, g1, e1⟩ := expect_emb hb he hw hx (by decide)
    have w1 := wf_of_adv (parser_expect_adv hx).2 hw
    obtain ⟨q2, g2, e2⟩ := peek_emb hb e1 w1 hp (by rw [ht]; decide)
    exact ⟨q2.skip, Run.arrayEmpty g1 g2 ht, skip_emb e2 (parser_peek_adv hp).1⟩
  | arrayElems hx hp ht hrun ih =>
    intro p' he hw
    obtain ⟨q1, g1, e1⟩ := expect_emb hb he hw hx (by decide)
    have w1 := wf_of_adv (parser_expect_adv hx).2 hw
    have hne := Run_first hrun _ (parser_peek_adv hp).1
    obtain ⟨q2, g2, e2⟩ := peek_emb hb e1 w1 hp hne
    have w2 := wf_of_adv (parser_peek_adv hp).2 w1
    obtain ⟨q3, g3, e3⟩ := ih q2 e2 w2
    exact ⟨q3, Run.arrayElems g1 g2 ht g3, e3⟩
  | arrayLoopMore hv hn hnt _ ihv ihl =>
    intro p' he hw
    obtain ⟨q3, g3, e3⟩ := ihv p' he hw
    have w3 := wf_of_adv (Run_adv hv).2 hw
    obtain ⟨q4, g4, e4⟩ := next_emb hb e3 w3 hn (by rw [hnt]; decide)
    have w4 := wf_of_adv (parser_next_adv hn).2 w3
    obtain ⟨q5, g5, e5⟩ := ihl q4 e4 w4
    exact ⟨q5, Run.arrayLoopMore g3 g4 hnt g5, e5⟩
  | arrayLoopLast hv hn hnt ihv =>
    intro p' he hw
    obtain ⟨q3, g3, e3⟩ := ihv p' he hw
    have w3 := wf_of_adv (Run_adv hv).2 hw
    obtain ⟨q4, g4, e4⟩ := next_emb hb e3 w3 hn (by rw [hnt]; decide)
    exact ⟨q4, Run.arrayLoopLast g3 g4 hnt, e4⟩

/-! ## From a run back to the routines -/

theorem runCall_value {pf : List Nat → Option Float64} {f : Nat} {p : parser} {v : Value}
    {p1 : parser} (h : runCall pf f Call.value p = Outcome.ok (Ret.value v, p1)) :
    parseValue pf f p = Outcome.ok (v, p1) := by
  simp only [runCall] at h
  cases hv : parseValue pf f p with
  | timeout => rw [hv] at h; cases h
  | error e => rw [hv] at h; cases h
  | ok y =>
    obtain ⟨v1, q⟩ := y
    rw [hv] at h
    simp only [Outcome.ok.injEq, Prod.mk.injEq, Ret.value.injEq] at h
    rw [h.1, h.2]

theorem runCall_object {pf : List Nat → Option Float64} {f : Nat} {p : parser}
    {m : List (List Nat × Value)} {p1 : parser}
    (h : runCall pf f Call.object p = Outcome.ok (Ret.members m, p1)) :
    parseObject pf f p = Outcome.ok (m, p1) := by
  simp only [runCall] at h
  cases hv : parseObject pf f p with
  | timeout => rw [hv] at h; cases h
  | error e => rw [hv] at h; cases h
  | ok y =>
    obtain ⟨v1, q⟩ := y
    rw [hv] at h
    simp only [Outcome.ok.injEq, Prod.mk.injEq, Ret.members.injEq] at h
    rw [h.1, h.2]

theorem runCall_objectLoop {pf : List Nat → Option Float64} {f : Nat} {p : parser}
    {obj m : List (List Nat × Value)} {p1 : parser}
    (h : runCall pf f (Call.objectLoop obj) p = Outcome.ok (Ret.members m, p1)) :
    parseObjectLoop pf f obj p = Outcome.ok (m, p1) := by
  simp only [runCall] at h
  cases hv : parseObjectLoop pf f obj p with
  | timeout => rw [hv] at h; cases h
  | error e => rw [hv] at h; cases h
  | ok y =>
    obtain ⟨v1, q⟩ := y
    rw [hv] at h
    simp only [Outcome.ok.injEq, Prod.mk.injEq, Ret.members.injEq] at h
    rw [h.1, h.2]

theorem runCall_array {pf : List Nat → Option Float64} {f : Nat} {p : parser}
    {xs : List Value} {p1 : parser}
    (h : runCall pf f Call.array p = Outcome.ok (Ret.elems xs, p1)) :
    parseArray pf f p = Outcome.ok (xs, p1) := by
  simp only [runCall] at h
  cases hv : parseArray pf f p with
  | timeout => rw [hv] at h; cases h
  | error e => rw [hv] at h; cases h
  | ok y =>
    obtain ⟨v1, q⟩ := y
    rw [hv] at h
    simp only [Outcome.ok.injEq, Prod.mk.injEq, Ret.elems.injEq] at h
    rw [h.1, h.2]

theorem runCall_arrayLoop {pf : List Nat → Option Float64} {f : Nat} {p : parser}
    {arr xs : List Value} {p1 : parser}
    (h : runCall pf f (Call.arrayLoop arr) p = Outcome.ok (Ret.elems xs, p1)) :
    parseArrayLoop pf f arr p = Outcome.ok (xs, p1) := by
  simp only [runCall] at h
  cases hv : parseArrayLoop pf f arr p with
  | timeout => rw [hv] at h; cases h
  | error e => rw [hv] at h; cases h
  | ok y =>
    obtain ⟨v1, q⟩ := y
    rw [hv] at h
    simp only [Outcome.ok.injEq, Prod.mk.injEq, Ret.elems.injEq] at h
    rw [h.1, h.2]

theorem loop_need {p1 p2 : parser} {t : token} (hp : p1.peek = Outcome.ok (t, p2))
    (w1 : p1.lex.pos ≤ p1.lex.src.length) (b1 : p1.buf = none) {f : Nat}
    (n1 : 3 * (p1.lex.src.length - p1.lex.pos) + 3 ≤ f + 1) : need p2 + 2 ≤ f := by
  obtain ⟨b2, w2, _, n2⟩ := peek_facts hp w1
  by_cases hbr : t.typ = tokenType.tokLBrace ∨ t.typ = tokenType.tokLBracket
  · have h3 := n2 (by rcases hbr with h | h <;> rw [h] <;> decide)
      (by rcases hbr with h | h <;> rw [h] <;> decide)
    rw [need_none b1] at h3
    omega
  · have h3 := peek_need_other hp w1 hbr
    rw [need_none b1] at h3
    omega

/-- A successful run is what the routine returns on any budget that is
enough for its start state. -/
theorem fuel_of_run {pf : List Nat → Option Float64} {c : Call} {p : parser} {r : Ret}
    {p1 : parser} (h : Run pf c p r p1) :
    p.lex.pos ≤ p.lex.src.length → ∀ fuel, callNeed c p ≤ fuel →
      runCall pf fuel c p = Outcome.ok (r, p1) := by
  induction h with
  | valueObject hp ht _ ih =>
    intro hw fuel hn
    simp only [callNeed] at hn
    obtain ⟨f, rfl⟩ : ∃ f, fuel = f + 1 := ⟨fuel - 1, by omega⟩
    obtain ⟨b1, w1, _, n1⟩ := peek_facts hp hw
    have hb := need_bracket b1 (Or.inl ht)
    have hle := n1 (by rw [ht]; decide) (by rw [ht]; decide)
    have := runCall_object (ih w1 f (by simp only [callNeed]; omega))
    simp [runCall, parseValue, hp, ht, this]
  | valueArray hp ht _ ih =>
    intro hw fuel hn
    simp only [callNeed] at hn
    obtain ⟨f, rfl⟩ : ∃ f, fuel = f + 1 := ⟨fuel - 1, by omega⟩
    obtain ⟨b1, w1, _, n1⟩ := peek_facts hp hw
    have hb := need_bracket b1 (Or.inr ht)
    have hle := n1 (by rw [ht]; decide) (by rw [ht]; decide)
    have := runCall_array (ih w1 f (by simp only [callNeed]; omega))
    simp [runCall, parseValue, hp, ht, this]
  | valueString hp ht =>
    intro hw fuel hn
    simp only [callNeed] at hn
    obtain ⟨f, rfl⟩ : ∃ f, fuel = f + 1 := ⟨fuel - 1, by omega⟩
    simp [runCall, parseValue, hp, ht]
  | valueNumber hp ht hpf =>
    intro hw fuel hn
    simp only [callNeed] at hn
    obtain ⟨f, rfl⟩ : ∃ f, fuel = f + 1 := ⟨fuel - 1, by omega⟩
    simp [runCall, parseValue, hp, ht, hpf]
  | valueTrue hp ht =>
    intro hw fuel hn
    simp only [callNeed] at hn
    obtain ⟨f, rfl⟩ : ∃ f, fuel = f + 1 := ⟨fuel - 1, by omega⟩
    simp [runCall, parseValue, hp, ht]
  | valueFalse hp ht =>
    intro hw fuel hn
    simp only [callNeed] at hn
    obtain ⟨f, rfl⟩ : ∃ f, fuel = f + 1 := ⟨fuel - 1, by omega⟩
    simp [runCall, parseValue, hp, ht]
  | valueNull hp ht =>
    intro hw fuel hn
    simp only [callNeed] at hn
    obtain ⟨f, rfl⟩ : ∃ f, fuel = f + 1 := ⟨fuel - 1, by omega⟩
    simp [runCall, parseValue, hp, ht]
  | objectEmpty hx hp ht =>
    intro hw fuel hn
    simp only [callNeed] at hn
    obtain ⟨f, rfl⟩ : ∃ f, fuel = f + 1 := ⟨fuel - 1, by omega⟩
    simp [runCall, parseObject, hx, hp, ht]
  | objectMembers hx hp ht _ ih =>
    intro hw fuel hn
    simp only [callNeed] at hn
    obtain ⟨f, rfl⟩ : ∃ f, fuel = f + 1 := ⟨fuel - 1, by omega⟩
    obtain ⟨b1, w1, _, n1⟩ := expect_facts hx hw (by decide) (by decide)
    have n1 := n1 (Or.inr (Or.inl rfl))
    have w2 := (peek_facts hp w1).2.1
    have hneed := loop_need hp w1 b1 (f := f) (by omega)
    have := runCall_objectLoop (ih w2 f (by simp only [callNeed]; omega))
    simp [runCall, parseObject, hx, hp, ht, this]
  | objectLoopMore hk hkt hc hv hn4 hnt _ ihv ihl =>
    intro hw fuel hn
    simp only [callNeed] at hn
    obtain ⟨f, rfl⟩ : ∃ f, fuel = f + 1 := ⟨fuel - 1, by omega⟩
    obtain ⟨b1, w1, n1, _⟩ := next_facts hk hw
    obtain ⟨b2, w2, _, n2⟩ := expect_facts hc w1 (by decide) (by decide)
    have n2 := n2 (Or.inl b1)
    rw [need_none b1] at n2
    obtain ⟨b3, w3, r3⟩ := run_facts hv w2
    obtain ⟨b4, w4, _, n4⟩ := next_facts hn4 w3
    have n4 := n4 (by rw [hnt]; decide) (by rw [hnt]; decide) (Or.inl b3)
    rw [need_none b3] at n4
    have e1 := runCall_value (ihv w2 f (by simp only [callNeed]; rw [need_none b2]; omega))
    have e2 := runCall_objectLoop
      (ihl w4 f (by simp only [callNeed]; rw [need_none b4]; omega))
    simp [runCall, parseObjectLoop, hk, hkt, hc, e1, hn4, hnt, e2]
  | objectLoopLast hk hkt hc hv hn4 hnt ihv =>
    intro hw fuel hn
    simp only [callNeed] at hn
    obtain ⟨f, rfl⟩ : ∃ f, fuel = f + 1 := ⟨fuel - 1, by omega⟩
    obtain ⟨b1, w1, n1, _⟩ := next_facts hk hw
    obtain ⟨b2, w2, _, n2⟩ := expect_facts hc w1 (by decide) (by decide)
    have n2 := n2 (Or.inl b1)
    rw [need_none b1] at n2
    have e1 := runCall_value (ihv w2 f (by simp only [callNeed]; rw [need_none b2]; omega))
    simp [runCall, parseObjectLoop, hk, hkt, hc, e1, hn4, hnt]
  | arrayEmpty hx hp ht =>
    intro hw fuel hn
    simp only [callNeed] at hn
    obtain ⟨f, rfl⟩ : ∃ f, fuel = f + 1 := ⟨fuel - 1, by omega⟩
    simp [runCall, parseArray, hx, hp, ht]
  | arrayElems hx hp ht _ ih =>
    intro hw fuel hn
    simp only [callNeed] at hn
    obtain ⟨f, rfl⟩ : ∃ f, fuel = f + 1 := ⟨fuel - 1, by omega⟩
    obtain ⟨b1, w1, _, n1⟩ := expect_facts hx hw (by decide) (by decide)
    have n1 := n1 (Or.inr (Or.inr rfl))
    have w2 := (peek_facts hp w1).2.1
    have hneed := loop_need hp w1 b1 (f := f) (by omega)
    have := runCall_arrayLoop (ih w2 f (by simp only [callNeed]; omega))
    simp [runCall, parseArray, hx, hp, ht, this]
  | @arrayLoopMore arr p p1 p2 p3 nt v xs hv hn4 hnt _ ihv ihl =>
    intro hw fuel hn
    simp only [callNeed] at hn
    obtain ⟨f, rfl⟩ : ∃ f, fuel = f + 1 := ⟨fuel - 1, by omega⟩
    obtain ⟨b3, w3, r3⟩ := run_facts hv hw
    have hge := need_ge p
    obtain ⟨b4, w4, _, n4⟩ := next_facts hn4 w3
    have n4 := n4 (by rw [hnt]; decide) (by rw [hnt]; decide) (Or.inl b3)
    rw [need_none b3] at n4
    have e1 := runCall_value (ihv hw f (by simp only [callNeed]; omega))
    have e2 := runCall_arrayLoop
      (ihl w4 f (by simp only [callNeed]; rw [need_none b4]; omega))
    simp [runCall, parseArrayLoop, e1, hn4, hnt, e2]
  | arrayLoopLast hv hn4 hnt ihv =>
    intro hw fuel hn
    simp only [callNeed] at hn
    obtain ⟨f, rfl⟩ : ∃ f, fuel = f + 1 := ⟨fuel - 1, by omega⟩
    have e1 := runCall_value (ihv hw f (by simp only [callNeed]; omega))
    simp [runCall, parseArrayLoop, e1, hn4, hnt]

/-! ## Whitespace in front of a token -/

theorem drop_succ_of_cons {s : List Nat} {p c : Nat} {rest : List Nat}
    (h : s.drop p = c :: rest) : s.drop (p + 1) = rest := by
  have : s.drop (p + 1) = (s.drop p).drop 1 := by
    rw [List.drop_drop, Nat.add_comm]
  rw [this, h]
  rfl

theorem skipWSLoop_width (s : List Nat) : ∀ (n p w w1 : Nat) (l0 : lexer),
    skipWSLoop n ⟨s, p, w⟩ = Outcome.ok l0 →
    ∃ w0, skipWSLoop n ⟨s, p, w1⟩ = Outcome.ok ⟨l0.src, l0.pos, w0⟩ := by
  intro n
  induction n with
  | zero => intro p w w1 l0 h; simp [skipWSLoop] at h
  | succ n ih =>
    intro p w w1 l0 h
    simp only [skipWSLoop, lexer.peek] at h ⊢
    have e1 := next_width_irrel s p w
    have e2 := next_width_irrel s p w1
    simp only [e1] at h
    simp only [e2]
    by_cases hws : isWS (lexer.next ⟨s, p, 0⟩).1 = true
    · rw [if_pos hws] at h ⊢
      exact ⟨l0.width, h⟩
    · rw [if_neg hws] at h ⊢
      simp only [Outcome.ok.injEq] at h
      subst h
      exact ⟨w1, rfl⟩

/-- The token read by `nextToken` does not depend on the width remembered from
the read before. -/
theorem nextToken_width (s : List Nat) (p w w1 : Nat) :
    lexer.nextToken ⟨s, p, w⟩ = lexer.nextToken ⟨s, p, w1⟩ := by
  obtain ⟨l0, h0, _, _⟩ := skipWS_ok ⟨s, p, w⟩
  obtain ⟨w0, h1⟩ := skipWSLoop_width s _ p w w1 l0 h0
  have h2 : lexer.skipWS ⟨s, p, w1⟩ = Outcome.ok ⟨l0.src, l0.pos, w0⟩ := h1
  obtain ⟨s0, p0, w2⟩ := l0
  unfold lexer.nextToken
  rw [h0, h2]
  simp only
  rw [next_width_irrel s0 p0 w2, next_width_irrel s0 p0 w0]

theorem nextToken_ws_step {s : List Nat} {p c : Nat} {rest : List Nat} (w w1 : Nat)
    (h : s.drop p = c :: rest) (hc : c = 32 ∨ c = 9 ∨ c = 13 ∨ c = 10) :
    lexer.nextToken ⟨s, p, w⟩ = lexer.nextToken ⟨s, p + 1, w1⟩ := by
  have hn := next_ascii (w := w) h (by omega)
  have hp := lt_length_of_drop_cons h
  have hws : isWS (c : Int) = true := by
    rcases hc with rfl | rfl | rfl | rfl <;> decide
  have hs : lexer.skipWS ⟨s, p, w⟩ = lexer.skipWS ⟨s, p + 1, 1⟩ := by
    simp only [lexer.skipWS]
    have e : s.length - p + 1 = (s.length - (p + 1) + 1) + 1 := by omega
    rw [e]
    simp only [skipWSLoop, lexer.peek, hn, hws, if_true]
  rw [← nextToken_width s (p + 1) 1 w1]
  unfold lexer.nextToken
  rw [hs]

/-- Whitespace in front of the cursor is skipped by `nextToken`. -/
theorem nextToken_ws_prefix {s : List Nat} {u : List Nat} : ∀ (ws : List Nat) (p w w1 : Nat),
    (∀ c ∈ ws, c = 32 ∨ c = 9 ∨ c = 13 ∨ c = 10) → s.drop p = ws ++ u →
    lexer.nextToken ⟨s, p, w⟩ = lexer.nextToken ⟨s, p + ws.length, w1⟩ := by
  intro ws
  induction ws with
  | nil => intro p w w1 _ _; exact nextToken_width s p w w1
  | cons c u ih =>
    intro p w w1 hws h
    rw [nextToken_ws_step w 0 h (hws c (List.mem_cons_self _ _))]
    rw [ih (p + 1) 0 w1 (fun x hx => hws x (List.mem_cons_of_mem _ hx))
      (drop_succ_of_cons h)]
    simp only [List.length_cons]
    rw [Nat.add_assoc, Nat.add_comm 1]

/-- The six one-byte tokens. -/
theorem nextToken_struct {s : List Nat} {p c : Nat} {rest : List Nat} {k : tokenType} (w : Nat)
    (h : s.drop p = c :: rest)
    (hc : (c, k) ∈ [(44, tokenType.tokComma), (93, tokenType.tokRBracket),
      (125, tokenType.tokRBrace), (58, tokenType.tokColon), (91, tokenType.tokLBracket),
      (123, tokenType.tokLBrace)]) :
    lexer.nextToken ⟨s, p, w⟩ = Outcome.ok (⟨k, []⟩, ⟨s, p + 1, 1⟩) := by
  simp only [List.mem_cons, Prod.mk.injEq, List.mem_singleton, List.not_mem_nil, or_false] at hc
  have hb : c < 128 := by
    rcases hc with h | h | h | h | h | h <;> omega
  have hn := next_ascii (w := w) h hb
  have hwc : isWS (c : Int) = false := by
    rcases hc with h | h | h | h | h | h <;> rw [h.1] <;> decide
  have hws : isWS (lexer.peek ⟨s, p, w⟩) = false := by
    rw [lexer.peek, hn]
    exact hwc
  unfold lexer.nextToken
  rw [skipWS_of_not_ws hws]
  simp only [hn]
  rcases hc with h | h | h | h | h | h <;> obtain ⟨rfl, rfl⟩ := h <;> rfl

theorem skipWSLoop_ws : ∀ (n : Nat) (l l0 : lexer), skipWSLoop n l = Outcome.ok l0 →
    ∃ ws : List Nat, (∀ c ∈ ws, c = 32 ∨ c = 9 ∨ c = 13 ∨ c = 10) ∧
      l.src.drop l.pos = ws ++ l0.src.drop l0.pos ∧ l0.src = l.src ∧
      l0.pos = l.pos + ws.length := by
  intro n
  induction n with
  | zero => intro l l0 h; simp [skipWSLoop] at h
  | succ n ih =>
    intro l l0 h
    simp only [skipWSLoop] at h
    by_cases hws : isWS l.peek = true
    · rw [if_pos hws] at h
      have hr : l.peek = 32 ∨ l.peek = 10 ∨ l.peek = 13 ∨ l.peek = 9 := by
        simpa [isWS, or_assoc] using hws
      obtain ⟨b, t, hd, hb, _, hn⟩ := next_ascii_inv l (r := l.peek) rfl
        (by rcases hr with e | e | e | e <;> rw [e] <;> decide)
        (by rcases hr with e | e | e | e <;> rw [e] <;> decide)
      rw [hn] at h
      obtain ⟨ws, a1, a2, a3, a4⟩ := ih _ l0 h
      simp only at a2 a3 a4
      refine ⟨b :: ws, ?_, ?_, a3, ?_⟩
      · intro c hcm
        rcases List.mem_cons.1 hcm with e | e
        · subst e
          rcases hr with e | e | e | e <;> rw [e] at hb <;> omega
        · exact a1 c e
      · rw [drop_succ_of_cons hd] at a2
        rw [hd, a2]
        rfl
      · rw [a4]; simp only [List.length_cons]; omega
    · rw [if_neg hws] at h
      simp only [Outcome.ok.injEq] at h
      subst h
      exact ⟨[], by simp, by simp, rfl, by simp⟩

/-! ## Only whitespace in front of the end marker -/

theorem nextToken_eof_cursor {l : lexer} {t : token} {l1 : lexer}
    (h : l.nextToken = Outcome.ok (t, l1)) (ht : t.typ = tokenType.tokEOF) :
    ∃ l0, l.skipWS = Outcome.ok l0 ∧ l0.src.length ≤ l0.pos := by
  obtain ⟨l0, hs, _, _, heq⟩ := nextToken_eq l
  refine ⟨l0, hs, ?_⟩
  by_contra hcon
  have c1 : (l0.next).1 ≠ -1 := fun hc => hcon ((next_eq_neg_one_iff l0).1 hc)
  rw [heq] at h
  generalize (l0.next).2.matchSeq [114, 117, 101] = m1 at h
  generalize (l0.next).2.matchSeq [97, 108, 115, 101] = m2 at h
  generalize (l0.next).2.matchSeq [117, 108, 108] = m3 at h
  generalize (l0.next).2.scanString = ss at h
  generalize (l0.next).2.backup.scanNumber = sn at h
  generalize l0.next = n at h c1
  obtain ⟨r, ln⟩ := n
  simp only at h c1
  have inj : ∀ (tt : tokenType) (lx : lexer), tt ≠ tokenType.tokEOF →
      Outcome.ok ((⟨tt, []⟩ : token), lx) = Outcome.ok (t, l1) → False := by
    intro tt lx hne he
    simp only [Outcome.ok.injEq, Prod.mk.injEq] at he
    rw [← he.1] at ht
    exact hne ht
  have kw : ∀ (tt : tokenType) (m : Bool × lexer), tt ≠ tokenType.tokEOF →
      (if m.1 = true then Outcome.ok ((⟨tt, []⟩ : token), m.2)
        else Outcome.error (Err.unexpectedCharacter r)) = Outcome.ok (t, l1) → False := by
    intro tt m hne he
    by_cases c : m.1 = true
    · rw [if_pos c] at he; exact inj tt _ hne he
    · rw [if_neg c] at he; cases he
  rw [if_neg c1] at h
  by_cases c2 : r = 123
  · rw [if_pos c2] at h; exact inj _ _ (by decide) h
  rw [if_neg c2] at h
  by_cases c3 : r = 125
  · rw [if_pos c3] at h; exact inj _ _ (by decide) h
  rw [if_neg c3] at h
  by_cases c4 : r = 91
  · rw [if_pos c4] at h; exact inj _ _ (by decide) h
  rw [if_neg c4] at h
  by_cases c5 : r = 93
  · rw [if_pos c5] at h; exact inj _ _ (by decide) h
  rw [if_neg c5] at h
  by_cases c6 : r = 58
  · rw [if_pos c6] at h; exact inj _ _ (by decide) h
  rw [if_neg c6] at h
  by_cases c7 : r = 44
  · rw [if_pos c7] at h; exact inj _ _ (by decide) h
  rw [if_neg c7] at h
  by_cases c8 : r = 34
  · rw [if_pos c8] at h
    cases ss with
    | timeout => cases h
    | error e => cases h
    | ok y =>
      simp only [Outcome.ok.injEq, Prod.mk.injEq] at h
      rw [← h.1] at ht
      cases ht
  rw [if_neg c8] at h
  by_cases c9 : r = 116
  · rw [if_pos c9] at h; exact kw _ m1 (by decide) h
  rw [if_neg c9] at h
  by_cases c10 : r = 102
  · rw [if_pos c10] at h; exact kw _ m2 (by decide) h
  rw [if_neg c10] at h
  by_cases c11 : r = 110
  · rw [if_pos c11] at h; exact kw _ m3 (by decide) h
  rw [if_neg c11] at h
  by_cases c12 : r = 45 ∨ (48 ≤ r ∧ r ≤ 57)
  · rw [if_pos c12] at h
    cases sn with
    | timeout => cases h
    | error e => cases h
    | ok y =>
      simp only [Outcome.ok.injEq, Prod.mk.injEq] at h
      rw [← h.1] at ht
      cases ht
  · rw [if_neg c12] at h
    cases h

/-- When `nextToken` returns the end marker, everything from the cursor on
was whitespace. -/
theorem nextToken_eof_ws {l : lexer} {t : token} {l1 : lexer}
    (h : l.nextToken = Outcome.ok (t, l1)) (ht : t.typ = tokenType.tokEOF) :
    ∀ c ∈ l.src.drop l.pos, c = 32 ∨ c = 9 ∨ c = 13 ∨ c = 10 := by
  obtain ⟨l0, hs, hend⟩ := nextToken_eof_cursor h ht
  obtain ⟨ws, a1, a2, _, _⟩ := skipWSLoop_ws _ l l0 hs
  rw [List.drop_eq_nil_of_le hend, List.append_nil] at a2
  rw [a2]
  exact a1

/-! ## `Parse` and the runs of `parseValue` -/

theorem Parse_inv {pf : List Nat → Option Float64} {src : List Nat} {v : Value}
    (h : Parse pf src = Outcome.ok v) :
    ∃ p1 t l2, Run pf Call.value ⟨newLexer src, none⟩ (Ret.value v) p1 ∧
      p1.lex.nextToken = Outcome.ok (t, l2) ∧ t.typ = tokenType.tokEOF := by
  simp only [Parse] at h
  cases hv : parseValue pf (3 * src.length + 1) ⟨newLexer src, none⟩ with
  | timeout => rw [hv] at h; cases h
  | error e => rw [hv] at h; cases h
  | ok y =>
    obtain ⟨v1, p⟩ := y
    rw [hv] at h
    simp only at h
    cases hn : p.lex.nextToken with
    | timeout => rw [hn] at h; cases h
    | error e => rw [hn] at h; cases h
    | ok z =>
      obtain ⟨t, l2⟩ := z
      rw [hn] at h
      simp only at h
      by_cases ht : t.typ = tokenType.tokEOF
      · simp only [ht, ne_eq, not_true_eq_false, if_false, Outcome.ok.injEq] at h
        subst h
        exact ⟨p, t, l2, parseValue_run hv, hn, ht⟩
      · simp [ht] at h

theorem parseValue_of_run {pf : List Nat → Option Float64} {src : List Nat} {v : Value}
    {p1 : parser} (hr : Run pf Call.value ⟨newLexer src, none⟩ (Ret.value v) p1) :
    parseValue pf (3 * src.length + 1) ⟨newLexer src, none⟩ = Outcome.ok (v, p1) := by
  apply runCall_value
  apply fuel_of_run hr
  · simp [newLexer]
  · simp [callNeed, need, newLexer]

theorem Parse_of_run {pf : List Nat → Option Float64} {src : List Nat} {v : Value}
    {p1 : parser} {t : token} {l2 : lexer}
    (hr : Run pf Call.value ⟨newLexer src, none⟩ (Ret.value v) p1)
    (hn : p1.lex.nextToken = Outcome.ok (t, l2)) (ht : t.typ = tokenType.tokEOF) :
    Parse pf src = Outcome.ok v := by
  simp [Parse, parseValue_of_run hr, hn, ht]

theorem Parse_trailing {pf : List Nat → Option Float64} {src : List Nat} {v : Value}
    {p1 : parser} {t : token} {l2 : lexer}
    (hr : Run pf Call.value ⟨newLexer src, none⟩ (Ret.value v) p1)
    (hn : p1.lex.nextToken = Outcome.ok (t, l2)) (ht : t.typ ≠ tokenType.tokEOF) :
    Parse pf src = Outcome.error Err.unexpectedTrailingContent := by
  simp [Parse, parseValue_of_run hr, hn, ht]

/-! ## A value inside a longer input -/

/-- A run of `parseValue` starts with a token that opens a value, and is a run
from the state with that token buffered as well. -/
theorem Run_value_peek {pf : List Nat → Option Float64} {p : parser} {r : Ret} {p1 : parser}
    (h : Run pf Call.value p r p1) :
    ∃ t p2, p.peek = Outcome.ok (t, p2) ∧ t.typ ≠ tokenType.tokEOF ∧
      t.typ ≠ tokenType.tokRBracket ∧ t.typ ≠ tokenType.tokRBrace ∧
      Run pf Call.value p2 r p1 := by
  cases h with
  | valueObject hp ht hrun =>
    exact ⟨_, _, hp, by rw [ht]; decide, by rw [ht]; decide, by rw [ht]; decide,
      Run.valueObject (parser_peek_buf (parser_peek_ok hp).1) ht hrun⟩
  | valueArray hp ht hrun =>
    exact ⟨_, _, hp, by rw [ht]; decide, by rw [ht]; decide, by rw [ht]; decide,
      Run.valueArray (parser_peek_buf (parser_peek_ok hp).1) ht hrun⟩
  | valueString hp ht =>
    exact ⟨_, _, hp, by rw [ht]; decide, by rw [ht]; decide, by rw [ht]; decide,
      Run.valueString (parser_peek_buf (parser_peek_ok hp).1) ht⟩
  | valueNumber hp ht hpf =>
    exact ⟨_, _, hp, by rw [ht]; decide, by rw [ht]; decide, by rw [ht]; decide,
      Run.valueNumber (parser_peek_buf (parser_peek_ok hp).1) ht hpf⟩
  | valueTrue hp ht =>
    exact ⟨_, _, hp, by rw [ht]; decide, by rw [ht]; decide, by rw [ht]; decide,
      Run.valueTrue (parser_peek_buf (parser_peek_ok hp).1) ht⟩
  | valueFalse hp ht =>
    exact ⟨_, _, hp, by rw [ht]; decide, by rw [ht]; decide, by rw [ht]; decide,
      Run.valueFalse (parser_peek_buf (parser_peek_ok hp).1) ht⟩
  | valueNull hp ht =>
    exact ⟨_, _, hp, by rw [ht]; decide, by rw [ht]; decide, by rw [ht]; decide,
      Run.valueNull (parser_peek_buf (parser_peek_ok hp).1) ht⟩

/-- A run of `parseValue` that returns a String read exactly one String token. -/
theorem Run_string_inv {pf : List Nat → Option Float64} {p : parser} {k : List Nat}
    {p1 : parser} (h : Run pf Call.value p (Ret.value (Value.string k)) p1) :
    ∃ t p2, p.peek = Outcome.ok (t, p2) ∧ t.typ = tokenType.tokString ∧ t.lexeme = k ∧
      p1 = p2.skip := by
  cases h with
  | valueString hp ht => exact ⟨_, _, hp, ht, rfl, rfl⟩

theorem peek_next_none {p : parser} {t : token} {p2 : parser} (hb : p.buf = none)
    (h : p.peek = Outcome.ok (t, p2)) : p.next = Outcome.ok (t, p2.skip) := by
  obtain ⟨h1, h2 | h2⟩ := parser_peek_ok h
  · rw [hb] at h2; cases h2.1
  · rw [parser_next_none hb, h2.2, parser_skip_buf h1]

theorem drop_add_of_append {s : List Nat} {p : Nat} {x y : List Nat}
    (h : s.drop p = x ++ y) : s.drop (p + x.length) = y := by
  have : s.drop (p + x.length) = (s.drop p).drop x.length := by
    rw [List.drop_drop, Nat.add_comm]
  rw [this, h, List.drop_left]

/-- An accepted input `s`, placed between `a` and a continuation `b` that
starts with a byte ending every token, is read by `parseValue` to the same
value; the cursor is left inside or right behind `s`, with only whitespace
of `s` still in front of `b`. -/
theorem value_emb {pf : List Nat → Option Float64} {s : List Nat} {v : Value}
    (h : Parse pf s = Outcome.ok v) {a b : List Nat} (hb : numStop b = true)
    {src : List Nat} {pos : Nat} (w : Nat)
    (hsrc : src = a ++ s ++ b) (hpos : pos = a.length) :
    ∃ p1, Run pf Call.value ⟨⟨src, pos, w⟩, none⟩ (Ret.value v) p1 ∧ p1.buf = none ∧
      p1.lex.src = src ∧
      ∃ ws : List Nat, (∀ c ∈ ws, c = 32 ∨ c = 9 ∨ c = 13 ∨ c = 10) ∧
        src.drop p1.lex.pos = ws ++ b ∧ p1.lex.pos + ws.length = pos + s.length := by
  obtain ⟨q, t, l2, hrun, hn, ht⟩ := Parse_inv h
  have he : EmbP a b ⟨newLexer s, none⟩ ⟨⟨src, pos, w⟩, none⟩ :=
    ⟨⟨hsrc, by simp [newLexer, hpos]⟩, rfl⟩
  obtain ⟨p1, hr1, he1⟩ := Run_emb hb hrun _ he (by simp [newLexer])
  obtain ⟨hq, hadv⟩ := Run_adv hrun
  have hqs : q.lex.src = s := hadv.1
  have hqw : q.lex.pos ≤ q.lex.src.length := by
    rw [hqs]
    exact hadv.2.2 (by simp [newLexer])
  have hws := nextToken_eof_ws hn ht
  have hd := emb_drop he1.1 hqw
  have hsrc1 : p1.lex.src = src := by
    rw [he1.1.1, hqs, hsrc]
  refine ⟨p1, hr1, by rw [he1.2, hq], hsrc1, q.lex.src.drop q.lex.pos, hws, ?_, ?_⟩
  · rw [← hsrc1]; exact hd
  · rw [he1.1.2, hpos, List.length_drop, hqs]
    rw [hqs] at hqw
    omega

/-- The same, followed by the one-byte token that comes next. -/
theorem value_then {pf : List Nat → Option Float64} {s : List Nat} {v : Value}
    (h : Parse pf s = Outcome.ok v) {a u : List Nat} {c : Nat} {k : tokenType}
    (hc : (c, k) ∈ [(44, tokenType.tokComma), (93, tokenType.tokRBracket),
      (125, tokenType.tokRBrace), (58, tokenType.tokColon)])
    {src : List Nat} {pos : Nat} (w : Nat)
    (hsrc : src = a ++ s ++ c :: u) (hpos : pos = a.length) :
    ∃ p1, Run pf Call.value ⟨⟨src, pos, w⟩, none⟩ (Ret.value v) p1 ∧
      p1.next = Outcome.ok (⟨k, []⟩, ⟨⟨src, pos + s.length + 1, 1⟩, none⟩) := by
  have hb : numStop (c :: u) = true := by
    simp only [List.mem_cons, Prod.mk.injEq, List.mem_singleton, List.not_mem_nil,
      or_false] at hc
    rcases hc with e | e | e | e <;> rw [e.1] <;> rfl
  obtain ⟨p1, hr, hbuf, hs1, ws, hws, hd, hlen⟩ := value_emb h hb w hsrc hpos
  refine ⟨p1, hr, ?_⟩
  obtain ⟨⟨s1, q1, w1⟩, b1⟩ := p1
  simp only at hbuf hs1 hd hlen
  subst hbuf
  subst hs1
  have hmem : (c, k) ∈ [(44, tokenType.tokComma), (93, tokenType.tokRBracket),
      (125, tokenType.tokRBrace), (58, tokenType.tokColon), (91, tokenType.tokLBracket),
      (123, tokenType.tokLBrace)] := by
    simp only [List.mem_cons, Prod.mk.injEq, List.mem_singleton, List.not_mem_nil,
      or_false] at hc ⊢
    rcases hc with e | e | e | e <;> simp [e]
  have h1 := nextToken_ws_prefix (u := c :: u) ws q1 w1 0 hws hd
  have h2 := nextToken_struct 0 (drop_add_of_append hd) hmem
  rw [parser_next_none rfl]
  simp only
  rw [h1, h2, hlen]

/-! ## Texts joined with commas -/

theorem intercalate_one (sep x : List Nat) : List.intercalate sep [x] = x := by
  simp [List.intercalate, List.intersperse]

theorem intercalate_more (sep x y : List Nat) (r : List (List Nat)) :
    List.intercalate sep (x :: y :: r) = x ++ sep ++ List.intercalate sep (y :: r) := by
  simp [List.intercalate, List.intersperse]

/-! ## The loop of `parseArray` over accepted elements -/

theorem Run_arrayLoop_peek {pf : List Nat → Option Float64} {arr : List Value} {p : parser}
    {r : Ret} {p1 : parser} (h : Run pf (Call.arrayLoop arr) p r p1) :
    ∃ t p2, p.peek = Outcome.ok (t, p2) ∧ t.typ ≠ tokenType.tokRBracket ∧
      Run pf (Call.arrayLoop arr) p2 r p1 := by
  cases h with
  | arrayLoopMore hv hn hnt hl =>
    obtain ⟨t, p2, hp, _, h3, _, hv2⟩ := Run_value_peek hv
    exact ⟨t, p2, hp, h3, Run.arrayLoopMore hv2 hn hnt hl⟩
  | arrayLoopLast hv hn hnt =>
    obtain ⟨t, p2, hp, _, h3, _, hv2⟩ := Run_value_peek hv
    exact ⟨t, p2, hp, h3, Run.arrayLoopLast hv2 hn hnt⟩

theorem arrayLoop_run {pf : List Nat → Option Float64} :
    ∀ (items : List (List Nat × Value)), items ≠ [] →
    (∀ x ∈ items, Parse pf x.1 = Outcome.ok x.2) →
    ∀ (a u : List Nat) (arr : List Value) (w : Nat) (src : List Nat) (pos : Nat),
      src = a ++ List.intercalate [44] (items.map Prod.fst) ++ 93 :: u → pos = a.length →
      Run pf (Call.arrayLoop arr) ⟨⟨src, pos, w⟩, none⟩ (Ret.elems (arr ++ items.map Prod.snd))
        ⟨⟨src, pos + (List.intercalate [44] (items.map Prod.fst)).length + 1, 1⟩, none⟩ := by
  intro items
  induction items with
  | nil => intro h; exact absurd rfl h
  | cons x rest ih =>
    intro _ hall a u arr w src pos hsrc hpos
    have hx := hall x (List.mem_cons_self _ _)
    cases rest with
    | nil =>
      simp only [List.map_cons, List.map_nil, intercalate_one] at hsrc ⊢
      obtain ⟨p1, hr, hn⟩ := value_then hx (k := tokenType.tokRBracket) (by simp) w hsrc hpos
      exact Run.arrayLoopLast hr hn rfl
    | cons y r =>
      simp only [List.map_cons, intercalate_more] at hsrc ⊢
      have hsrc1 : src = a ++ x.1 ++ 44 ::
          (List.intercalate [44] (y.1 :: r.map Prod.fst) ++ 93 :: u) := by
        rw [hsrc]; simp
      obtain ⟨p1, hr, hn⟩ := value_then hx (k := tokenType.tokComma) (by simp) w hsrc1 hpos
      have hsrc2 : src = (a ++ x.1 ++ [44]) ++
          List.intercalate [44] ((y :: r).map Prod.fst) ++ 93 :: u := by
        rw [hsrc]; simp
      have hl := ih (by simp) (fun z hz => hall z (List.mem_cons_of_mem _ hz))
        (a ++ x.1 ++ [44]) u (arr ++ [x.2]) 1 src (pos + x.1.length + 1) hsrc2
        (by simp [hpos]; omega)
      have hres := Run.arrayLoopMore hr hn rfl hl
      have e1 : arr ++ [x.2] ++ (y :: r).map Prod.snd = arr ++ x.2 :: y.2 :: r.map Prod.snd := by
        simp
      have e2 : pos + x.1.length + 1 +
          (List.intercalate [44] ((y :: r).map Prod.fst)).length + 1 =
          pos + (x.1 ++ [44] ++ List.intercalate [44] (y.1 :: r.map Prod.fst)).length + 1 := by
        simp only [List.map_cons, List.length_append, List.length_singleton]
        omega
      rw [e1, e2] at hres
      exact hres

/-- `Parse` of `[`, accepted texts joined with `,`, `]`. -/
theorem Parse_array {pf : List Nat → Option Float64} (items : List (List Nat × Value))
    (hall : ∀ x ∈ items, Parse pf x.1 = Outcome.ok x.2) :
    Parse pf (91 :: (List.intercalate [44] (items.map Prod.fst) ++ [93])) =
      Outcome.ok (Value.array (items.map Prod.snd)) := by
  by_cases hne : items = []
  · subst hne
    rfl
  generalize hsrc : 91 :: (List.intercalate [44] (items.map Prod.fst) ++ [93]) = src
  have hd0 : src.drop 0 = 91 :: (List.intercalate [44] (items.map Prod.fst) ++ [93]) := by
    rw [← hsrc]; rfl
  have hpk := nextToken_struct (k := tokenType.tokLBracket) 0 hd0 (by simp)
  have hp0 : parser.peek ⟨newLexer src, none⟩ = Outcome.ok (⟨tokenType.tokLBracket, []⟩,
      ⟨⟨src, 1, 1⟩, some ⟨tokenType.tokLBracket, []⟩⟩) := by
    rw [parser_peek_none rfl]
    simp only [newLexer]
    rw [hpk]
  have hexp : parser.expect ⟨⟨src, 1, 1⟩, some ⟨tokenType.tokLBracket, []⟩⟩
      tokenType.tokLBracket = Outcome.ok ⟨⟨src, 1, 1⟩, none⟩ := by
    simp [parser.expect, parser.next]
  have hloop := arrayLoop_run items hne hall [91] [] [] 1 src 1 (by rw [← hsrc]; simp) rfl
  obtain ⟨t, p2, hpeek, hnot, hloop2⟩ := Run_arrayLoop_peek hloop
  have hrun := Run.valueArray hp0 rfl (Run.arrayElems hexp hpeek hnot hloop2)
  rw [List.nil_append] at hrun
  refine Parse_of_run hrun (nextToken_eof (w := 1) ?_) rfl
  apply List.drop_eq_nil_of_le
  rw [← hsrc]
  simp
  omega

/-! ## The loop of `parseObject` over accepted members -/

theorem Run_objectLoop_peek {pf : List Nat → Option Float64} {obj : List (List Nat × Value)}
    {p : parser} {r : Ret} {p1 : parser} (h : Run pf (Call.objectLoop obj) p r p1)
    (hb : p.buf = none) :
    ∃ t p2, p.peek = Outcome.ok (t, p2) ∧ t.typ ≠ tokenType.tokRBrace ∧
      Run pf (Call.objectLoop obj) p2 r p1 := by
  have key : ∀ (kt : token) (q : parser), p.next = Outcome.ok (kt, q) →
      kt.typ = tokenType.tokString →
      p.peek = Outcome.ok (kt, ⟨q.lex, some kt⟩) ∧ kt.typ ≠ tokenType.tokRBrace ∧
      parser.next ⟨q.lex, some kt⟩ = Outcome.ok (kt, q) := by
    intro kt q hk hkt
    obtain ⟨h1, h2 | h2⟩ := parser_next_ok hk
    · rw [hb] at h2; cases h2.1
    · refine ⟨?_, by rw [hkt]; decide, ?_⟩
      · rw [parser_peek_none hb, h2.2]
      · obtain ⟨ql, qb⟩ := q
        simp only at h1
        subst h1
        rfl
  cases h with
  | objectLoopMore hk hkt hc hv hn hnt hl =>
    obtain ⟨a1, a2, a3⟩ := key _ _ hk hkt
    exact ⟨_, _, a1, a2, Run.objectLoopMore a3 hkt hc hv hn hnt hl⟩
  | objectLoopLast hk hkt hc hv hn hnt =>
    obtain ⟨a1, a2, a3⟩ := key _ _ hk hkt
    exact ⟨_, _, a1, a2, Run.objectLoopLast a3 hkt hc hv hn hnt⟩

/-- One round of the loop of `parseObject` on the text of a member. -/
theorem member_run {pf : List Nat → Option Float64} {x : Member}
    (hk : Parse pf x.keyText = Outcome.ok (Value.string x.key))
    (hv : Parse pf x.valueText = Outcome.ok x.value)
    {a u : List Nat} {c : Nat} {g : tokenType}
    (hc : (c, g) ∈ [(44, tokenType.tokComma), (125, tokenType.tokRBrace)])
    {src : List Nat} {pos : Nat} (w : Nat)
    (hsrc : src = a ++ x.text ++ c :: u) (hpos : pos = a.length) :
    ∃ kt p1 p2 p3, parser.next ⟨⟨src, pos, w⟩, none⟩ = Outcome.ok (kt, p1) ∧
      kt.typ = tokenType.tokString ∧ kt.lexeme = x.key ∧
      p1.expect tokenType.tokColon = Outcome.ok p2 ∧
      Run pf Call.value p2 (Ret.value x.value) p3 ∧
      p3.next = Outcome.ok (⟨g, []⟩, ⟨⟨src, pos + x.text.length + 1, 1⟩, none⟩) := by
  have hsrc1 : src = a ++ x.keyText ++ 58 :: (x.valueText ++ c :: u) := by
    rw [hsrc]; simp [Member.text]
  obtain ⟨p1, hr, hn⟩ := value_then hk (k := tokenType.tokColon) (by simp) w hsrc1 hpos
  obtain ⟨kt, pk, hpeek, hkt, hlex, hp1⟩ := Run_string_inv hr
  have hnext := peek_next_none rfl hpeek
  rw [← hp1] at hnext
  have hmem : (c, g) ∈ [(44, tokenType.tokComma), (93, tokenType.tokRBracket),
      (125, tokenType.tokRBrace), (58, tokenType.tokColon)] := by
    simp only [List.mem_cons, Prod.mk.injEq, List.mem_singleton, List.not_mem_nil,
      or_false] at hc ⊢
    rcases hc with e | e <;> simp [e]
  have hsrc2 : src = (a ++ x.keyText ++ [58]) ++ x.valueText ++ c :: u := by
    rw [hsrc]; simp [Member.text]
  obtain ⟨p3, hr3, hn3⟩ := value_then hv hmem 1 hsrc2
    (show pos + x.keyText.length + 1 = (a ++ x.keyText ++ [58]).length by
      simp [hpos]; omega)
  refine ⟨kt, p1, _, p3, hnext, hkt, hlex, ?_, hr3, ?_⟩
  · simp [parser.expect, hn]
  · rw [hn3]
    have e : pos + x.keyText.length + 1 + x.valueText.length + 1 = pos + x.text.length + 1 := by
      simp [Member.text]
      omega
    rw [e]

theorem objectLoop_run {pf : List Nat → Option Float64} :
    ∀ (ms : List Member), ms ≠ [] →
    (∀ x ∈ ms, Parse pf x.keyText = Outcome.ok (Value.string x.key) ∧
      Parse pf x.valueText = Outcome.ok x.value) →
    ∀ (a u : List Nat) (obj : List (List Nat × Value)) (w : Nat) (src : List Nat) (pos : Nat),
      src = a ++ List.intercalate [44] (ms.map Member.text) ++ 125 :: u → pos = a.length →
      Run pf (Call.objectLoop obj) ⟨⟨src, pos, w⟩, none⟩
        (Ret.members (ms.foldl (fun m x => mapSet m x.key x.value) obj))
        ⟨⟨src, pos + (List.intercalate [44] (ms.map Member.text)).length + 1, 1⟩, none⟩ := by
  intro ms
  induction ms with
  | nil => intro h; exact absurd rfl h
  | cons x rest ih =>
    intro _ hall a u obj w src pos hsrc hpos
    obtain ⟨hxk, hxv⟩ := hall x (List.mem_cons_self _ _)
    cases rest with
    | nil =>
      simp only [List.map_cons, List.map_nil, intercalate_one] at hsrc ⊢
      obtain ⟨kt, p1, p2, p3, h1, h2, h3, h4, h5, h6⟩ :=
        member_run hxk hxv (g := tokenType.tokRBrace) (by simp) w hsrc hpos
      have hres : Run pf (Call.objectLoop obj) _ _ _ := Run.objectLoopLast h1 h2 h4 h5 h6 rfl
      rw [h3] at hres
      exact hres
    | cons y r =>
      simp only [List.map_cons, intercalate_more] at hsrc ⊢
      have hsrc1 : src = a ++ x.text ++ 44 ::
          (List.intercalate [44] (y.text :: r.map Member.text) ++ 125 :: u) := by
        rw [hsrc]; simp
      obtain ⟨kt, p1, p2, p3, h1, h2, h3, h4, h5, h6⟩ :=
        member_run hxk hxv (g := tokenType.tokComma) (by simp) w hsrc1 hpos
      have hsrc2 : src = (a ++ x.text ++ [44]) ++
          List.intercalate [44] ((y :: r).map Member.text) ++ 125 :: u := by
        rw [hsrc]; simp
      have hl := ih (by simp) (fun z hz => hall z (List.mem_cons_of_mem _ hz))
        (a ++ x.text ++ [44]) u (mapSet obj x.key x.value) 1 src (pos + x.text.length + 1) hsrc2
        (by simp [hpos]; omega)
      rw [← h3] at hl
      have hres := Run.objectLoopMore h1 h2 h4 h5 h6 rfl hl
      rw [h3] at hres
      have e2 : pos + x.text.length + 1 +
          (List.intercalate [44] ((y :: r).map Member.text)).length + 1 =
          pos + (x.text ++ [44] ++ List.intercalate [44] (y.text :: r.map Member.text)).length
            + 1 := by
        simp only [List.map_cons, List.length_append, List.length_singleton]
        omega
      rw [e2] at hres
      exact hres

/-- `Parse` of `{`, members with accepted key and value texts joined with `,`,
`}`: the map built by assigning the members in source order. -/
theorem Parse_object {pf : List Nat → Option Float64} (ms : List Member) (hne : ms ≠ [])
    (hall : ∀ x ∈ ms, Parse pf x.keyText = Outcome.ok (Value.string x.key) ∧
      Parse pf x.valueText = Outcome.ok x.value) :
    Parse pf (123 :: (List.intercalate [44] (ms.map Member.text) ++ [125])) =
      Outcome.ok (Value.object (ms.foldl (fun m x => mapSet m x.key x.value) [])) := by
  generalize hsrc : 123 :: (List.intercalate [44] (ms.map Member.text) ++ [125]) = src
  have hd0 : src.drop 0 = 123 :: (List.intercalate [44] (ms.map Member.text) ++ [125]) := by
    rw [← hsrc]; rfl
  have hpk := nextToken_struct (k := tokenType.tokLBrace) 0 hd0 (by simp)
  have hp0 : parser.peek ⟨newLexer src, none⟩ = Outcome.ok (⟨tokenType.tokLBrace, []⟩,
      ⟨⟨src, 1, 1⟩, some ⟨tokenType.tokLBrace, []⟩⟩) := by
    rw [parser_peek_none rfl]
    simp only [newLexer]
    rw [hpk]
  have hexp : parser.expect ⟨⟨src, 1, 1⟩, some ⟨tokenType.tokLBrace, []⟩⟩
      tokenType.tokLBrace = Outcome.ok ⟨⟨src, 1, 1⟩, none⟩ := by
    simp [parser.expect, parser.next]
  have hloop := objectLoop_run ms hne hall [123] [] [] 1 src 1 (by rw [← hsrc]; simp) rfl
  obtain ⟨t, p2, hpeek, hnot, hloop2⟩ := Run_objectLoop_peek hloop rfl
  have hrun := Run.valueObject hp0 rfl (Run.objectMembers hexp hpeek hnot hloop2)
  refine Parse_of_run hrun (nextToken_eof (w := 1) ?_) rfl
  apply List.drop_eq_nil_of_le
  rw [← hsrc]
  simp
  omega

/-! ## Map assignment and lookup -/

theorem mapGet_mapSet_same (m : List (List Nat × Value)) (k : List Nat) (v : Value) :
    mapGet (mapSet m k v) k = some v := by
  induction m with
  | nil => simp [mapSet, mapGet]
  | cons e t ih =>
    obtain ⟨k0, v0⟩ := e
    by_cases c : k0 = k
    · simp [mapSet, mapGet, c]
    · simp [mapSet, mapGet, c, ih]

theorem mapGet_mapSet_ne (m : List (List Nat × Value)) {k k1 : List Nat} (v : Value)
    (hne : k ≠ k1) : mapGet (mapSet m k v) k1 = mapGet m k1 := by
  induction m with
  | nil => simp [mapSet, mapGet, hne]
  | cons e t ih =>
    obtain ⟨k0, v0⟩ := e
    by_cases c : k0 = k
    · have c1 : ¬ k0 = k1 := by rw [c]; exact hne
      simp [mapSet, mapGet, c, c1, hne]
    · by_cases c1 : k0 = k1
      · subst c1
        simp [mapSet, mapGet, c]
      · simp [mapSet, mapGet, c, c1, ih]

theorem mem_mapKeys_mapSet (m : List (List Nat × Value)) (k k1 : List Nat) (v : Value) :
    k1 ∈ mapKeys (mapSet m k v) ↔ k1 = k ∨ k1 ∈ mapKeys m := by
  induction m with
  | nil => simp [mapSet, mapKeys]
  | cons e t ih =>
    obtain ⟨k0, v0⟩ := e
    simp only [mapKeys] at ih
    by_cases c : k0 = k
    · simp [mapSet, mapKeys, c]
    · simp only [mapSet, mapKeys, c, if_false, List.map_cons, List.mem_cons, ih]
      tauto

theorem mapKeys_assign (k : List Nat) : ∀ (ms : List Member) (obj : List (List Nat × Value)),
    k ∈ mapKeys (ms.foldl (fun m x => mapSet m x.key x.value) obj) ↔
      k ∈ mapKeys obj ∨ ∃ x ∈ ms, x.key = k := by
  intro ms
  induction ms with
  | nil => intro obj; simp
  | cons x r ih =>
    intro obj
    simp only [List.foldl_cons, ih, mem_mapKeys_mapSet, List.mem_cons, exists_eq_or_imp]
    constructor
    · rintro ((h | h) | h)
      · exact Or.inr (Or.inl h.symm)
      · exact Or.inl h
      · exact Or.inr (Or.inr h)
    · rintro (h | h | h)
      · exact Or.inl (Or.inr h)
      · exact Or.inl (Or.inl h.symm)
      · exact Or.inr h

theorem mapGet_assign_ne (k : List Nat) : ∀ (ms : List Member) (obj : List (List Nat × Value)),
    (∀ y ∈ ms, y.key ≠ k) →
    mapGet (ms.foldl (fun m x => mapSet m x.key x.value) obj) k = mapGet obj k := by
  intro ms
  induction ms with
  | nil => intro obj _; rfl
  | cons x r ih =>
    intro obj h
    rw [List.foldl_cons, ih _ (fun y hy => h y (List.mem_cons_of_mem _ hy)),
      mapGet_mapSet_ne _ _ (h x (List.mem_cons_self _ _))]

theorem mapGet_assign_last (pre post : List Member) (x : Member)
    (obj : List (List Nat × Value)) (h : ∀ y ∈ post, y.key ≠ x.key) :
    mapGet ((pre ++ x :: post).foldl (fun m x => mapSet m x.key x.value) obj) x.key =
      some x.value := by
  rw [List.foldl_append, List.foldl_cons, mapGet_assign_ne _ _ _ h, mapGet_mapSet_same]

/-! ## Keywords -/

/-- `matchSeq` on a pattern of bytes below 128 succeeds exactly when the text
at the cursor starts with the pattern, and then leaves the cursor behind
it. -/
theorem matchSeq_prefix {s : List Nat} : ∀ (seq : List Nat) (q w : Nat) (rest : List Nat),
    (∀ x ∈ seq, x < 128) → s.drop q = rest →
    (seq <+: rest → ∃ w1, lexer.matchSeq ⟨s, q, w⟩ seq = (true, ⟨s, q + seq.length, w1⟩)) ∧
    (¬ seq <+: rest → (lexer.matchSeq ⟨s, q, w⟩ seq).1 = false) := by
  intro seq
  induction seq with
  | nil =>
    intro q w rest _ _
    exact ⟨fun _ => ⟨w, rfl⟩, fun h => absurd List.nil_prefix h⟩
  | cons x xs ih =>
    intro q w rest hlt hdrop
    have hx : x < 128 := hlt x (List.mem_cons_self _ _)
    by_cases hn : (lexer.next ⟨s, q, w⟩).1 = (x : Int)
    · obtain ⟨b, t, hd, hb, _, hnext⟩ := next_ascii_inv ⟨s, q, w⟩ hn (by omega) (by omega)
      simp only at hd hnext
      have hbx : b = x := by exact_mod_cast hb
      subst hbx
      rw [hdrop] at hd
      subst hd
      obtain ⟨i1, i2⟩ := ih (q + 1) 1 t (fun y hy => hlt y (List.mem_cons_of_mem _ hy))
        (drop_succ_of_cons hdrop)
      have hm : lexer.matchSeq ⟨s, q, w⟩ (b :: xs) = lexer.matchSeq ⟨s, q + 1, 1⟩ xs := by
        simp only [lexer.matchSeq, hnext]
        have e1 : ((b : Int) == -1) = false := by
          simp
        simp [e1]
      rw [hm]
      constructor
      · intro hp
        obtain ⟨w1, hw1⟩ := i1 ((List.cons_prefix_cons.1 hp).2)
        refine ⟨w1, ?_⟩
        rw [hw1, List.length_cons, Nat.add_assoc, Nat.add_comm 1]
      · intro hp
        exact i2 (fun h => hp (List.cons_prefix_cons.2 ⟨rfl, h⟩))
    · constructor
      · intro hp
        obtain ⟨t, ht⟩ := hp
        rw [← ht] at hdrop
        have := next_ascii (w := w) (by simpa using hdrop) hx
        rw [this] at hn
        exact absurd rfl hn
      · intro _
        simp only [lexer.matchSeq]
        have e : ((lexer.next ⟨s, q, w⟩).1 != (x : Int)) = true := by
          simp [hn]
        simp [e]

/-- `nextToken` with the cursor on a `t`, `f` or `n`. -/
theorem nextToken_keyword {s : List Nat} {q w c : Nat} {rest tail : List Nat} {k : tokenType}
    (hdrop : s.drop q = c :: rest) (hk : keywordOf c = some (tail, k)) :
    (tail <+: rest → ∃ w1, lexer.nextToken ⟨s, q, w⟩ =
      Outcome.ok (⟨k, []⟩, ⟨s, q + 1 + tail.length, w1⟩)) ∧
    (¬ tail <+: rest → lexer.nextToken ⟨s, q, w⟩ =
      Outcome.error (Err.unexpectedCharacter (c : Int))) := by
  have hc : (c = 116 ∧ tail = [114, 117, 101] ∧ k = tokenType.tokTrue) ∨
      (c = 102 ∧ tail = [97, 108, 115, 101] ∧ k = tokenType.tokFalse) ∨
      (c = 110 ∧ tail = [117, 108, 108] ∧ k = tokenType.tokNull) := by
    simp only [keywordOf] at hk
    by_cases c1 : c = 116
    · simp [c1] at hk; exact Or.inl ⟨c1, hk.1.symm, hk.2.symm⟩
    · by_cases c2 : c = 102
      · simp [c2] at hk; exact Or.inr (Or.inl ⟨c2, hk.1.symm, hk.2.symm⟩)
      · by_cases c3 : c = 110
        · simp [c3] at hk; exact Or.inr (Or.inr ⟨c3, hk.1.symm, hk.2.symm⟩)
        · simp [c1, c2, c3] at hk
  have hlt : c < 128 := by rcases hc with h | h | h <;> omega
  have hn := next_ascii (w := w) hdrop hlt
  have hwc : isWS (c : Int) = false := by
    rcases hc with h | h | h <;> rw [h.1] <;> decide
  have hws : isWS (lexer.peek ⟨s, q, w⟩) = false := by
    rw [lexer.peek, hn]
    exact hwc
  have hall : ∀ x ∈ tail, x < 128 := by
    rcases hc with h | h | h <;> rw [h.2.1] <;> decide
  obtain ⟨m1, m2⟩ := matchSeq_prefix tail (q + 1) 1 rest hall (drop_succ_of_cons hdrop)
  constructor
  · intro hp
    obtain ⟨w1, hm⟩ := m1 hp
    refine ⟨w1, ?_⟩
    unfold lexer.nextToken
    rw [skipWS_of_not_ws hws]
    simp only [hn]
    rcases hc with h | h | h <;> obtain ⟨rfl, rfl, rfl⟩ := h <;> simp [hm]
  · intro hp
    have hm := m2 hp
    unfold lexer.nextToken
    rw [skipWS_of_not_ws hws]
    simp only [hn]
    rcases hc with h | h | h <;> obtain ⟨rfl, rfl, rfl⟩ := h <;> simp [hm]

/-! ## Number texts that go wrong -/

theorem next_not_digit {s : List Nat} {q w : Nat} {rest : List Nat} (hd : s.drop q = rest)
    (h : startsWithDigit rest = false) : isDigit (lexer.next ⟨s, q, w⟩).1 = false := by
  by_contra hc
  have hc : isDigit (lexer.next ⟨s, q, w⟩).1 = true := by simpa using hc
  obtain ⟨h1, h2⟩ := isDigit_ascii hc
  obtain ⟨b, t, hbt, hb, _, _⟩ := next_ascii_inv ⟨s, q, w⟩ rfl h1 h2
  simp only at hbt
  rw [hd] at hbt
  subst hbt
  simp only [isDigit, decide_eq_true_eq] at hc
  simp only [startsWithDigit, isDigitByte, decide_eq_false_iff_not] at h
  omega

theorem next_not_sign {s : List Nat} {q w : Nat} {rest : List Nat} (hd : s.drop q = rest)
    (h : startsWithSign rest = false) :
    ¬ ((lexer.next ⟨s, q, w⟩).1 = 43 ∨ (lexer.next ⟨s, q, w⟩).1 = 45) := by
  intro hc
  obtain ⟨b, t, hbt, hb, _, _⟩ := next_ascii_inv ⟨s, q, w⟩ rfl
    (by rcases hc with e | e <;> rw [e] <;> decide)
    (by rcases hc with e | e <;> rw [e] <;> decide)
  simp only at hbt
  rw [hd] at hbt
  subst hbt
  simp only [startsWithSign, Bool.or_eq_false_iff, beq_eq_false_iff_ne, ne_eq] at h
  rcases hc with e | e <;> rw [e] at hb <;> omega

theorem scanExponent_fault {s : List Nat} {q m : Nat} {sg rest : List Nat} (fuel start : Nat)
    (hdrop : s.drop q = m :: (sg ++ rest)) (hm : m = 101 ∨ m = 69)
    (hsg : (sg = [] ∧ startsWithSign rest = false) ∨ sg = [43] ∨ sg = [45])
    (hnd : startsWithDigit rest = false) :
    scanExponent fuel start (lexer.next ⟨s, q, 0⟩).1 (lexer.next ⟨s, q, 0⟩).2 =
      Outcome.error Err.invalidExponent := by
  have hn : lexer.next ⟨s, q, 0⟩ = ((m : Int), ⟨s, q + 1, 1⟩) :=
    next_ascii hdrop (by omega)
  have hmi : (m : Int) = 101 ∨ (m : Int) = 69 := by omega
  have hd1 : s.drop (q + 1) = sg ++ rest := drop_succ_of_cons hdrop
  rw [hn]
  simp only [scanExponent]
  rw [if_pos hmi]
  rcases hsg with ⟨rfl, hns⟩ | rfl | rfl
  · have h1 := next_not_sign (w := 1) (by simpa using hd1) hns
    have h2 := next_not_digit (w := 1) (show s.drop (q + 1) = rest by simpa using hd1) hnd
    simp only [h1, if_false, h2]
    simp
  · have h1 : lexer.next ⟨s, q + 1, 1⟩ = (((43 : Nat) : Int), ⟨s, q + 1 + 1, 1⟩) :=
      next_ascii (by simpa using hd1) (by decide)
    have h2 := next_not_digit (w := 1) (drop_succ_of_cons (c := 43) (by simpa using hd1)) hnd
    simp only [h1, Nat.cast_ofNat, true_or, if_true, h2]
    simp
  · have h1 : lexer.next ⟨s, q + 1, 1⟩ = (((45 : Nat) : Int), ⟨s, q + 1 + 1, 1⟩) :=
      next_ascii (by simpa using hd1) (by decide)
    have h2 := next_not_digit (w := 1) (drop_succ_of_cons (c := 45) (by simpa using hd1)) hnd
    simp only [h1, Nat.cast_ofNat, or_true, if_true, h2]
    simp

theorem scanFraction_fault_point {s : List Nat} {q : Nat} {rest : List Nat} (fuel start : Nat)
    (hdrop : s.drop q = 46 :: rest) (hnd : startsWithDigit rest = false) :
    scanFraction fuel start (lexer.next ⟨s, q, 0⟩).1 (lexer.next ⟨s, q, 0⟩).2 =
      Outcome.error Err.invalidFraction := by
  have hn : lexer.next ⟨s, q, 0⟩ = (((46 : Nat) : Int), ⟨s, q + 1, 1⟩) :=
    next_ascii hdrop (by decide)
  have h2 := next_not_digit (w := 1) (drop_succ_of_cons hdrop) hnd
  rw [hn]
  simp only [scanFraction, Nat.cast_ofNat, if_true, h2]
  simp

theorem not_digit_of_marker {m : Nat} (hm : m = 101 ∨ m = 69) :
    isDigit (m : Int) = false ∧ ¬ ((m : Int) = 46) := by
  simp only [isDigit, decide_eq_false_iff_not]
  omega

theorem scanFraction_fault_exp {s : List Nat} (frac : Option (List Nat)) {q m : Nat}
    {sg rest : List Nat} (fuel start : Nat)
    (hdrop : s.drop q = fracText frac ++ m :: (sg ++ rest)) (hfr : fracOk frac = true)
    (hm : m = 101 ∨ m = 69)
    (hsg : (sg = [] ∧ startsWithSign rest = false) ∨ sg = [43] ∨ sg = [45])
    (hnd : startsWithDigit rest = false) (hf : s.length - q < fuel) :
    scanFraction fuel start (lexer.next ⟨s, q, 0⟩).1 (lexer.next ⟨s, q, 0⟩).2 =
      Outcome.error Err.invalidExponent := by
  cases frac with
  | none =>
    simp only [fracText, List.nil_append] at hdrop
    have hn : lexer.next ⟨s, q, 0⟩ = ((m : Int), ⟨s, q + 1, 1⟩) :=
      next_ascii hdrop (by omega)
    have h := scanExponent_fault fuel start hdrop hm hsg hnd
    rw [hn] at h ⊢
    simp only [scanFraction]
    rw [if_neg (not_digit_of_marker hm).2]
    exact h
  | some ds =>
    simp only [fracOk, Bool.and_eq_true, bne_iff_ne, ne_eq] at hfr
    obtain ⟨hne, hall⟩ := hfr
    cases ds with
    | nil => exact absurd rfl hne
    | cons d ds =>
      simp only [fracText, List.cons_append, List.append_assoc] at hdrop
      have hnext : lexer.next ⟨s, q, 0⟩ = (((46 : Nat) : Int), ⟨s, q + 1, 1⟩) :=
        next_ascii hdrop (by decide)
      have hd1 : s.drop (q + 1) = d :: ds ++ (m :: (sg ++ rest)) :=
        drop_succ_of_drop_cons hdrop
      have hend : s.drop (q + 1 + (d :: ds).length) = m :: (sg ++ rest) :=
        drop_append_of_drop hd1
      have hq : q < s.length := lt_length_of_drop_cons hdrop
      have hmn : lexer.next ⟨s, q + 1 + (d :: ds).length, 0⟩ =
          ((m : Int), ⟨s, q + 1 + (d :: ds).length + 1, 1⟩) := next_ascii hend (by omega)
      obtain ⟨h1, h2, h3⟩ := digits_then_delimited (w := 1) (f := fuel)
        hd1 hall (by rw [hmn]; exact (not_digit_of_marker hm).1) (by omega)
      have h := scanExponent_fault fuel start hend hm hsg hnd
      unfold scanFraction
      rw [hnext]
      simp only [Nat.cast_ofNat, if_true]
      rw [h1]
      simp only [h2, not_true_eq_false, if_false]
      rw [h3]
      simp only
      exact h

/-- After an integer part `[1-9][0-9]*` `scanNumber` goes on to the fraction
and exponent tests with the code point behind the digits. -/
theorem scanNumber_int {s : List Nat} (neg : Bool) {d : Nat} {ds tl : List Nat} (p w : Nat)
    (hdrop : s.drop p = (if neg then [45] else []) ++ (d :: ds) ++ tl)
    (hd : 49 ≤ d ∧ d ≤ 57) (hall : ds.all isDigitByte = true)
    (hnd : isDigit (lexer.next ⟨s,
      p + (if neg then [45] else []).length + (d :: ds).length, 0⟩).1 = false) :
    lexer.scanNumber ⟨s, p, w⟩ =
      scanFraction (s.length - p + 1) p
        (lexer.next ⟨s, p + (if neg then [45] else []).length + (d :: ds).length, 0⟩).1
        (lexer.next ⟨s, p + (if neg then [45] else []).length + (d :: ds).length, 0⟩).2 := by
  have key : ∀ (q : Nat) (w0 : Nat), p ≤ q → s.drop q = d :: ds ++ tl →
      isDigit (lexer.next ⟨s, q + (d :: ds).length, 0⟩).1 = false →
      lexer.next ⟨s, q, w0⟩ = ((d : Int), ⟨s, q + 1, 1⟩) ∧
      scanDigits (s.length - p + 1) ⟨s, q + 1, 1⟩ =
        Outcome.ok (lexer.next ⟨s, q + (d :: ds).length, 0⟩) := by
    intro q w0 hpq hdq hn
    have hq : q < s.length := lt_length_of_drop_cons hdq
    have hd1 : s.drop (q + 1) = ds ++ tl := drop_succ_of_drop_cons hdq
    have e : q + 1 + ds.length = q + (d :: ds).length := by simp; omega
    refine ⟨next_ascii hdq (by omega), ?_⟩
    rw [scanDigits_run ds _ (q + 1) 1 _ hd1 hall (by rw [e]; exact hn) (by omega), e]
  have hdne : ¬ ((d : Int) = 45) := by omega
  have hd1 : ¬ ((d : Int) = -1) := by omega
  have hd0 : ¬ ((d : Int) = 48) := by omega
  have hdd : (49 : Int) ≤ (d : Int) ∧ (d : Int) ≤ 57 := by omega
  cases neg with
  | false =>
    simp only [Bool.false_eq_true, if_false, List.nil_append, List.length_nil,
      Nat.add_zero] at hdrop hnd ⊢
    obtain ⟨k1, k2⟩ := key p w (le_refl _) hdrop hnd
    unfold lexer.scanNumber
    simp only [k1, hdne, if_false, hd1, hd0, hdd, and_self, if_true]
    rw [k2]
  | true =>
    simp only [if_true, List.cons_append, List.nil_append, List.length_singleton] at hdrop hnd ⊢
    have hm : lexer.next ⟨s, p, w⟩ = (((45 : Nat) : Int), ⟨s, p + 1, 1⟩) :=
      next_ascii hdrop (by decide)
    obtain ⟨k1, k2⟩ := key (p + 1) 1 (by omega) (drop_succ_of_drop_cons hdrop) hnd
    unfold lexer.scanNumber
    simp only [hm, Nat.cast_ofNat, if_true, k1, hd1, hd0, hdd, and_self, if_false]
    rw [k2]

theorem NumberFault_head (f : NumberFault) (hf : f.wellFormed = true) :
    ∃ b t, f.text = b :: t ∧ (b = 45 ∨ (48 ≤ b ∧ b ≤ 57)) := by
  have hint : ∀ (neg : Bool) (int tl : List Nat), nonzeroInt int = true →
      ∃ b t, (if neg then [45] else []) ++ int ++ tl = b :: t ∧ (b = 45 ∨ (48 ≤ b ∧ b ≤ 57)) := by
    intro neg int tl h
    cases neg with
    | true => exact ⟨45, int ++ tl, by simp, Or.inl rfl⟩
    | false =>
      cases int with
      | nil => simp [nonzeroInt] at h
      | cons d ds =>
        simp only [nonzeroInt, Bool.and_eq_true, decide_eq_true_eq] at h
        exact ⟨d, ds ++ tl, by simp, Or.inr (by omega)⟩
  cases f with
  | fraction neg int rest =>
    simp only [NumberFault.wellFormed, Bool.and_eq_true] at hf
    exact hint neg int (46 :: rest) hf.1
  | exponent neg int frac m sg rest =>
    simp only [NumberFault.wellFormed, Bool.and_eq_true] at hf
    obtain ⟨b, t, h1, h2⟩ := hint neg int (fracText frac ++ m :: (sg ++ rest)) hf.1.1.1.1
    exact ⟨b, t, by simpa [NumberFault.text] using h1, h2⟩
  | minus rest => exact ⟨45, rest, rfl, Or.inl rfl⟩

/-- `scanNumber` started on a faulty number text returns the error of the
fault. -/
theorem scanNumber_fault {s : List Nat} (f : NumberFault) (p w : Nat)
    (hf : f.wellFormed = true) (hdrop : s.drop p = f.text) :
    lexer.scanNumber ⟨s, p, w⟩ = Outcome.error f.error := by
  cases f with
  | fraction neg int rest =>
    simp only [NumberFault.wellFormed, Bool.and_eq_true, Bool.not_eq_true'] at hf
    obtain ⟨hint, hnd⟩ := hf
    cases int with
    | nil => simp [nonzeroInt] at hint
    | cons d ds =>
      simp only [nonzeroInt, Bool.and_eq_true, decide_eq_true_eq] at hint
      simp only [NumberFault.text] at hdrop
      have hq : s.drop (p + ((if neg then [45] else []) ++ (d :: ds)).length) = 46 :: rest :=
        drop_append_of_drop hdrop
      rw [List.length_append, ← Nat.add_assoc] at hq
      have hn : lexer.next ⟨s, p + (if neg then [45] else []).length + (d :: ds).length, 0⟩ =
          (((46 : Nat) : Int),
            ⟨s, p + (if neg then [45] else []).length + (d :: ds).length + 1, 1⟩) :=
        next_ascii hq (by decide)
      rw [scanNumber_int neg p w hdrop hint.1 hint.2 (by rw [hn]; rfl)]
      exact scanFraction_fault_point _ _ hq hnd
  | exponent neg int frac m sg rest =>
    simp only [NumberFault.wellFormed, Bool.and_eq_true, Bool.not_eq_true', Bool.or_eq_true,
      beq_iff_eq] at hf
    obtain ⟨⟨⟨⟨hint, hfr⟩, hm⟩, hsg⟩, hnd⟩ := hf
    cases int with
    | nil => simp [nonzeroInt] at hint
    | cons d ds =>
      simp only [nonzeroInt, Bool.and_eq_true, decide_eq_true_eq] at hint
      simp only [NumberFault.text] at hdrop
      have hdrop1 : s.drop p = (if neg then [45] else []) ++ (d :: ds) ++
          (fracText frac ++ m :: (sg ++ rest)) := by
        rw [hdrop]; simp
      have hq : s.drop (p + ((if neg then [45] else []) ++ (d :: ds)).length) =
          fracText frac ++ m :: (sg ++ rest) := drop_append_of_drop hdrop1
      rw [List.length_append, ← Nat.add_assoc] at hq
      have hnd0 : isDigit (lexer.next ⟨s,
          p + (if neg then [45] else []).length + (d :: ds).length, 0⟩).1 = false := by
        cases frac with
        | none =>
          simp only [fracText, List.nil_append] at hq
          rw [next_ascii hq (by omega)]
          exact (not_digit_of_marker hm).1
        | some fs =>
          simp only [fracText, List.cons_append] at hq
          rw [next_ascii hq (by decide)]
          rfl
      rw [scanNumber_int neg p w hdrop1 hint.1 hint.2 hnd0]
      have hq0 : p + (if neg then [45] else []).length + (d :: ds).length ≤ s.length := by
        rcases length_le_of_drop_append hdrop1 with h | h
        · rw [List.length_append, ← Nat.add_assoc] at h
          exact h
        · simp at h
      refine scanFraction_fault_exp frac _ _ hq hfr hm ?_ hnd (by omega)
      rcases hsg with (⟨h1, h2⟩ | h1) | h1
      · exact Or.inl ⟨h1, h2⟩
      · exact Or.inr (Or.inl h1)
      · exact Or.inr (Or.inr h1)
  | minus rest =>
    simp only [NumberFault.wellFormed, Bool.not_eq_true'] at hf
    simp only [NumberFault.text] at hdrop
    have hm : lexer.next ⟨s, p, w⟩ = (((45 : Nat) : Int), ⟨s, p + 1, 1⟩) :=
      next_ascii hdrop (by decide)
    have hnd := next_not_digit (w := 1) (drop_succ_of_cons hdrop) hf
    simp only [isDigit, decide_eq_false_iff_not] at hnd
    unfold lexer.scanNumber
    simp only [hm, Nat.cast_ofNat, if_true, NumberFault.error]
    by_cases c1 : (lexer.next ⟨s, p + 1, 1⟩).1 = -1
    · rw [if_pos c1]
    · rw [if_neg c1]
      rw [if_neg (by omega), if_neg (by omega)]

/-- `nextToken` with only whitespace between the cursor and a faulty number
text returns the error of the fault. -/
theorem nextToken_fault {s : List Nat} (f : NumberFault) (p w : Nat) (ws : List Nat)
    (hf : f.wellFormed = true) (hws : ∀ c ∈ ws, c = 32 ∨ c = 9 ∨ c = 13 ∨ c = 10)
    (hdrop : s.drop p = ws ++ f.text) :
    lexer.nextToken ⟨s, p, w⟩ = Outcome.error f.error := by
  obtain ⟨b, t, hbt, hb⟩ := NumberFault_head f hf
  have hq : s.drop (p + ws.length) = f.text := drop_append_of_drop hdrop
  rw [ nextToken_ws_prefix ws p w 0 hws hdrop,
    nextToken_number_start (by rw [hq, hbt]) hb, scanNumber_fault f _ 1 hf hq]

/-- An input one of whose tokens fails to scan is rejected by `Parse`. -/
theorem Parse_error_of_token {pf : List Nat → Option Float64} {src : List Nat} {k : Nat}
    {l : lexer} {e : Err} (hk : lexAfter k (newLexer src) = Outcome.ok l)
    (he : l.nextToken = Outcome.error e) : ∃ e1, Parse pf src = Outcome.error e1 := by
  have hat : tokenAt k (newLexer src) = Outcome.error e := by
    simp [tokenAt, hk, he]
  cases hp : Parse pf src with
  | ok v =>
    obtain ⟨t, ht⟩ := (Parse_ok_tokens hp).2 k
    rw [hat] at ht
    cases ht
  | error e1 => exact ⟨e1, rfl⟩
  | timeout => exact absurd hp (Parse_ne_timeout pf src)

/-- An input whose first token fails to scan is rejected with the error of
the scanner. -/
theorem Parse_error_first {pf : List Nat → Option Float64} {src : List Nat} {e : Err}
    (he : (newLexer src).nextToken = Outcome.error e) : Parse pf src = Outcome.error e := by
  have hp : parser.peek ⟨newLexer src, none⟩ = Outcome.error e := by
    rw [parser_peek_none rfl, he]
  simp [Parse, parseValue, hp]

/-! ## Only scalar values are stored -/

theorem DecodeRune_scalar (p : List Nat) : scalarRune (DecodeRune p).1 := by
  unfold scalarRune
  rcases p with _ | ⟨p0, t⟩
  · simp [DecodeRune, RuneError]
  · rcases t with _ | ⟨b1, _ | ⟨b2, _ | ⟨b3, t3⟩⟩⟩ <;>
      simp only [DecodeRune, RuneError] <;> split_ifs <;> (try dsimp only) <;> omega

theorem next_scalar (l : lexer) : (l.next).1 = -1 ∨ scalarRune (l.next).1 := by
  unfold lexer.next
  split
  · exact Or.inl rfl
  · exact Or.inr (DecodeRune_scalar _)

theorem scalarText_of_runes (out : List Int) (h : ∀ r ∈ out, scalarRune r) :
    scalarText (stringOfRunes out) := by
  refine ⟨out.map Int.toNat, ?_, ?_⟩
  · intro c hc
    obtain ⟨r, hr, rfl⟩ := List.mem_map.1 hc
    obtain ⟨h1, h2, h3⟩ := h r hr
    simp only [isScalar, decide_eq_true_eq]
    omega
  · congr 1
    rw [List.map_map]
    symm
    calc List.map (Int.ofNat ∘ Int.toNat) out = List.map id out := by
          apply List.map_congr_left
          intro r hr
          have := (h r hr).1
          simp [Int.toNat_of_nonneg this]
      _ = out := List.map_id _

theorem scanUnicodeEscape_scalar {out : List Int} {l : lexer} {out1 : List Int} {l1 : lexer}
    (h : scanUnicodeEscape out l = StringStep.more out1 l1) :
    ∃ r, out1 = out ++ [r] ∧ scalarRune r := by
  unfold scanUnicodeEscape at h
  cases h1 : readHex 4 0 l with
  | none => simp [h1] at h
  | some x =>
    obtain ⟨v, la⟩ := x
    obtain ⟨a, b, c, d, t, xv, _, hx, hv⟩ := readHex_four_inv h1
    have hlt := hex4_lt hx
    simp only [h1] at h
    by_cases c1 : 0xD800 ≤ v ∧ v ≤ 0xDBFF
    · rw [if_pos c1] at h
      by_cases c2 : (la.next).1 ≠ 92
      · rw [if_pos c2] at h; cases h
      rw [if_neg c2] at h
      by_cases c3 : (la.next).2.next.1 ≠ 117
      · rw [if_pos c3] at h; cases h
      rw [if_neg c3] at h
      cases h2 : readHex 4 0 (la.next).2.next.2 with
      | none => simp [h2] at h
      | some y =>
        obtain ⟨low, lb⟩ := y
        obtain ⟨a1, b1, c1', d1, t1, xl, _, hxl, hl⟩ := readHex_four_inv h2
        simp only [h2] at h
        by_cases c4 : low < 0xDC00 ∨ low > 0xDFFF
        · rw [if_pos c4] at h; cases h
        rw [if_neg c4] at h
        injection h with e1 e2
        refine ⟨_, e1.symm, ?_⟩
        subst hv hl
        rw [combine_surrogates (by omega) (by omega)]
        unfold scalarRune
        omega
    · rw [if_neg c1] at h
      by_cases c2 : 0xDC00 ≤ v ∧ v ≤ 0xDFFF
      · rw [if_pos c2] at h; cases h
      rw [if_neg c2] at h
      injection h with e1 e2
      refine ⟨v, e1.symm, ?_⟩
      unfold scalarRune
      omega

theorem escape_switch_scalar {out : List Int} {e : Int} {lm : lexer} {X : StringStep}
    {out1 : List Int} {l1 : lexer}
    (h : (if e = 34 ∨ e = 92 ∨ e = 47 then StringStep.more (out ++ [e]) lm
        else if e = 98 then StringStep.more (out ++ [8]) lm
        else if e = 102 then StringStep.more (out ++ [12]) lm
        else if e = 110 then StringStep.more (out ++ [10]) lm
        else if e = 114 then StringStep.more (out ++ [13]) lm
        else if e = 116 then StringStep.more (out ++ [9]) lm
        else if e = 117 then X
        else StringStep.fail (Err.invalidEscape e)) = StringStep.more out1 l1) :
    (∃ r, out1 = out ++ [r] ∧ scalarRune r) ∨ X = StringStep.more out1 l1 := by
  have k : ∀ r : Int, scalarRune r → StringStep.more (out ++ [r]) lm = StringStep.more out1 l1 →
      (∃ r, out1 = out ++ [r] ∧ scalarRune r) ∨ X = StringStep.more out1 l1 := by
    intro r hr he
    injection he with e1 e2
    exact Or.inl ⟨r, e1.symm, hr⟩
  by_cases c1 : e = 34 ∨ e = 92 ∨ e = 47
  · rw [if_pos c1] at h
    exact k e (by unfold scalarRune; omega) h
  rw [if_neg c1] at h
  by_cases c2 : e = 98
  · rw [if_pos c2] at h; exact k 8 (by unfold scalarRune; omega) h
  rw [if_neg c2] at h
  by_cases c3 : e = 102
  · rw [if_pos c3] at h; exact k 12 (by unfold scalarRune; omega) h
  rw [if_neg c3] at h
  by_cases c4 : e = 110
  · rw [if_pos c4] at h; exact k 10 (by unfold scalarRune; omega) h
  rw [if_neg c4] at h
  by_cases c5 : e = 114
  · rw [if_pos c5] at h; exact k 13 (by unfold scalarRune; omega) h
  rw [if_neg c5] at h
  by_cases c6 : e = 116
  · rw [if_pos c6] at h; exact k 9 (by unfold scalarRune; omega) h
  rw [if_neg c6] at h
  by_cases c7 : e = 117
  · rw [if_pos c7] at h; exact Or.inr h
  rw [if_neg c7] at h
  cases h

/-- Each pass through the loop of `scanString` that goes on appends one scalar
value. -/
theorem scanStringStep_scalar {out : List Int} {l : lexer} {out1 : List Int} {l1 : lexer}
    (h : scanStringStep out l = StringStep.more out1 l1) :
    ∃ r, out1 = out ++ [r] ∧ scalarRune r := by
  have hs := next_scalar l
  simp only [scanStringStep] at h
  generalize hX : scanUnicodeEscape out (l.next).2.next.2 = X at h
  generalize (l.next).2.next = m at h
  generalize l.next = n at h hs
  obtain ⟨r, ln⟩ := n
  obtain ⟨e, lm⟩ := m
  simp only at h hs
  by_cases c1 : r = -1
  · rw [if_pos c1] at h; cases h
  rw [if_neg c1] at h
  by_cases c2 : r = 34
  · rw [if_pos c2] at h; cases h
  rw [if_neg c2] at h
  by_cases c3 : r = 92
  · rw [if_pos c3] at h
    rcases escape_switch_scalar h with h1 | h1
    · exact h1
    · rw [← hX] at h1
      exact scanUnicodeEscape_scalar h1
  · rw [if_neg c3] at h
    injection h with e1 e2
    rcases hs with hs | hs
    · exact absurd hs c1
    · exact ⟨r, e1.symm, hs⟩

theorem scanStringLoop_scalar : ∀ (fuel : Nat) (out : List Int) (l : lexer) (x : List Nat)
    (l1 : lexer), scanStringLoop fuel out l = Outcome.ok (x, l1) →
    (∀ r ∈ out, scalarRune r) → scalarText x := by
  intro fuel
  induction fuel with
  | zero => intro out l x l1 h; simp [scanStringLoop] at h
  | succ f ih =>
    intro out l x l1 h hout
    simp only [scanStringLoop] at h
    cases hs : scanStringStep out l with
    | done l2 =>
      rw [hs] at h
      simp only [Outcome.ok.injEq, Prod.mk.injEq] at h
      rw [← h.1]
      exact scalarText_of_runes out hout
    | fail e => rw [hs] at h; cases h
    | more out1 l2 =>
      rw [hs] at h
      obtain ⟨r, e1, hr⟩ := scanStringStep_scalar hs
      refine ih out1 l2 x l1 h ?_
      intro r1 hr1
      rw [e1] at hr1
      rcases List.mem_append.1 hr1 with h1 | h1
      · exact hout r1 h1
      · rw [List.mem_singleton.1 h1]; exact hr

theorem scalarText_nil : scalarText [] := ⟨[], by simp, rfl⟩

/-- Every String token that `nextToken` returns carries the encoding of scalar
values. -/
theorem nextToken_text {l : lexer} {t : token} {l1 : lexer}
    (h : l.nextToken = Outcome.ok (t, l1)) : textToken t := by
  obtain ⟨l0, _, _, _, heq⟩ := nextToken_eq l
  rw [heq] at h
  have hstr : ∀ x lx, (l0.next).2.scanString = Outcome.ok (x, lx) → scalarText x := by
    intro x lx hx
    exact scanStringLoop_scalar _ [] _ x lx hx (fun r hr => absurd hr (List.not_mem_nil _))
  generalize (l0.next).2.matchSeq [114, 117, 101] = m1 at h
  generalize (l0.next).2.matchSeq [97, 108, 115, 101] = m2 at h
  generalize (l0.next).2.matchSeq [117, 108, 108] = m3 at h
  generalize (l0.next).2.scanString = ss at h hstr
  generalize (l0.next).2.backup.scanNumber = sn at h
  generalize l0.next = n at h
  obtain ⟨r, ln⟩ := n
  simp only at h
  have inj : ∀ (tt : tokenType) (lx : lexer),
      Outcome.ok ((⟨tt, []⟩ : token), lx) = Outcome.ok (t, l1) → textToken t := by
    intro tt lx he
    simp only [Outcome.ok.injEq, Prod.mk.injEq] at he
    rw [← he.1]
    exact fun _ => scalarText_nil
  have kw : ∀ (tt : tokenType) (m : Bool × lexer),
      (if m.1 = true then Outcome.ok ((⟨tt, []⟩ : token), m.2)
        else Outcome.error (Err.unexpectedCharacter r)) = Outcome.ok (t, l1) → textToken t := by
    intro tt m he
    by_cases c : m.1 = true
    · rw [if_pos c] at he; exact inj tt _ he
    · rw [if_neg c] at he; cases he
  by_cases c1 : r = -1
  · rw [if_pos c1] at h; exact inj _ _ h
  rw [if_neg c1] at h
  by_cases c2 : r = 123
  · rw [if_pos c2] at h; exact inj _ _ h
  rw [if_neg c2] at h
  by_cases c3 : r = 125
  · rw [if_pos c3] at h; exact inj _ _ h
  rw [if_neg c3] at h
  by_cases c4 : r = 91
  · rw [if_pos c4] at h; exact inj _ _ h
  rw [if_neg c4] at h
  by_cases c5 : r = 93
  · rw [if_pos c5] at h; exact inj _ _ h
  rw [if_neg c5] at h
  by_cases c6 : r = 58
  · rw [if_pos c6] at h; exact inj _ _ h
  rw [if_neg c6] at h
  by_cases c7 : r = 44
  · rw [if_pos c7] at h; exact inj _ _ h
  rw [if_neg c7] at h
  by_cases c8 : r = 34
  · rw [if_pos c8] at h
    cases ss with
    | timeout => cases h
    | error e => cases h
    | ok y =>
      obtain ⟨x, lx⟩ := y
      simp only [Outcome.ok.injEq, Prod.mk.injEq] at h
      rw [← h.1]
      exact fun _ => hstr x lx rfl
  rw [if_neg c8] at h
  by_cases c9 : r = 116
  · rw [if_pos c9] at h; exact kw _ m1 h
  rw [if_neg c9] at h
  by_cases c10 : r = 102
  · rw [if_pos c10] at h; exact kw _ m2 h
  rw [if_neg c10] at h
  by_cases c11 : r = 110
  · rw [if_pos c11] at h; exact kw _ m3 h
  rw [if_neg c11] at h
  by_cases c12 : r = 45 ∨ (48 ≤ r ∧ r ≤ 57)
  · rw [if_pos c12] at h
    cases sn with
    | timeout => cases h
    | error e => cases h
    | ok y =>
      simp only [Outcome.ok.injEq, Prod.mk.injEq] at h
      rw [← h.1]
      intro hc
      cases hc
  · rw [if_neg c12] at h
    cases h

theorem textBuf_none {p : parser} (h : p.buf = none) : textBuf p := by
  intro t ht
  rw [h] at ht
  cases ht

theorem peek_text {p : parser} {t : token} {p1 : parser} (hp : textBuf p)
    (h : p.peek = Outcome.ok (t, p1)) : textToken t ∧ textBuf p1 := by
  obtain ⟨h1, h2 | h2⟩ := parser_peek_ok h
  · obtain ⟨hb, rfl⟩ := h2
    exact ⟨hp t hb, hp⟩
  · have ht := nextToken_text h2.2
    refine ⟨ht, ?_⟩
    intro t1 hb
    rw [h1] at hb
    injection hb with e
    rw [← e]
    exact ht

theorem next_text {p : parser} {t : token} {p1 : parser} (hp : textBuf p)
    (h : p.next = Outcome.ok (t, p1)) : textToken t ∧ textBuf p1 := by
  obtain ⟨h1, h2 | h2⟩ := parser_next_ok h
  · exact ⟨hp t h2.1, textBuf_none h1⟩
  · exact ⟨nextToken_text h2.2, textBuf_none h1⟩

theorem expect_text {p : parser} {tt : tokenType} {p1 : parser}
    (h : p.expect tt = Outcome.ok p1) : textBuf p1 := by
  obtain ⟨t, hn, _⟩ := parser_expect_ok h
  exact textBuf_none (parser_next_ok hn).1

theorem mapSet_mem {m : List (List Nat × Value)} {k : List Nat} {v : Value}
    {kv : List Nat × Value} (h : kv ∈ mapSet m k v) : kv = (k, v) ∨ kv ∈ m := by
  induction m with
  | nil =>
    simp only [mapSet, List.mem_singleton] at h
    exact Or.inl h
  | cons e t ih =>
    obtain ⟨k0, v0⟩ := e
    simp only [mapSet] at h
    by_cases c : k0 = k
    · rw [if_pos c] at h
      rcases List.mem_cons.1 h with h1 | h1
      · exact Or.inl h1
      · exact Or.inr (List.mem_cons_of_mem _ h1)
    · rw [if_neg c] at h
      rcases List.mem_cons.1 h with h1 | h1
      · exact Or.inr (by rw [h1]; exact List.mem_cons_self _ _)
      · rcases ih h1 with h2 | h2
        · exact Or.inl h2
        · exact Or.inr (List.mem_cons_of_mem _ h2)

theorem textsOk_object {m : List (List Nat × Value)}
    (h : ∀ kv ∈ m, scalarText kv.1 ∧ kv.2.textsOk) : (Value.object m).textsOk := by
  intro s hs
  cases hs with
  | key hm => exact (h _ hm).1
  | member hm hv => exact (h _ hm).2 s hv

theorem textsOk_array {xs : List Value} (h : ∀ v ∈ xs, v.textsOk) :
    (Value.array xs).textsOk := by
  intro s hs
  cases hs with
  | elem hm hv => exact h _ hm s hv

theorem textsOk_string {x : List Nat} (h : scalarText x) : (Value.string x).textsOk := by
  intro s hs
  cases hs with
  | string => exact h

/-- What a run of a routine of the parser returns holds only encodings of
scalar values, as Strings and as keys. -/
theorem Run_text {pf : List Nat → Option Float64} {c : Call} {p : parser} {r : Ret}
    {p1 : parser} (h : Run pf c p r p1) : textBuf p → c.textsOk → r.textsOk := by
  induction h with
  | valueObject hp ht _ ih =>
    intro hb _
    exact textsOk_object (ih (peek_text hb hp).2 trivial)
  | valueArray hp ht _ ih =>
    intro hb _
    exact textsOk_array (ih (peek_text hb hp).2 trivial)
  | valueString hp ht =>
    intro hb _
    exact textsOk_string ((peek_text hb hp).1 ht)
  | valueNumber hp ht hpf =>
    intro _ _ s hs
    cases hs
  | valueTrue hp ht =>
    intro _ _ s hs
    cases hs
  | valueFalse hp ht =>
    intro _ _ s hs
    cases hs
  | valueNull hp ht =>
    intro _ _ s hs
    cases hs
  | objectEmpty hx hp ht =>
    intro _ _ kv hkv
    cases hkv
  | objectMembers hx hp ht _ ih =>
    intro _ _
    exact ih (peek_text (expect_text hx) hp).2 (fun kv hkv => absurd hkv (List.not_mem_nil _))
  | objectLoopMore hk hkt hc hv hn hnt _ ihv ihl =>
    intro hb hacc
    obtain ⟨t1, _⟩ := next_text hb hk
    have hval := ihv (expect_text hc) trivial
    refine ihl (textBuf_none (parser_next_ok hn).1) ?_
    intro kv hkv
    rcases mapSet_mem hkv with e | e
    · rw [e]; exact ⟨t1 hkt, hval⟩
    · exact hacc kv e
  | objectLoopLast hk hkt hc hv hn hnt ihv =>
    intro hb hacc
    obtain ⟨t1, _⟩ := next_text hb hk
    have hval := ihv (expect_text hc) trivial
    intro kv hkv
    rcases mapSet_mem hkv with e | e
    · rw [e]; exact ⟨t1 hkt, hval⟩
    · exact hacc kv e
  | arrayEmpty hx hp ht =>
    intro _ _ v hv
    cases hv
  | arrayElems hx hp ht _ ih =>
    intro _ _
    exact ih (peek_text (expect_text hx) hp).2 (fun v hv => absurd hv (List.not_mem_nil _))
  | arrayLoopMore hv hn hnt _ ihv ihl =>
    intro hb hacc
    have hval := ihv hb trivial
    refine ihl (textBuf_none (parser_next_ok hn).1) ?_
    intro v1 hv1
    rcases List.mem_append.1 hv1 with e | e
    · exact hacc v1 e
    · rw [List.mem_singleton.1 e]; exact hval
  | arrayLoopLast hv hn hnt ihv =>
    intro hb hacc
    have hval := ihv hb trivial
    intro v1 hv1
    rcases List.mem_append.1 hv1 with e | e
    · exact hacc v1 e
    · rw [List.mem_singleton.1 e]; exact hval

/-! ## Reading a text followed by whitespace only -/

theorem DecodeRune_low_fourth (p0 b1 b2 b3 : Nat) (t : List Nat) (h : 0xF0 ≤ p0)
    (h3 : b3 < 128) : DecodeRune (p0 :: b1 :: b2 :: b3 :: t) = (RuneError, 1) := by
  have a1 : ¬ p0 < 0x80 := by omega
  have a2 : ¬ p0 < 0xC2 := by omega
  have a3 : ¬ p0 < 0xE0 := by omega
  have a4 : ¬ p0 < 0xF0 := by omega
  have c1 : ¬ (0x80 ≤ b3 ∧ b3 ≤ 0xBF) := by omega
  by_cases a5 : p0 < 0xF5
  · simp only [DecodeRune, a1, a2, a3, a4, a5, c1, if_true, if_false, ite_self]
  · simp only [DecodeRune, a1, a2, a3, a4, a5, if_false]

/-- Text starting with a byte below 128 appended behind `x` does not change
what `DecodeRune` reads from `x`. -/
theorem DecodeRune_append_low (x : List Nat) (c : Nat) (y : List Nat) (hx : x ≠ [])
    (hc : c < 128) : DecodeRune (x ++ c :: y) = DecodeRune x := by
  cases x with
  | nil => exact absurd rfl hx
  | cons p0 t =>
    by_cases h0 : p0 < 128
    · rw [List.cons_append, DecodeRune_ascii p0 _ h0, DecodeRune_ascii p0 _ h0]
    · have h0 : 128 ≤ p0 := by omega
      rcases t with _ | ⟨b1, _ | ⟨b2, _ | ⟨b3, t3⟩⟩⟩
      · rw [DecodeRune_lead_alone p0 h0]
        exact DecodeRune_low_second p0 c y h0 hc
      · by_cases hl : p0 < 0xE0
        · exact DecodeRune_two_bytes p0 b1 _ _ h0 hl
        · rw [DecodeRune_short_two p0 b1 (by omega)]
          exact DecodeRune_low_third p0 b1 c y (by omega) hc
      · by_cases hl : p0 < 0xF0
        · exact DecodeRune_three_bytes p0 b1 b2 _ _ h0 hl
        · rw [DecodeRune_short_three p0 b1 b2 (by omega)]
          exact DecodeRune_low_fourth p0 b1 b2 c y (by omega) hc
      · exact DecodeRune_four_bytes p0 b1 b2 b3 _ _ h0

theorem isWSByte_lt {c : Nat} (h : isWSByte c = true) : c < 128 := by
  simp only [isWSByte, Bool.or_eq_true, beq_iff_eq] at h
  omega

theorem isWS_of_isWSByte {c : Nat} (h : isWSByte c = true) : isWS (c : Int) = true := by
  simp only [isWSByte, Bool.or_eq_true, beq_iff_eq] at h
  rcases h with ((h | h) | h) | h <;> subst h <;> decide

theorem DecodeRune_append_ws (x b : List Nat) (hx : x ≠ [])
    (hb : ∀ c ∈ b, isWSByte c = true) : DecodeRune (x ++ b) = DecodeRune x := by
  cases b with
  | nil => rw [List.append_nil]
  | cons c y => exact DecodeRune_append_low x c y hx (isWSByte_lt (hb c (by simp)))

theorem EmbW.emb {a b : List Nat} {l l1 : lexer} (h : EmbW a b l l1) : Emb a b l l1 := h.1

theorem EmbW.of_adv {a b : List Nat} {l l1 l2 l3 : lexer} (h : EmbW a b l l1)
    (ha : Adv l l2) (he : Emb a b l2 l3) : EmbW a b l2 l3 := by
  obtain ⟨_, hw, hb⟩ := h
  refine ⟨he, ?_, hb⟩
  rw [ha.1]
  exact ha.2.2 hw

/-- While the inner scanner is not at the end of its buffer, both scanners
read the same code point. -/
theorem next_in {a b : List Nat} {l l1 : lexer} (h : EmbW a b l l1)
    (hlt : l.pos < l.src.length) :
    (l1.next).1 = (l.next).1 ∧ EmbW a b (l.next).2 (l1.next).2 := by
  have hne : l.src.drop l.pos ≠ [] := by
    simp [List.drop_eq_nil_iff]; omega
  have hd := DecodeRune_append_ws (l.src.drop l.pos) b hne h.2.2
  have hd1 := emb_drop h.1 (by omega)
  have hw1 := emb_lt h.1 hlt
  have key : (l1.next).1 = (l.next).1 ∧ Emb a b (l.next).2 (l1.next).2 := by
    obtain ⟨e1, e2⟩ := h.1
    unfold lexer.next
    rw [if_neg (by omega), if_neg (by omega)]
    simp only [hd1, hd, true_and]
    exact ⟨e1, by dsimp only; omega⟩
  exact ⟨key.1, h.of_adv (Adv_next l) key.2⟩

/-- At the end of the inner buffer the outer scanner reads whitespace or is at
its end too. -/
theorem next_out {a b : List Nat} {l l1 : lexer} (h : EmbW a b l l1)
    (hge : l.src.length ≤ l.pos) :
    (l.next).1 = -1 ∧ l1.src.drop l1.pos = b ∧
      ((l1.next).1 = -1 ∨ isWS (l1.next).1 = true) := by
  have hd1 := emb_drop h.1 h.2.1
  rw [List.drop_eq_nil_of_le hge, List.nil_append] at hd1
  refine ⟨(next_eq_neg_one_iff l).2 hge, hd1, ?_⟩
  obtain ⟨s1, p1, w1⟩ := l1
  simp only at hd1
  cases hb : b with
  | nil =>
    left
    rw [hb] at hd1
    rw [next_eof hd1]
  | cons c y =>
    right
    rw [hb] at hd1
    have hc : isWSByte c = true := h.2.2 c (by rw [hb]; simp)
    rw [next_ascii hd1 (isWSByte_lt hc)]
    exact isWS_of_isWSByte hc

/-- A code point read by the outer scanner that is neither the end mark nor
whitespace is read by the inner scanner too. -/
theorem next_rev {a b : List Nat} {l l1 : lexer} (h : EmbW a b l l1) {r : Int}
    (hr : (l1.next).1 = r) (h0 : r ≠ -1) (hws : isWS r = false) :
    (l.next).1 = r ∧ EmbW a b (l.next).2 (l1.next).2 := by
  by_cases hlt : l.pos < l.src.length
  · obtain ⟨e1, e2⟩ := next_in h hlt
    exact ⟨by rw [← e1, hr], e2⟩
  · exfalso
    obtain ⟨_, _, h3⟩ := next_out h (by omega)
    rw [hr] at h3
    rcases h3 with h3 | h3
    · exact h0 h3
    · rw [hws] at h3; cases h3

theorem embW_fuel {a b : List Nat} {l l1 : lexer} (h : EmbW a b l l1) :
    l.src.length - l.pos + 1 ≤ l1.src.length - l1.pos + 1 := emb_fuel h.1 h.2.1

theorem isWS_cast (c : Nat) : isWS (c : Int) = isWSByte c := by
  simp only [isWS, isWSByte]
  have e : ∀ k : Nat, ((c : Int) == (k : Int)) = (c == k) := by
    intro k
    by_cases h : c = k
    · subst h; simp
    · have h1 : ¬ (c : Int) = (k : Int) := by omega
      simp [h, h1]
  have e32 := e 32
  have e10 := e 10
  have e13 := e 13
  have e9 := e 9
  simp only [Nat.cast_ofNat] at e32 e10 e13 e9
  rw [e32, e10, e13, e9]

theorem skipWSLoop_stop : ∀ (n : Nat) (l l0 : lexer), skipWSLoop n l = Outcome.ok l0 →
    isWS l0.peek = false := by
  intro n
  induction n with
  | zero => intro l l0 h; simp [skipWSLoop] at h
  | succ n ih =>
    intro l l0 h
    simp only [skipWSLoop] at h
    by_cases hws : isWS l.peek = true
    · rw [if_pos hws] at h
      exact ih _ _ h
    · rw [if_neg hws] at h
      simp only [Outcome.ok.injEq] at h
      subst h
      simpa using hws

/-- Skipping whitespace in front of whitespace only ends at the end of the
buffer. -/
theorem skipWSLoop_all_ws {n : Nat} {l l0 : lexer} (h : skipWSLoop n l = Outcome.ok l0)
    (hall : ∀ c ∈ l.src.drop l.pos, isWSByte c = true) : (l0.next).1 = -1 := by
  obtain ⟨ws, _, a2, _, _⟩ := skipWSLoop_ws n l l0 h
  have hstop := skipWSLoop_stop n l l0 h
  obtain ⟨s0, p0, w0⟩ := l0
  simp only at a2
  cases hd : s0.drop p0 with
  | nil => rw [next_eof hd]
  | cons c t =>
    exfalso
    have hc : isWSByte c = true := hall c (by rw [a2, hd]; simp)
    rw [lexer.peek, next_ascii hd (isWSByte_lt hc)] at hstop
    simp only at hstop
    rw [isWS_cast, hc] at hstop
    cases hstop

theorem skipWSLoop_rev {a b : List Nat} : ∀ (m : Nat) (l l1 : lexer) (n : Nat) (l2 : lexer),
    EmbW a b l l1 → skipWSLoop m l1 = Outcome.ok l2 → (l2.next).1 ≠ -1 →
    l.src.length - l.pos < n → ∃ l0, skipWSLoop n l = Outcome.ok l0 ∧ EmbW a b l0 l2 := by
  intro m
  induction m with
  | zero => intro l l1 n l2 _ h; simp [skipWSLoop] at h
  | succ m ih =>
    intro l l1 n l2 he h h0 hn
    cases n with
    | zero => omega
    | succ n =>
      by_cases hlt : l.pos < l.src.length
      · obtain ⟨e1, e2⟩ := next_in he hlt
        simp only [skipWSLoop] at h ⊢
        by_cases hws : isWS l1.peek = true
        · rw [if_pos hws] at h
          have hws0 : isWS l.peek = true := by
            simp only [lexer.peek] at hws ⊢
            rw [← e1]; exact hws
          rw [if_pos hws0]
          have hne : (l.next).1 ≠ -1 := by
            intro hc
            simp [lexer.peek, hc, isWS] at hws0
          have hgt := next_pos_gt l hne
          exact ih _ _ n l2 e2 h h0 (by rw [next_src]; omega)
        · rw [if_neg hws] at h
          simp only [Outcome.ok.injEq] at h
          subst h
          have hws0 : ¬ isWS l.peek = true := by
            simp only [lexer.peek] at hws ⊢
            rw [← e1]; exact hws
          rw [if_neg hws0]
          exact ⟨l, rfl, he⟩
      · exfalso
        obtain ⟨_, hd, _⟩ := next_out he (by omega)
        apply h0
        apply skipWSLoop_all_ws h
        rw [hd]
        exact he.2.2

theorem matchSeq_rev {a b : List Nat} (seq : List Nat) : ∀ (l l1 : lexer), EmbW a b l l1 →
    (∀ c ∈ seq, isWSByte c = false) → (l1.matchSeq seq).1 = true →
    (l.matchSeq seq).1 = true ∧ EmbW a b (l.matchSeq seq).2 (l1.matchSeq seq).2 := by
  induction seq with
  | nil => intro l l1 he _ _; exact ⟨rfl, he⟩
  | cons c cs ih =>
    intro l l1 he hc h
    simp only [lexer.matchSeq] at h ⊢
    by_cases hcond : ((l1.next).1 == -1 || (l1.next).1 != (c : Int)) = true
    · rw [if_pos hcond] at h; cases h
    · rw [if_neg hcond] at h ⊢
      simp only [Bool.or_eq_true, beq_iff_eq, bne_iff_ne, ne_eq, not_or, not_not] at hcond
      have hcw : isWS (l1.next).1 = false := by
        rw [hcond.2, isWS_cast]; exact hc c (by simp)
      obtain ⟨e1, e2⟩ := next_rev he (r := (l1.next).1) rfl hcond.1 hcw
      have hcond1 : ¬ (((l.next).1 == -1 || (l.next).1 != (c : Int)) = true) := by
        rw [e1]
        simp only [Bool.or_eq_true, beq_iff_eq, bne_iff_ne, ne_eq, not_or, not_not]
        exact hcond
      rw [if_neg hcond1]
      exact ih _ _ e2 (fun x hx => hc x (by simp [hx])) h

theorem hexStep_not_ws {v h v1 : Int} (hs : hexStep v h = some v1) : isWS h = false := by
  unfold hexStep at hs
  have : 48 ≤ h := by
    by_cases c1 : 48 ≤ h ∧ h ≤ 57
    · omega
    rw [if_neg c1] at hs
    by_cases c2 : 97 ≤ h ∧ h ≤ 102
    · omega
    rw [if_neg c2] at hs
    by_cases c3 : 65 ≤ h ∧ h ≤ 70
    · omega
    rw [if_neg c3] at hs
    cases hs
  simp only [isWS, Bool.or_eq_false_iff, beq_eq_false_iff_ne, ne_eq]
  omega

theorem readHex_rev {a b : List Nat} : ∀ (n : Nat) (v : Int) (l l1 : lexer) (v1 : Int)
    (l3 : lexer), EmbW a b l l1 → readHex n v l1 = some (v1, l3) →
    ∃ l2, readHex n v l = some (v1, l2) ∧ EmbW a b l2 l3 := by
  intro n
  induction n with
  | zero =>
    intro v l l1 v1 l3 he h
    simp only [readHex, Option.some.injEq, Prod.mk.injEq] at h
    obtain ⟨rfl, rfl⟩ := h
    exact ⟨l, rfl, he⟩
  | succ n ih =>
    intro v l l1 v1 l3 he h
    simp only [readHex] at h ⊢
    by_cases c : (l1.next).1 = -1
    · rw [if_pos c] at h; cases h
    rw [if_neg c] at h
    cases hs : hexStep v (l1.next).1 with
    | none => rw [hs] at h; cases h
    | some v2 =>
      rw [hs] at h
      simp only at h
      obtain ⟨e1, e2⟩ := next_rev he (r := (l1.next).1) rfl c (hexStep_not_ws hs)
      rw [e1, if_neg c, hs]
      exact ih _ _ _ _ _ e2 h

theorem scanUnicodeEscape_rev {a b : List Nat} {out : List Int} {l l1 : lexer}
    {out1 : List Int} {l3 : lexer} (he : EmbW a b l l1)
    (h : scanUnicodeEscape out l1 = StringStep.more out1 l3) :
    ∃ l2, scanUnicodeEscape out l = StringStep.more out1 l2 ∧ EmbW a b l2 l3 := by
  unfold scanUnicodeEscape at h ⊢
  cases h1 : readHex 4 0 l1 with
  | none => rw [h1] at h; cases h
  | some x =>
    obtain ⟨v, la1⟩ := x
    obtain ⟨la, g1, ea⟩ := readHex_rev 4 0 l l1 v la1 he h1
    rw [h1] at h
    rw [g1]
    simp only at h ⊢
    by_cases c1 : 0xD800 ≤ v ∧ v ≤ 0xDBFF
    · rw [if_pos c1] at h ⊢
      by_cases c2 : (la1.next).1 ≠ 92
      · rw [if_pos c2] at h; cases h
      rw [if_neg c2] at h
      have c2e : (la1.next).1 = 92 := by simpa using c2
      obtain ⟨e1, e2⟩ := next_rev ea c2e (by decide) (by decide)
      have c21 : ¬ (la.next).1 ≠ 92 := by rw [e1]; simp
      rw [if_neg c21]
      by_cases c3 : ((la1.next).2.next).1 ≠ 117
      · rw [if_pos c3] at h; cases h
      rw [if_neg c3] at h
      have c3e : ((la1.next).2.next).1 = 117 := by simpa using c3
      obtain ⟨e3, e4⟩ := next_rev e2 c3e (by decide) (by decide)
      have c31 : ¬ ((la.next).2.next).1 ≠ 117 := by rw [e3]; simp
      rw [if_neg c31]
      cases h2 : readHex 4 0 (la1.next).2.next.2 with
      | none => rw [h2] at h; cases h
      | some y =>
        obtain ⟨low, lb1⟩ := y
        obtain ⟨lb, g2, eb⟩ := readHex_rev 4 0 _ _ low lb1 e4 h2
        rw [h2] at h
        rw [g2]
        simp only at h ⊢
        by_cases c4 : low < 0xDC00 ∨ low > 0xDFFF
        · rw [if_pos c4] at h; cases h
        rw [if_neg c4] at h ⊢
        injection h with i1 i2
        subst i1 i2
        exact ⟨lb, rfl, eb⟩
    · rw [if_neg c1] at h ⊢
      by_cases c2 : 0xDC00 ≤ v ∧ v ≤ 0xDFFF
      · rw [if_pos c2] at h; cases h
      rw [if_neg c2] at h ⊢
      injection h with i1 i2
      subst i1 i2
      exact ⟨la, rfl, ea⟩

theorem escape_switch_not_ws {out : List Int} {e : Int} {lm : lexer} {X : StringStep}
    {out1 : List Int} {l2 : lexer}
    (h : (if e = 34 ∨ e = 92 ∨ e = 47 then StringStep.more (out ++ [e]) lm
        else if e = 98 then StringStep.more (out ++ [8]) lm
        else if e = 102 then StringStep.more (out ++ [12]) lm
        else if e = 110 then StringStep.more (out ++ [10]) lm
        else if e = 114 then StringStep.more (out ++ [13]) lm
        else if e = 116 then StringStep.more (out ++ [9]) lm
        else if e = 117 then X
        else StringStep.fail (Err.invalidEscape e)) = StringStep.more out1 l2) :
    isWS e = false := by
  have h34 : 34 ≤ e := by
    by_cases c1 : e = 34 ∨ e = 92 ∨ e = 47
    · omega
    rw [if_neg c1] at h
    by_cases c2 : e = 98
    · omega
    rw [if_neg c2] at h
    by_cases c3 : e = 102
    · omega
    rw [if_neg c3] at h
    by_cases c4 : e = 110
    · omega
    rw [if_neg c4] at h
    by_cases c5 : e = 114
    · omega
    rw [if_neg c5] at h
    by_cases c6 : e = 116
    · omega
    rw [if_neg c6] at h
    by_cases c7 : e = 117
    · omega
    rw [if_neg c7] at h
    injection h
  simp only [isWS, Bool.or_eq_false_iff, beq_eq_false_iff_ne, ne_eq]
  omega

/-- One pass of the loop of `scanString` in the longer buffer is a pass in the
inner buffer when its first code point is read alike. -/
theorem scanStringStep_rev {a b : List Nat} {out : List Int} {l l1 : lexer}
    (hr : (l1.next).1 = (l.next).1) (he : EmbW a b (l.next).2 (l1.next).2) :
    (∀ out1 l3, scanStringStep out l1 = StringStep.more out1 l3 →
      ∃ l2, scanStringStep out l = StringStep.more out1 l2 ∧ EmbW a b l2 l3) ∧
    (∀ l3, scanStringStep out l1 = StringStep.done l3 →
      ∃ l2, scanStringStep out l = StringStep.done l2 ∧ EmbW a b l2 l3) := by
  constructor
  · intro out1 l3 h
    simp only [scanStringStep] at h ⊢
    rw [← hr]
    by_cases c1 : (l1.next).1 = -1
    · rw [if_pos c1] at h; injection h
    rw [if_neg c1] at h ⊢
    by_cases c2 : (l1.next).1 = 34
    · rw [if_pos c2] at h; injection h
    rw [if_neg c2] at h ⊢
    by_cases c3 : (l1.next).1 = 92
    · rw [if_pos c3] at h ⊢
      have k1 := (escape_switch_ascii h).1
      have k2 := escape_switch_not_ws h
      obtain ⟨e1, e2⟩ := next_rev he (r := ((l1.next).2.next).1) rfl k1 k2
      rw [e1]
      exact escape_switch_emb (R := fun x y => EmbW a b y x) h
        (fun hx => scanUnicodeEscape_rev e2 hx) e2
    · rw [if_neg c3] at h ⊢
      injection h with h1 h2
      subst h1 h2
      exact ⟨_, rfl, he⟩
  · intro l3 h
    obtain ⟨h1, h2, _⟩ := scanStringStep_done h
    subst h2
    refine ⟨(l.next).2, ?_, he⟩
    simp only [scanStringStep]
    rw [← hr]
    have c1 : ¬ (l1.next).1 = -1 := by omega
    rw [if_neg c1, if_pos h1]

theorem ws_suffix {s : List Nat} {p q : Nat} (h : ∀ c ∈ s.drop p, isWSByte c = true)
    (hpq : p ≤ q) : ∀ c ∈ s.drop q, isWSByte c = true := by
  intro c hc
  apply h
  have e : q = p + (q - p) := by omega
  rw [e, ← List.drop_drop] at hc
  exact List.mem_of_mem_drop hc

theorem next_all_ws {l : lexer} (h : ∀ c ∈ l.src.drop l.pos, isWSByte c = true) :
    (l.next).1 = -1 ∨ isWS (l.next).1 = true := by
  obtain ⟨s, p, w⟩ := l
  simp only at h
  cases hd : s.drop p with
  | nil => left; rw [next_eof hd]
  | cons c t =>
    right
    have hc : isWSByte c = true := h c (by rw [hd]; simp)
    rw [next_ascii hd (isWSByte_lt hc)]
    exact isWS_of_isWSByte hc

/-- A scan of a string literal started in front of whitespace only never finds
the closing quote. -/
theorem scanStringLoop_ws_fail : ∀ (n : Nat) (out : List Int) (l : lexer),
    (∀ c ∈ l.src.drop l.pos, isWSByte c = true) →
    ∀ x, scanStringLoop n out l ≠ Outcome.ok x := by
  intro n
  induction n with
  | zero => intro out l _ x h; simp [scanStringLoop] at h
  | succ n ih =>
    intro out l hh x h
    simp only [scanStringLoop] at h
    have hn := next_all_ws hh
    have hstep : scanStringStep out l = StringStep.fail Err.unterminatedString ∨
        scanStringStep out l = StringStep.more (out ++ [(l.next).1]) (l.next).2 := by
      simp only [scanStringStep]
      rcases hn with hn | hn
      · left; rw [if_pos hn]
      · right
        simp only [isWS, Bool.or_eq_true, beq_iff_eq] at hn
        rw [if_neg (by omega), if_neg (by omega), if_neg (by omega)]
    rcases hstep with hs | hs
    · rw [hs] at h; cases h
    · rw [hs] at h
      simp only at h
      refine ih _ _ ?_ x h
      rw [next_src]
      exact ws_suffix hh (next_pos_ge l)

theorem scanStringLoop_rev {a b : List Nat} : ∀ (m : Nat) (out : List Int) (l l1 : lexer)
    (n : Nat) (x : List Nat) (l3 : lexer), EmbW a b l l1 →
    scanStringLoop m out l1 = Outcome.ok (x, l3) → l.src.length - l.pos < n →
    ∃ l2, scanStringLoop n out l = Outcome.ok (x, l2) ∧ EmbW a b l2 l3 := by
  intro m
  induction m with
  | zero => intro out l l1 n x l3 _ h; simp [scanStringLoop] at h
  | succ m ih =>
    intro out l l1 n x l3 he h hn
    cases n with
    | zero => omega
    | succ n =>
      by_cases hlt : l.pos < l.src.length
      · obtain ⟨hr, hen⟩ := next_in he hlt
        obtain ⟨k1, k2⟩ := @scanStringStep_rev a b out _ _ hr hen
        simp only [scanStringLoop] at h ⊢
        cases hs : scanStringStep out l1 with
        | fail e => rw [hs] at h; cases h
        | done ld =>
          rw [hs] at h
          obtain ⟨l2, g1, g2⟩ := k2 ld hs
          rw [g1]
          simp only [Outcome.ok.injEq, Prod.mk.injEq] at h ⊢
          obtain ⟨rfl, rfl⟩ := h
          exact ⟨l2, ⟨rfl, rfl⟩, g2⟩
        | more out1 lm =>
          rw [hs] at h
          obtain ⟨l2, g1, g2⟩ := k1 out1 lm hs
          rw [g1]
          obtain ⟨ad, gt⟩ := scanStringStep_more g1
          exact ih _ _ _ n x l3 g2 h (by rw [ad.1]; omega)
      · exfalso
        obtain ⟨_, hd, _⟩ := next_out he (by omega)
        exact scanStringLoop_ws_fail _ _ _ (by rw [hd]; exact he.2.2) _ h

theorem scanString_rev {a b : List Nat} {l l1 : lexer} {x : List Nat} {l3 : lexer}
    (he : EmbW a b l l1) (h : l1.scanString = Outcome.ok (x, l3)) :
    ∃ l2, l.scanString = Outcome.ok (x, l2) ∧ EmbW a b l2 l3 :=
  scanStringLoop_rev _ [] l l1 _ x l3 he h (by omega)

theorem isDigit_not_ws {r : Int} (h : isDigit r = true) : r ≠ -1 ∧ isWS r = false := by
  simp only [isDigit, decide_eq_true_eq] at h
  refine ⟨by omega, ?_⟩
  simp only [isWS, Bool.or_eq_false_iff, beq_eq_false_iff_ne, ne_eq]
  omega

theorem not_ws_of_ge {r : Int} (h : 34 ≤ r) : r ≠ -1 ∧ isWS r = false := by
  refine ⟨by omega, ?_⟩
  simp only [isWS, Bool.or_eq_false_iff, beq_eq_false_iff_ne, ne_eq]
  omega

/-- The code point behind a number literal is read alike in both buffers, or
the inner scanner is at its end and the outer one reads whitespace or is at
its end too. -/
theorem term_rev {a b : List Nat} {l l1 : lexer} (he : EmbW a b l l1) :
    ((l1.next).1 = (l.next).1 ∧ EmbW a b (l.next).2 (l1.next).2) ∨
    ((l.next).1 = -1 ∧ ((l1.next).1 = -1 ∨ isWS (l1.next).1 = true)) := by
  by_cases hlt : l.pos < l.src.length
  · left; exact next_in he hlt
  · right
    obtain ⟨h1, _, h3⟩ := next_out he (by omega)
    exact ⟨h1, h3⟩

theorem term_rev_lt {a b : List Nat} {l l1 : lexer} (he : EmbW a b l l1)
    (h : 34 ≤ (l1.next).1) : (l.next).1 = (l1.next).1 ∧ EmbW a b (l.next).2 (l1.next).2 :=
  next_rev he rfl (not_ws_of_ge h).1 (not_ws_of_ge h).2

/-- What the inner scanner reads where the outer one reads `r1`: the same, or
the end mark where `r1` is below 34. -/
theorem term_rev_cases {a b : List Nat} {l l1 : lexer} (he : EmbW a b l l1) :
    (l.next).1 = (l1.next).1 ∨ ((l.next).1 = -1 ∧ (l1.next).1 < 34) := by
  rcases term_rev he with ⟨e1, _⟩ | ⟨e1, e2⟩
  · left; exact e1.symm
  · right
    refine ⟨e1, ?_⟩
    rcases e2 with e2 | e2
    · omega
    · simp only [isWS, Bool.or_eq_true, beq_iff_eq] at e2
      omega

theorem scanDigits_rev {a b : List Nat} : ∀ (m : Nat) (l l1 : lexer) (n : Nat)
    (x : Int × lexer), EmbW a b l l1 → scanDigits m l1 = Outcome.ok x →
    l.src.length - l.pos < n →
    ∃ lq lq1, x = lq1.next ∧ scanDigits n l = Outcome.ok (lq.next) ∧ EmbW a b lq lq1 ∧
      Adv l lq := by
  intro m
  induction m with
  | zero => intro l l1 n x _ h; simp [scanDigits] at h
  | succ m ih =>
    intro l l1 n x he h hn
    cases n with
    | zero => omega
    | succ n =>
      simp only [scanDigits] at h ⊢
      by_cases hd : isDigit (l1.next).1 = true
      · rw [if_pos hd] at h
        obtain ⟨k1, k2⟩ := isDigit_not_ws hd
        obtain ⟨e1, e2⟩ := next_rev he (r := (l1.next).1) rfl k1 k2
        have hd1 : isDigit (l.next).1 = true := by rw [e1]; exact hd
        rw [if_pos hd1]
        have hgt := next_pos_gt l (by rw [e1]; exact k1)
        obtain ⟨lq, lq1, g1, g2, g3, g4⟩ := ih _ _ n x e2 h (by rw [next_src]; omega)
        exact ⟨lq, lq1, g1, g2, g3, (Adv_next l).trans g4⟩
      · rw [if_neg hd] at h
        simp only [Outcome.ok.injEq] at h
        have hd1 : ¬ isDigit (l.next).1 = true := by
          rcases term_rev_cases he with e1 | ⟨e1, _⟩
          · rw [e1]; exact hd
          · rw [e1]; simp [isDigit]
        rw [if_neg hd1]
        exact ⟨l, l1, h.symm, rfl, he, Adv.refl l⟩

theorem embW_backup_next {a b : List Nat} {lq lq1 : lexer} (he : EmbW a b lq lq1) :
    EmbW a b (lq.next).2.backup (lq1.next).2.backup := by
  refine ⟨emb_backup_next he.1, ?_, he.2.2⟩
  rw [backup_next_src, backup_next_pos]
  exact he.2.1

theorem embW_rem {a b : List Nat} {l l1 lq : lexer} {n : Nat} (_he : EmbW a b l l1)
    (hn : l.src.length - l.pos < n) (ha : Adv l lq) : lq.src.length - lq.pos < n := by
  rw [ha.1]
  have := ha.2.1
  omega

theorem scanExponent_rev {a b : List Nat} {n m start : Nat}
    {lq lq1 : lexer} {lex : List Nat} {l4 : lexer} (he : EmbW a b lq lq1)
    (hn : lq.src.length - lq.pos < n)
    (h : scanExponent m (a.length + start) (lq1.next).1 (lq1.next).2 = Outcome.ok (lex, l4)) :
    ∃ l3, scanExponent n start (lq.next).1 (lq.next).2 = Outcome.ok (lex, l3) ∧
      EmbW a b l3 l4 := by
  simp only [scanExponent] at h ⊢
  have hfin : ∀ (lr lr1 : lexer), EmbW a b lr lr1 →
      Outcome.ok (List.take ((lr1.next).2.backup.pos - (a.length + start))
          (List.drop (a.length + start) (lr1.next).2.backup.src), (lr1.next).2.backup) =
          Outcome.ok (lex, l4) →
      ∃ l3, Outcome.ok (List.take ((lr.next).2.backup.pos - start)
          (List.drop start (lr.next).2.backup.src), (lr.next).2.backup) = Outcome.ok (lex, l3) ∧
          EmbW a b l3 l4 := by
    intro lr lr1 her hh
    simp only [Outcome.ok.injEq, Prod.mk.injEq] at hh
    obtain ⟨hh1, hh2⟩ := hh
    have eb := embW_backup_next her
    refine ⟨(lr.next).2.backup, ?_, by rw [← hh2]; exact eb⟩
    rw [← lexeme_emb eb.1 eb.2.1, hh1]
  by_cases c : (lq1.next).1 = 101 ∨ (lq1.next).1 = 69
  · rw [if_pos c] at h
    obtain ⟨e1, e2⟩ := term_rev_lt he (by omega)
    rw [e1, if_pos c]
    have hn1 : (lq.next).2.src.length - (lq.next).2.pos < n :=
      embW_rem he hn (Adv_next lq)
    have key : ∀ (lr lr1 : lexer), EmbW a b lr lr1 → lr.src.length - lr.pos < n →
        (if ¬ isDigit (lr1.next).1 = true then Outcome.error Err.invalidExponent
          else match scanDigits m (lr1.next).2 with
            | Outcome.ok (_, l2) =>
              Outcome.ok (List.take (l2.backup.pos - (a.length + start))
                (List.drop (a.length + start) l2.backup.src), l2.backup)
            | Outcome.error e => Outcome.error e
            | Outcome.timeout => Outcome.timeout) = Outcome.ok (lex, l4) →
        ∃ l3, (if ¬ isDigit (lr.next).1 = true then Outcome.error Err.invalidExponent
          else match scanDigits n (lr.next).2 with
            | Outcome.ok (_, l2) =>
              Outcome.ok (List.take (l2.backup.pos - start) (List.drop start l2.backup.src),
                l2.backup)
            | Outcome.error e => Outcome.error e
            | Outcome.timeout => Outcome.timeout) = Outcome.ok (lex, l3) ∧
          EmbW a b l3 l4 := by
      intro lr lr1 her hnr hh
      by_cases hd : ¬ isDigit (lr1.next).1 = true
      · rw [if_pos hd] at hh; cases hh
      rw [if_neg hd] at hh
      have hd' : isDigit (lr1.next).1 = true := by simpa using hd
      obtain ⟨k1, k2⟩ := isDigit_not_ws hd'
      obtain ⟨f1, f2⟩ := next_rev her (r := (lr1.next).1) rfl k1 k2
      rw [f1, if_neg hd]
      have hnn : (lr.next).2.src.length - (lr.next).2.pos < n :=
        embW_rem her hnr (Adv_next lr)
      cases hs : scanDigits m (lr1.next).2 with
      | timeout => rw [hs] at hh; cases hh
      | error e => rw [hs] at hh; cases hh
      | ok x =>
        obtain ⟨lz, lz1, g1, g2, g3, g4⟩ := scanDigits_rev m _ _ n x f2 hs hnn
        rw [hs] at hh
        rw [g2]
        subst g1
        simp only at hh ⊢
        exact hfin lz lz1 g3 hh
    by_cases cs : ((lq1.next).2.next).1 = 43 ∨ ((lq1.next).2.next).1 = 45
    · simp only [cs, if_true] at h
      obtain ⟨f1, f2⟩ := term_rev_lt e2 (by omega)
      have cs1 : ((lq.next).2.next).1 = 43 ∨ ((lq.next).2.next).1 = 45 := by
        rw [f1]; exact cs
      simp only [cs1, if_true]
      exact key _ _ f2 (embW_rem e2 hn1 (Adv_next _)) h
    · simp only [cs, if_false] at h
      have hd' : isDigit ((lq1.next).2.next).1 = true := by
        by_contra hc
        rw [if_pos hc] at h
        cases h
      obtain ⟨k1, k2⟩ := isDigit_not_ws hd'
      obtain ⟨f1, f2⟩ := next_rev e2 (r := ((lq1.next).2.next).1) rfl k1 k2
      have cs1 : ¬ (((lq.next).2.next).1 = 43 ∨ ((lq.next).2.next).1 = 45) := by
        rw [f1]; exact cs
      simp only [cs1, if_false]
      exact key _ _ e2 hn1 h
  · rw [if_neg c] at h
    have c1 : ¬ ((lq.next).1 = 101 ∨ (lq.next).1 = 69) := by
      rcases term_rev_cases he with e1 | ⟨e1, _⟩
      · rw [e1]; exact c
      · omega
    rw [if_neg c1]
    exact hfin lq lq1 he h

theorem scanFraction_rev {a b : List Nat} {n m start : Nat}
    {lq lq1 : lexer} {lex : List Nat} {l4 : lexer} (he : EmbW a b lq lq1)
    (hn : lq.src.length - lq.pos < n)
    (h : scanFraction m (a.length + start) (lq1.next).1 (lq1.next).2 = Outcome.ok (lex, l4)) :
    ∃ l3, scanFraction n start (lq.next).1 (lq.next).2 = Outcome.ok (lex, l3) ∧
      EmbW a b l3 l4 := by
  simp only [scanFraction] at h ⊢
  by_cases c : (lq1.next).1 = 46
  · rw [if_pos c] at h
    obtain ⟨e1, e2⟩ := term_rev_lt he (by omega)
    rw [e1, if_pos c]
    have hn1 : (lq.next).2.src.length - (lq.next).2.pos < n :=
      embW_rem he hn (Adv_next lq)
    by_cases hd : ¬ isDigit ((lq1.next).2.next).1 = true
    · rw [if_pos hd] at h; cases h
    rw [if_neg hd] at h
    have hd' : isDigit ((lq1.next).2.next).1 = true := by simpa using hd
    obtain ⟨k1, k2⟩ := isDigit_not_ws hd'
    obtain ⟨f1, f2⟩ := next_rev e2 (r := ((lq1.next).2.next).1) rfl k1 k2
    rw [f1, if_neg hd]
    have hn2 : (lq.next).2.next.2.src.length - (lq.next).2.next.2.pos < n :=
      embW_rem e2 hn1 (Adv_next _)
    cases hs : scanDigits m (lq1.next).2.next.2 with
    | timeout => rw [hs] at h; cases h
    | error e => rw [hs] at h; cases h
    | ok x =>
      obtain ⟨lz, lz1, g1, g2, g3, g4⟩ := scanDigits_rev m _ _ n x f2 hs hn2
      rw [hs] at h
      rw [g2]
      subst g1
      simp only at h ⊢
      exact scanExponent_rev g3 (embW_rem f2 hn2 g4) h
  · rw [if_neg c] at h
    have c1 : ¬ (lq.next).1 = 46 := by
      rcases term_rev_cases he with e1 | ⟨e1, _⟩
      · rw [e1]; exact c
      · omega
    rw [if_neg c1]
    exact scanExponent_rev he hn h

theorem scanNumber_rev {a b : List Nat} {l l1 : lexer}
    {lex : List Nat} {l4 : lexer} (he : EmbW a b l l1)
    (h : l1.scanNumber = Outcome.ok (lex, l4)) :
    ∃ l3, l.scanNumber = Outcome.ok (lex, l3) ∧ EmbW a b l3 l4 := by
  have hstart : l1.pos = a.length + l.pos := he.1.2
  have hn : l.src.length - l.pos < l.src.length - l.pos + 1 := by omega
  simp only [lexer.scanNumber] at h ⊢
  rw [hstart] at h
  generalize l.src.length - l.pos + 1 = n at hn ⊢
  generalize l1.src.length - (a.length + l.pos) + 1 = m at h
  have key : ∀ (lq lq1 : lexer), EmbW a b lq lq1 → lq.src.length - lq.pos < n →
      (if (lq1.next).1 = -1 then Outcome.error Err.invalidNumber
        else if (lq1.next).1 = 48 then
          scanFraction m (a.length + l.pos) (lq1.next).1 (lq1.next).2
        else if 49 ≤ (lq1.next).1 ∧ (lq1.next).1 ≤ 57 then
          match scanDigits m (lq1.next).2 with
          | Outcome.ok (r1, l1) => scanFraction m (a.length + l.pos) r1 l1
          | Outcome.error e => Outcome.error e
          | Outcome.timeout => Outcome.timeout
        else Outcome.error Err.invalidNumber) = Outcome.ok (lex, l4) →
      ∃ l3, (if (lq.next).1 = -1 then Outcome.error Err.invalidNumber
        else if (lq.next).1 = 48 then scanFraction n l.pos (lq.next).1 (lq.next).2
        else if 49 ≤ (lq.next).1 ∧ (lq.next).1 ≤ 57 then
          match scanDigits n (lq.next).2 with
          | Outcome.ok (r1, l1) => scanFraction n l.pos r1 l1
          | Outcome.error e => Outcome.error e
          | Outcome.timeout => Outcome.timeout
        else Outcome.error Err.invalidNumber) = Outcome.ok (lex, l3) ∧ EmbW a b l3 l4 := by
    intro lq lq1 heq hnq hh
    by_cases c1 : (lq1.next).1 = -1
    · rw [if_pos c1] at hh; cases hh
    rw [if_neg c1] at hh
    by_cases c2 : (lq1.next).1 = 48
    · rw [if_pos c2] at hh
      obtain ⟨e1, e2⟩ := term_rev_lt heq (by omega)
      rw [if_neg (by rw [e1]; exact c1), if_pos (by rw [e1]; exact c2)]
      exact scanFraction_rev heq hnq hh
    rw [if_neg c2] at hh
    by_cases c3 : 49 ≤ (lq1.next).1 ∧ (lq1.next).1 ≤ 57
    · rw [if_pos c3] at hh
      obtain ⟨e1, e2⟩ := term_rev_lt heq (by omega)
      rw [if_neg (by rw [e1]; exact c1), if_neg (by rw [e1]; exact c2),
        if_pos (by rw [e1]; exact c3)]
      have hn1 : (lq.next).2.src.length - (lq.next).2.pos < n :=
        embW_rem heq hnq (Adv_next lq)
      cases hs : scanDigits m (lq1.next).2 with
      | timeout => rw [hs] at hh; cases hh
      | error e => rw [hs] at hh; cases hh
      | ok x =>
        obtain ⟨lz, lz1, g1, g2, g3, g4⟩ := scanDigits_rev m _ _ n x e2 hs hn1
        rw [hs] at hh
        rw [g2]
        subst g1
        simp only at hh ⊢
        exact scanFraction_rev g3 (embW_rem e2 hn1 g4) hh
    · rw [if_neg c3] at hh; cases hh
  by_cases c : (l1.next).1 = 45
  · simp only [c, if_true] at h
    obtain ⟨e1, e2⟩ := term_rev_lt he (by omega)
    have c1 : (l.next).1 = 45 := by rw [e1]; exact c
    simp only [c1, if_true]
    exact key _ _ e2 (embW_rem he hn (Adv_next l)) h
  · simp only [c, if_false] at h
    have hasc : 34 ≤ (l1.next).1 := by
      by_cases c1 : (l1.next).1 = -1
      · rw [if_pos c1] at h; cases h
      rw [if_neg c1] at h
      by_cases c2 : (l1.next).1 = 48
      · omega
      rw [if_neg c2] at h
      by_cases c3 : 49 ≤ (l1.next).1 ∧ (l1.next).1 ≤ 57
      · omega
      · rw [if_neg c3] at h; cases h
    obtain ⟨e1, e2⟩ := term_rev_lt he hasc
    have c1 : ¬ (l.next).1 = 45 := by rw [e1]; exact c
    simp only [c1, if_false]
    exact key _ _ he hn h

/-- A token other than the end marker read in front of trailing whitespace is
read alike without that whitespace. -/
theorem nextToken_rev {a b : List Nat} {l l1 : lexer} {t : token}
    {l3 : lexer} (he : EmbW a b l l1)
    (h : l1.nextToken = Outcome.ok (t, l3)) (ht : t.typ ≠ tokenType.tokEOF) :
    ∃ l2, l.nextToken = Outcome.ok (t, l2) ∧ EmbW a b l2 l3 := by
  obtain ⟨l0, hskip, a0, _, heq⟩ := nextToken_eq l
  obtain ⟨l0', hskip1, _, hstop1, heq1⟩ := nextToken_eq l1
  rw [heq1] at h
  rw [heq]
  -- the first code point of the token is no whitespace
  have hasc : (l0'.next).1 ≠ -1 ∧ isWS (l0'.next).1 = false := by
    refine ⟨?_, hstop1⟩
    intro c1
    rw [if_pos c1] at h
    simp only [Outcome.ok.injEq, Prod.mk.injEq] at h
    rw [← h.1] at ht
    exact absurd rfl ht
  have he0 : EmbW a b l0 l0' := by
    obtain ⟨lx, g1, g2⟩ := skipWSLoop_rev _ l l1 (l.src.length - l.pos + 1) l0' he hskip1
      hasc.1 (by omega)
    have : l.skipWS = Outcome.ok lx := g1
    rw [hskip] at this
    injection this with e
    rw [e]; exact g2
  obtain ⟨e1, e2⟩ := next_rev he0 (r := (l0'.next).1) rfl hasc.1 hasc.2
  rw [e1]
  have hS := fun x lz (hh : (l0'.next).2.scanString = Outcome.ok (x, lz)) =>
    scanString_rev e2 hh
  have hM1 := matchSeq_rev [114, 117, 101] _ _ e2 (by decide)
  have hM2 := matchSeq_rev [97, 108, 115, 101] _ _ e2 (by decide)
  have hM3 := matchSeq_rev [117, 108, 108] _ _ e2 (by decide)
  have hN := fun x lz (hh : (l0'.next).2.backup.scanNumber = Outcome.ok (x, lz)) =>
    scanNumber_rev (embW_backup_next he0) hh
  generalize (l0'.next).2.matchSeq [114, 117, 101] = m1' at h hM1
  generalize (l0.next).2.matchSeq [114, 117, 101] = m1 at hM1 ⊢
  generalize (l0'.next).2.matchSeq [97, 108, 115, 101] = m2' at h hM2
  generalize (l0.next).2.matchSeq [97, 108, 115, 101] = m2 at hM2 ⊢
  generalize (l0'.next).2.matchSeq [117, 108, 108] = m3' at h hM3
  generalize (l0.next).2.matchSeq [117, 108, 108] = m3 at hM3 ⊢
  generalize (l0'.next).2.scanString = ss' at h hS
  generalize (l0.next).2.scanString = ss at hS ⊢
  generalize (l0'.next).2.backup.scanNumber = sn' at h hN
  generalize (l0.next).2.backup.scanNumber = sn at hN ⊢
  generalize (l0'.next).1 = r at h hasc ⊢
  generalize (l0'.next).2 = ln' at h e2
  generalize (l0.next).2 = ln at e2 ⊢
  have single : ∀ tt : tokenType,
      Outcome.ok ((⟨tt, []⟩ : token), ln') = Outcome.ok (t, l3) →
      ∃ l2, Outcome.ok ((⟨tt, []⟩ : token), ln) = Outcome.ok (t, l2) ∧ EmbW a b l2 l3 := by
    intro tt hh
    simp only [Outcome.ok.injEq, Prod.mk.injEq] at hh
    obtain ⟨rfl, rfl⟩ := hh
    exact ⟨ln, rfl, e2⟩
  have kw : ∀ (tt : tokenType) (m m' : Bool × lexer),
      (m'.1 = true → m.1 = true ∧ EmbW a b m.2 m'.2) →
      (if m'.1 = true then Outcome.ok ((⟨tt, []⟩ : token), m'.2)
        else Outcome.error (Err.unexpectedCharacter r)) = Outcome.ok (t, l3) →
      ∃ l2, (if m.1 = true then Outcome.ok ((⟨tt, []⟩ : token), m.2)
        else Outcome.error (Err.unexpectedCharacter r)) = Outcome.ok (t, l2) ∧
        EmbW a b l2 l3 := by
    intro tt m m' hm hh
    by_cases c : m'.1 = true
    · rw [if_pos c] at hh
      obtain ⟨g1, g2⟩ := hm c
      rw [if_pos g1]
      simp only [Outcome.ok.injEq, Prod.mk.injEq] at hh
      obtain ⟨rfl, rfl⟩ := hh
      exact ⟨m.2, rfl, g2⟩
    · rw [if_neg c] at hh; cases hh
  by_cases c1 : r = -1
  · exact absurd c1 hasc.1
  rw [if_neg c1] at h ⊢
  by_cases c2 : r = 123
  · rw [if_pos c2] at h ⊢; exact single _ h
  rw [if_neg c2] at h ⊢
  by_cases c3 : r = 125
  · rw [if_pos c3] at h ⊢; exact single _ h
  rw [if_neg c3] at h ⊢
  by_cases c4 : r = 91
  · rw [if_pos c4] at h ⊢; exact single _ h
  rw [if_neg c4] at h ⊢
  by_cases c5 : r = 93
  · rw [if_pos c5] at h ⊢; exact single _ h
  rw [if_neg c5] at h ⊢
  by_cases c6 : r = 58
  · rw [if_pos c6] at h ⊢; exact single _ h
  rw [if_neg c6] at h ⊢
  by_cases c7 : r = 44
  · rw [if_pos c7] at h ⊢; exact single _ h
  rw [if_neg c7] at h ⊢
  by_cases c8 : r = 34
  · rw [if_pos c8] at h ⊢
    cases ss' with
    | timeout => cases h
    | error e => cases h
    | ok y =>
      obtain ⟨x, lz⟩ := y
      obtain ⟨l2, g1, g2⟩ := hS x lz rfl
      rw [g1]
      simp only [Outcome.ok.injEq, Prod.mk.injEq] at h ⊢
      obtain ⟨rfl, rfl⟩ := h
      exact ⟨l2, ⟨rfl, rfl⟩, g2⟩
  rw [if_neg c8] at h ⊢
  by_cases c9 : r = 116
  · rw [if_pos c9] at h ⊢; exact kw _ m1 m1' hM1 h
  rw [if_neg c9] at h ⊢
  by_cases c10 : r = 102
  · rw [if_pos c10] at h ⊢; exact kw _ m2 m2' hM2 h
  rw [if_neg c10] at h ⊢
  by_cases c11 : r = 110
  · rw [if_pos c11] at h ⊢; exact kw _ m3 m3' hM3 h
  rw [if_neg c11] at h ⊢
  by_cases c12 : r = 45 ∨ (48 ≤ r ∧ r ≤ 57)
  · rw [if_pos c12] at h ⊢
    cases sn' with
    | timeout => cases h
    | error e => cases h
    | ok y =>
      obtain ⟨x, lz⟩ := y
      obtain ⟨l2, g1, g2⟩ := hN x lz rfl
      rw [g1]
      simp only [Outcome.ok.injEq, Prod.mk.injEq] at h ⊢
      obtain ⟨rfl, rfl⟩ := h
      exact ⟨l2, ⟨rfl, rfl⟩, g2⟩
  · rw [if_neg c12] at h; cases h

/-! ## Parsing a text in front of trailing whitespace -/

theorem peek_rev {a b : List Nat} {p p' : parser} {t : token}
    {p1' : parser} (he : EmbWP a b p p')
    (h : p'.peek = Outcome.ok (t, p1')) (ht : t.typ ≠ tokenType.tokEOF) :
    ∃ p1, p.peek = Outcome.ok (t, p1) ∧ EmbWP a b p1 p1' := by
  obtain ⟨h1, h2 | h2⟩ := parser_peek_ok h
  · obtain ⟨hbuf, rfl⟩ := h2
    have hb0 : p.buf = some t := by rw [← he.2, hbuf]
    exact ⟨p, parser_peek_buf hb0, he⟩
  · obtain ⟨hbuf, hn⟩ := h2
    have hb0 : p.buf = none := by rw [← he.2, hbuf]
    obtain ⟨l2, g1, g2⟩ := nextToken_rev he.1 hn ht
    refine ⟨⟨l2, some t⟩, ?_, g2, by simp [h1]⟩
    rw [parser_peek_none hb0, g1]

theorem next_tok_rev {a b : List Nat} {p p' : parser} {t : token}
    {p1' : parser} (he : EmbWP a b p p')
    (h : p'.next = Outcome.ok (t, p1')) (ht : t.typ ≠ tokenType.tokEOF) :
    ∃ p1, p.next = Outcome.ok (t, p1) ∧ EmbWP a b p1 p1' := by
  obtain ⟨h1, h2 | h2⟩ := parser_next_ok h
  · obtain ⟨hbuf, hl⟩ := h2
    have hb0 : p.buf = some t := by rw [← he.2, hbuf]
    refine ⟨⟨p.lex, none⟩, parser_next_buf hb0, ?_, by simp [h1]⟩
    rw [hl]; exact he.1
  · obtain ⟨hbuf, hn⟩ := h2
    have hb0 : p.buf = none := by rw [← he.2, hbuf]
    obtain ⟨l2, g1, g2⟩ := nextToken_rev he.1 hn ht
    refine ⟨⟨l2, none⟩, ?_, g2, by simp [h1]⟩
    rw [parser_next_none hb0, g1]

theorem expect_rev {a b : List Nat} {p p' : parser} {tt : tokenType}
    {p1' : parser} (he : EmbWP a b p p')
    (h : p'.expect tt = Outcome.ok p1') (ht : tt ≠ tokenType.tokEOF) :
    ∃ p1, p.expect tt = Outcome.ok p1 ∧ EmbWP a b p1 p1' := by
  obtain ⟨t, hn, htt⟩ := parser_expect_ok h
  obtain ⟨p1, g1, g2⟩ := next_tok_rev he hn (by rw [htt]; exact ht)
  refine ⟨p1, ?_, g2⟩
  simp [parser.expect, g1, htt]

theorem skip_rev {a b : List Nat} {p p' : parser} {t : token} (he : EmbWP a b p p')
    (hbuf : p'.buf = some t) : EmbWP a b p.skip p'.skip := by
  have hb0 : p.buf = some t := by rw [← he.2, hbuf]
  rw [parser_skip_buf hbuf, parser_skip_buf hb0]
  exact ⟨he.1, rfl⟩

/-- A successful run on a text followed by whitespace is a successful run,
with the same result, on the text alone. -/
theorem Run_rev {pf : List Nat → Option Float64} {a b : List Nat}
    {c : Call} {p' : parser} {r : Ret} {p1' : parser} (h : Run pf c p' r p1') :
    ∀ p, EmbWP a b p p' → ∃ p1, Run pf c p r p1 ∧ EmbWP a b p1 p1' := by
  induction h with
  | valueObject hp ht _ ih =>
    intro p he
    obtain ⟨q1, g1, e1⟩ := peek_rev he hp (by rw [ht]; decide)
    obtain ⟨q2, g2, e2⟩ := ih q1 e1
    exact ⟨q2, Run.valueObject g1 ht g2, e2⟩
  | valueArray hp ht _ ih =>
    intro p he
    obtain ⟨q1, g1, e1⟩ := peek_rev he hp (by rw [ht]; decide)
    obtain ⟨q2, g2, e2⟩ := ih q1 e1
    exact ⟨q2, Run.valueArray g1 ht g2, e2⟩
  | valueString hp ht =>
    intro p he
    obtain ⟨q1, g1, e1⟩ := peek_rev he hp (by rw [ht]; decide)
    exact ⟨q1.skip, Run.valueString g1 ht, skip_rev e1 (parser_peek_adv hp).1⟩
  | valueNumber hp ht hn =>
    intro p he
    obtain ⟨q1, g1, e1⟩ := peek_rev he hp (by rw [ht]; decide)
    exact ⟨q1.skip, Run.valueNumber g1 ht hn, skip_rev e1 (parser_peek_adv hp).1⟩
  | valueTrue hp ht =>
    intro p he
    obtain ⟨q1, g1, e1⟩ := peek_rev he hp (by rw [ht]; decide)
    exact ⟨q1.skip, Run.valueTrue g1 ht, skip_rev e1 (parser_peek_adv hp).1⟩
  | valueFalse hp ht =>
    intro p he
    obtain ⟨q1, g1, e1⟩ := peek_rev he hp (by rw [ht]; decide)
    exact ⟨q1.skip, Run.valueFalse g1 ht, skip_rev e1 (parser_peek_adv hp).1⟩
  | valueNull hp ht =>
    intro p he
    obtain ⟨q1, g1, e1⟩ := peek_rev he hp (by rw [ht]; decide)
    exact ⟨q1.skip, Run.valueNull g1 ht, skip_rev e1 (parser_peek_adv hp).1⟩
  | objectEmpty hx hp ht =>
    intro p he
    obtain ⟨q1, g1, e1⟩ := expect_rev he hx (by decide)
    obtain ⟨q2, g2, e2⟩ := peek_rev e1 hp (by rw [ht]; decide)
    exact ⟨q2.skip, Run.objectEmpty g1 g2 ht, skip_rev e2 (parser_peek_adv hp).1⟩
  | objectMembers hx hp ht hrun ih =>
    intro p he
    obtain ⟨q1, g1, e1⟩ := expect_rev he hx (by decide)
    have hne := Run_first hrun _ (parser_peek_adv hp).1
    obtain ⟨q2, g2, e2⟩ := peek_rev e1 hp hne
    obtain ⟨q3, g3, e3⟩ := ih q2 e2
    exact ⟨q3, Run.objectMembers g1 g2 ht g3, e3⟩
  | objectLoopMore hk hkt hc hv hn hnt _ ihv ihl =>
    intro p he
    obtain ⟨q1, g1, e1⟩ := next_tok_rev he hk (by rw [hkt]; decide)
    obtain ⟨q2, g2, e2⟩ := expect_rev e1 hc (by decide)
    obtain ⟨q3, g3, e3⟩ := ihv q2 e2
    obtain ⟨q4, g4, e4⟩ := next_tok_rev e3 hn (by rw [hnt]; decide)
    obtain ⟨q5, g5, e5⟩ := ihl q4 e4
    exact ⟨q5, Run.objectLoopMore g1 hkt g2 g3 g4 hnt g5, e5⟩
  | objectLoopLast hk hkt hc hv hn hnt ihv =>
    intro p he
    obtain ⟨q1, g1, e1⟩ := next_tok_rev he hk (by rw [hkt]; decide)
    obtain ⟨q2, g2, e2⟩ := expect_rev e1 hc (by decide)
    obtain ⟨q3, g3, e3⟩ := ihv q2 e2
    obtain ⟨q4, g4, e4⟩ := next_tok_rev e3 hn (by rw [hnt]; decide)
    exact ⟨q4, Run.objectLoopLast g1 hkt g2 g3 g4 hnt, e4⟩
  | arrayEmpty hx hp ht =>
    intro p he
    obtain ⟨q1, g1, e1⟩ := expect_rev he hx (by decide)
    obtain ⟨q2, g2, e2⟩ := peek_rev e1 hp (by rw [ht]; decide)
    exact ⟨q2.skip, Run.arrayEmpty g1 g2 ht, skip_rev e2 (parser_peek_adv hp).1⟩
  | arrayElems hx hp ht hrun ih =>
    intro p he
    obtain ⟨q1, g1, e1⟩ := expect_rev he hx (by decide)
    have hne := Run_first hrun _ (parser_peek_adv hp).1
    obtain ⟨q2, g2, e2⟩ := peek_rev e1 hp hne
    obtain ⟨q3, g3, e3⟩ := ih q2 e2
    exact ⟨q3, Run.arrayElems g1 g2 ht g3, e3⟩
  | arrayLoopMore hv hn hnt _ ihv ihl =>
    intro p he
    obtain ⟨q3, g3, e3⟩ := ihv p he
    obtain ⟨q4, g4, e4⟩ := next_tok_rev e3 hn (by rw [hnt]; decide)
    obtain ⟨q5, g5, e5⟩ := ihl q4 e4
    exact ⟨q5, Run.arrayLoopMore g3 g4 hnt g5, e5⟩
  | arrayLoopLast hv hn hnt ihv =>
    intro p he
    obtain ⟨q3, g3, e3⟩ := ihv p he
    obtain ⟨q4, g4, e4⟩ := next_tok_rev e3 hn (by rw [hnt]; decide)
    exact ⟨q4, Run.arrayLoopLast g3 g4 hnt, e4⟩

/-- A run of `parseValue` depends on its start state through `peek` only. -/
theorem Run_value_congr {pf : List Nat → Option Float64} {p p0 : parser} {r : Ret}
    {p1 : parser} (hpk : p0.peek = p.peek) (h : Run pf Call.value p r p1) :
    Run pf Call.value p0 r p1 := by
  cases h with
  | valueObject hp ht hrun => exact Run.valueObject (hpk.trans hp) ht hrun
  | valueArray hp ht hrun => exact Run.valueArray (hpk.trans hp) ht hrun
  | valueString hp ht => exact Run.valueString (hpk.trans hp) ht
  | valueNumber hp ht hn => exact Run.valueNumber (hpk.trans hp) ht hn
  | valueTrue hp ht => exact Run.valueTrue (hpk.trans hp) ht
  | valueFalse hp ht => exact Run.valueFalse (hpk.trans hp) ht
  | valueNull hp ht => exact Run.valueNull (hpk.trans hp) ht

theorem isWSByte_iff {c : Nat} : isWSByte c = true ↔ (c = 32 ∨ c = 9 ∨ c = 13 ∨ c = 10) := by
  simp only [isWSByte, Bool.or_eq_true, beq_iff_eq]
  omega

theorem numStop_of_ws {b : List Nat} (h : ∀ c ∈ b, isWSByte c = true) : numStop b = true := by
  cases b with
  | nil => rfl
  | cons c t =>
    have hc := isWSByte_iff.1 (h c (by simp))
    rcases hc with e | e | e | e <;> subst e <;> rfl

/-- In front of whitespace only, `nextToken` returns the end marker. -/
theorem nextToken_all_ws {s : List Nat} {p : Nat} (w : Nat)
    (h : ∀ c ∈ s.drop p, isWSByte c = true) :
    ∃ l, lexer.nextToken ⟨s, p, w⟩ = Outcome.ok (⟨tokenType.tokEOF, []⟩, l) := by
  have hd : s.drop p = s.drop p ++ [] := by rw [List.append_nil]
  rw [ nextToken_ws_prefix (s.drop p) p w 0 (fun c hc => isWSByte_iff.1 (h c hc)) hd]
  have hnil : s.drop (p + (s.drop p).length) = [] := by
    apply List.drop_eq_nil_of_le
    simp only [List.length_drop]
    omega
  exact ⟨_, nextToken_eof hnil⟩

/-- Whitespace in front of the input does not change what `peek` returns at
the start. -/
theorem peek_leading_ws (w1 u : List Nat) (h : ∀ c ∈ w1, isWSByte c = true) :
    parser.peek ⟨newLexer (w1 ++ u), none⟩ = parser.peek ⟨⟨w1 ++ u, w1.length, 0⟩, none⟩ := by
  rw [parser_peek_none rfl, parser_peek_none rfl]
  simp only [newLexer]
  have e := nextToken_ws_prefix (s := w1 ++ u) (u := u) w1 0 0 0
    (fun c hc => isWSByte_iff.1 (h c hc))
    (by simp)
  rw [Nat.zero_add] at e
  rw [e]

/-! ## The range checks never fail -/

theorem inRange_iff {l : lexer} : l.inRange = true ↔ l.pos ≤ l.src.length := by
  simp [lexer.inRange]

theorem check_eq {l : lexer} (h : l.inRange = true) : l.check = some l := by
  simp [lexer.check, h]

theorem sliceC_rest {src : List Nat} {i : Nat} (h : i ≤ src.length) :
    sliceC src i src.length = some (src.drop i) := by
  unfold sliceC
  rw [if_pos ⟨h, le_refl _⟩]
  congr 1
  apply List.take_of_length_le
  simp

theorem inRange_next {l : lexer} (h : l.inRange = true) : (l.next).2.inRange = true := by
  rw [inRange_iff] at h ⊢
  rw [next_src]
  exact next_pos_le l h

theorem nextC_eq {l : lexer} (h : l.inRange = true) : l.nextC = some l.next := by
  have h2 := inRange_next h
  have hle := inRange_iff.1 h
  unfold lexer.nextC
  unfold lexer.next at h2 ⊢
  by_cases c : l.pos ≥ l.src.length
  · rw [if_pos c] at h2 ⊢
    rw [if_pos c, check_eq h2]
  · rw [if_neg c] at h2 ⊢
    rw [if_neg c, sliceC_rest hle]
    simp only
    rw [check_eq h2]

theorem peekC_eq {l : lexer} (h : l.inRange = true) : l.peekC = some l.peek := by
  simp only [lexer.peekC, nextC_eq h, lexer.peek]

theorem next_width_le (l : lexer) : (l.next).2.width ≤ (l.next).2.pos := by
  unfold lexer.next
  split
  · simp
  · simp

theorem inRange_backup_next {l : lexer} (h : l.inRange = true) :
    (l.next).2.backup.inRange = true := by
  rw [inRange_iff] at h ⊢
  rw [backup_next_src, backup_next_pos]
  exact h

theorem backupC_next {l : lexer} (h : l.inRange = true) :
    (l.next).2.backupC = some (l.next).2.backup := by
  unfold lexer.backupC
  rw [if_pos (next_width_le l)]
  exact check_eq (inRange_backup_next h)

theorem inRange_of_adv {l l1 : lexer} (ha : Adv l l1) (h : l.inRange = true) :
    l1.inRange = true := by
  rw [inRange_iff] at h ⊢
  rw [ha.1]
  exact ha.2.2 h

theorem skipWSLoopC_eq : ∀ (fuel : Nat) (l : lexer), l.inRange = true →
    skipWSLoopC fuel l = some (skipWSLoop fuel l) := by
  intro fuel
  induction fuel with
  | zero => intro l _; rfl
  | succ f ih =>
    intro l h
    simp only [skipWSLoopC, skipWSLoop, peekC_eq h, nextC_eq h]
    by_cases c : isWS l.peek = true
    · rw [if_pos c, if_pos c]
      exact ih _ (inRange_next h)
    · rw [if_neg c, if_neg c]

theorem skipWSC_eq {l : lexer} (h : l.inRange = true) : l.skipWSC = some l.skipWS :=
  skipWSLoopC_eq _ l h

theorem matchSeqC_eq (seq : List Nat) : ∀ l : lexer, l.inRange = true →
    l.matchSeqC seq = some (l.matchSeq seq) := by
  induction seq with
  | nil => intro l _; rfl
  | cons c cs ih =>
    intro l h
    simp only [lexer.matchSeqC, lexer.matchSeq, nextC_eq h]
    by_cases hc : ((l.next).1 == -1 || (l.next).1 != (c : Int)) = true
    · rw [if_pos hc, if_pos hc]
    · rw [if_neg hc, if_neg hc]
      exact ih _ (inRange_next h)

theorem readHexC_eq : ∀ (n : Nat) (v : Int) (l : lexer), l.inRange = true →
    readHexC n v l = some (readHex n v l) := by
  intro n
  induction n with
  | zero => intro v l _; rfl
  | succ n ih =>
    intro v l h
    simp only [readHexC, readHex, nextC_eq h]
    by_cases c : (l.next).1 = -1
    · rw [if_pos c, if_pos c]
    · rw [if_neg c, if_neg c]
      cases hs : hexStep v (l.next).1 with
      | none => rfl
      | some v1 => exact ih _ _ (inRange_next h)

theorem inRange_readHex {n : Nat} {v : Int} {l : lexer} {v1 : Int} {l1 : lexer}
    (h : l.inRange = true) (hr : readHex n v l = some (v1, l1)) : l1.inRange = true :=
  inRange_of_adv (readHex_adv n v l v1 l1 hr) h

theorem scanUnicodeEscapeC_eq {out : List Int} {l : lexer} (h : l.inRange = true) :
    scanUnicodeEscapeC out l = some (scanUnicodeEscape out l) := by
  unfold scanUnicodeEscapeC scanUnicodeEscape
  rw [readHexC_eq 4 0 l h]
  cases h1 : readHex 4 0 l with
  | none => rfl
  | some x =>
    obtain ⟨v, l1⟩ := x
    have r1 := inRange_readHex h h1
    simp only
    by_cases c1 : 0xD800 ≤ v ∧ v ≤ 0xDBFF
    · rw [if_pos c1, if_pos c1, nextC_eq r1]
      simp only
      by_cases c2 : (l1.next).1 ≠ 92
      · rw [if_pos c2, if_pos c2]
      rw [if_neg c2, if_neg c2, nextC_eq (inRange_next r1)]
      simp only
      by_cases c3 : ((l1.next).2.next).1 ≠ 117
      · rw [if_pos c3, if_pos c3]
      rw [if_neg c3, if_neg c3, readHexC_eq 4 0 _ (inRange_next (inRange_next r1))]
      cases h2 : readHex 4 0 (l1.next).2.next.2 with
      | none => rfl
      | some y =>
        obtain ⟨low, l2⟩ := y
        simp only
        by_cases c4 : low < 0xDC00 ∨ low > 0xDFFF
        · rw [if_pos c4, if_pos c4]
        · rw [if_neg c4, if_neg c4]
    · rw [if_neg c1, if_neg c1]
      by_cases c2 : 0xDC00 ≤ v ∧ v ≤ 0xDFFF
      · rw [if_pos c2, if_pos c2]
      · rw [if_neg c2, if_neg c2]

theorem scanStringStepC_eq {out : List Int} {l : lexer} (h : l.inRange = true) :
    scanStringStepC out l = some (scanStringStep out l) := by
  have r1 := inRange_next h
  have r2 := inRange_next r1
  unfold scanStringStepC scanStringStep
  rw [nextC_eq h]
  simp only
  by_cases c1 : (l.next).1 = -1
  · rw [if_pos c1, if_pos c1]
  rw [if_neg c1, if_neg c1]
  by_cases c2 : (l.next).1 = 34
  · rw [if_pos c2, if_pos c2]
  rw [if_neg c2, if_neg c2]
  by_cases c3 : (l.next).1 = 92
  · rw [if_pos c3, if_pos c3, nextC_eq r1]
    simp only
    generalize (l.next).2.next = esc at r2 ⊢
    by_cases d1 : esc.1 = 34 ∨ esc.1 = 92 ∨ esc.1 = 47
    · rw [if_pos d1, if_pos d1]
    rw [if_neg d1, if_neg d1]
    by_cases d2 : esc.1 = 98
    · rw [if_pos d2, if_pos d2]
    rw [if_neg d2, if_neg d2]
    by_cases d3 : esc.1 = 102
    · rw [if_pos d3, if_pos d3]
    rw [if_neg d3, if_neg d3]
    by_cases d4 : esc.1 = 110
    · rw [if_pos d4, if_pos d4]
    rw [if_neg d4, if_neg d4]
    by_cases d5 : esc.1 = 114
    · rw [if_pos d5, if_pos d5]
    rw [if_neg d5, if_neg d5]
    by_cases d6 : esc.1 = 116
    · rw [if_pos d6, if_pos d6]
    rw [if_neg d6, if_neg d6]
    by_cases d7 : esc.1 = 117
    · rw [if_pos d7, if_pos d7]
      exact scanUnicodeEscapeC_eq r2
    · rw [if_neg d7, if_neg d7]
  · rw [if_neg c3, if_neg c3]

theorem scanStringLoopC_eq : ∀ (fuel : Nat) (out : List Int) (l : lexer), l.inRange = true →
    scanStringLoopC fuel out l = some (scanStringLoop fuel out l) := by
  intro fuel
  induction fuel with
  | zero => intro out l _; rfl
  | succ f ih =>
    intro out l h
    simp only [scanStringLoopC, scanStringLoop, scanStringStepC_eq h]
    cases hs : scanStringStep out l with
    | done l1 => rfl
    | fail e => rfl
    | more out1 l1 =>
      exact ih _ _ (inRange_of_adv (scanStringStep_more hs).1 h)

theorem scanStringC_eq {l : lexer} (h : l.inRange = true) :
    l.scanStringC = some l.scanString :=
  scanStringLoopC_eq _ [] l h

theorem scanDigitsC_eq : ∀ (fuel : Nat) (l : lexer), l.inRange = true →
    scanDigitsC fuel l = some (scanDigits fuel l) := by
  intro fuel
  induction fuel with
  | zero => intro l _; rfl
  | succ f ih =>
    intro l h
    simp only [scanDigitsC, scanDigits, nextC_eq h]
    by_cases c : isDigit (l.next).1 = true
    · rw [if_pos c, if_pos c]
      exact ih _ (inRange_next h)
    · rw [if_neg c, if_neg c]

/-- What the digit loop returns is what `next` read last, from a state no
further back. -/
theorem scanDigits_res : ∀ (fuel : Nat) (l : lexer) (x : Int × lexer),
    scanDigits fuel l = Outcome.ok x → ∃ lq, x = lq.next ∧ Adv l lq := by
  intro fuel
  induction fuel with
  | zero => intro l x h; simp [scanDigits] at h
  | succ f ih =>
    intro l x h
    simp only [scanDigits] at h
    by_cases c : isDigit (l.next).1 = true
    · rw [if_pos c] at h
      obtain ⟨lq, g1, g2⟩ := ih _ _ h
      exact ⟨lq, g1, (Adv_next l).trans g2⟩
    · rw [if_neg c] at h
      simp only [Outcome.ok.injEq] at h
      exact ⟨l, h.symm, Adv.refl l⟩

/-- The `backup` and the slice that end `scanNumber` are in range when they
follow a `next` from a state in range at or behind `start`. -/
theorem finishNumberC_eq {start : Nat} {lq : lexer} (h : lq.inRange = true)
    (hs : start ≤ lq.pos) :
    finishNumberC start (lq.next).2 =
      some (Outcome.ok (((lq.next).2.backup.src.drop start).take
        ((lq.next).2.backup.pos - start), (lq.next).2.backup)) := by
  unfold finishNumberC
  rw [backupC_next h]
  simp only
  have hb := inRange_iff.1 (inRange_backup_next h)
  have hp : start ≤ (lq.next).2.backup.pos := by rw [backup_next_pos]; exact hs
  unfold sliceC
  rw [if_pos ⟨hp, hb⟩]

theorem scanExponentC_eq {fuel start : Nat} {lq : lexer} (h : lq.inRange = true)
    (hs : start ≤ lq.pos) :
    scanExponentC fuel start (lq.next).1 (lq.next).2 =
      some (scanExponent fuel start (lq.next).1 (lq.next).2) := by
  have r1 := inRange_next h
  have key : ∀ lr : lexer, lr.inRange = true → start ≤ lr.pos →
      (if ¬ isDigit (lr.next).1 = true then some (Outcome.error Err.invalidExponent)
        else match scanDigitsC fuel (lr.next).2 with
          | some (Outcome.ok (_, l2)) => finishNumberC start l2
          | some (Outcome.error e) => some (Outcome.error e)
          | some Outcome.timeout => some Outcome.timeout
          | none => none) =
      some (if ¬ isDigit (lr.next).1 = true then Outcome.error Err.invalidExponent
        else match scanDigits fuel (lr.next).2 with
          | Outcome.ok (_, l2) =>
            Outcome.ok (List.take (l2.backup.pos - start) (List.drop start l2.backup.src),
              l2.backup)
          | Outcome.error e => Outcome.error e
          | Outcome.timeout => Outcome.timeout) := by
    intro lr hr hsr
    by_cases hd : ¬ isDigit (lr.next).1 = true
    · rw [if_pos hd, if_pos hd]
    rw [if_neg hd, if_neg hd, scanDigitsC_eq fuel _ (inRange_next hr)]
    cases hx : scanDigits fuel (lr.next).2 with
    | timeout => rfl
    | error e => rfl
    | ok x =>
      obtain ⟨lz, g1, g2⟩ := scanDigits_res _ _ _ hx
      subst g1
      simp only
      have hz : lz.inRange = true := inRange_of_adv g2 (inRange_next hr)
      have hsz : start ≤ lz.pos := by
        have := g2.2.1
        have := next_pos_ge lr
        omega
      exact finishNumberC_eq hz hsz
  unfold scanExponentC scanExponent
  by_cases c : (lq.next).1 = 101 ∨ (lq.next).1 = 69
  · rw [if_pos c, if_pos c, nextC_eq r1]
    simp only
    have hs1 : start ≤ (lq.next).2.pos := le_trans hs (next_pos_ge lq)
    by_cases cs : ((lq.next).2.next).1 = 43 ∨ ((lq.next).2.next).1 = 45
    · rw [if_pos cs, if_pos cs, nextC_eq (inRange_next r1)]
      simp only
      exact key _ (inRange_next r1) (le_trans hs1 (next_pos_ge _))
    · rw [if_neg cs, if_neg cs]
      simp only
      exact key _ r1 hs1
  · rw [if_neg c, if_neg c]
    exact finishNumberC_eq h hs

theorem scanFractionC_eq {fuel start : Nat} {lq : lexer} (h : lq.inRange = true)
    (hs : start ≤ lq.pos) :
    scanFractionC fuel start (lq.next).1 (lq.next).2 =
      some (scanFraction fuel start (lq.next).1 (lq.next).2) := by
  have r1 := inRange_next h
  have r2 := inRange_next r1
  unfold scanFractionC scanFraction
  by_cases c : (lq.next).1 = 46
  · rw [if_pos c, if_pos c, nextC_eq r1]
    simp only
    by_cases hd : ¬ isDigit ((lq.next).2.next).1 = true
    · rw [if_pos hd, if_pos hd]
    rw [if_neg hd, if_neg hd, scanDigitsC_eq fuel _ r2]
    cases hx : scanDigits fuel (lq.next).2.next.2 with
    | timeout => rfl
    | error e => rfl
    | ok x =>
      obtain ⟨lz, g1, g2⟩ := scanDigits_res _ _ _ hx
      subst g1
      simp only
      have hz : lz.inRange = true := inRange_of_adv g2 r2
      have hsz : start ≤ lz.pos := by
        have := g2.2.1
        have := next_pos_ge lq
        have := next_pos_ge (lq.next).2
        omega
      exact scanExponentC_eq hz hsz
  · rw [if_neg c, if_neg c]
    exact scanExponentC_eq h hs

theorem scanNumberC_eq {l : lexer} (h : l.inRange = true) :
    l.scanNumberC = some l.scanNumber := by
  have r1 := inRange_next h
  have key : ∀ lq : lexer, lq.inRange = true → l.pos ≤ lq.pos →
      (if (lq.next).1 = -1 then some (Outcome.error Err.invalidNumber)
        else if (lq.next).1 = 48 then
          scanFractionC (l.src.length - l.pos + 1) l.pos (lq.next).1 (lq.next).2
        else if 49 ≤ (lq.next).1 ∧ (lq.next).1 ≤ 57 then
          match scanDigitsC (l.src.length - l.pos + 1) (lq.next).2 with
          | some (Outcome.ok (r1, l1)) => scanFractionC (l.src.length - l.pos + 1) l.pos r1 l1
          | some (Outcome.error e) => some (Outcome.error e)
          | some Outcome.timeout => some Outcome.timeout
          | none => none
        else some (Outcome.error Err.invalidNumber)) =
      some (if (lq.next).1 = -1 then Outcome.error Err.invalidNumber
        else if (lq.next).1 = 48 then
          scanFraction (l.src.length - l.pos + 1) l.pos (lq.next).1 (lq.next).2
        else if 49 ≤ (lq.next).1 ∧ (lq.next).1 ≤ 57 then
          match scanDigits (l.src.length - l.pos + 1) (lq.next).2 with
          | Outcome.ok (r1, l1) => scanFraction (l.src.length - l.pos + 1) l.pos r1 l1
          | Outcome.error e => Outcome.error e
          | Outcome.timeout => Outcome.timeout
        else Outcome.error Err.invalidNumber) := by
    intro lq hq hsq
    by_cases c1 : (lq.next).1 = -1
    · rw [if_pos c1, if_pos c1]
    rw [if_neg c1, if_neg c1]
    by_cases c2 : (lq.next).1 = 48
    · rw [if_pos c2, if_pos c2]
      exact scanFractionC_eq hq hsq
    rw [if_neg c2, if_neg c2]
    by_cases c3 : 49 ≤ (lq.next).1 ∧ (lq.next).1 ≤ 57
    · rw [if_pos c3, if_pos c3, scanDigitsC_eq _ _ (inRange_next hq)]
      cases hx : scanDigits (l.src.length - l.pos + 1) (lq.next).2 with
      | timeout => rfl
      | error e => rfl
      | ok x =>
        obtain ⟨lz, g1, g2⟩ := scanDigits_res _ _ _ hx
        subst g1
        simp only
        have hz : lz.inRange = true := inRange_of_adv g2 (inRange_next hq)
        have hsz : l.pos ≤ lz.pos := by
          have := g2.2.1
          have := next_pos_ge lq
          omega
        exact scanFractionC_eq hz hsz
    · rw [if_neg c3, if_neg c3]
  unfold lexer.scanNumberC lexer.scanNumber
  rw [nextC_eq h]
  simp only
  by_cases c : (l.next).1 = 45
  · rw [if_pos c, if_pos c, nextC_eq r1]
    simp only
    exact key _ r1 (next_pos_ge l)
  · rw [if_neg c, if_neg c]
    simp only
    exact key _ h (le_refl _)

theorem nextTokenC_eq {l : lexer} (h : l.inRange = true) :
    l.nextTokenC = some l.nextToken := by
  obtain ⟨l0, hskip, a0, _⟩ := skipWS_ok l
  have r0 : l0.inRange = true := inRange_of_adv a0 h
  have r1 := inRange_next r0
  unfold lexer.nextTokenC lexer.nextToken
  rw [skipWSC_eq h, hskip]
  simp only
  rw [nextC_eq r0]
  simp only
  by_cases c1 : (l0.next).1 = -1
  · rw [if_pos c1, if_pos c1]
  rw [if_neg c1, if_neg c1]
  by_cases c2 : (l0.next).1 = 123
  · rw [if_pos c2, if_pos c2]
  rw [if_neg c2, if_neg c2]
  by_cases c3 : (l0.next).1 = 125
  · rw [if_pos c3, if_pos c3]
  rw [if_neg c3, if_neg c3]
  by_cases c4 : (l0.next).1 = 91
  · rw [if_pos c4, if_pos c4]
  rw [if_neg c4, if_neg c4]
  by_cases c5 : (l0.next).1 = 93
  · rw [if_pos c5, if_pos c5]
  rw [if_neg c5, if_neg c5]
  by_cases c6 : (l0.next).1 = 58
  · rw [if_pos c6, if_pos c6]
  rw [if_neg c6, if_neg c6]
  by_cases c7 : (l0.next).1 = 44
  · rw [if_pos c7, if_pos c7]
  rw [if_neg c7, if_neg c7]
  by_cases c8 : (l0.next).1 = 34
  · rw [if_pos c8, if_pos c8, scanStringC_eq r1]
    cases (l0.next).2.scanString with
    | timeout => rfl
    | error e => rfl
    | ok y => rfl
  rw [if_neg c8, if_neg c8]
  by_cases c9 : (l0.next).1 = 116
  · rw [if_pos c9, if_pos c9, matchSeqC_eq _ _ r1]
    simp only
    by_cases m : ((l0.next).2.matchSeq [114, 117, 101]).1 = true
    · rw [if_pos m, if_pos m]
    · rw [if_neg m, if_neg m]
  rw [if_neg c9, if_neg c9]
  by_cases c10 : (l0.next).1 = 102
  · rw [if_pos c10, if_pos c10, matchSeqC_eq _ _ r1]
    simp only
    by_cases m : ((l0.next).2.matchSeq [97, 108, 115, 101]).1 = true
    · rw [if_pos m, if_pos m]
    · rw [if_neg m, if_neg m]
  rw [if_neg c10, if_neg c10]
  by_cases c11 : (l0.next).1 = 110
  · rw [if_pos c11, if_pos c11, matchSeqC_eq _ _ r1]
    simp only
    by_cases m : ((l0.next).2.matchSeq [117, 108, 108]).1 = true
    · rw [if_pos m, if_pos m]
    · rw [if_neg m, if_neg m]
  rw [if_neg c11, if_neg c11]
  by_cases c12 : (l0.next).1 = 45 ∨ (48 ≤ (l0.next).1 ∧ (l0.next).1 ≤ 57)
  · rw [if_pos c12, if_pos c12, backupC_next r0]
    simp only
    rw [scanNumberC_eq (inRange_backup_next r0)]
    cases (l0.next).2.backup.scanNumber with
    | timeout => rfl
    | error e => rfl
    | ok y => rfl
  · rw [if_neg c12, if_neg c12]

theorem inRange_nextToken {l : lexer} {t : token} {l1 : lexer} (h : l.inRange = true)
    (hn : l.nextToken = Outcome.ok (t, l1)) : l1.inRange = true :=
  inRange_of_adv ((nextToken_spec l).2 t l1 hn).1 h

theorem parser_nextC_eq {p : parser} (h : p.lex.inRange = true) : p.nextC = some p.next := by
  unfold parser.nextC parser.next
  cases p.buf with
  | some t => rfl
  | none =>
    simp only
    rw [nextTokenC_eq h]
    cases p.lex.nextToken with
    | timeout => rfl
    | error e => rfl
    | ok y => rfl

theorem parser_peekC_eq {p : parser} (h : p.lex.inRange = true) : p.peekC = some p.peek := by
  unfold parser.peekC parser.peek
  cases p.buf with
  | some t => rfl
  | none =>
    simp only
    rw [nextTokenC_eq h]
    cases p.lex.nextToken with
    | timeout => rfl
    | error e => rfl
    | ok y => rfl

theorem parser_expectC_eq {p : parser} (tt : tokenType) (h : p.lex.inRange = true) :
    p.expectC tt = some (p.expect tt) := by
  unfold parser.expectC parser.expect
  rw [parser_nextC_eq h]
  cases p.next with
  | timeout => rfl
  | error e => rfl
  | ok y =>
    obtain ⟨t, p1⟩ := y
    simp only
    by_cases c : t.typ ≠ tt
    · rw [if_pos c, if_pos c]
    · rw [if_neg c, if_neg c]

theorem parser_skipC_eq {p : parser} (h : p.lex.inRange = true) : p.skipC = some p.skip := by
  unfold parser.skipC parser.skip
  rw [parser_nextC_eq h]
  cases p.next with
  | timeout => rfl
  | error e => rfl
  | ok y => rfl

theorem inRange_parser_next {p : parser} {t : token} {p1 : parser} (h : p.lex.inRange = true)
    (hn : p.next = Outcome.ok (t, p1)) : p1.lex.inRange = true :=
  inRange_of_adv (parser_next_adv hn).2 h

theorem inRange_parser_peek {p : parser} {t : token} {p1 : parser} (h : p.lex.inRange = true)
    (hn : p.peek = Outcome.ok (t, p1)) : p1.lex.inRange = true :=
  inRange_of_adv (parser_peek_adv hn).2 h

theorem inRange_parser_expect {p : parser} {tt : tokenType} {p1 : parser}
    (h : p.lex.inRange = true) (hn : p.expect tt = Outcome.ok p1) : p1.lex.inRange = true :=
  inRange_of_adv (parser_expect_adv hn).2 h

theorem inRange_parseValue {pf : List Nat → Option Float64} {f : Nat} {p : parser}
    {v : Value} {p1 : parser} (h : p.lex.inRange = true)
    (hv : parseValue pf f p = Outcome.ok (v, p1)) : p1.lex.inRange = true :=
  inRange_of_adv (Run_adv (parseValue_run hv)).2 h

theorem parseC_eq (pf : List Nat → Option Float64) : ∀ fuel : Nat,
    (∀ p : parser, p.lex.inRange = true → parseValueC pf fuel p = some (parseValue pf fuel p)) ∧
    (∀ p : parser, p.lex.inRange = true →
      parseObjectC pf fuel p = some (parseObject pf fuel p)) ∧
    (∀ (obj : List (List Nat × Value)) (p : parser), p.lex.inRange = true →
      parseObjectLoopC pf fuel obj p = some (parseObjectLoop pf fuel obj p)) ∧
    (∀ p : parser, p.lex.inRange = true → parseArrayC pf fuel p = some (parseArray pf fuel p)) ∧
    (∀ (arr : List Value) (p : parser), p.lex.inRange = true →
      parseArrayLoopC pf fuel arr p = some (parseArrayLoop pf fuel arr p)) := by
  intro fuel
  induction fuel with
  | zero =>
    refine ⟨?_, ?_, ?_, ?_, ?_⟩
    · intro p _; simp only [parseValueC, parseValue]
    · intro p _; simp only [parseObjectC, parseObject]
    · intro obj p _; simp only [parseObjectLoopC, parseObjectLoop]
    · intro p _; simp only [parseArrayC, parseArray]
    · intro arr p _; simp only [parseArrayLoopC, parseArrayLoop]
  | succ f ih =>
    obtain ⟨ihV, ihO, ihOL, ihA, ihAL⟩ := ih
    have hV : ∀ p : parser, p.lex.inRange = true →
        parseValueC pf (f + 1) p = some (parseValue pf (f + 1) p) := by
      intro p h
      simp only [parseValueC, parseValue]
      rw [parser_peekC_eq h]
      cases hp : p.peek with
      | timeout => rfl
      | error e => rfl
      | ok y =>
        obtain ⟨t, p1⟩ := y
        have r1 := inRange_parser_peek h hp
        obtain ⟨typ, lexeme⟩ := t
        cases typ with
        | tokLBrace =>
          simp only
          rw [ihO p1 r1]
          cases parseObject pf f p1 with
          | timeout => rfl
          | error e => rfl
          | ok z => rfl
        | tokLBracket =>
          simp only
          rw [ihA p1 r1]
          cases parseArray pf f p1 with
          | timeout => rfl
          | error e => rfl
          | ok z => rfl
        | tokString => simp only; rw [parser_skipC_eq r1]
        | tokNumber =>
          simp only
          rw [parser_skipC_eq r1]
          simp only
          cases pf lexeme with
          | none => rfl
          | some n => rfl
        | tokTrue => simp only; rw [parser_skipC_eq r1]
        | tokFalse => simp only; rw [parser_skipC_eq r1]
        | tokNull => simp only; rw [parser_skipC_eq r1]
        | tokEOF => rfl
        | tokRBrace => rfl
        | tokRBracket => rfl
        | tokColon => rfl
        | tokComma => rfl
    refine ⟨hV, ?_, ?_, ?_, ?_⟩
    · intro p h
      simp only [parseObjectC, parseObject]
      rw [parser_expectC_eq _ h]
      cases hx : p.expect tokenType.tokLBrace with
      | timeout => rfl
      | error e => rfl
      | ok p1 =>
        have r1 := inRange_parser_expect h hx
        simp only
        rw [parser_peekC_eq r1]
        cases hp : p1.peek with
        | timeout => rfl
        | error e => rfl
        | ok y =>
          obtain ⟨t, p2⟩ := y
          have r2 := inRange_parser_peek r1 hp
          simp only
          by_cases c : t.typ = tokenType.tokRBrace
          · rw [if_pos c, if_pos c, parser_skipC_eq r2]
          · rw [if_neg c, if_neg c]
            exact ihOL [] p2 r2
    · intro obj p h
      simp only [parseObjectLoopC, parseObjectLoop]
      rw [parser_nextC_eq h]
      cases hk : p.next with
      | timeout => rfl
      | error e => rfl
      | ok y =>
        obtain ⟨kt, p1⟩ := y
        have r1 := inRange_parser_next h hk
        simp only
        by_cases c : kt.typ ≠ tokenType.tokString
        · rw [if_pos c, if_pos c]
        rw [if_neg c, if_neg c, parser_expectC_eq _ r1]
        cases hx : p1.expect tokenType.tokColon with
        | timeout => rfl
        | error e => rfl
        | ok p2 =>
          have r2 := inRange_parser_expect r1 hx
          simp only
          rw [ihV p2 r2]
          cases hv : parseValue pf f p2 with
          | timeout => rfl
          | error e => rfl
          | ok z =>
            obtain ⟨v, p3⟩ := z
            have r3 := inRange_parseValue r2 hv
            simp only
            rw [parser_nextC_eq r3]
            cases hn : p3.next with
            | timeout => rfl
            | error e => rfl
            | ok u =>
              obtain ⟨nt, p4⟩ := u
              have r4 := inRange_parser_next r3 hn
              simp only
              by_cases c1 : nt.typ = tokenType.tokComma
              · rw [if_pos c1, if_pos c1]
                exact ihOL _ p4 r4
              rw [if_neg c1, if_neg c1]
              by_cases c2 : nt.typ = tokenType.tokRBrace
              · rw [if_pos c2, if_pos c2]
              · rw [if_neg c2, if_neg c2]
    · intro p h
      simp only [parseArrayC, parseArray]
      rw [parser_expectC_eq _ h]
      cases hx : p.expect tokenType.tokLBracket with
      | timeout => rfl
      | error e => rfl
      | ok p1 =>
        have r1 := inRange_parser_expect h hx
        simp only
        rw [parser_peekC_eq r1]
        cases hp : p1.peek with
        | timeout => rfl
        | error e => rfl
        | ok y =>
          obtain ⟨t, p2⟩ := y
          have r2 := inRange_parser_peek r1 hp
          simp only
          by_cases c : t.typ = tokenType.tokRBracket
          · rw [if_pos c, if_pos c, parser_skipC_eq r2]
          · rw [if_neg c, if_neg c]
            exact ihAL [] p2 r2
    · intro arr p h
      simp only [parseArrayLoopC, parseArrayLoop]
      rw [ihV p h]
      cases hv : parseValue pf f p with
      | timeout => rfl
      | error e => rfl
      | ok z =>
        obtain ⟨v, p1⟩ := z
        have r1 := inRange_parseValue h hv
        simp only
        rw [parser_nextC_eq r1]
        cases hn : p1.next with
        | timeout => rfl
        | error e => rfl
        | ok u =>
          obtain ⟨nt, p2⟩ := u
          have r2 := inRange_parser_next r1 hn
          simp only
          by_cases c1 : nt.typ = tokenType.tokComma
          · rw [if_pos c1, if_pos c1]
            exact ihAL _ p2 r2
          rw [if_neg c1, if_neg c1]
          by_cases c2 : nt.typ = tokenType.tokRBracket
          · rw [if_pos c2, if_pos c2]
          · rw [if_neg c2, if_neg c2]

theorem ParseC_eq (pf : List Nat → Option Float64) (src : List Nat) :
    ParseC pf src = some (Parse pf src) := by
  have h0 : (newLexer src).inRange = true := by simp [lexer.inRange, newLexer]
  unfold ParseC Parse
  rw [check_eq h0]
  simp only
  rw [(parseC_eq pf _).1 ⟨newLexer src, none⟩ h0]
  cases hv : parseValue pf (3 * src.length + 1) ⟨newLexer src, none⟩ with
  | timeout => rfl
  | error e => rfl
  | ok y =>
    obtain ⟨v, p⟩ := y
    have r := inRange_parseValue (p := ⟨newLexer src, none⟩) h0 hv
    simp only
    rw [nextTokenC_eq r]
    cases hn : p.lex.nextToken with
    | timeout => rfl
    | error e => rfl
    | ok z =>
      obtain ⟨tok, l2⟩ := z
      simp only
      by_cases c : tok.typ ≠ tokenType.tokEOF
      · rw [if_pos c, if_pos c]
      · rw [if_neg c, if_neg c]

/-- The lexeme returned by the end of `scanNumber` is the slice
`src[start:pos]` at the cursor it leaves. -/
theorem scanExponent_lexeme {fuel start : Nat} {r : Int} {l : lexer} {lex : List Nat}
    {l3 : lexer} (h : scanExponent fuel start r l = Outcome.ok (lex, l3)) :
    lex = (l3.src.drop start).take (l3.pos - start) := by
  unfold scanExponent at h
  by_cases c : r = 101 ∨ r = 69
  · rw [if_pos c] at h
    simp only at h
    generalize (if (l.next).1 = 43 ∨ (l.next).1 = 45 then (l.next).2.next else l.next) = n1 at h
    by_cases hd : ¬ isDigit n1.1 = true
    · rw [if_pos hd] at h; cases h
    rw [if_neg hd] at h
    cases hx : scanDigits fuel n1.2 with
    | timeout => rw [hx] at h; cases h
    | error e => rw [hx] at h; cases h
    | ok x =>
      rw [hx] at h
      simp only [Outcome.ok.injEq, Prod.mk.injEq] at h
      rw [← h.1, ← h.2]
  · rw [if_neg c] at h
    simp only [Outcome.ok.injEq, Prod.mk.injEq] at h
    rw [← h.1, ← h.2]

theorem scanFraction_lexeme {fuel start : Nat} {r : Int} {l : lexer} {lex : List Nat}
    {l3 : lexer} (h : scanFraction fuel start r l = Outcome.ok (lex, l3)) :
    lex = (l3.src.drop start).take (l3.pos - start) := by
  unfold scanFraction at h
  by_cases c : r = 46
  · rw [if_pos c] at h
    simp only at h
    by_cases hd : ¬ isDigit (l.next).1 = true
    · rw [if_pos hd] at h; cases h
    rw [if_neg hd] at h
    cases hx : scanDigits fuel (l.next).2 with
    | timeout => rw [hx] at h; cases h
    | error e => rw [hx] at h; cases h
    | ok x =>
      rw [hx] at h
      exact scanExponent_lexeme h
  · rw [if_neg c] at h
    exact scanExponent_lexeme h

theorem scanNumber_lexeme {l : lexer} {lex : List Nat} {l3 : lexer}
    (h : l.scanNumber = Outcome.ok (lex, l3)) :
    lex = (l3.src.drop l.pos).take (l3.pos - l.pos) := by
  unfold lexer.scanNumber at h
  simp only at h
  generalize (if (l.next).1 = 45 then (l.next).2.next else l.next) = n1 at h
  by_cases c1 : n1.1 = -1
  · rw [if_pos c1] at h; cases h
  rw [if_neg c1] at h
  by_cases c2 : n1.1 = 48
  · rw [if_pos c2] at h
    exact scanFraction_lexeme h
  rw [if_neg c2] at h
  by_cases c3 : 49 ≤ n1.1 ∧ n1.1 ≤ 57
  · rw [if_pos c3] at h
    cases hx : scanDigits (l.src.length - l.pos + 1) n1.2 with
    | timeout => rw [hx] at h; cases h
    | error e => rw [hx] at h; cases h
    | ok x =>
      rw [hx] at h
      exact scanFraction_lexeme h
  · rw [if_neg c3] at h; cases h

/-! ## The call stack -/

/-- On a stack of `cap` frames each recursive routine returns what it returns
on an unbounded stack, or the stack overflows; it overflows only when the
budget of the call exceeds the capacity. -/
theorem parseS_eq (pf : List Nat → Option Float64) : ∀ fuel : Nat,
    (∀ (cap : Nat) (p : parser),
      parseValueS pf cap fuel p = some (parseValue pf fuel p) ∨
        (parseValueS pf cap fuel p = none ∧ cap < fuel)) ∧
    (∀ (cap : Nat) (p : parser),
      parseObjectS pf cap fuel p = some (parseObject pf fuel p) ∨
        (parseObjectS pf cap fuel p = none ∧ cap < fuel)) ∧
    (∀ (cap : Nat) (obj : List (List Nat × Value)) (p : parser),
      parseObjectLoopS pf cap fuel obj p = some (parseObjectLoop pf fuel obj p) ∨
        (parseObjectLoopS pf cap fuel obj p = none ∧ cap < fuel)) ∧
    (∀ (cap : Nat) (p : parser),
      parseArrayS pf cap fuel p = some (parseArray pf fuel p) ∨
        (parseArrayS pf cap fuel p = none ∧ cap < fuel)) ∧
    (∀ (cap : Nat) (arr : List Value) (p : parser),
      parseArrayLoopS pf cap fuel arr p = some (parseArrayLoop pf fuel arr p) ∨
        (parseArrayLoopS pf cap fuel arr p = none ∧ cap < fuel)) := by
  intro fuel
  induction fuel with
  | zero =>
    refine ⟨?_, ?_, ?_, ?_, ?_⟩
    · intro cap p; left; cases cap <;> rfl
    · intro cap p; left; cases cap <;> rfl
    · intro cap obj p; left; rfl
    · intro cap p; left; cases cap <;> rfl
    · intro cap arr p; left; rfl
  | succ f ih =>
    obtain ⟨ihV, ihO, ihOL, ihA, ihAL⟩ := ih
    refine ⟨?_, ?_, ?_, ?_, ?_⟩
    · intro cap p
      cases cap with
      | zero => right; exact ⟨rfl, by omega⟩
      | succ c =>
        simp only [parseValueS, parseValue]
        cases hp : p.peek with
        | timeout => left; rfl
        | error e => left; rfl
        | ok y =>
          obtain ⟨t, p1⟩ := y
          obtain ⟨typ, lexeme⟩ := t
          cases typ with
          | tokLBrace =>
            simp only
            rcases ihO c p1 with h | ⟨h, hlt⟩
            · left
              rw [h]
              cases parseObject pf f p1 with
              | timeout => rfl
              | error e => rfl
              | ok z => rfl
            · right
              rw [h]
              exact ⟨rfl, by omega⟩
          | tokLBracket =>
            simp only
            rcases ihA c p1 with h | ⟨h, hlt⟩
            · left
              rw [h]
              cases parseArray pf f p1 with
              | timeout => rfl
              | error e => rfl
              | ok z => rfl
            · right
              rw [h]
              exact ⟨rfl, by omega⟩
          | tokString => left; rfl
          | tokNumber =>
            left
            simp only
            cases pf lexeme with
            | none => rfl
            | some n => rfl
          | tokTrue => left; rfl
          | tokFalse => left; rfl
          | tokNull => left; rfl
          | tokEOF => left; rfl
          | tokRBrace => left; rfl
          | tokRBracket => left; rfl
          | tokColon => left; rfl
          | tokComma => left; rfl
    · intro cap p
      cases cap with
      | zero => right; exact ⟨rfl, by omega⟩
      | succ c =>
        simp only [parseObjectS, parseObject]
        cases hx : p.expect tokenType.tokLBrace with
        | timeout => left; rfl
        | error e => left; rfl
        | ok p1 =>
          simp only
          cases hp : p1.peek with
          | timeout => left; rfl
          | error e => left; rfl
          | ok y =>
            obtain ⟨t, p2⟩ := y
            simp only
            by_cases c1 : t.typ = tokenType.tokRBrace
            · left; rw [if_pos c1, if_pos c1]
            · rw [if_neg c1, if_neg c1]
              rcases ihOL c [] p2 with h | ⟨h, hlt⟩
              · left; exact h
              · right; exact ⟨h, by omega⟩
    · intro cap obj p
      simp only [parseObjectLoopS, parseObjectLoop]
      cases hk : p.next with
      | timeout => left; rfl
      | error e => left; rfl
      | ok y =>
        obtain ⟨kt, p1⟩ := y
        simp only
        by_cases c1 : kt.typ ≠ tokenType.tokString
        · left; rw [if_pos c1, if_pos c1]
        rw [if_neg c1, if_neg c1]
        cases hx : p1.expect tokenType.tokColon with
        | timeout => left; rfl
        | error e => left; rfl
        | ok p2 =>
          simp only
          rcases ihV cap p2 with h | ⟨h, hlt⟩
          · rw [h]
            cases hv : parseValue pf f p2 with
            | timeout => left; rfl
            | error e => left; rfl
            | ok z =>
              obtain ⟨v, p3⟩ := z
              simp only
              cases hn : p3.next with
              | timeout => left; rfl
              | error e => left; rfl
              | ok u =>
                obtain ⟨nt, p4⟩ := u
                simp only
                by_cases d1 : nt.typ = tokenType.tokComma
                · rw [if_pos d1, if_pos d1]
                  rcases ihOL cap (mapSet obj kt.lexeme v) p4 with g | ⟨g, glt⟩
                  · left; exact g
                  · right; exact ⟨g, by omega⟩
                rw [if_neg d1, if_neg d1]
                by_cases d2 : nt.typ = tokenType.tokRBrace
                · left; rw [if_pos d2, if_pos d2]
                · left; rw [if_neg d2, if_neg d2]
          · right
            rw [h]
            exact ⟨rfl, by omega⟩
    · intro cap p
      cases cap with
      | zero => right; exact ⟨rfl, by omega⟩
      | succ c =>
        simp only [parseArrayS, parseArray]
        cases hx : p.expect tokenType.tokLBracket with
        | timeout => left; rfl
        | error e => left; rfl
        | ok p1 =>
          simp only
          cases hp : p1.peek with
          | timeout => left; rfl
          | error e => left; rfl
          | ok y =>
            obtain ⟨t, p2⟩ := y
            simp only
            by_cases c1 : t.typ = tokenType.tokRBracket
            · left; rw [if_pos c1, if_pos c1]
            · rw [if_neg c1, if_neg c1]
              rcases ihAL c [] p2 with h | ⟨h, hlt⟩
              · left; exact h
              · right; exact ⟨h, by omega⟩
    · intro cap arr p
      simp only [parseArrayLoopS, parseArrayLoop]
      rcases ihV cap p with h | ⟨h, hlt⟩
      · rw [h]
        cases hv : parseValue pf f p with
        | timeout => left; rfl
        | error e => left; rfl
        | ok z =>
          obtain ⟨v, p1⟩ := z
          simp only
          cases hn : p1.next with
          | timeout => left; rfl
          | error e => left; rfl
          | ok u =>
            obtain ⟨nt, p2⟩ := u
            simp only
            by_cases d1 : nt.typ = tokenType.tokComma
            · rw [if_pos d1, if_pos d1]
              rcases ihAL cap (arr ++ [v]) p2 with g | ⟨g, glt⟩
              · left; exact g
              · right; exact ⟨g, by omega⟩
            rw [if_neg d1, if_neg d1]
            by_cases d2 : nt.typ = tokenType.tokRBracket
            · left; rw [if_pos d2, if_pos d2]
            · left; rw [if_neg d2, if_neg d2]
      · right
        rw [h]
        exact ⟨rfl, by omega⟩

/-- On a stack of `cap` frames `Parse` returns what it returns on an unbounded
stack, or the stack overflows, which needs `cap < 3 * len(src) + 1`. -/
theorem ParseS_eq (pf : List Nat → Option Float64) (cap : Nat) (src : List Nat) :
    ParseS pf cap src = some (Parse pf src) ∨
      (ParseS pf cap src = none ∧ cap < 3 * src.length + 1) := by
  unfold ParseS Parse
  rcases (parseS_eq pf (3 * src.length + 1)).1 cap ⟨newLexer src, none⟩ with h | ⟨h, hlt⟩
  · left
    rw [h]
    cases hv : parseValue pf (3 * src.length + 1) ⟨newLexer src, none⟩ with
    | timeout => rfl
    | error e => rfl
    | ok y =>
      obtain ⟨v, p⟩ := y
      simp only
      cases hn : p.lex.nextToken with
      | timeout => rfl
      | error e => rfl
      | ok z =>
        obtain ⟨tok, l2⟩ := z
        simp only
        by_cases c : tok.typ ≠ tokenType.tokEOF
        · rw [if_pos c, if_pos c]
        · rw [if_neg c, if_neg c]
  · right
    rw [h]
    exact ⟨rfl, hlt⟩

/-- What `parseValue` does depends on its start state through `peek` only. -/
theorem parseValueS_congr (pf : List Nat → Option Float64) (cap fuel : Nat) {p p0 : parser}
    (hpk : p0.peek = p.peek) : parseValueS pf cap fuel p0 = parseValueS pf cap fuel p := by
  cases fuel with
  | zero => cases cap <;> rfl
  | succ f =>
    cases cap with
    | zero => rfl
    | succ c => simp only [parseValueS, hpk]

/-- With the token `[` buffered and `k` more bytes `[` left to read, and
nothing behind them, `parseValue` needs `2 * k + 3` frames: on fewer the stack
overflows. -/
theorem parseValueS_deep (pf : List Nat → Option Float64) {src : List Nat} :
    ∀ (k cap fuel i w : Nat), src.drop i = List.replicate k 91 → cap ≤ 2 * k + 2 →
      3 * k + 4 ≤ fuel →
      parseValueS pf cap fuel ⟨⟨src, i, w⟩, some ⟨tokenType.tokLBracket, []⟩⟩ = none := by
  intro k
  induction k with
  | zero =>
    intro cap fuel i w hd hcap hfuel
    obtain ⟨f3, rfl⟩ : ∃ f3, fuel = f3 + 4 := ⟨fuel - 4, by omega⟩
    have hpb : parser.peek ⟨⟨src, i, w⟩, some ⟨tokenType.tokLBracket, []⟩⟩ =
        Outcome.ok (⟨tokenType.tokLBracket, []⟩,
          ⟨⟨src, i, w⟩, some ⟨tokenType.tokLBracket, []⟩⟩) := parser_peek_buf rfl
    cases cap with
    | zero => simp only [parseValueS]
    | succ c =>
      simp only [parseValueS, hpb]
      cases c with
      | zero => simp only [parseArrayS]
      | succ c1 =>
        have hc1 : c1 = 0 := by omega
        subst hc1
        have hx : parser.expect ⟨⟨src, i, w⟩, some ⟨tokenType.tokLBracket, []⟩⟩
            tokenType.tokLBracket = Outcome.ok ⟨⟨src, i, w⟩, none⟩ := by
          simp [parser.expect, parser.next]
        have hn := nextToken_eof (s := src) (p := i) (w := w) (by simpa using hd)
        have hp : parser.peek ⟨⟨src, i, w⟩, none⟩ =
            Outcome.ok (⟨tokenType.tokEOF, []⟩, ⟨⟨src, i, 0⟩, some ⟨tokenType.tokEOF, []⟩⟩) := by
          rw [parser_peek_none rfl, hn]
        simp only [parseArrayS, hx, hp]
        rw [if_neg (show ¬ tokenType.tokEOF = tokenType.tokRBracket by decide)]
        simp only [parseArrayLoopS, parseValueS]
  | succ k ih =>
    intro cap fuel i w hd hcap hfuel
    obtain ⟨f3, rfl⟩ : ∃ f3, fuel = f3 + 3 := ⟨fuel - 3, by omega⟩
    have hpb : parser.peek ⟨⟨src, i, w⟩, some ⟨tokenType.tokLBracket, []⟩⟩ =
        Outcome.ok (⟨tokenType.tokLBracket, []⟩,
          ⟨⟨src, i, w⟩, some ⟨tokenType.tokLBracket, []⟩⟩) := parser_peek_buf rfl
    cases cap with
    | zero => simp only [parseValueS]
    | succ c =>
      simp only [parseValueS, hpb]
      cases c with
      | zero => simp only [parseArrayS]
      | succ c1 =>
        have hx : parser.expect ⟨⟨src, i, w⟩, some ⟨tokenType.tokLBracket, []⟩⟩
            tokenType.tokLBracket = Outcome.ok ⟨⟨src, i, w⟩, none⟩ := by
          simp [parser.expect, parser.next]
        have hd1 : src.drop i = 91 :: List.replicate k 91 := by
          rw [hd, List.replicate_succ]
        have hn := nextToken_struct (k := tokenType.tokLBracket) w hd1 (by simp)
        have hp : parser.peek ⟨⟨src, i, w⟩, none⟩ =
            Outcome.ok (⟨tokenType.tokLBracket, []⟩,
              ⟨⟨src, i + 1, 1⟩, some ⟨tokenType.tokLBracket, []⟩⟩) := by
          rw [parser_peek_none rfl, hn]
        simp only [parseArrayS, hx, hp]
        rw [if_neg (show ¬ tokenType.tokLBracket = tokenType.tokRBracket by decide)]
        simp only [parseArrayLoopS]
        rw [ih c1 f3 (i + 1) 1 (drop_succ_of_cons hd1) (by omega) (by omega)]

/-- The input of `n` bytes `[` overflows every stack of at most `2 * n`
frames. -/
theorem ParseS_deep (pf : List Nat → Option Float64) (n cap : Nat) (hn : 0 < n)
    (hcap : cap ≤ 2 * n) : ParseS pf cap (List.replicate n 91) = none := by
  obtain ⟨k, rfl⟩ : ∃ k, n = k + 1 := ⟨n - 1, by omega⟩
  have hd0 : (List.replicate (k + 1) 91).drop 0 = 91 :: List.replicate k 91 := by
    rw [List.drop_zero, List.replicate_succ]
  have hn0 := nextToken_struct (k := tokenType.tokLBracket) 0 hd0 (by simp)
  have hpk : parser.peek ⟨newLexer (List.replicate (k + 1) 91), none⟩ =
      parser.peek ⟨⟨List.replicate (k + 1) 91, 0 + 1, 1⟩, some ⟨tokenType.tokLBracket, []⟩⟩ := by
    rw [parser_peek_none rfl, parser_peek_buf rfl]
    simp only [newLexer]
    rw [hn0]
  unfold ParseS
  rw [parseValueS_congr pf _ _ hpk,
    parseValueS_deep pf k cap _ (0 + 1) 1 (drop_succ_of_cons hd0) (by omega)
      (by simp only [List.length_replicate]; omega)]

/-! ## `ParseFloat` on an integer literal and on the same literal with `.0` -/

theorem roundDiv_scale (c x y : Nat) (hc : 0 < c) :
    roundDiv (c * x) (c * y) = roundDiv x y := by
  unfold roundDiv
  rw [Nat.mul_mod_mul_left, Nat.mul_div_mul_left _ _ hc]
  have e : 2 * (c * (x % y)) = c * (2 * (x % y)) := by ring
  rw [e]
  by_cases h1 : 2 * (x % y) < y
  · have h1' : c * (2 * (x % y)) < c * y := Nat.mul_lt_mul_of_pos_left h1 hc
    rw [if_pos h1, if_pos h1']
  · have h1' : ¬ c * (2 * (x % y)) < c * y := by
      intro h
      exact h1 (Nat.lt_of_mul_lt_mul_left h)
    rw [if_neg h1, if_neg h1']
    by_cases h2 : y < 2 * (x % y)
    · have h2' : c * y < c * (2 * (x % y)) := Nat.mul_lt_mul_of_pos_left h2 hc
      rw [if_pos h2, if_pos h2']
    · have h2' : ¬ c * y < c * (2 * (x % y)) := by
        intro h
        exact h2 (Nat.lt_of_mul_lt_mul_left h)
      rw [if_neg h2, if_neg h2']

theorem pred_div_scale (c n d : Nat) (hc : 0 < c) (hn : 0 < n) (hd : 0 < d) :
    (c * d - 1) / (c * n) = (d - 1) / n := by
  have hq1 : (d - 1) / n * n ≤ d - 1 := Nat.div_mul_le_self _ _
  have hq2 : d - 1 < ((d - 1) / n + 1) * n := by
    have := Nat.lt_succ_iff.2 (le_refl ((d - 1) / n))
    exact (Nat.div_lt_iff_lt_mul hn).1 this
  have hcd : c ≤ c * d := Nat.le_mul_of_pos_right c hd
  apply Nat.div_eq_of_lt_le
  · -- (d - 1) / n * (c * n) ≤ c * d - 1
    have h1 : c * ((d - 1) / n * n) ≤ c * (d - 1) := Nat.mul_le_mul_left c hq1
    have h2 : c * (d - 1) = c * d - c := Nat.mul_sub_one c d
    have h3 : (d - 1) / n * (c * n) = c * ((d - 1) / n * n) := by ring
    rw [h3]
    omega
  · -- c * d - 1 < ((d - 1) / n + 1) * (c * n)
    have h1 : c * d ≤ c * (((d - 1) / n + 1) * n) := Nat.mul_le_mul_left c (by omega)
    have h3 : ((d - 1) / n + 1) * (c * n) = c * (((d - 1) / n + 1) * n) := by ring
    rw [h3]
    omega

theorem binExp_scale (c n d : Nat) (hc : 0 < c) (hn : 0 < n) :
    binExp (c * n) (c * d) = binExp n d := by
  unfold binExp
  by_cases h : d ≤ n
  · rw [if_pos h, if_pos (Nat.mul_le_mul_left c h), Nat.mul_div_mul_left _ _ hc]
  · have h' : ¬ c * d ≤ c * n := by
      intro hle
      exact h (Nat.le_of_mul_le_mul_left hle hc)
    rw [if_neg h, if_neg h', pred_div_scale c n d hc hn (by omega)]

/-- The value nearest to a fraction does not depend on how the fraction is
written. -/
theorem float64Bits_scale (c n d : Nat) (hc : 0 < c) :
    float64Bits (c * n) (c * d) = float64Bits n d := by
  unfold float64Bits
  by_cases hn : n = 0
  · subst hn
    simp
  · have hcn : c * n ≠ 0 := Nat.mul_ne_zero (by omega) hn
    rw [if_neg hn, if_neg hcn, binExp_scale c n d hc (by omega)]
    simp only
    have e1 : ∀ k : Nat, c * d * 2 ^ k = c * (d * 2 ^ k) := fun k => by ring
    have e2 : ∀ k : Nat, c * n * 2 ^ k = c * (n * 2 ^ k) := fun k => by ring
    rw [e1, e2, roundDiv_scale _ _ _ hc, roundDiv_scale _ _ _ hc]

theorem readMantissa_digits : ∀ (ds rest : List Nat) (sd : Bool) (m : Nat),
    ds.all isDigitByte = true →
    readMantissa (ds ++ rest) false sd m 0 =
      readMantissa rest false (sd || !ds.isEmpty)
        (ds.foldl (fun a c => a * 10 + (c - 48)) m) 0 := by
  intro ds
  induction ds with
  | nil => intro rest sd m _; simp
  | cons c t ih =>
    intro rest sd m h
    simp only [List.all_cons, Bool.and_eq_true] at h
    have hc : 48 ≤ c ∧ c ≤ 57 := by simpa [isDigitByte] using h.1
    have h46 : ¬ c = 46 := by omega
    have step : readMantissa (c :: (t ++ rest)) false sd m 0 =
        readMantissa (t ++ rest) false true (m * 10 + (c - 48)) 0 := by
      simp only [readMantissa, h46, if_false, hc, and_self, if_true, Bool.false_eq_true]
    rw [List.cons_append, step, ih rest true _ h.2]
    simp

theorem nonzeroInt_digits {int : List Nat} (h : nonzeroInt int = true) :
    int.all isDigitByte = true ∧ int.isEmpty = false ∧
      ∃ d ds, int = d :: ds ∧ 49 ≤ d ∧ d ≤ 57 := by
  cases int with
  | nil => simp [nonzeroInt] at h
  | cons d ds =>
    simp only [nonzeroInt, Bool.and_eq_true, decide_eq_true_eq] at h
    refine ⟨?_, rfl, d, ds, rfl, h.1.1, h.1.2⟩
    simp only [List.all_cons, Bool.and_eq_true]
    refine ⟨?_, h.2⟩
    simp only [isDigitByte, decide_eq_true_eq]
    omega

/-- Behind the optional minus sign of an integer literal `readFloat` reads
the digits and what follows them. -/
theorem readFloat_sign (neg : Bool) (int tail : List Nat) (h : nonzeroInt int = true) :
    readFloat ((if neg then [45] else []) ++ int ++ tail) =
      readUnsigned neg (int ++ tail) := by
  obtain ⟨_, _, d, ds, rfl, hd1, hd2⟩ := nonzeroInt_digits h
  cases neg with
  | true =>
    simp [readFloat]
  | false =>
    have h43 : ¬ d = 43 := by omega
    have h45 : ¬ d = 45 := by omega
    simp [readFloat, h43, h45]

theorem readFloat_int (neg : Bool) (int : List Nat) (h : nonzeroInt int = true) :
    readFloat ((if neg then [45] else []) ++ int) = some (neg, digitsValue int, 1) := by
  have h0 := readFloat_sign neg int [] h
  simp only [List.append_nil] at h0
  rw [h0]
  obtain ⟨hall, hemp, _⟩ := nonzeroInt_digits h
  have hm := readMantissa_digits int [] false 0 hall
  simp only [List.append_nil] at hm
  unfold readUnsigned
  rw [hm]
  simp [readMantissa, hemp, readExponent, digitsValue]

theorem readFloat_int_point_zero (neg : Bool) (int : List Nat) (h : nonzeroInt int = true) :
    readFloat ((if neg then [45] else []) ++ int ++ [46, 48]) =
      some (neg, 10 * digitsValue int, 10 * 1) := by
  rw [readFloat_sign neg int [46, 48] h]
  obtain ⟨hall, hemp, _⟩ := nonzeroInt_digits h
  unfold readUnsigned
  rw [readMantissa_digits int [46, 48] false 0 hall]
  simp [readMantissa, hemp, readExponent, digitsValue, Nat.mul_comm]

/-- `ParseFloat` returns the same for an integer literal and for the literal
followed by `.0`. -/
theorem ParseFloat_point_zero (neg : Bool) (int : List Nat) (h : nonzeroInt int = true) :
    ParseFloat ((if neg then [45] else []) ++ int ++ [46, 48]) =
      ParseFloat ((if neg then [45] else []) ++ int) := by
  unfold ParseFloat
  rw [readFloat_int neg int h, readFloat_int_point_zero neg int h]
  simp only
  rw [float64Bits_scale 10 _ 1 (by decide)]

theorem log2Loop_spec : ∀ (fuel n : Nat), 0 < n → n ≤ fuel →
    2 ^ log2Loop fuel n ≤ n ∧ n < 2 ^ (log2Loop fuel n + 1) := by
  intro fuel
  induction fuel with
  | zero => intro n h0 h1; omega
  | succ f ih =>
    intro n h0 h1
    simp only [log2Loop]
    by_cases h2 : n < 2
    · rw [if_pos h2]
      simp
      omega
    · rw [if_neg h2]
      obtain ⟨a1, a2⟩ := ih (n / 2) (by omega) (by omega)
      rw [pow_succ, pow_succ, pow_succ]
      constructor <;> omega

theorem log2Floor_spec {n : Nat} (h : 0 < n) :
    2 ^ log2Floor n ≤ n ∧ n < 2 ^ (log2Floor n + 1) :=
  log2Loop_spec n n h (le_refl n)

theorem roundDiv_le (x y : Nat) : roundDiv x y ≤ x / y + 1 := by
  unfold roundDiv
  split_ifs <;> omega

theorem roundDiv_one (x : Nat) : roundDiv x 1 = x := by
  unfold roundDiv
  simp [Nat.mod_one]

set_option exponentiation.threshold 2000 in
/-- Every positive integer below `2 ^ 1023` has a nearest finite binary64
value. -/
theorem float64Bits_in_range {n : Nat} (h0 : 0 < n) (h : n < 2 ^ 1023) :
    ∃ b, float64Bits n 1 = some b := by
  obtain ⟨l1, l2⟩ := log2Floor_spec h0
  have hL : log2Floor n ≤ 1022 := by
    by_contra hc
    have : 2 ^ 1023 ≤ 2 ^ log2Floor n := Nat.pow_le_pow_right (by decide) (by omega)
    omega
  have hm : ∀ m : Nat, m ≤ 2 ^ 53 →
      (log2Floor n + 1022) * 2 ^ 52 + m < 0x7FF0000000000000 := by
    intro m hm
    have : (log2Floor n + 1022) * 2 ^ 52 ≤ 2044 * 2 ^ 52 :=
      Nat.mul_le_mul_right _ (by omega)
    norm_num at this hm ⊢
    omega
  unfold float64Bits
  rw [if_neg (by omega)]
  have hb : binExp n 1 = (log2Floor n : Int) := by
    unfold binExp
    rw [if_pos (by omega), Nat.div_one]
  simp only [hb]
  have he : max (log2Floor n : Int) (-1022) = (log2Floor n : Int) := by omega
  rw [he]
  have e1 : ((log2Floor n : Int) + 1022).toNat = log2Floor n + 1022 := by omega
  rw [e1]
  by_cases c : (52 : Int) ≤ (log2Floor n : Int)
  · rw [if_pos c]
    have e2 : ((log2Floor n : Int) - 52).toNat = log2Floor n - 52 := by omega
    rw [e2, Nat.one_mul]
    have hq : n / 2 ^ (log2Floor n - 52) < 2 ^ 53 := by
      rw [Nat.div_lt_iff_lt_mul (Nat.pow_pos (by decide))]
      have : 2 ^ 53 * 2 ^ (log2Floor n - 52) = 2 ^ (log2Floor n + 1) := by
        rw [← pow_add]
        congr 1
        omega
      rw [this]
      exact l2
    have := roundDiv_le n (2 ^ (log2Floor n - 52))
    rw [if_pos (hm _ (by omega))]
    exact ⟨_, rfl⟩
  · rw [if_neg c]
    have e2 : (52 - (log2Floor n : Int)).toNat = 52 - log2Floor n := by omega
    rw [e2, roundDiv_one]
    have hq : n * 2 ^ (52 - log2Floor n) < 2 ^ 53 := by
      have : 2 ^ 53 = 2 ^ (log2Floor n + 1) * 2 ^ (52 - log2Floor n) := by
        rw [← pow_add]
        congr 1
        omega
      rw [this]
      exact Nat.mul_lt_mul_of_pos_right l2 (Nat.pow_pos (by decide))
    rw [if_pos (hm _ (by omega))]
    exact ⟨_, rfl⟩

theorem foldl_digits_lt : ∀ (ds : List Nat) (m : Nat), ds.all isDigitByte = true →
    ds.foldl (fun a c => a * 10 + (c - 48)) m < (m + 1) * 10 ^ ds.length := by
  intro ds
  induction ds with
  | nil => intro m _; simp
  | cons c t ih =>
    intro m h
    simp only [List.all_cons, Bool.and_eq_true] at h
    have hc : 48 ≤ c ∧ c ≤ 57 := by simpa [isDigitByte] using h.1
    have := ih (m * 10 + (c - 48)) h.2
    simp only [List.foldl_cons, List.length_cons, pow_succ]
    have hle : (m * 10 + (c - 48) + 1) * 10 ^ t.length ≤ (m + 1) * 10 * 10 ^ t.length :=
      Nat.mul_le_mul_right _ (by omega)
    have e : (m + 1) * (10 ^ t.length * 10) = (m + 1) * 10 * 10 ^ t.length := by ring
    rw [e]
    omega

theorem digitsValue_lt {ds : List Nat} (h : ds.all isDigitByte = true) :
    digitsValue ds < 10 ^ ds.length := by
  have := foldl_digits_lt ds 0 h
  simpa [digitsValue] using this

theorem digitsValue_pos {int : List Nat} (h : nonzeroInt int = true) : 0 < digitsValue int := by
  obtain ⟨_, _, d, ds, rfl, hd1, hd2⟩ := nonzeroInt_digits h
  have mono : ∀ (t : List Nat) (m : Nat), m ≤ t.foldl (fun a c => a * 10 + (c - 48)) m := by
    intro t
    induction t with
    | nil => intro m; simp
    | cons c t ih =>
      intro m
      have := ih (m * 10 + (c - 48))
      simp only [List.foldl_cons]
      omega
  have := mono ds (0 * 10 + (d - 48))
  simp only [digitsValue, List.foldl_cons]
  omega

theorem foldl_zeros : ∀ (k m : Nat),
    (List.replicate k 48).foldl (fun a c => a * 10 + (c - 48)) m = m * 10 ^ k := by
  intro k
  induction k with
  | zero => intro m; simp
  | succ k ih =>
    intro m
    rw [List.replicate_succ, List.foldl_cons, ih, pow_succ]
    ring

/-- The digit `1` followed by `k` zeros spells `10 ^ k`. -/
theorem digitsValue_one_zeros (k : Nat) : digitsValue (49 :: List.replicate k 48) = 10 ^ k := by
  simp only [digitsValue, List.foldl_cons]
  rw [foldl_zeros]
  simp

theorem nonzeroInt_one_zeros (k : Nat) : nonzeroInt (49 :: List.replicate k 48) = true := by
  simp [nonzeroInt, isDigitByte]

set_option exponentiation.threshold 2000 in
set_option maxRecDepth 100000 in
/-- The value `10 ^ 309` is beyond the largest finite binary64 number. -/
theorem float64Bits_overflow : float64Bits (10 ^ 309) 1 = none := by decide

/-- `ParseFloat` reports a range error for `1` followed by 309 zeros, with or
without `.0`. -/
theorem ParseFloat_overflow :
    ParseFloat (49 :: List.replicate 309 48) = none ∧
    ParseFloat (49 :: List.replicate 309 48 ++ [46, 48]) = none := by
  have h := nonzeroInt_one_zeros 309
  have h1 := readFloat_int false _ h
  have hp := ParseFloat_point_zero false _ h
  simp only [Bool.false_eq_true, if_false, List.nil_append] at h1 hp
  have e : ParseFloat (49 :: List.replicate 309 48) = none := by
    unfold ParseFloat
    rw [h1, digitsValue_one_zeros]
    simp only
    rw [float64Bits_overflow]
  exact ⟨e, by rw [hp, e]⟩

/-! ## The claims -/

theorem scanNumber_zero {s : List Nat} {p w : Nat} {t : List Nat}
    (hdrop : s.drop p = 48 :: t) :
    lexer.scanNumber ⟨s, p, w⟩ = Outcome.ok ([], ⟨s, p, 1⟩) := by
  have hn : lexer.next ⟨s, p, w⟩ = (((48 : Nat) : Int), ⟨s, p + 1, 1⟩) :=
    next_ascii hdrop (by decide)
  simp [lexer.scanNumber, hn, scanFraction, scanExponent, lexer.backup]

theorem scanNumber_minus_zero {s : List Nat} {p w : Nat} {t : List Nat}
    (hdrop : s.drop p = 45 :: 48 :: t) :
    lexer.scanNumber ⟨s, p, w⟩ = Outcome.ok ([45], ⟨s, p + 1, 1⟩) := by
  have hn : lexer.next ⟨s, p, w⟩ = (((45 : Nat) : Int), ⟨s, p + 1, 1⟩) :=
    next_ascii hdrop (by decide)
  have hn2 : lexer.next ⟨s, p + 1, 1⟩ = (((48 : Nat) : Int), ⟨s, p + 1 + 1, 1⟩) :=
    next_ascii (drop_succ_of_drop_cons hdrop) (by decide)
  simp [lexer.scanNumber, hn, hn2, scanFraction, scanExponent, lexer.backup, hdrop]

/-- C2 (the code departs from the claim): on a number literal whose integer
part is `0`, whatever follows it, `nextToken` returns a number token with an
empty lexeme and leaves the cursor on the `0`; after a minus sign the lexeme
is the sign alone and the cursor is on the `0`.  The `0`, the fraction and
the exponent are not scanned, and `Parse` of `0` fails for every conversion
function. -/
theorem C2_leading_zero_not_scanned (pre t : List Nat) (w : Nat)
    (pf : List Nat → Option Float64) :
    lexer.nextToken ⟨pre ++ 48 :: t, pre.length, w⟩ =
        Outcome.ok (⟨tokenType.tokNumber, []⟩, ⟨pre ++ 48 :: t, pre.length, 1⟩) ∧
    lexer.nextToken ⟨pre ++ 45 :: 48 :: t, pre.length, w⟩ =
        Outcome.ok (⟨tokenType.tokNumber, [45]⟩, ⟨pre ++ 45 :: 48 :: t, pre.length + 1, 1⟩) ∧
    (∃ e, Parse pf [48] = Outcome.error e) := by
  refine ⟨?_, ?_, ?_⟩
  · have hdrop : (pre ++ 48 :: t).drop pre.length = 48 :: t := List.drop_left _ _
    rw [nextToken_number_start hdrop (by omega), scanNumber_zero hdrop]
  · have hdrop : (pre ++ 45 :: 48 :: t).drop pre.length = 45 :: 48 :: t := List.drop_left _ _
    rw [nextToken_number_start hdrop (by omega), scanNumber_minus_zero hdrop]
  · have h0 : lexer.nextToken ⟨[48], 0, 0⟩ =
        Outcome.ok (⟨tokenType.tokNumber, []⟩, ⟨[48], 0, 1⟩) := by decide
    have h1 : lexer.nextToken ⟨[48], 0, 1⟩ =
        Outcome.ok (⟨tokenType.tokNumber, []⟩, ⟨[48], 0, 1⟩) := by decide
    cases hpf : pf [] with
    | none =>
      exact ⟨Err.invalidNumberConversion [], by
        simp [Parse, parseValue, parser.peek, newLexer, h0, hpf]⟩
    | some x =>
      exact ⟨Err.unexpectedTrailingContent, by
        simp [Parse, parseValue, parser.peek, newLexer, h0, hpf, parser.skip, parser.next, h1]⟩

/-- C6: for hex digit bytes (either case) writing a high surrogate `h` and a
low surrogate `l`, `Parse` of the string literal holding just the escapes
`\uHHHH\uLLLL` returns the string that is the UTF-8 encoding of the single
scalar value `0x10000 + (h - 0xD800) * 0x400 + (l - 0xDC00)`; that value lies
in `0x10000..0x10FFFF` and the string decodes to it as one code point. -/
theorem C6_surrogate_pair_combined (pf : List Nat → Option Float64)
    (a b c d a1 b1 c1 d1 h l : Nat)
    (hh : hex4 a b c d = some h) (hl : hex4 a1 b1 c1 d1 = some l)
    (hhi : 0xD800 ≤ h ∧ h ≤ 0xDBFF) (hlo : 0xDC00 ≤ l ∧ l ≤ 0xDFFF) :
    Parse pf [34, 92, 117, a, b, c, d, 92, 117, a1, b1, c1, d1, 34] =
        Outcome.ok (Value.string
          (encodeRune ((0x10000 + (h - 0xD800) * 0x400 + (l - 0xDC00) : Nat) : Int))) ∧
    0x10000 ≤ 0x10000 + (h - 0xD800) * 0x400 + (l - 0xDC00) ∧
    0x10000 + (h - 0xD800) * 0x400 + (l - 0xDC00) ≤ 0x10FFFF ∧
    DecodeRune (encodeRune ((0x10000 + (h - 0xD800) * 0x400 + (l - 0xDC00) : Nat) : Int)) =
      (((0x10000 + (h - 0xD800) * 0x400 + (l - 0xDC00) : Nat) : Int),
        (encodeRune ((0x10000 + (h - 0xD800) * 0x400 + (l - 0xDC00) : Nat) : Int)).length) := by
  have hrs : itemsRunes [StringItem.pair a b c d a1 b1 c1 d1] =
      some [((0x10000 + (h - 0xD800) * 0x400 + (l - 0xDC00) : Nat) : Int)] := by
    simp only [itemsRunes, StringItem.rune, hh, hl]
    rw [if_pos ⟨hhi, hlo⟩]
  have hp := Parse_string pf [StringItem.pair a b c d a1 b1 c1 d1] hrs
  refine ⟨?_, by omega, by omega, ?_⟩
  · simpa [itemsText, StringItem.text, stringOfRunes] using hp
  · have := DecodeRune_encodeRune (0x10000 + (h - 0xD800) * 0x400 + (l - 0xDC00)) []
      (by omega) (by omega)
    simpa using this

/-- C6, at `😀`: the result is the encoding of U+1F600. -/
theorem C6_surrogate_pair_combined_witness :
    Parse (fun _ => none) [34, 92, 117, 68, 56, 51, 68, 92, 117, 68, 69, 48, 48, 34] =
        Outcome.ok (Value.string (encodeRune ((0x1F600 : Nat) : Int))) ∧
    encodeRune ((0x1F600 : Nat) : Int) = [0xF0, 0x9F, 0x98, 0x80] :=
  ⟨(C6_surrogate_pair_combined (fun _ => none) 68 56 51 68 68 69 48 48 0xD83D 0xDE00
      (by decide) (by decide) (by decide) (by decide)).1, by decide⟩

theorem itemsRunes_length : ∀ (items : List StringItem) (rs : List Int),
    itemsRunes items = some rs → rs.length = items.length := by
  intro items
  induction items with
  | nil => intro rs h; simp [itemsRunes] at h; subst h; rfl
  | cons it rest ih =>
    intro rs h
    simp only [itemsRunes] at h
    cases hr : it.rune with
    | none => simp [hr] at h
    | some r =>
      cases hrest : itemsRunes rest with
      | none => simp [hr, hrest] at h
      | some rs1 =>
        simp only [hr, hrest, Option.some.injEq] at h
        subst h
        simp [ih rs1 hrest]

/-- C8: a string literal made of escape-free text (scalar values other than
`"` and `\`, in UTF-8) and two-character escapes parses to the string of
their scalar values, one per item and in order, each escape standing for the
value the table gives: `\"` U+0022, `\\` U+005C, `\/` U+002F, `\b` U+0008,
`\f` U+000C, `\n` U+000A, `\r` U+000D, `\t` U+0009. -/
theorem C8_two_character_escapes (pf : List Nat → Option Float64)
    (items : List StringItem) (rs : List Int)
    (_hkind : items.all StringItem.isPlain = true) (hrs : itemsRunes items = some rs) :
    Parse pf (34 :: (itemsText items ++ [34])) = Outcome.ok (Value.string (stringOfRunes rs)) ∧
    rs.length = items.length ∧
    [escapeRune 34, escapeRune 92, escapeRune 47, escapeRune 98, escapeRune 102,
      escapeRune 110, escapeRune 114, escapeRune 116] =
      [some 0x22, some 0x5C, some 0x2F, some 0x08, some 0x0C, some 0x0A, some 0x0D, some 0x09] :=
  ⟨Parse_string pf items hrs, itemsRunes_length items rs hrs, by decide⟩

/-- C8, at `"hello\nworld"`: eleven scalar values, a line feed at index 5. -/
theorem C8_two_character_escapes_witness :
    Parse (fun _ => none)
        [34, 104, 101, 108, 108, 111, 92, 110, 119, 111, 114, 108, 100, 34] =
      Outcome.ok (Value.string
        (stringOfRunes [104, 101, 108, 108, 111, 10, 119, 111, 114, 108, 100])) :=
  (C8_two_character_escapes (fun _ => none)
    [StringItem.raw 104, StringItem.raw 101, StringItem.raw 108, StringItem.raw 108,
      StringItem.raw 111, StringItem.esc 110, StringItem.raw 119, StringItem.raw 111,
      StringItem.raw 114, StringItem.raw 108, StringItem.raw 100]
    [104, 101, 108, 108, 111, 10, 119, 111, 114, 108, 100] (by decide) (by decide)).1

/-- C9: a string literal made of `\uXXXX` escapes (hex digits in either case)
whose values lie outside `0xD800..0xDFFF` parses to the string of exactly
those values, one scalar value per escape and in order. -/
theorem C9_unicode_escapes (pf : List Nat → Option Float64)
    (items : List StringItem) (rs : List Int)
    (_hkind : items.all StringItem.isUnicode = true) (hrs : itemsRunes items = some rs) :
    Parse pf (34 :: (itemsText items ++ [34])) = Outcome.ok (Value.string (stringOfRunes rs)) ∧
    rs.length = items.length :=
  ⟨Parse_string pf items hrs, itemsRunes_length items rs hrs⟩

/-- C9, at `"Aß"`: the two scalar values U+0041 and U+00DF, that is
the text `Aß`. -/
theorem C9_unicode_escapes_witness :
    Parse (fun _ => none) [34, 92, 117, 48, 48, 52, 49, 92, 117, 48, 48, 68, 70, 34] =
        Outcome.ok (Value.string (stringOfRunes [0x41, 0xDF])) ∧
    stringOfRunes [0x41, 0xDF] = [0x41, 0xC3, 0x9F] :=
  ⟨(C9_unicode_escapes (fun _ => none)
      [StringItem.uni 48 48 52 49, StringItem.uni 48 48 68 70] [0x41, 0xDF]
      (by decide) (by decide)).1, by decide⟩

/-- C10: for a literal `-? [1-9][0-9]* (. [0-9]+)? ([eE] [+-]? [0-9]+)?`
followed by the end of the buffer or a delimiter, `nextToken` started on its
first byte returns a number token whose lexeme is the literal byte for byte
and leaves the cursor on the first byte behind it. -/
theorem C10_number_lexeme_verbatim (n : NumberLiteral) (pre rest : List Nat) (w : Nat)
    (hint : nonzeroInt n.int = true) (hfr : fracOk n.frac = true) (hexp : expOk n.exp = true)
    (hr : delimited rest = true) :
    ∃ w1, lexer.nextToken ⟨pre ++ n.text ++ rest, pre.length, w⟩ =
      Outcome.ok (⟨tokenType.tokNumber, n.text⟩,
        ⟨pre ++ n.text ++ rest, pre.length + n.text.length, w1⟩) :=
  nextToken_number w hint hfr hexp hr

/-- C10, at `-12.5e+3,` behind a `[`. -/
theorem C10_number_lexeme_verbatim_witness :
    ∃ w1, lexer.nextToken ⟨[91, 45, 49, 50, 46, 53, 101, 43, 51, 44], 1, 0⟩ =
      Outcome.ok (⟨tokenType.tokNumber, [45, 49, 50, 46, 53, 101, 43, 51]⟩,
        ⟨[91, 45, 49, 50, 46, 53, 101, 43, 51, 44], 9, w1⟩) :=
  C10_number_lexeme_verbatim ⟨true, [49, 50], some [53], some (101, [43], [51])⟩ [91] [44] 0
    (by decide) (by decide) (by decide) (by decide)

/-- C5: when the token sequence of the input has a comma token immediately
followed by a `]` or `}` token, `Parse` returns an error (and no value). -/
theorem C5_trailing_comma_rejected (pf : List Nat → Option Float64) (src : List Nat) (j : Nat)
    (h : trailingCommaAt j (newLexer src) = true) :
    ∃ e, Parse pf src = Outcome.error e := by
  cases hp : Parse pf src with
  | ok v =>
    have := (Parse_ok_tokens hp).1 j
    rw [this] at h
    cases h
  | error e => exact ⟨e, rfl⟩
  | timeout => exact absurd hp (Parse_ne_timeout pf src)

/-- C5, at `[1,2,]` and at `{"a":1,}`: the comma is token number 4 of both. -/
theorem C5_trailing_comma_rejected_witness :
    (∃ e, Parse (fun _ => some ⟨0⟩) [91, 49, 44, 50, 44, 93] = Outcome.error e) ∧
    (∃ e, Parse (fun _ => some ⟨0⟩) [123, 34, 97, 34, 58, 49, 44, 125] = Outcome.error e) ∧
    Parse (fun _ => some ⟨0⟩) [91, 49, 44, 50, 44, 93] = Outcome.error Err.invalidJSONValue ∧
    Parse (fun _ => some ⟨0⟩) [123, 34, 97, 34, 58, 49, 44, 125] =
      Outcome.error Err.expectedStringKey :=
  ⟨C5_trailing_comma_rejected (fun _ => some ⟨0⟩) [91, 49, 44, 50, 44, 93] 4 (by decide),
   C5_trailing_comma_rejected (fun _ => some ⟨0⟩) [123, 34, 97, 34, 58, 49, 44, 125] 4
     (by decide),
   rfl, rfl⟩

/-- C7: when `nextToken`, called during the tokenization of the input, starts
the scan of a string literal (the opening quote read, the scanner in `lq`) and
that scan reaches, at the top of its loop, a `\uXXXX` escape that is a high
surrogate not followed at once by a `\uYYYY` escape that is a low surrogate,
or a `\uXXXX` escape that is a low surrogate, then `scanString` returns an
error and `Parse` returns an error. -/
theorem C7_lone_surrogate_rejected (pf : List Nat → Option Float64) (src : List Nat)
    (k n : Nat) (lk ls lq l : lexer) (out : List Int)
    (hk : lexAfter k (newLexer src) = Outcome.ok lk)
    (hs : lk.skipWS = Outcome.ok ls) (hq : ls.next = (34, lq))
    (hreach : scanStringAfter n [] lq = some (out, l))
    (hlone : loneSurrogateAt (l.src.drop l.pos) = true) :
    (∃ e, lq.scanString = Outcome.error e) ∧ (∃ e, Parse pf src = Outcome.error e) := by
  obtain ⟨e, he⟩ := scanString_loneSurrogate hreach hlone
  refine ⟨⟨e, he⟩, ?_⟩
  have htok : lk.nextToken = Outcome.error e := by
    simp [lexer.nextToken, hs, hq, he]
  have hat : tokenAt k (newLexer src) = Outcome.error e := by
    simp [tokenAt, hk, htok]
  cases hp : Parse pf src with
  | ok v =>
    obtain ⟨t, ht⟩ := (Parse_ok_tokens hp).2 k
    rw [hat] at ht
    cases ht
  | error e1 => exact ⟨e1, rfl⟩
  | timeout => exact absurd hp (Parse_ne_timeout pf src)

/-- C7, at `"\uD83D"` (the lone high surrogate is met in the first pass of
the loop, right behind the opening quote), with the errors `Parse` returns
on it and on `"\uD83Dx"`, `"\uD83D\u0041"`, `"\uDE00\uD83D"` and `"\uDE00"`. -/
theorem C7_lone_surrogate_rejected_witness :
    ((∃ e, lexer.scanString ⟨[34, 92, 117, 68, 56, 51, 68, 34], 1, 1⟩ = Outcome.error e) ∧
      (∃ e, Parse (fun _ => none) [34, 92, 117, 68, 56, 51, 68, 34] = Outcome.error e)) ∧
    Parse (fun _ => none) [34, 92, 117, 68, 56, 51, 68, 34] =
      Outcome.error Err.missingLowSurrogate ∧
    Parse (fun _ => none) [34, 92, 117, 68, 56, 51, 68, 120, 34] =
      Outcome.error Err.missingLowSurrogate ∧
    Parse (fun _ => none) [34, 92, 117, 68, 56, 51, 68, 92, 117, 48, 48, 52, 49, 34] =
      Outcome.error Err.invalidLowSurrogate ∧
    Parse (fun _ => none) [34, 92, 117, 68, 69, 48, 48, 92, 117, 68, 56, 51, 68, 34] =
      Outcome.error Err.unexpectedLowSurrogate ∧
    Parse (fun _ => none) [34, 92, 117, 68, 69, 48, 48, 34] =
      Outcome.error Err.unexpectedLowSurrogate :=
  ⟨C7_lone_surrogate_rejected (fun _ => none) [34, 92, 117, 68, 56, 51, 68, 34] 0 0
      ⟨[34, 92, 117, 68, 56, 51, 68, 34], 0, 0⟩ ⟨[34, 92, 117, 68, 56, 51, 68, 34], 0, 0⟩
      ⟨[34, 92, 117, 68, 56, 51, 68, 34], 1, 1⟩ ⟨[34, 92, 117, 68, 56, 51, 68, 34], 1, 1⟩ []
      (by decide) (by decide) (by decide) (by decide) (by decide),
   rfl, rfl, rfl, rfl, rfl⟩

/-! ## Claims C1, C3, C4 -/

/-- C1: when `Parse` accepts `s` and accepts `t`, and `ws` is a non-empty run
of whitespace bytes (space, tab, CR, LF), `Parse` of `s ++ ws ++ t` returns the
error "unexpected trailing content" (an error outcome carries no value); so
does `Parse` of the unseparated `{}{}`. -/
theorem C1_second_value_rejected (pf : List Nat → Option Float64) (s t ws : List Nat)
    (v v1 : Value) (hs : Parse pf s = Outcome.ok v) (ht : Parse pf t = Outcome.ok v1)
    (hne : ws ≠ []) (hws : ∀ c ∈ ws, c = 32 ∨ c = 9 ∨ c = 13 ∨ c = 10) :
    Parse pf (s ++ ws ++ t) = Outcome.error Err.unexpectedTrailingContent ∧
    Parse pf [123, 125, 123, 125] = Outcome.error Err.unexpectedTrailingContent := by
  refine ⟨?_, rfl⟩
  have hb : numStop (ws ++ t) = true := by
    cases ws with
    | nil => exact absurd rfl hne
    | cons c u =>
      rcases hws c (List.mem_cons_self _ _) with e | e | e | e <;> rw [e] <;> rfl
  generalize hsrc : s ++ ws ++ t = src
  obtain ⟨p1, hr, hbuf, hs1, ws0, hws0, hd, hlen⟩ :=
    value_emb hs (a := []) hb 0 (show src = [] ++ s ++ (ws ++ t) by rw [← hsrc]; simp)
      (show 0 = ([] : List Nat).length from rfl)
  obtain ⟨q, te, l2, hrt, _, _⟩ := Parse_inv ht
  obtain ⟨tok, p2, hpeek, hnot, _, _, _⟩ := Run_value_peek hrt
  have hnt : (newLexer t).nextToken = Outcome.ok (tok, p2.lex) := by
    obtain ⟨_, h2 | h2⟩ := parser_peek_ok hpeek
    · cases h2.1
    · exact h2.2
  have he : Emb (s ++ ws) [] (newLexer t) ⟨src, (s ++ ws).length, 0⟩ :=
    ⟨by rw [← hsrc]; simp [newLexer], by simp [newLexer]⟩
  obtain ⟨l3, hn3, _⟩ := nextToken_emb (by rfl) he (by simp [newLexer]) hnt hnot
  obtain ⟨⟨s1, q1, w1⟩, b1⟩ := p1
  simp only at hbuf hs1 hd hlen
  subst hs1
  have hall : ∀ c ∈ ws0 ++ ws, c = 32 ∨ c = 9 ∨ c = 13 ∨ c = 10 := by
    intro c hc
    rcases List.mem_append.1 hc with h | h
    · exact hws0 c h
    · exact hws c h
  have hpre := nextToken_ws_prefix (u := t) (ws0 ++ ws) q1 w1 0 hall
    (by rw [hd]; simp)
  have hq : q1 + (ws0 ++ ws).length = (s ++ ws).length := by
    simp only [List.length_append]
    omega
  rw [hq, hn3] at hpre
  exact Parse_trailing hr hpre hnot

/-- C1 at `1 2` (the conversion function returns the digit read), with the
hypotheses of the claim checked there. -/
theorem C1_second_value_rejected_witness :
    Parse (fun x => some ⟨x.headD 0 - 48⟩) [49] = Outcome.ok (Value.number ⟨1⟩) ∧
    Parse (fun x => some ⟨x.headD 0 - 48⟩) [50] = Outcome.ok (Value.number ⟨2⟩) ∧
    (Parse (fun x => some ⟨x.headD 0 - 48⟩) ([49] ++ [32] ++ [50]) =
        Outcome.error Err.unexpectedTrailingContent ∧
      Parse (fun x => some ⟨x.headD 0 - 48⟩) [123, 125, 123, 125] =
        Outcome.error Err.unexpectedTrailingContent) :=
  ⟨rfl, rfl, C1_second_value_rejected (fun x => some ⟨x.headD 0 - 48⟩) [49] [50] [32]
    (Value.number ⟨1⟩) (Value.number ⟨2⟩) rfl rfl (by decide) (by decide)⟩

/-- C3: for every list (possibly empty) of texts `s_i` that `Parse` accepts
with value `v_i`, `Parse` of `[`, the `s_i` joined with `,`, `]` returns the
array whose elements are exactly the `v_i`, in source order. -/
theorem C3_array_elements_in_order (pf : List Nat → Option Float64)
    (items : List (List Nat × Value))
    (h : ∀ x ∈ items, Parse pf x.1 = Outcome.ok x.2) :
    Parse pf (91 :: (List.intercalate [44] (items.map Prod.fst) ++ [93])) =
      Outcome.ok (Value.array (items.map Prod.snd)) :=
  Parse_array items h

/-- C3 at `[1,2,3]` (the conversion function returns the digit read): the
three elements 1, 2, 3 in that order; and at the empty list, `[]`. -/
theorem C3_array_elements_in_order_witness :
    (∀ x ∈ [([49], Value.number ⟨1⟩), ([50], Value.number ⟨2⟩), ([51], Value.number ⟨3⟩)],
      Parse (fun x => some ⟨x.headD 0 - 48⟩) x.1 = Outcome.ok x.2) ∧
    Parse (fun x => some ⟨x.headD 0 - 48⟩) [91, 49, 44, 50, 44, 51, 93] =
      Outcome.ok (Value.array [Value.number ⟨1⟩, Value.number ⟨2⟩, Value.number ⟨3⟩]) ∧
    Parse (fun x => some ⟨x.headD 0 - 48⟩) [91, 93] = Outcome.ok (Value.array []) :=
  have h : ∀ x ∈ [([49], Value.number ⟨1⟩), ([50], Value.number ⟨2⟩), ([51], Value.number ⟨3⟩)],
      Parse (fun x => some ⟨x.headD 0 - 48⟩) x.1 = Outcome.ok x.2 := by
    intro x hx
    simp only [List.mem_cons, List.mem_singleton, List.not_mem_nil, or_false] at hx
    rcases hx with rfl | rfl | rfl <;> rfl
  ⟨h, C3_array_elements_in_order (fun x => some ⟨x.headD 0 - 48⟩)
      [([49], Value.number ⟨1⟩), ([50], Value.number ⟨2⟩), ([51], Value.number ⟨3⟩)] h,
    C3_array_elements_in_order (fun x => some ⟨x.headD 0 - 48⟩) []
      (fun _ hx => absurd hx (List.not_mem_nil _))⟩

/-- C4: for every non-empty list of members whose key text `q_i` is accepted
by `Parse` as the String `k_i` and whose value text `s_i` is accepted with
value `v_i`, `Parse` of `{`, the members `q_i:s_i` joined with `,`, `}` returns
an object `m` whose keys are exactly the `k_i` and in which the lookup of the
key of a member that no later member repeats returns the value of that member
(last write wins). -/
theorem C4_object_last_write_wins (pf : List Nat → Option Float64) (ms : List Member)
    (hne : ms ≠ [])
    (h : ∀ x ∈ ms, Parse pf x.keyText = Outcome.ok (Value.string x.key) ∧
      Parse pf x.valueText = Outcome.ok x.value) :
    ∃ m, Parse pf (123 :: (List.intercalate [44] (ms.map Member.text) ++ [125])) =
        Outcome.ok (Value.object m) ∧
      (∀ k, k ∈ mapKeys m ↔ ∃ x ∈ ms, x.key = k) ∧
      (∀ pre x post, ms = pre ++ x :: post → (∀ y ∈ post, y.key ≠ x.key) →
        mapGet m x.key = some x.value) := by
  refine ⟨_, Parse_object ms hne h, ?_, ?_⟩
  · intro k
    rw [mapKeys_assign]
    simp [mapKeys]
  · intro pre x post hms hpost
    rw [hms]
    exact mapGet_assign_last pre post x [] hpost

/-- The object `Parse` returns for `{"a":1,"b":"x","c":true,"d":null}` (the
conversion function returns the digit read). -/
theorem Parse_four_members :
    Parse (fun x => some ⟨x.headD 0 - 48⟩)
        [123, 34, 97, 34, 58, 49, 44, 34, 98, 34, 58, 34, 120, 34, 44, 34, 99, 34, 58,
          116, 114, 117, 101, 44, 34, 100, 34, 58, 110, 117, 108, 108, 125] =
      Outcome.ok (Value.object [([97], Value.number ⟨1⟩), ([98], Value.string [120]),
        ([99], Value.bool true), ([100], Value.null)]) :=
  Parse_object
    [⟨[34, 97, 34], [97], [49], Value.number ⟨1⟩⟩,
      ⟨[34, 98, 34], [98], [34, 120, 34], Value.string [120]⟩,
      ⟨[34, 99, 34], [99], [116, 114, 117, 101], Value.bool true⟩,
      ⟨[34, 100, 34], [100], [110, 117, 108, 108], Value.null⟩]
    (by simp)
    (by
      intro x hx
      simp only [List.mem_cons, List.mem_singleton, List.not_mem_nil, or_false] at hx
      rcases hx with rfl | rfl | rfl | rfl <;> exact ⟨rfl, rfl⟩)

/-- C4 at `{"a":1,"a":2}` (the conversion function returns the digit read):
the only key is `a` and its lookup returns 2; and the object returned for
`{"a":1,"b":"x","c":true,"d":null}`. -/
theorem C4_object_last_write_wins_witness :
    ([⟨[34, 97, 34], [97], [49], Value.number ⟨1⟩⟩,
      ⟨[34, 97, 34], [97], [50], Value.number ⟨2⟩⟩] : List Member) ≠ [] ∧
    (∀ x ∈ ([⟨[34, 97, 34], [97], [49], Value.number ⟨1⟩⟩,
        ⟨[34, 97, 34], [97], [50], Value.number ⟨2⟩⟩] : List Member),
      Parse (fun x => some ⟨x.headD 0 - 48⟩) x.keyText = Outcome.ok (Value.string x.key) ∧
      Parse (fun x => some ⟨x.headD 0 - 48⟩) x.valueText = Outcome.ok x.value) ∧
    (∃ m, Parse (fun x => some ⟨x.headD 0 - 48⟩)
        [123, 34, 97, 34, 58, 49, 44, 34, 97, 34, 58, 50, 125] = Outcome.ok (Value.object m) ∧
      (∀ k, k ∈ mapKeys m ↔ k = [97]) ∧ mapGet m [97] = some (Value.number ⟨2⟩)) ∧
    Parse (fun x => some ⟨x.headD 0 - 48⟩)
        [123, 34, 97, 34, 58, 49, 44, 34, 97, 34, 58, 50, 125] =
      Outcome.ok (Value.object [([97], Value.number ⟨2⟩)]) ∧
    Parse (fun x => some ⟨x.headD 0 - 48⟩)
        [123, 34, 97, 34, 58, 49, 44, 34, 98, 34, 58, 34, 120, 34, 44, 34, 99, 34, 58,
          116, 114, 117, 101, 44, 34, 100, 34, 58, 110, 117, 108, 108, 125] =
      Outcome.ok (Value.object [([97], Value.number ⟨1⟩), ([98], Value.string [120]),
        ([99], Value.bool true), ([100], Value.null)]) := by
  have hne : ([⟨[34, 97, 34], [97], [49], Value.number ⟨1⟩⟩,
      ⟨[34, 97, 34], [97], [50], Value.number ⟨2⟩⟩] : List Member) ≠ [] := by
    simp
  have hall : ∀ x ∈ ([⟨[34, 97, 34], [97], [49], Value.number ⟨1⟩⟩,
        ⟨[34, 97, 34], [97], [50], Value.number ⟨2⟩⟩] : List Member),
      Parse (fun x => some ⟨x.headD 0 - 48⟩) x.keyText = Outcome.ok (Value.string x.key) ∧
      Parse (fun x => some ⟨x.headD 0 - 48⟩) x.valueText = Outcome.ok x.value := by
    intro x hx
    simp only [List.mem_cons, List.mem_singleton, List.not_mem_nil, or_false] at hx
    rcases hx with rfl | rfl <;> exact ⟨rfl, rfl⟩
  obtain ⟨m, h1, h2, h3⟩ := C4_object_last_write_wins (fun x => some ⟨x.headD 0 - 48⟩)
    [⟨[34, 97, 34], [97], [49], Value.number ⟨1⟩⟩,
      ⟨[34, 97, 34], [97], [50], Value.number ⟨2⟩⟩] hne hall
  refine ⟨hne, hall, ⟨m, h1, ?_, ?_⟩, rfl, Parse_four_members⟩
  · intro k
    rw [h2 k]
    simp
    exact eq_comm
  · exact h3 [⟨[34, 97, 34], [97], [49], Value.number ⟨1⟩⟩]
      ⟨[34, 97, 34], [97], [50], Value.number ⟨2⟩⟩ [] rfl (by simp)

/-! ## Claims C17, C20 -/

theorem itemsText_raw (cs : List Nat) :
    itemsText (cs.map StringItem.raw) = stringOfRunes (cs.map Int.ofNat) := by
  induction cs with
  | nil => rfl
  | cons c r ih =>
    simp only [itemsText, stringOfRunes, List.map_cons, List.flatten_cons] at ih ⊢
    rw [ih]
    rfl

theorem itemsRunes_raw : ∀ (cs : List Nat),
    (∀ c ∈ cs, isScalar c = true ∧ c ≠ 34 ∧ c ≠ 92) →
    itemsRunes (cs.map StringItem.raw) = some (cs.map Int.ofNat) := by
  intro cs
  induction cs with
  | nil => intro _; rfl
  | cons c r ih =>
    intro h
    have hc := h c (List.mem_cons_self _ _)
    have hr := ih (fun x hx => h x (List.mem_cons_of_mem _ hx))
    simp only [List.map_cons, itemsRunes, StringItem.rune, hr]
    rw [if_pos hc]
    rfl

/-- C20: for every sequence `cs` of Unicode scalar values none of which is `"`
or `\` (control characters below U+0020 included), `Parse` of `"`, the UTF-8
encoding of `cs`, `"` returns the String whose text is the encoding of exactly
`cs`. -/
theorem C20_raw_text_verbatim (pf : List Nat → Option Float64) (cs : List Nat)
    (h : ∀ c ∈ cs, isScalar c = true ∧ c ≠ 34 ∧ c ≠ 92) :
    Parse pf (34 :: (stringOfRunes (cs.map Int.ofNat) ++ [34])) =
      Outcome.ok (Value.string (stringOfRunes (cs.map Int.ofNat))) := by
  have hp := Parse_string pf (cs.map StringItem.raw) (itemsRunes_raw cs h)
  rw [itemsText_raw] at hp
  exact hp

/-- C20 at the four scalar values `a`, a raw line feed, `é` (two bytes) and
U+1F600 (four bytes); and the evaluation of `Parse` on the six bytes
`"`, `a`, LF, `é`, `"`. -/
theorem C20_raw_text_verbatim_witness :
    (∀ c ∈ [97, 10, 233, 0x1F600], isScalar c = true ∧ c ≠ 34 ∧ c ≠ 92) ∧
    Parse (fun _ => none)
        (34 :: (stringOfRunes (([97, 10, 233, 0x1F600] : List Nat).map Int.ofNat) ++ [34])) =
      Outcome.ok (Value.string (stringOfRunes (([97, 10, 233, 0x1F600] : List Nat).map
        Int.ofNat))) ∧
    stringOfRunes (([97, 10, 233, 0x1F600] : List Nat).map Int.ofNat) =
      [97, 10, 0xC3, 0xA9, 0xF0, 0x9F, 0x98, 0x80] ∧
    Parse (fun _ => none) [34, 97, 10, 0xC3, 0xA9, 34] =
      Outcome.ok (Value.string [97, 10, 0xC3, 0xA9]) :=
  ⟨by decide,
   C20_raw_text_verbatim (fun _ => none) [97, 10, 233, 0x1F600] (by decide),
   by decide, rfl⟩

/-- On an unbounded call stack `Parse` returns a value or an error on every
buffer, never running out of its budget; neither do `skipWS`, `scanString`,
`scanNumber` and `nextToken` from any scanner state (`matchSeq` is a recursion
on its pattern, one `next` per byte of it); and each of `parseValue`,
`parseObject`, `parseArray` and their loops returns a value or an error
whenever its budget is at least `callNeed`, a bound in the bytes left to
read. -/
theorem Parse_total_unbounded (pf : List Nat → Option Float64) (src : List Nat) :
    ((∃ v, Parse pf src = Outcome.ok v) ∨ (∃ e, Parse pf src = Outcome.error e)) ∧
    (∀ l : lexer, l.skipWS ≠ Outcome.timeout ∧ l.scanString ≠ Outcome.timeout ∧
      l.scanNumber ≠ Outcome.timeout ∧ l.nextToken ≠ Outcome.timeout) ∧
    (∀ (c : Call) (p : parser) (fuel : Nat), p.lex.pos ≤ p.lex.src.length →
      callNeed c p ≤ fuel → runCall pf fuel c p ≠ Outcome.timeout) := by
  refine ⟨?_, ?_, ?_⟩
  · cases h : Parse pf src with
    | ok v => exact Or.inl ⟨v, rfl⟩
    | error e => exact Or.inr ⟨e, rfl⟩
    | timeout => exact absurd h (Parse_ne_timeout pf src)
  · intro l
    refine ⟨?_, ?_, (scanNumber_spec l).1, (nextToken_spec l).1⟩
    · obtain ⟨l1, h, _⟩ := skipWS_ok l
      rw [h]; simp
    · rcases scanStringLoop_error_or_ok l with ⟨e, h⟩ | ⟨x, l1, h, _⟩ <;> rw [h] <;> simp
  · intro c p fuel hw hn
    exact runCall_ne_timeout pf fuel c p hw hn

/-- C17: whenever `parseValue`, `parseObject` or `parseArray` returns without
error, from any parser state, the lookahead buffer is empty; and when the
parser had consumed the first `k` tokens of the sequence read from `l0`, the
scanner then stands right behind the last token consumed, token `k1 - 1`, so the
token `nextToken` reads next from it (as `Parse` does for its trailing-content
check) is token `k1` of that sequence. -/
theorem C17_buffer_empty_after_value (pf : List Nat → Option Float64) (fuel : Nat)
    (p : parser) :
    (∀ v p1, parseValue pf fuel p = Outcome.ok (v, p1) → p1.buf = none) ∧
    (∀ m p1, parseObject pf fuel p = Outcome.ok (m, p1) → p1.buf = none) ∧
    (∀ xs p1, parseArray pf fuel p = Outcome.ok (xs, p1) → p1.buf = none) ∧
    (∀ l0 k v p1, At l0 p k → parseValue pf fuel p = Outcome.ok (v, p1) →
      ∃ k1, k < k1 ∧ lexAfter k1 l0 = Outcome.ok p1.lex ∧
        tokenAt k1 l0 = (match p1.lex.nextToken with
          | Outcome.ok (t, _) => Outcome.ok t
          | Outcome.error e => Outcome.error e
          | Outcome.timeout => Outcome.timeout)) := by
  refine ⟨?_, ?_, ?_, ?_⟩
  · intro v p1 h
    exact (Run_adv (parseValue_run h)).1
  · intro m p1 h
    exact (Run_adv (parseObject_run h)).1
  · intro xs p1 h
    exact (Run_adv (parseArray_run h)).1
  · intro l0 k v p1 ha h
    have hrun := parseValue_run h
    obtain ⟨k1, a1, s1⟩ := Run_span hrun l0 k ha
    have e1 := (At_none (Run_adv hrun).1).1 a1
    refine ⟨k1, s1.1, e1, ?_⟩
    cases hn : p1.lex.nextToken with
    | timeout => simp [tokenAt, e1, hn]
    | error e => simp [tokenAt, e1, hn]
    | ok y => simp [tokenAt, e1, hn]

/-- C17 on the buffer `[1] 2`: `parseValue` returns with an empty lookahead
buffer and the cursor behind the `]`; the token read next is the number `2`,
token 3 of the input. -/
theorem C17_buffer_empty_after_value_witness :
    parseValue (fun x => some ⟨x.headD 0 - 48⟩) 16 ⟨newLexer [91, 49, 93, 32, 50], none⟩ =
      Outcome.ok (Value.array [Value.number ⟨1⟩], ⟨⟨[91, 49, 93, 32, 50], 3, 1⟩, none⟩) ∧
    lexAfter 3 (newLexer [91, 49, 93, 32, 50]) = Outcome.ok ⟨[91, 49, 93, 32, 50], 3, 1⟩ ∧
    tokenAt 3 (newLexer [91, 49, 93, 32, 50]) = Outcome.ok ⟨tokenType.tokNumber, [50]⟩ ∧
    (⟨⟨[91, 49, 93, 32, 50], 3, 1⟩, none⟩ : parser).buf = none :=
  ⟨rfl, by decide, by decide,
   (C17_buffer_empty_after_value (fun x => some ⟨x.headD 0 - 48⟩) 16
      ⟨newLexer [91, 49, 93, 32, 50], none⟩).1 (Value.array [Value.number ⟨1⟩])
      ⟨⟨[91, 49, 93, 32, 50], 3, 1⟩, none⟩ rfl⟩

/-! ## Claims C13, C15 -/

/-- C15: when `peek` returns a token, a second `peek` returns the same token
and leaves the parser as it is; `next` then returns the same token again,
leaves the scanner where `peek` left it and empties the lookahead buffer, which
is also where `next` alone ends.  The scanner is advanced once in all: with
the buffer empty before `peek`, by the one `nextToken` of `peek`; and when the
parser had consumed the first `k` tokens of the sequence read from `l0` (a
buffered token being token `k`, read by an earlier `peek`), the token returned
is token `k` and the scanner stands right behind it, `k + 1` tokens read. -/
theorem C15_peek_then_next (p : parser) (t : token) (p1 : parser)
    (h : p.peek = Outcome.ok (t, p1)) :
    p1.peek = Outcome.ok (t, p1) ∧
    p1.next = Outcome.ok (t, ⟨p1.lex, none⟩) ∧
    p.next = Outcome.ok (t, ⟨p1.lex, none⟩) ∧
    (p.buf = none → p.lex.nextToken = Outcome.ok (t, p1.lex)) ∧
    (∀ l0 k, At l0 p k →
      tokenAt k l0 = Outcome.ok t ∧ lexAfter (k + 1) l0 = Outcome.ok p1.lex) := by
  obtain ⟨hb1, hc⟩ := parser_peek_ok h
  refine ⟨parser_peek_buf hb1, parser_next_buf hb1, ?_, ?_, ?_⟩
  · rcases hc with ⟨hb, rfl⟩ | ⟨hb, hn⟩
    · exact parser_next_buf hb
    · rw [parser_next_none hb, hn]
  · intro hb
    rcases hc with ⟨hb2, _⟩ | ⟨_, hn⟩
    · rw [hb] at hb2; cases hb2
    · exact hn
  · intro l0 k ha
    obtain ⟨a1, _, _⟩ := At_peek ha h
    obtain ⟨lp, e1, e2⟩ := (At_some hb1).1 a1
    obtain ⟨f1, f2, _⟩ := lexAfter_succ e1 e2
    exact ⟨f2, f1⟩

/-- C15 on the buffer `1 2`, from the start (empty lookahead buffer): `peek`
returns the number `1` and buffers it with the cursor behind the `1`, `next`
returns it again and leaves the cursor there. -/
theorem C15_peek_then_next_witness :
    parser.peek ⟨newLexer [49, 32, 50], none⟩ =
      Outcome.ok (⟨tokenType.tokNumber, [49]⟩,
        ⟨⟨[49, 32, 50], 1, 1⟩, some ⟨tokenType.tokNumber, [49]⟩⟩) ∧
    (parser.peek ⟨⟨[49, 32, 50], 1, 1⟩, some ⟨tokenType.tokNumber, [49]⟩⟩ =
        Outcome.ok (⟨tokenType.tokNumber, [49]⟩,
          ⟨⟨[49, 32, 50], 1, 1⟩, some ⟨tokenType.tokNumber, [49]⟩⟩) ∧
      parser.next ⟨⟨[49, 32, 50], 1, 1⟩, some ⟨tokenType.tokNumber, [49]⟩⟩ =
        Outcome.ok (⟨tokenType.tokNumber, [49]⟩, ⟨⟨[49, 32, 50], 1, 1⟩, none⟩) ∧
      parser.next ⟨newLexer [49, 32, 50], none⟩ =
        Outcome.ok (⟨tokenType.tokNumber, [49]⟩, ⟨⟨[49, 32, 50], 1, 1⟩, none⟩) ∧
      ((⟨newLexer [49, 32, 50], none⟩ : parser).buf = none →
        (newLexer [49, 32, 50]).nextToken =
          Outcome.ok (⟨tokenType.tokNumber, [49]⟩, ⟨[49, 32, 50], 1, 1⟩)) ∧
      (∀ l0 k, At l0 ⟨newLexer [49, 32, 50], none⟩ k →
        tokenAt k l0 = Outcome.ok ⟨tokenType.tokNumber, [49]⟩ ∧
        lexAfter (k + 1) l0 = Outcome.ok ⟨[49, 32, 50], 1, 1⟩)) :=
  ⟨by decide,
   C15_peek_then_next ⟨newLexer [49, 32, 50], none⟩ ⟨tokenType.tokNumber, [49]⟩
     ⟨⟨[49, 32, 50], 1, 1⟩, some ⟨tokenType.tokNumber, [49]⟩⟩ (by decide)⟩

/-- `Parse` of a buffer that is one number literal: the result of the
conversion of its text, or the error wrapping the failure of the
conversion. -/
theorem Parse_number (pf : List Nat → Option Float64) (n : NumberLiteral)
    (hint : nonzeroInt n.int = true) (hfr : fracOk n.frac = true)
    (hok : expOk n.exp = true) :
    Parse pf n.text =
      (match pf n.text with
        | some x => Outcome.ok (Value.number x)
        | none => Outcome.error (Err.invalidNumberConversion n.text)) := by
  obtain ⟨w1, htok⟩ : ∃ w1, lexer.nextToken ⟨n.text, 0, 0⟩ =
      Outcome.ok (⟨tokenType.tokNumber, n.text⟩, ⟨n.text, n.text.length, w1⟩) := by
    have h := @nextToken_number n [] [] 0 hint hfr hok rfl
    simpa using h
  have hpeek : parser.peek ⟨newLexer n.text, none⟩ =
      Outcome.ok (⟨tokenType.tokNumber, n.text⟩,
        ⟨⟨n.text, n.text.length, w1⟩, some ⟨tokenType.tokNumber, n.text⟩⟩) := by
    rw [parser_peek_none rfl]
    simp only [newLexer]
    rw [htok]
  have hskip : parser.skip ⟨⟨n.text, n.text.length, w1⟩, some ⟨tokenType.tokNumber, n.text⟩⟩ =
      ⟨⟨n.text, n.text.length, w1⟩, none⟩ := parser_skip_buf rfl
  have hend : lexer.nextToken ⟨n.text, n.text.length, w1⟩ =
      Outcome.ok (⟨tokenType.tokEOF, []⟩, ⟨n.text, n.text.length, 0⟩) :=
    nextToken_eof (List.drop_length _)
  cases hpf : pf n.text with
  | none => simp [Parse, parseValue, hpeek, hpf]
  | some x => simp [Parse, parseValue, hpeek, hpf, hskip, hend]

/-! ## Claims C11, C12 -/

/-- C11: with only whitespace between the cursor and a `t`, `f` or `n`,
`nextToken` returns the true, false or null token exactly when the bytes that
follow are `rue`, `alse`, `ull` respectively (the cursor is then behind the
keyword); in every other case, the end of the buffer in the middle of the
keyword included, it returns the error "unexpected character" for that first
byte. -/
theorem C11_keyword_exact (s : List Nat) (p w : Nat) (ws rest tail : List Nat) (c : Nat)
    (k : tokenType) (hws : ∀ x ∈ ws, x = 32 ∨ x = 9 ∨ x = 13 ∨ x = 10)
    (hdrop : s.drop p = ws ++ c :: rest) (hk : keywordOf c = some (tail, k)) :
    ((∃ t l1, lexer.nextToken ⟨s, p, w⟩ = Outcome.ok (t, l1)) ↔ tail <+: rest) ∧
    (tail <+: rest → ∃ w1, lexer.nextToken ⟨s, p, w⟩ =
      Outcome.ok (⟨k, []⟩, ⟨s, p + ws.length + 1 + tail.length, w1⟩)) ∧
    (¬ tail <+: rest → lexer.nextToken ⟨s, p, w⟩ =
      Outcome.error (Err.unexpectedCharacter (c : Int))) := by
  have hq : s.drop (p + ws.length) = c :: rest := drop_append_of_drop hdrop
  obtain ⟨h1, h2⟩ := nextToken_keyword (w := 0) hq hk
  rw [ nextToken_ws_prefix ws p w 0 hws hdrop]
  refine ⟨⟨?_, ?_⟩, h1, h2⟩
  · rintro ⟨t, l1, h⟩
    by_contra hc
    rw [h2 hc] at h
    cases h
  · intro hp
    obtain ⟨w1, h⟩ := h1 hp
    exact ⟨_, _, h⟩

/-- C11 at ` true` (one space in front); and the errors `nextToken` returns on
`tru`, `nul`, `fals` and `nulL`. -/
theorem C11_keyword_exact_witness :
    (((∃ t l1, lexer.nextToken ⟨[32, 116, 114, 117, 101], 0, 0⟩ = Outcome.ok (t, l1)) ↔
        [114, 117, 101] <+: [114, 117, 101]) ∧
      ([114, 117, 101] <+: [114, 117, 101] →
        ∃ w1, lexer.nextToken ⟨[32, 116, 114, 117, 101], 0, 0⟩ =
          Outcome.ok (⟨tokenType.tokTrue, []⟩,
            ⟨[32, 116, 114, 117, 101], 0 + [32].length + 1 + [114, 117, 101].length, w1⟩)) ∧
      (¬ [114, 117, 101] <+: [114, 117, 101] →
        lexer.nextToken ⟨[32, 116, 114, 117, 101], 0, 0⟩ =
          Outcome.error (Err.unexpectedCharacter ((116 : Nat) : Int)))) ∧
    lexer.nextToken (newLexer [116, 114, 117]) = Outcome.error (Err.unexpectedCharacter 116) ∧
    lexer.nextToken (newLexer [110, 117, 108]) = Outcome.error (Err.unexpectedCharacter 110) ∧
    lexer.nextToken (newLexer [102, 97, 108, 115]) =
      Outcome.error (Err.unexpectedCharacter 102) ∧
    lexer.nextToken (newLexer [110, 117, 108, 76]) =
      Outcome.error (Err.unexpectedCharacter 110) :=
  ⟨C11_keyword_exact [32, 116, 114, 117, 101] 0 0 [32] [114, 117, 101] [114, 117, 101] 116
      tokenType.tokTrue (by decide) (by decide) (by decide),
   by decide, by decide, by decide, by decide⟩

/-- C12: let a number text go wrong in one of three ways: an integer part
`-? [1-9][0-9]*` and a `.` with no digit behind it; such an integer part, an
optional fraction `. [0-9]+`, an `e` or `E`, an optional sign and no digit
behind that; or a `-` with no digit behind it (the end of the buffer counts
as no digit).  Then `scanNumber` started on the text returns "invalid
fraction", "invalid exponent", "invalid number" respectively, so does
`nextToken` with only whitespace in front of the text, `Parse` returns an
error on every input in which a token starts there, and `Parse` of the text
alone returns that same error. -/
theorem C12_malformed_number (pf : List Nat → Option Float64) (f : NumberFault)
    (l : lexer) (ws : List Nat) (hf : f.wellFormed = true)
    (hws : ∀ c ∈ ws, c = 32 ∨ c = 9 ∨ c = 13 ∨ c = 10)
    (hdrop : l.src.drop l.pos = ws ++ f.text) :
    (∀ w, lexer.scanNumber ⟨l.src, l.pos + ws.length, w⟩ = Outcome.error f.error) ∧
    l.nextToken = Outcome.error f.error ∧
    (∀ src k, lexAfter k (newLexer src) = Outcome.ok l → ∃ e, Parse pf src = Outcome.error e) ∧
    Parse pf f.text = Outcome.error f.error := by
  have hn : l.nextToken = Outcome.error f.error := by
    obtain ⟨s, p, w⟩ := l
    exact nextToken_fault f p w ws hf hws hdrop
  refine ⟨?_, hn, ?_, ?_⟩
  · intro w
    exact scanNumber_fault f _ w hf (drop_append_of_drop hdrop)
  · intro src k hk
    exact Parse_error_of_token hk hn
  · exact Parse_error_first
      (nextToken_fault f 0 0 [] hf (fun _ h => absurd h (List.not_mem_nil _)) (by simp))

/-- C12 at `1.` in the buffer `[1.]` (the cursor behind the `[`), where the
token that starts at the `1` fails; and the errors `Parse` returns on `1.`,
`1.x`, `1e`, `1e+`, `-12.5E-]`, `-` and `-x`. -/
theorem C12_malformed_number_witness :
    ((∀ w, lexer.scanNumber ⟨[91, 49, 46, 93], 1 + ([] : List Nat).length, w⟩ =
        Outcome.error Err.invalidFraction) ∧
      lexer.nextToken ⟨[91, 49, 46, 93], 1, 1⟩ = Outcome.error Err.invalidFraction ∧
      (∀ src k, lexAfter k (newLexer src) = Outcome.ok ⟨[91, 49, 46, 93], 1, 1⟩ →
        ∃ e, Parse (fun _ => none) src = Outcome.error e) ∧
      Parse (fun _ => none) [49, 46, 93] = Outcome.error Err.invalidFraction) ∧
    Parse (fun _ => none) [49, 46] = Outcome.error Err.invalidFraction ∧
    Parse (fun _ => none) [49, 46, 120] = Outcome.error Err.invalidFraction ∧
    Parse (fun _ => none) [49, 101] = Outcome.error Err.invalidExponent ∧
    Parse (fun _ => none) [49, 101, 43] = Outcome.error Err.invalidExponent ∧
    Parse (fun _ => none) [45, 49, 50, 46, 53, 69, 45, 93] =
      Outcome.error Err.invalidExponent ∧
    Parse (fun _ => none) [45] = Outcome.error Err.invalidNumber ∧
    Parse (fun _ => none) [45, 120] = Outcome.error Err.invalidNumber :=
  ⟨C12_malformed_number (fun _ => none) (NumberFault.fraction false [49] [93])
      ⟨[91, 49, 46, 93], 1, 1⟩ [] (by decide) (by decide) (by decide),
   rfl, rfl, rfl, rfl, rfl, rfl, rfl⟩

/-! ## Claim C14 -/

/-- C14: every String and every object key, at any depth, of the value that
`Parse` returns for any buffer (invalid UTF-8 included) is the UTF-8 encoding
of a sequence of Unicode scalar values: no code point in U+D800..U+DFFF and
none above U+10FFFF is stored. -/
theorem C14_only_scalar_values (pf : List Nat → Option Float64) (src : List Nat) (v : Value)
    (s : List Nat) (h : Parse pf src = Outcome.ok v) (hs : v.HasText s) : scalarText s := by
  obtain ⟨p1, t, l2, hrun, _, _⟩ := Parse_inv h
  exact Run_text hrun (textBuf_none rfl) trivial s hs

/-- C14 on the buffer `{"\uD83D\uDE00":["a?"]}` where `?` is the single byte
`0xFF`, which is no valid UTF-8: the key is U+1F600 and the String is `a`
followed by U+FFFD. -/
theorem C14_only_scalar_values_witness :
    Parse (fun _ => none)
        [123, 34, 92, 117, 68, 56, 51, 68, 92, 117, 68, 69, 48, 48, 34, 58,
          91, 34, 97, 255, 34, 93, 125] =
      Outcome.ok (Value.object [([0xF0, 0x9F, 0x98, 0x80],
        Value.array [Value.string [97, 0xEF, 0xBF, 0xBD]])]) ∧
    scalarText [0xF0, 0x9F, 0x98, 0x80] ∧ scalarText [97, 0xEF, 0xBF, 0xBD] ∧
    stringOfRunes (([0x1F600] : List Nat).map Int.ofNat) = [0xF0, 0x9F, 0x98, 0x80] ∧
    stringOfRunes (([97, 0xFFFD] : List Nat).map Int.ofNat) = [97, 0xEF, 0xBF, 0xBD] :=
  ⟨rfl,
   C14_only_scalar_values (fun _ => none)
     [123, 34, 92, 117, 68, 56, 51, 68, 92, 117, 68, 69, 48, 48, 34, 58,
       91, 34, 97, 255, 34, 93, 125] _ _ rfl (Value.HasText.key (List.mem_singleton.2 rfl)),
   C14_only_scalar_values (fun _ => none)
     [123, 34, 92, 117, 68, 56, 51, 68, 92, 117, 68, 69, 48, 48, 34, 58,
       91, 34, 97, 255, 34, 93, 125] _ _ rfl
     (Value.HasText.member (List.mem_singleton.2 rfl)
       (Value.HasText.elem (List.mem_singleton.2 rfl) (Value.HasText.string _))),
   by decide, by decide⟩

/-! ## C18: whitespace around the input -/

theorem Parse_ws_forward {pf : List Nat → Option Float64} {w1 s w2 : List Nat} {v : Value}
    (h1 : ∀ c ∈ w1, isWSByte c = true) (h2 : ∀ c ∈ w2, isWSByte c = true)
    (h : Parse pf s = Outcome.ok v) : Parse pf (w1 ++ s ++ w2) = Outcome.ok v := by
  obtain ⟨p1, hrun, _, hsrc, ws, hws, hd, _⟩ :=
    value_emb h (numStop_of_ws h2) 0 (rfl : w1 ++ s ++ w2 = w1 ++ s ++ w2)
      (rfl : w1.length = w1.length)
  have hpk : parser.peek ⟨newLexer (w1 ++ s ++ w2), none⟩ =
      parser.peek ⟨⟨w1 ++ s ++ w2, w1.length, 0⟩, none⟩ := by
    rw [List.append_assoc]
    exact peek_leading_ws w1 (s ++ w2) h1
  have hrun0 := Run_value_congr hpk hrun
  have hall : ∀ c ∈ p1.lex.src.drop p1.lex.pos, isWSByte c = true := by
    rw [hsrc, hd]
    intro c hc
    rcases List.mem_append.1 hc with hc | hc
    · exact isWSByte_iff.2 (hws c hc)
    · exact h2 c hc
  obtain ⟨l, hl⟩ := nextToken_all_ws p1.lex.width hall
  exact Parse_of_run hrun0 hl rfl

theorem Parse_ws_reverse {pf : List Nat → Option Float64} {w1 s w2 : List Nat} {v : Value}
    (h1 : ∀ c ∈ w1, isWSByte c = true) (h2 : ∀ c ∈ w2, isWSByte c = true)
    (h : Parse pf (w1 ++ s ++ w2) = Outcome.ok v) : Parse pf s = Outcome.ok v := by
  obtain ⟨q', t, l2, hrun, hn, ht⟩ := Parse_inv h
  have hpk : parser.peek ⟨⟨w1 ++ s ++ w2, w1.length, 0⟩, none⟩ =
      parser.peek ⟨newLexer (w1 ++ s ++ w2), none⟩ := by
    rw [List.append_assoc]
    exact (peek_leading_ws w1 (s ++ w2) h1).symm
  have hrun1 := Run_value_congr hpk hrun
  have he : EmbWP w1 w2 ⟨newLexer s, none⟩ ⟨⟨w1 ++ s ++ w2, w1.length, 0⟩, none⟩ :=
    ⟨⟨⟨rfl, by simp [newLexer]⟩, by simp [newLexer], h2⟩, rfl⟩
  obtain ⟨q, hr, heq⟩ := Run_rev hrun1 _ he
  have hws := nextToken_eof_ws hn ht
  have hd := emb_drop heq.1.1 heq.1.2.1
  have hall : ∀ c ∈ q.lex.src.drop q.lex.pos, isWSByte c = true := by
    intro c hc
    apply isWSByte_iff.2
    apply hws c
    rw [hd]
    exact List.mem_append_left _ hc
  obtain ⟨l, hl⟩ := nextToken_all_ws q.lex.width hall
  exact Parse_of_run hr hl rfl

/-- C18: for every input `s` and every two texts `w1`, `w2` made of space,
tab, CR and LF only, `Parse` of `w1` followed by `s` followed by `w2` returns
a value exactly when `Parse` of `s` returns it, and fails exactly when `Parse`
of `s` fails: whitespace in front of and behind the input never changes
whether the input is accepted nor the value returned. -/
theorem C18_whitespace_around (pf : List Nat → Option Float64) (w1 s w2 : List Nat)
    (h1 : ∀ c ∈ w1, isWSByte c = true) (h2 : ∀ c ∈ w2, isWSByte c = true) :
    (∀ v, Parse pf (w1 ++ s ++ w2) = Outcome.ok v ↔ Parse pf s = Outcome.ok v) ∧
    ((∃ e, Parse pf (w1 ++ s ++ w2) = Outcome.error e) ↔ ∃ e, Parse pf s = Outcome.error e) := by
  have hok : ∀ v, Parse pf (w1 ++ s ++ w2) = Outcome.ok v ↔ Parse pf s = Outcome.ok v :=
    fun v => ⟨Parse_ws_reverse h1 h2, Parse_ws_forward h1 h2⟩
  refine ⟨hok, ?_, ?_⟩
  · rintro ⟨e, he⟩
    cases hs : Parse pf s with
    | ok v => rw [(hok v).2 hs] at he; cases he
    | error e1 => exact ⟨e1, rfl⟩
    | timeout => exact absurd hs (Parse_ne_timeout pf s)
  · rintro ⟨e, he⟩
    cases hs : Parse pf (w1 ++ s ++ w2) with
    | ok v => rw [(hok v).1 hs] at he; cases he
    | error e1 => exact ⟨e1, rfl⟩
    | timeout => exact absurd hs (Parse_ne_timeout pf _)

/-- C18 at `[1]` with space, LF in front and tab, CR behind (the conversion
function returns the digit read): both texts are parsed to the array of 1. -/
theorem C18_whitespace_around_witness :
    (∀ c ∈ [32, 10], isWSByte c = true) ∧ (∀ c ∈ [9, 13], isWSByte c = true) ∧
    Parse (fun x => some ⟨x.headD 0 - 48⟩) [91, 49, 93] =
      Outcome.ok (Value.array [Value.number ⟨1⟩]) ∧
    Parse (fun x => some ⟨x.headD 0 - 48⟩) ([32, 10] ++ [91, 49, 93] ++ [9, 13]) =
      Outcome.ok (Value.array [Value.number ⟨1⟩]) ∧
    ((∀ v, Parse (fun x => some ⟨x.headD 0 - 48⟩) ([32, 10] ++ [91, 49, 93] ++ [9, 13]) =
        Outcome.ok v ↔ Parse (fun x => some ⟨x.headD 0 - 48⟩) [91, 49, 93] = Outcome.ok v) ∧
      ((∃ e, Parse (fun x => some ⟨x.headD 0 - 48⟩) ([32, 10] ++ [91, 49, 93] ++ [9, 13]) =
        Outcome.error e) ↔
        ∃ e, Parse (fun x => some ⟨x.headD 0 - 48⟩) [91, 49, 93] = Outcome.error e)) :=
  ⟨by decide, by decide, rfl, rfl,
    C18_whitespace_around (fun x => some ⟨x.headD 0 - 48⟩) [32, 10] [91, 49, 93] [9, 13]
      (by decide) (by decide)⟩

/-! ## C19: the cursor stays in range -/

/-- The checks of the checked routines are real: a `backup` wider than the
cursor, a `next` from behind the buffer and a slice with its bounds reversed
all fail. -/
theorem range_checks_can_fail :
    lexer.backupC ⟨[49], 0, 1⟩ = none ∧ lexer.nextC ⟨[49], 2, 0⟩ = none ∧
    sliceC [49, 50] 2 1 = none ∧ sliceC [49, 50] 1 3 = none := by
  decide

/-- C19: for every input the run of `Parse` with every cursor update and
every slice expression checked (`ParseC`) never fails a check, and returns
what `Parse` returns: at every point the cursor satisfies
`0 ≤ pos ≤ len(src)`, and the slices `src[pos:]` and `src[start:pos]` are in
range.  From every state in range: `next` leaves a state in range with
`width ≤ pos`, so the `backup` that follows it (after the end of input, where
the width is 0, or after a code point of any width) takes the cursor back to
where it was without going below 0; `nextToken` and `scanNumber` pass every
check; and when `scanNumber` returns a lexeme the cursor it leaves satisfies
`start ≤ pos ≤ len(src)` and the lexeme is the slice `src[start:pos]`. -/
theorem C19_cursor_in_range (pf : List Nat → Option Float64) (src : List Nat) :
    ParseC pf src = some (Parse pf src) ∧
    (newLexer src).inRange = true ∧
    ∀ l : lexer, l.inRange = true →
      l.nextC = some l.next ∧ (l.next).2.inRange = true ∧
      (l.next).2.width ≤ (l.next).2.pos ∧
      ((l.next).1 = -1 → (l.next).2.width = 0) ∧
      (l.next).2.backupC = some (l.next).2.backup ∧
      (l.next).2.backup.pos = l.pos ∧
      l.peekC = some l.peek ∧
      l.nextTokenC = some l.nextToken ∧
      (∀ t l1, l.nextToken = Outcome.ok (t, l1) → l1.inRange = true) ∧
      l.scanNumberC = some l.scanNumber ∧
      (∀ lex l3, l.scanNumber = Outcome.ok (lex, l3) →
        l.pos ≤ l3.pos ∧ l3.pos ≤ l3.src.length ∧ sliceC l3.src l.pos l3.pos = some lex) := by
  refine ⟨ParseC_eq pf src, by simp [lexer.inRange, newLexer], ?_⟩
  intro l h
  refine ⟨nextC_eq h, inRange_next h, next_width_le l, ?_, backupC_next h,
    backup_next_pos l, peekC_eq h, nextTokenC_eq h, fun t l1 hn => inRange_nextToken h hn,
    scanNumberC_eq h, ?_⟩
  · intro hr
    have hge := (next_eq_neg_one_iff l).1 hr
    unfold lexer.next
    rw [if_pos hge]
  · intro lex l3 hn
    have ha := (scanNumber_spec l).2 lex l3 hn
    have h3 := inRange_iff.1 (inRange_of_adv ha h)
    refine ⟨ha.2.1, h3, ?_⟩
    unfold sliceC
    rw [if_pos ⟨ha.2.1, h3⟩, scanNumber_lexeme hn]

/-- C19 at `[1]` (the conversion function returns the digit read), where the
checked run returns the array of 1; at the two bytes of U+00E9, where `next`
moves the cursor by 2 and the `backup` behind it returns to 0; and at the end
of the input `1`, where `next` reads the end mark with width 0 and the
`backup` behind it leaves the cursor at 1. -/
theorem C19_cursor_in_range_witness :
    (⟨[195, 169], 0, 0⟩ : lexer).inRange = true ∧ (⟨[49], 1, 1⟩ : lexer).inRange = true ∧
    ParseC (fun x => some ⟨x.headD 0 - 48⟩) [91, 49, 93] =
      some (Outcome.ok (Value.array [Value.number ⟨1⟩])) ∧
    lexer.next ⟨[195, 169], 0, 0⟩ = (233, ⟨[195, 169], 2, 2⟩) ∧
    lexer.backupC (lexer.next ⟨[195, 169], 0, 0⟩).2 = some ⟨[195, 169], 0, 2⟩ ∧
    lexer.next ⟨[49], 1, 1⟩ = (-1, ⟨[49], 1, 0⟩) ∧
    lexer.backupC (lexer.next ⟨[49], 1, 1⟩).2 = some ⟨[49], 1, 0⟩ :=
  have h := C19_cursor_in_range (fun x => some ⟨x.headD 0 - 48⟩) [91, 49, 93]
  ⟨by decide, by decide, h.1.trans (congrArg some rfl), rfl,
    (h.2.2 ⟨[195, 169], 0, 0⟩ (by decide)).2.2.2.2.1.trans rfl, rfl,
    (h.2.2 ⟨[49], 1, 1⟩ (by decide)).2.2.2.2.1.trans rfl⟩

/-! ## C16: `Parse` returns unless the call stack overflows -/

/-- C16, as stated, fails: on a call stack that holds 10,000,000 frames of the
recursive routines, `Parse` of 5,000,000 bytes `[` overflows the stack (the
recursion is 10,000,001 calls deep) and returns neither a value nor an
error. -/
theorem C16_deep_nesting_overflows :
    ParseS (fun _ => none) 10000000 (List.replicate 5000000 91) = none ∧
    ¬ ((∃ v, ParseS (fun _ => none) 10000000 (List.replicate 5000000 91) =
          some (Outcome.ok v)) ∨
       (∃ e, ParseS (fun _ => none) 10000000 (List.replicate 5000000 91) =
          some (Outcome.error e))) := by
  have h := ParseS_deep (fun _ => none) 5000000 10000000 (by decide) (by decide)
  refine ⟨h, ?_⟩
  rw [h]
  rintro (⟨v, hv⟩ | ⟨e, he⟩)
  · cases hv
  · cases he

/-- C16, amended: for every buffer the computation of `Parse` is finite and
returns a value or an error unless the call stack overflows.  On a stack of
any capacity `ParseS` returns what `Parse` returns on an unbounded stack,
which is a value or an error, or it overflows, and it never runs out of its
budget; a capacity of `3 * len(src) + 1` frames is always enough.  `skipWS`,
`scanString`, `scanNumber` and `nextToken` end from every scanner state, and
each recursive routine ends whenever its budget is at least `callNeed`.
There is no capacity that is enough for every buffer: `n` bytes `[` overflow
every stack of at most `2 * n` frames. -/
theorem C16_returns_unless_stack_overflows (pf : List Nat → Option Float64)
    (src : List Nat) :
    (∀ cap, ParseS pf cap src = some (Parse pf src) ∨
      (ParseS pf cap src = none ∧ cap < 3 * src.length + 1)) ∧
    ((∃ v, Parse pf src = Outcome.ok v) ∨ (∃ e, Parse pf src = Outcome.error e)) ∧
    (∀ cap, 3 * src.length + 1 ≤ cap →
      (∃ v, ParseS pf cap src = some (Outcome.ok v)) ∨
      (∃ e, ParseS pf cap src = some (Outcome.error e))) ∧
    (∀ cap, ParseS pf cap src ≠ some Outcome.timeout) ∧
    (∀ l : lexer, l.skipWS ≠ Outcome.timeout ∧ l.scanString ≠ Outcome.timeout ∧
      l.scanNumber ≠ Outcome.timeout ∧ l.nextToken ≠ Outcome.timeout) ∧
    (∀ (c : Call) (p : parser) (fuel : Nat), p.lex.pos ≤ p.lex.src.length →
      callNeed c p ≤ fuel → runCall pf fuel c p ≠ Outcome.timeout) ∧
    (∀ n cap, 0 < n → cap ≤ 2 * n → ParseS pf cap (List.replicate n 91) = none) := by
  obtain ⟨htot, hscan, hrun⟩ := Parse_total_unbounded pf src
  refine ⟨fun cap => ParseS_eq pf cap src, htot, ?_, ?_, hscan, hrun,
    fun n cap hn hcap => ParseS_deep pf n cap hn hcap⟩
  · intro cap hcap
    rcases ParseS_eq pf cap src with h | ⟨_, hlt⟩
    · rw [h]
      rcases htot with ⟨v, hv⟩ | ⟨e, he⟩
      · left; exact ⟨v, by rw [hv]⟩
      · right; exact ⟨e, by rw [he]⟩
    · omega
  · intro cap hc
    rcases ParseS_eq pf cap src with h | ⟨h, _⟩
    · rw [h] at hc
      injection hc with hc
      exact Parse_ne_timeout pf src hc
    · rw [h] at hc
      cases hc

/-- C16, amended, at `[1]` (the conversion function returns the digit read):
three frames are enough and `Parse` returns the array of 1, on two frames the
stack overflows; ten frames are `3 * 3 + 1`; and `[[` overflows four
frames. -/
theorem C16_returns_unless_stack_overflows_witness :
    ParseS (fun x => some ⟨x.headD 0 - 48⟩) 3 [91, 49, 93] =
      some (Outcome.ok (Value.array [Value.number ⟨1⟩])) ∧
    ParseS (fun x => some ⟨x.headD 0 - 48⟩) 2 [91, 49, 93] = none ∧
    3 * ([91, 49, 93] : List Nat).length + 1 ≤ 10 ∧
    ((∃ v, ParseS (fun x => some ⟨x.headD 0 - 48⟩) 10 [91, 49, 93] = some (Outcome.ok v)) ∨
      (∃ e, ParseS (fun x => some ⟨x.headD 0 - 48⟩) 10 [91, 49, 93] =
        some (Outcome.error e))) ∧
    ParseS (fun x => some ⟨x.headD 0 - 48⟩) 4 (List.replicate 2 91) = none :=
  ⟨rfl, rfl, by decide,
    (C16_returns_unless_stack_overflows (fun x => some ⟨x.headD 0 - 48⟩)
      [91, 49, 93]).2.2.1 10 (by decide),
    (C16_returns_unless_stack_overflows (fun x => some ⟨x.headD 0 - 48⟩)
      [91, 49, 93]).2.2.2.2.2.2 2 4 (by decide) (by decide)⟩

/-! ## C13: an integer literal and the same literal with `.0` -/

theorem Parse_int_literal (pf : List Nat → Option Float64) (neg : Bool) (int : List Nat)
    (hint : nonzeroInt int = true) (frac : Option (List Nat)) (hfr : fracOk frac = true) :
    Parse pf ((if neg then [45] else []) ++ int ++ fracText frac) =
      (match pf ((if neg then [45] else []) ++ int ++ fracText frac) with
        | some x => Outcome.ok (Value.number x)
        | none => Outcome.error
            (Err.invalidNumberConversion ((if neg then [45] else []) ++ int ++ fracText frac))) := by
  have h := Parse_number pf ⟨neg, int, frac, none⟩ hint hfr rfl
  have e : (⟨neg, int, frac, none⟩ : NumberLiteral).text =
      (if neg then [45] else []) ++ int ++ fracText frac := by
    simp [NumberLiteral.text, expText]
  rw [e] at h
  exact h

theorem Parse_plain_int (pf : List Nat → Option Float64) (int : List Nat)
    (hint : nonzeroInt int = true) :
    Parse pf int =
      (match pf int with
        | some x => Outcome.ok (Value.number x)
        | none => Outcome.error (Err.invalidNumberConversion int)) ∧
    Parse pf (int ++ [46, 48]) =
      (match pf (int ++ [46, 48]) with
        | some x => Outcome.ok (Value.number x)
        | none => Outcome.error (Err.invalidNumberConversion (int ++ [46, 48]))) := by
  have p1 := Parse_int_literal pf false int hint none rfl
  have p2 := Parse_int_literal pf false int hint (some [48]) rfl
  simp only [Bool.false_eq_true, if_false, List.nil_append, fracText, List.append_nil] at p1 p2
  exact ⟨p1, p2⟩

set_option exponentiation.threshold 2000 in
theorem pow_ten_lt_pow_two : 10 ^ 307 < 2 ^ 1023 := by decide

/-- C13, as stated, fails: `1` followed by 309 zeros is an integer literal
with a nonzero leading digit, and `Parse` of it returns no Number: the value
`10 ^ 309` is beyond the largest finite float64, `ParseFloat` reports a range
error, and `Parse` returns the error wrapping it; so does `Parse` of the
literal followed by `.0`, and the two errors, each quoting its own text,
differ. -/
theorem C13_out_of_range :
    nonzeroInt (49 :: List.replicate 309 48) = true ∧
    Parse ParseFloat (49 :: List.replicate 309 48) =
      Outcome.error (Err.invalidNumberConversion (49 :: List.replicate 309 48)) ∧
    Parse ParseFloat (49 :: List.replicate 309 48 ++ [46, 48]) =
      Outcome.error (Err.invalidNumberConversion (49 :: List.replicate 309 48 ++ [46, 48])) ∧
    Parse ParseFloat (49 :: List.replicate 309 48) ≠
      Parse ParseFloat (49 :: List.replicate 309 48 ++ [46, 48]) ∧
    ¬ (∃ x, Parse ParseFloat (49 :: List.replicate 309 48) = Outcome.ok (Value.number x)) := by
  have hn := nonzeroInt_one_zeros 309
  obtain ⟨o1, o2⟩ := ParseFloat_overflow
  obtain ⟨p1, p2⟩ := Parse_plain_int ParseFloat (49 :: List.replicate 309 48) hn
  rw [o1] at p1
  rw [o2] at p2
  refine ⟨hn, p1, p2, ?_, ?_⟩
  · rw [p1, p2]
    intro h
    injection h with h
    injection h with h
    have hl := congrArg List.length h
    rw [List.length_append] at hl
    have h2 : ([46, 48] : List Nat).length = 2 := rfl
    omega
  · rw [p1]
    rintro ⟨x, hx⟩
    cases hx

set_option exponentiation.threshold 2000 in
/-- C13, amended: for every integer literal `d` with an optional minus sign
and a nonzero leading digit, `ParseFloat` returns the same for `d` and for `d`
followed by `.0`.  When it returns a float64, which it does whenever the
value is below `2 ^ 1023`, in particular whenever `d` has at most 307 digits,
`Parse` of `d` and `Parse` of `d.0` return the same Number; when it reports a
range error both return an error, wrapping that of `ParseFloat` for the
respective text.  `1` and `1.0` both parse to the Number 1.0, whose bits are
`0x3FF0000000000000`. -/
theorem C13_integer_and_point_zero (neg : Bool) (int : List Nat)
    (hint : nonzeroInt int = true) :
    ParseFloat ((if neg then [45] else []) ++ int ++ [46, 48]) =
      ParseFloat ((if neg then [45] else []) ++ int) ∧
    (∀ x, ParseFloat ((if neg then [45] else []) ++ int) = some x →
      Parse ParseFloat ((if neg then [45] else []) ++ int) = Outcome.ok (Value.number x) ∧
      Parse ParseFloat ((if neg then [45] else []) ++ int ++ [46, 48]) =
        Outcome.ok (Value.number x)) ∧
    (ParseFloat ((if neg then [45] else []) ++ int) = none →
      Parse ParseFloat ((if neg then [45] else []) ++ int) =
        Outcome.error (Err.invalidNumberConversion ((if neg then [45] else []) ++ int)) ∧
      Parse ParseFloat ((if neg then [45] else []) ++ int ++ [46, 48]) =
        Outcome.error
          (Err.invalidNumberConversion ((if neg then [45] else []) ++ int ++ [46, 48]))) ∧
    (digitsValue int < 2 ^ 1023 →
      ∃ x, ParseFloat ((if neg then [45] else []) ++ int) = some x) ∧
    (int.length ≤ 307 → ∃ x, ParseFloat ((if neg then [45] else []) ++ int) = some x) ∧
    Parse ParseFloat [49] = Outcome.ok (Value.number ⟨0x3FF0000000000000⟩) ∧
    Parse ParseFloat [49, 46, 48] = Outcome.ok (Value.number ⟨0x3FF0000000000000⟩) := by
  have hpz := ParseFloat_point_zero neg int hint
  have p1 := Parse_int_literal ParseFloat neg int hint none rfl
  have p2 := Parse_int_literal ParseFloat neg int hint (some [48]) rfl
  simp only [fracText, List.append_nil] at p1 p2
  have hrange : digitsValue int < 2 ^ 1023 →
      ∃ x, ParseFloat ((if neg then [45] else []) ++ int) = some x := by
    intro hlt
    obtain ⟨b, hb⟩ := float64Bits_in_range (digitsValue_pos hint) hlt
    unfold ParseFloat
    rw [readFloat_int neg int hint]
    simp only
    rw [hb]
    exact ⟨_, rfl⟩
  have one : ParseFloat [49] = some ⟨0x3FF0000000000000⟩ := by decide
  have one0 : ParseFloat [49, 46, 48] = some ⟨0x3FF0000000000000⟩ := by decide
  have q1 := Parse_int_literal ParseFloat false [49] rfl none rfl
  have q2 := Parse_int_literal ParseFloat false [49] rfl (some [48]) rfl
  simp only [Bool.false_eq_true, if_false, List.nil_append, fracText, List.append_nil,
    List.singleton_append] at q1 q2
  rw [one] at q1
  rw [one0] at q2
  refine ⟨hpz, ?_, ?_, hrange, ?_, q1, q2⟩
  · intro x hx
    rw [hpz, hx] at p2
    rw [hx] at p1
    exact ⟨p1, p2⟩
  · intro hx
    rw [hpz, hx] at p2
    rw [hx] at p1
    exact ⟨p1, p2⟩
  · intro hlen
    apply hrange
    have h1 := digitsValue_lt (nonzeroInt_digits hint).1
    have h2 : 10 ^ int.length ≤ 10 ^ 307 := Nat.pow_le_pow_right (by decide) hlen
    have h3 := pow_ten_lt_pow_two
    omega

/-- C13, amended, at `-12`: `ParseFloat` returns the float64 -12.0 (bits
`0xC028000000000000`) for `-12` and for `-12.0`, and `Parse` returns that
Number for both. -/
theorem C13_integer_and_point_zero_witness :
    nonzeroInt [49, 50] = true ∧
    ParseFloat [45, 49, 50] = some ⟨0xC028000000000000⟩ ∧
    ParseFloat [45, 49, 50, 46, 48] = some ⟨0xC028000000000000⟩ ∧
    Parse ParseFloat [45, 49, 50] = Outcome.ok (Value.number ⟨0xC028000000000000⟩) ∧
    Parse ParseFloat [45, 49, 50, 46, 48] = Outcome.ok (Value.number ⟨0xC028000000000000⟩) :=
  have h := C13_integer_and_point_zero true [49, 50] (by decide)
  have e : ParseFloat [45, 49, 50] = some ⟨0xC028000000000000⟩ := by decide
  ⟨by decide, e, by decide, (h.2.1 _ e).1, (h.2.1 _ e).2⟩

end gojson
